import Mathlib

/-!
Cheat engine of the libretro front end (`libretro/libretro.c`).

A shallow embedding of the cheat-code support of `libretro.c`
(`decode_cheat`, `apply_cheats`, `clear_cheats`, `RAMCheatUpdate`,
`ROMCheatUpdate`, `retro_cheat_reset`, `retro_cheat_set`) and theorems about it.

Modelling conventions:

* machine integers are natural numbers; a store into a narrower object
  truncates explicitly (`toByte`, `write16`);
* a `uint8_t *` into the cartridge address space is the byte offset of its
  target from `cart.rom`, and `NULL` is `none`; the bytes themselves are the
  field `rom`;
* a C string is the list of characters found in memory from the pointer on;
  reading past the end of the list yields the terminator.
-/

namespace Cheat

/-! ## Data model -/

/-- The constant `MAX_CHEATS`, defined as 150. -/
def MAX_CHEATS : Nat := 150

/-- One byte of emulated or host memory. -/
abbrev Byte := Fin 256

/-- Conversion to `uint8_t`: keeps the low eight bits. -/
def toByte (v : Nat) : Byte := ⟨v % 256, Nat.mod_lt v (by decide)⟩

/-- The struct `CHEATENTRY`. `data` and `old` are `uint16_t`, `address` is
`uint32_t`, `prev` is a `uint8_t *` (`none` for `NULL`). -/
structure CHEATENTRY where
  enable : Bool
  data : Nat
  old : Nat
  address : Nat
  prev : Option Nat
deriving DecidableEq, Repr

/-- Hardware identifiers `SYSTEM_MD`, `SYSTEM_PBC` and `SYSTEM_MCD`. They are
declared in the emulation core's headers, not in `libretro.c`, so they are
taken as parameters. -/
structure SystemIds where
  SYSTEM_MD : Nat
  SYSTEM_PBC : Nat
  SYSTEM_MCD : Nat
deriving DecidableEq, Repr

/-- The globals the cheat engine reads and writes.

* `system_hw`, `boot` (`scd.cartridge.boot`), `romsize` (`cart.romsize`) and
  `z80_readmap` belong to the emulation core;
* `lsb_first` is the byte order of the host, which decides how a
  `uint16_t` access through `cart.rom` is laid out;
* `rom` holds the bytes reachable from `cart.rom`, indexed by offset;
  `z80_readmap k` is the offset at which the 1 KB window `k` currently starts;
* `work_ram`, `prg_ram` and `word_ram_2M` are the three RAM arrays;
* `cheatlist` is indexed by all naturals: the C array has `MAX_CHEATS`
  slots, and the slots from `MAX_CHEATS` on stand for the memory just past
  it. A store there, which `decode_cheat` and `retro_cheat_set` make when the
  table is full, is out of bounds in C, and the program has no defined
  behaviour from that store on: what the model gives as the state after such
  a store says where the store went, not what the program does next.
  `retro_cheat_set_in_bounds` tells whether a call makes no such store. -/
structure State where
  ids : SystemIds
  system_hw : Nat
  boot : Nat
  romsize : Nat
  lsb_first : Bool
  rom : Nat → Byte
  z80_readmap : Nat → Nat
  work_ram : Nat → Byte
  prg_ram : Nat → Byte
  word_ram_2M : Nat → Byte
  maxcheats : Nat
  maxROMcheats : Nat
  maxRAMcheats : Nat
  cheatlist : Nat → CHEATENTRY
  cheatIndexes : Nat → Nat

/-- The test `(system_hw & SYSTEM_PBC) == SYSTEM_MD`: the 16-bit family. -/
def State.isMD (s : State) : Bool :=
  (s.system_hw &&& s.ids.SYSTEM_PBC) == s.ids.SYSTEM_MD

/-- The test `(system_hw == SYSTEM_MCD) && !scd.cartridge.boot`: the add-on is
present and the game was not booted from cartridge. -/
def State.isCD (s : State) : Bool :=
  s.system_hw == s.ids.SYSTEM_MCD && s.boot == 0

/-! ## Memory accesses -/

/-- Assignment to one array slot. -/
def upd {α : Type} (f : Nat → α) (i : Nat) (v : α) : Nat → α :=
  fun j => if j = i then v else f j

/-- Store of a byte: `m[p] = v`. -/
def write8 (m : Nat → Byte) (p : Nat) (v : Nat) : Nat → Byte :=
  upd m p (toByte v)

/-- Load of a `uint16_t` at byte offset `o`, in host byte order. -/
def read16 (lsb : Bool) (m : Nat → Byte) (o : Nat) : Nat :=
  if lsb then (m o).val + 256 * (m (o + 1)).val
  else 256 * (m o).val + (m (o + 1)).val

/-- Store of a `uint16_t` at byte offset `o`, in host byte order. -/
def write16 (lsb : Bool) (m : Nat → Byte) (o : Nat) (v : Nat) : Nat → Byte :=
  if lsb then write8 (write8 m o v) (o + 1) (v / 256)
  else write8 (write8 m o (v / 256)) (o + 1) v

/-! ## apply_cheats -/

/-- The statement `cheatIndexes[maxRAMcheats++] = i;` (the array is `uint8_t`). -/
def addRAMpatch (s : State) (i : Nat) : State :=
  { s with cheatIndexes := upd s.cheatIndexes s.maxRAMcheats (i % 256),
           maxRAMcheats := s.maxRAMcheats + 1 }

/-- Address of `z80_readmap[address >> 10][address & 0x03FF]`. -/
def bankedPtr (s : State) (address : Nat) : Nat :=
  s.z80_readmap (address >>> 10) + (address &&& 0x03FF)

/-- Body of the `for` loop of `apply_cheats` for index `i`. -/
def apply_cheats_body (s : State) (i : Nat) : State :=
  let e := s.cheatlist i
  if e.enable then
    if 0xFF0000 ≤ e.address then
      addRAMpatch s i
    else if s.isCD then
      if e.address < 0x80000 then
        addRAMpatch s i
      else if 0x200000 ≤ e.address ∧ e.address < 0x240000 then
        addRAMpatch s i
      else s
    else if e.address < s.romsize then
      if s.isMD then
        let off := e.address &&& 0xFFFFFE
        { s with cheatlist := upd s.cheatlist i { e with old := read16 s.lsb_first s.rom off },
                 rom := write16 s.lsb_first s.rom off e.data }
      else
        let n := s.maxROMcheats + 1
        let idx := upd s.cheatIndexes (MAX_CHEATS - n) (i % 256)
        let ptr := bankedPtr s e.address
        if e.old % 256 = (s.rom ptr).val then
          { s with maxROMcheats := n, cheatIndexes := idx,
                   rom := write8 s.rom ptr e.data,
                   cheatlist := upd s.cheatlist i { e with prev := some ptr } }
        else
          { s with maxROMcheats := n, cheatIndexes := idx,
                   cheatlist := upd s.cheatlist i { e with prev := none } }
    else s
  else s

/-- The loop `for (i = 0; i < n; i++)` of `apply_cheats`: iterations
`0, 1, ..., n - 1` in that order. -/
def apply_cheats_loop (s : State) : Nat → State
  | 0 => s
  | n + 1 => apply_cheats_body (apply_cheats_loop s n) n

/-- The function `apply_cheats`. -/
def apply_cheats (s : State) : State :=
  apply_cheats_loop { s with maxROMcheats := 0, maxRAMcheats := 0 } s.maxcheats

/-! ## clear_cheats -/

/-- Body of the `while` loop of `clear_cheats` for the entry `j = i - 1`. -/
def clear_cheats_body (s : State) (j : Nat) : State :=
  let e := s.cheatlist j
  if e.enable then
    if e.address < s.romsize then
      if s.isMD then
        { s with rom := write16 s.lsb_first s.rom (e.address &&& 0xFFFFFE) e.old }
      else
        match e.prev with
        | some p =>
          { s with rom := write8 s.rom p e.old,
                   cheatlist := upd s.cheatlist j { e with prev := none } }
        | none => s
    else s
  else s

/-- The loop `while (i > 0) { ...[i-1]...; i--; }` of `clear_cheats`, started
with `i = n`: entries `n - 1, ..., 1, 0` in that order. -/
def clear_cheats_loop : Nat → State → State
  | 0, s => s
  | n + 1, s => clear_cheats_loop n (clear_cheats_body s n)

/-- The function `clear_cheats`. -/
def clear_cheats (s : State) : State :=
  if s.isCD then s else clear_cheats_loop s.maxcheats s

/-! ## RAMCheatUpdate and ROMCheatUpdate -/

/-- One iteration of `RAMCheatUpdate`, entered with counter `cnt` already
decremented (`index = cheatIndexes[--cnt]`). -/
def RAMCheatUpdate_body (s : State) (cnt : Nat) : State :=
  let e := s.cheatlist (s.cheatIndexes cnt)
  let sel := (e.address >>> 20) &&& 0xf
  let mask := if sel = 0x0 then 0x7fffe else if sel = 0x2 then 0x3fffe else 0xfffe
  let store := fun (m : Nat → Byte) =>
    if e.data &&& 0xFF00 ≠ 0 then write16 s.lsb_first m (e.address &&& mask) e.data
    else write8 m (e.address &&& (mask ||| 1)) e.data
  if sel = 0x0 then { s with prg_ram := store s.prg_ram }
  else if sel = 0x2 then { s with word_ram_2M := store s.word_ram_2M }
  else { s with work_ram := store s.work_ram }

/-- The loop `while (cnt) { index = cheatIndexes[--cnt]; ... }`. -/
def RAMCheatUpdate_loop : Nat → State → State
  | 0, s => s
  | cnt + 1, s => RAMCheatUpdate_loop cnt (RAMCheatUpdate_body s cnt)

/-- The function `RAMCheatUpdate`. -/
def RAMCheatUpdate (s : State) : State :=
  RAMCheatUpdate_loop s.maxRAMcheats s

/-- One iteration of `ROMCheatUpdate` with counter value `cnt`. -/
def ROMCheatUpdate_body (s : State) (cnt : Nat) : State :=
  let index := s.cheatIndexes (MAX_CHEATS - cnt)
  let s1 : State :=
    match (s.cheatlist index).prev with
    | some p =>
      { s with rom := write8 s.rom p (s.cheatlist index).old,
               cheatlist := upd s.cheatlist index { s.cheatlist index with prev := none } }
    | none => s
  let e := s1.cheatlist index
  let ptr := bankedPtr s1 e.address
  if e.old = 0 ∨ e.old % 256 = (s1.rom ptr).val then
    { s1 with rom := write8 s1.rom ptr e.data,
              cheatlist := upd s1.cheatlist index { e with prev := some ptr } }
  else s1

/-- The loop `while (cnt) { ...; cnt--; }` of `ROMCheatUpdate`. -/
def ROMCheatUpdate_loop : Nat → State → State
  | 0, s => s
  | cnt + 1, s => ROMCheatUpdate_loop cnt (ROMCheatUpdate_body s (cnt + 1))

/-- The function `ROMCheatUpdate`. -/
def ROMCheatUpdate (s : State) : State :=
  ROMCheatUpdate_loop s.maxROMcheats s

/-! ## decode_cheat -/

/-- The string terminator. -/
def NUL : Char := Char.ofNat 0

/-- The array `ggvalidchars`, without its terminator. -/
def ggvalidchars : List Char := "ABCDEFGHJKLMNPRSTVWXYZ0123456789".toList

/-- The array `arvalidchars`, without its terminator. -/
def arvalidchars : List Char := "0123456789ABCDEF".toList

/-- Character `string[i]`. -/
def charAt (string : List Char) (i : Nat) : Char := string.getD i NUL

/-- The test `strlen(string) >= n`: none of the first `n` characters is the
terminator. -/
def strlen_ge (string : List Char) (n : Nat) : Bool :=
  (List.range n).all (fun i => charAt string i != NUL)

/-- The library call `strchr(valid, c)` followed by `p - valid`: the index of
the first occurrence of `c`, `none` when the result is `NULL`. The terminator
of `valid` is part of the searched string, so `c = 0` is found at
`strlen(valid)`. -/
def strchr (valid : List Char) (c : Char) : Option Nat :=
  if c = NUL then some valid.length
  else if valid.indexOf c < valid.length then some (valid.indexOf c)
  else none

/-- The `switch (i)` of the Game Genie loop: the contribution of symbol index
`n` at position `i` to `(address, data)`. -/
def gg_switch (i n : Nat) (ad : Nat × Nat) : Nat × Nat :=
  match i with
  | 0 => (ad.1, ad.2 ||| (n <<< 3))
  | 1 => (ad.1 ||| ((n &&& 3) <<< 14), ad.2 ||| (n >>> 2))
  | 2 => (ad.1 ||| (n <<< 9), ad.2)
  | 3 => (ad.1 ||| (((n &&& 0xF) <<< 20) ||| ((n >>> 4) <<< 8)), ad.2)
  | 4 => (ad.1 ||| ((n >>> 1) <<< 16), ad.2 ||| ((n &&& 1) <<< 12))
  | 5 => (ad.1, ad.2 ||| (((n &&& 1) <<< 15) ||| ((n >>> 1) <<< 8)))
  | 6 => (ad.1 ||| ((n &&& 7) <<< 5), ad.2 ||| ((n >>> 3) <<< 13))
  | 7 => (ad.1 ||| n, ad.2)
  | _ => ad

/-- The Game Genie loop `for (i = 0; i < 8; i++)`, from iteration `i` on, with
`fuel` iterations left; `pos` is the offset of the read pointer. `none` is the
early `return 0`. -/
def gg_loop (string : List Char) : Nat → Nat → Nat → Nat × Nat → Option (Nat × Nat)
  | 0, _, _, ad => some ad
  | fuel + 1, i, pos, ad =>
    let pos1 := if i = 4 then pos + 1 else pos
    match strchr ggvalidchars (charAt string pos1) with
    | none => none
    | some n => gg_loop string fuel (i + 1) (pos1 + 1) (gg_switch i n ad)

/-- A loop `for (i = 0; i < k; i++)` that reads one hexadecimal digit per
iteration from the offsets listed in `pos` and ORs it into `acc` at nibble
`k - 1 - i`; `nib` is the nibble index of the first listed digit. `none` is
the early `return 0`. The masking `(p - arvalidchars) & 0xF` is kept. -/
def hex_loop (string : List Char) : List Nat → Nat → Nat → Option Nat
  | [], _, acc => some acc
  | p :: ps, nib, acc =>
    match strchr arvalidchars (charAt string p) with
    | none => none
    | some n => hex_loop string ps (nib - 1) (acc ||| ((n &&& 0xF) <<< (nib * 4)))

/-- The data loop of the 16-bit hexadecimal shape, which leaves with `break`
instead of `return 0` at the first character that is not a digit. -/
def hex_loop_break (string : List Char) : List Nat → Nat → Nat → Nat
  | [], _, acc => acc
  | p :: ps, nib, acc =>
    match strchr arvalidchars (charAt string p) with
    | none => acc
    | some n => hex_loop_break string ps (nib - 1) (acc ||| ((n &&& 0xF) <<< (nib * 4)))

/-- Result of the parsing part of `decode_cheat`: the locals `len`,
`address`, `data` and `ref` when the final `if (len)` is reached. -/
structure Decoded where
  len : Nat
  address : Nat
  data : Nat
  ref : Nat
deriving DecidableEq, Repr

/-- Branch of `decode_cheat` for the 16-bit family. `none` is `return 0`. -/
def decode_md (string : List Char) : Option Decoded :=
  if strlen_ge string 9 && charAt string 4 == '-' then
    match gg_loop string 8 0 0 (0, 0) with
    | none => none
    | some ad => some { len := 9, address := ad.1, data := ad.2, ref := 0 }
  else if strlen_ge string 9 && charAt string 6 == ':' then
    match hex_loop string [0, 1, 2, 3, 4, 5] 5 0 with
    | none => none
    | some address =>
      some { len := 11, address := address,
             data := hex_loop_break string [7, 8, 9, 10] 3 0, ref := 0 }
  else some { len := 0, address := 0, data := 0, ref := 0 }

/-- The four shapes of the 8-bit family, before the conversion of the address
to a work-RAM address. `none` is `return 0`. -/
def decode_sms_raw (string : List Char) : Option Decoded :=
  if strlen_ge string 7 && charAt string 3 == '-' then
    match hex_loop string [0, 1] 1 0 with
    | none => none
    | some data =>
      match hex_loop string [2, 4, 5] 2 0 with
      | none => none
      | some low =>
        match strchr arvalidchars (charAt string 6) with
        | none => none
        | some n =>
          let address := low ||| ((((n &&& 0xF) ^^^ 0xF)) <<< 12)
          if charAt string 7 == '-' then
            match hex_loop string [8, 10] 1 0 with
            | none => none
            | some ref =>
              let rot := ((ref >>> 2) ||| ((ref &&& 0x03) <<< 6)) % 256
              some { len := 11, address := address, data := data, ref := rot ^^^ 0xBA }
          else some { len := 7, address := address, data := data, ref := 0 }
  else if strlen_ge string 9 && charAt string 4 == '-' then
    match hex_loop string [2, 3, 5, 6] 3 0 with
    | none => none
    | some address =>
      match hex_loop string [7, 8] 1 0 with
      | none => none
      | some data => some { len := 9, address := address, data := data, ref := 0 }
  else if strlen_ge string 7 && charAt string 4 == ':' then
    match hex_loop string [0, 1, 2, 3] 3 0 with
    | none => none
    | some address =>
      match hex_loop string [5, 6] 1 0 with
      | none => none
      | some data => some { len := 7, address := address, data := data, ref := 0 }
  else if strlen_ge string 9 && charAt string 6 == ':' then
    match hex_loop string [0, 1] 1 0 with
    | none => none
    | some ref =>
      match hex_loop string [2, 3, 4, 5] 3 0 with
      | none => none
      | some address =>
        match hex_loop string [7, 8] 1 0 with
        | none => none
        | some data => some { len := 9, address := address, data := data, ref := ref }
  else some { len := 0, address := 0, data := 0, ref := 0 }

/-- The statement `if (address >= 0xC000) address = 0xFF0000 | (address & 0x1FFF);`. -/
def to_work_ram (address : Nat) : Nat :=
  if 0xC000 ≤ address then 0xFF0000 ||| (address &&& 0x1FFF) else address

/-- Branch of `decode_cheat` for the 8-bit family. -/
def decode_sms (string : List Char) : Option Decoded :=
  match decode_sms_raw string with
  | none => none
  | some d => some { d with address := to_work_ram d.address }

/-- The parsing part of `decode_cheat`; `md` is the outcome of the test
`(system_hw & SYSTEM_PBC) == SYSTEM_MD`. -/
def decode (md : Bool) (string : List Char) : Option Decoded :=
  if md then decode_md string else decode_sms string

/-- The three assignments under `if (len)` at the end of `decode_cheat`:
address, data and reference go to `cheatlist[index]`. -/
def storeCheat (s : State) (index : Nat) (d : Decoded) : State :=
  { s with cheatlist := upd s.cheatlist index
             { s.cheatlist index with address := d.address, data := d.data, old := d.ref } }

/-- The function `decode_cheat`: returns the code length (0 when the code is
invalid) and, for a valid code, stores address, data and reference in
`cheatlist[index]`. -/
def decode_cheat (s : State) (string : List Char) (index : Nat) : Nat × State :=
  match decode s.isMD string with
  | none => (0, s)
  | some d => if d.len ≠ 0 then (d.len, storeCheat s index d) else (0, s)

/-! ## retro_cheat_reset and retro_cheat_set -/

/-- The function `retro_cheat_reset`. -/
def retro_cheat_reset (s : State) : State :=
  { clear_cheats s with maxcheats := 0, maxROMcheats := 0, maxRAMcheats := 0 }

/-- The characters of the C string `code`: those before its terminator. -/
def cstring (code : List Char) : List Char :=
  code.takeWhile (fun c => c != NUL)

/-- The buffer `codeCopy` after `strncpy(codeCopy, code, 255)` and
`codeCopy[255] = 0`: at most 255 characters of `code`, the remainder of the
256 bytes filled with terminators. -/
def codeCopy (code : List Char) : List Char :=
  (cstring code).take 255 ++ List.replicate (256 - ((cstring code).take 255).length) NUL

/-- What `strtok` does to the buffer when it hands out the token that starts
at the head of the list: the first joiner after the token becomes a
terminator, the rest of the buffer is untouched. -/
def terminateToken : List Char → List Char
  | [] => []
  | c :: cs =>
    if c = NUL then c :: cs
    else if c = '+' then NUL :: cs
    else c :: terminateToken cs

/-- The successive results of `strtok(codeCopy, "+")`, `strtok(NULL, "+")`,
...: for each token, the buffer as it stands from the token's first character
on. `inTok` tells whether the scan is inside a token that was already handed
out. `strtok` is a C library function; this is its documented behaviour. -/
def strtok_views : Bool → List Char → List (List Char)
  | _, [] => []
  | inTok, c :: cs =>
    if c = NUL then []
    else if c = '+' then strtok_views false cs
    else if inTok then strtok_views true cs
    else terminateToken (c :: cs) :: strtok_views true cs

/-- The loop `for (i = 0; i < maxcheats; i++) if (...) break;` of
`retro_cheat_set`, from index `i` on with `fuel` iterations left: the first
index whose address and data equal those of slot `maxcheats`, or `maxcheats`. -/
def find_cheat (s : State) : Nat → Nat → Nat
  | 0, i => i
  | fuel + 1, i =>
    if (s.cheatlist i).address = (s.cheatlist s.maxcheats).address
        ∧ (s.cheatlist i).data = (s.cheatlist s.maxcheats).data then i
    else find_cheat s fuel (i + 1)

/-- Body of the `while (buff != NULL)` loop of `retro_cheat_set` for one token. -/
def retro_cheat_set_piece (enabled : Bool) (s : State) (buff : List Char) : State :=
  let r := decode_cheat s buff s.maxcheats
  if r.1 ≠ 0 then
    let s1 := r.2
    let i := find_cheat s1 s1.maxcheats 0
    let s2 : State :=
      { s1 with cheatlist := upd s1.cheatlist i { s1.cheatlist i with enable := enabled } }
    if i = s2.maxcheats ∧ i < MAX_CHEATS then { s2 with maxcheats := s2.maxcheats + 1 }
    else s2
  else s

/-- The function `retro_cheat_set`; `code = none` is the `NULL` pointer. The
parameter `index` of the C function is not used by it and is left out. -/
def retro_cheat_set (s : State) (enabled : Bool) (code : Option (List Char)) : State :=
  match code with
  | none => s
  | some c =>
    apply_cheats
      ((strtok_views false (codeCopy c)).foldl (retro_cheat_set_piece enabled) (clear_cheats s))

/-! ## Predicates used in the statements -/

/-- State `t` belongs to the same console as `s`: the hardware type, the
cartridge size, the host byte order, the bank mapping and the entry count are
those of `s`. -/
def SameConsole (s t : State) : Prop :=
  t.ids = s.ids ∧ t.system_hw = s.system_hw ∧ t.boot = s.boot ∧ t.romsize = s.romsize
    ∧ t.lsb_first = s.lsb_first ∧ t.z80_readmap = s.z80_readmap ∧ t.maxcheats = s.maxcheats

/-- Entry `f` holds the same code as entry `e`: same enable flag, address and
data. -/
def SameCode (e f : CHEATENTRY) : Prop :=
  f.enable = e.enable ∧ f.address = e.address ∧ f.data = e.data

/-- Byte offset `p` of the cartridge ROM is one that `apply_cheats` stores to
in the 16-bit family: some enabled entry below the entry count passes the
tests that lead to the `uint16_t` store, and `p` is one of the two bytes of
the word at `address & 0xFFFFFE`. -/
def applyWritesFlat (s : State) (p : Nat) : Prop :=
  ∃ i, i < s.maxcheats ∧ (s.cheatlist i).enable = true ∧ (s.cheatlist i).address < 0xFF0000
    ∧ s.isCD = false ∧ (s.cheatlist i).address < s.romsize ∧ s.isMD = true
    ∧ (p = ((s.cheatlist i).address &&& 0xFFFFFE) ∨ p = ((s.cheatlist i).address &&& 0xFFFFFE) + 1)

/-- State `t` has the hardware type, cartridge size, host byte order and bank
mapping of `s`; the entry count may differ. -/
def SameCartridge (s t : State) : Prop :=
  t.ids = s.ids ∧ t.system_hw = s.system_hw ∧ t.boot = s.boot ∧ t.romsize = s.romsize
    ∧ t.lsb_first = s.lsb_first ∧ t.z80_readmap = s.z80_readmap

/-- A sequence of calls `retro_cheat_set(index, enabled, code)`, each given by
its flag and its code (`none` for `NULL`). -/
def run_sets (s : State) (calls : List (Bool × Option (List Char))) : State :=
  calls.foldl (fun t c => retro_cheat_set t c.1 c.2) s

/-! ## Sample inputs -/

/-- The values the emulation core gives to the three hardware identifiers. -/
def coreIds : SystemIds := { SYSTEM_MD := 0x80, SYSTEM_PBC := 0x81, SYSTEM_MCD := 0x84 }

/-- A console of hardware type `hw` with a cartridge of `romsize` bytes, each
of value `fill`, an empty cheat table and the 1 KB windows mapped one after
the other from the start of the cartridge. -/
def console (hw romsize fill : Nat) : State :=
  { ids := coreIds, system_hw := hw, boot := 0, romsize := romsize, lsb_first := true,
    rom := fun _ => toByte fill, z80_readmap := fun k => k * 0x400,
    work_ram := fun _ => 0, prg_ram := fun _ => 0, word_ram_2M := fun _ => 0,
    maxcheats := 0, maxROMcheats := 0, maxRAMcheats := 0,
    cheatlist := fun _ => { enable := false, data := 0, old := 0, address := 0, prev := none },
    cheatIndexes := fun _ => 0 }

/-- A 16-bit console (`system_hw = SYSTEM_MD`) with a 4 MB cartridge. -/
def mdConsole : State := console 0x80 0x400000 0x55

/-- An 8-bit console (`system_hw = 0x20`) with a 32 KB cartridge. -/
def smsConsole : State := console 0x20 0x8000 0x55

/-- A table entry without live location. -/
def entry (enable : Bool) (address data old : Nat) : CHEATENTRY :=
  { enable := enable, data := data, old := old, address := address, prev := none }

/-- State `s` with its table replaced by the listed entries. -/
def withTable (s : State) (l : List CHEATENTRY) : State :=
  { s with maxcheats := l.length,
           cheatlist := fun i => l.getD i (entry false 0 0 0) }

/-- A 16-bit console whose table holds two enabled ROM patches in the same
word of the cartridge and one enabled work-RAM patch. -/
def mdTable : State :=
  withTable mdConsole [entry true 0x100 0x1234 0, entry true 0x101 0xABCD 0,
    entry true 0xFF0010 0x00FF 0]

/-- An 8-bit console whose table holds two enabled ROM patches at the same
address, the second one expecting the byte the first one writes, and one
work-RAM patch. -/
def smsTable : State :=
  withTable smsConsole [entry true 0x1123 0xAA 0x55, entry true 0x1123 0xBB 0xAA,
    entry true 0xFF0123 0x45 0]

/-- The emulation core remaps the 1 KB windows: `z80_readmap` becomes `m`. The
core then calls `ROMCheatUpdate`. -/
def remap (s : State) (m : Nat → Nat) : State :=
  { s with z80_readmap := m }

/-- Mapping A of the samples: the windows show the first 16 KB bank. -/
def bankA : Nat → Nat := fun k => k * 0x400

/-- Mapping B of the samples: the windows show the second 16 KB bank. -/
def bankB : Nat → Nat := fun k => 0x4000 + k * 0x400

/-- An 8-bit console with a 32 KB cartridge whose first 16 KB bank is filled
with `lo` and whose second bank is filled with `hi`; mapping A is in place. -/
def banks (lo hi : Nat) : State :=
  { smsConsole with rom := fun p => if p < 0x4000 then toByte lo else toByte hi,
                    z80_readmap := bankA }

/-- One enabled banked patch without reference (the code `FF1-23E`); the byte
it targets is 0 in bank A and `0x66` in bank B. -/
def zeroRefTable : State :=
  withTable (banks 0 0x66) [entry true 0x1123 0xFF 0]

/-- Two enabled banked patches at the same address, the second one expecting
the byte the first one writes; bank A holds `0x55`, bank B holds `0x66`. -/
def aliasTable : State :=
  withTable (banks 0x55 0x66) [entry true 0x1123 0xAA 0x55, entry true 0x1123 0xBB 0xAA]

/-- One enabled work-RAM patch and one enabled banked patch with reference
`0x55` (data `0xAA`); bank A holds `0x55`, bank B holds `0x66`. -/
def refTable : State :=
  withTable (banks 0x55 0x66) [entry true 0xFF0123 0x45 0, entry true 0x1123 0xAA 0x55]

/-- A console with the add-on (`system_hw = SYSTEM_MCD`) booted from a 4 MB
cartridge (`scd.cartridge.boot` set), with one enabled ROM patch. -/
def cdBootTable : State :=
  withTable { console 0x84 0x400000 0x55 with boot := 0x40 } [entry true 0x100 0x1234 0]

/-- A console with the add-on running a disc (`scd.cartridge.boot` clear),
with one enabled entry below the cartridge size that holds a live location. -/
def cdDiscTable : State :=
  withTable (console 0x84 0x400000 0x55)
    [{ enable := true, data := 0x1234, old := 0x7777, address := 0x100, prev := some 0x200 }]

/-- The states reached from a state with an empty table by calls of
`retro_cheat_set` and `retro_cheat_reset`. Calls that store past the array
are included; `ReachableInBounds` leaves them out. -/
inductive Reachable : State → Prop
  | empty (s : State) (h : s.maxcheats = 0) : Reachable s
  | set (s : State) (enabled : Bool) (code : Option (List Char)) (h : Reachable s) :
      Reachable (retro_cheat_set s enabled code)
  | reset (s : State) (h : Reachable s) : Reachable (retro_cheat_reset s)

/-- A 16-bit console whose table is full: 150 enabled entries at the even
addresses from 0 on, each with data 1. -/
def fullTable : State :=
  withTable mdConsole ((List.range 150).map (fun k => entry true (2 * k) 1 0))

/-- The test under which `apply_cheats` puts an entry in the RAM list: the
entry is enabled and its address is from 0xFF0000 on or, with a disc game on
the add-on, in PRG-RAM or in Word-RAM. -/
def isRAMpatch (s : State) (e : CHEATENTRY) : Bool :=
  e.enable && (decide (0xFF0000 ≤ e.address) || (s.isCD && (decide (e.address < 0x80000)
    || (decide (0x200000 ≤ e.address) && decide (e.address < 0x240000)))))

/-- The statements of the body of `RAMCheatUpdate` that follow the fetch of
the entry `e = cheatlist[index]`: the `switch` on the destination RAM and the
word or byte store. -/
def ramPatch (s : State) (e : CHEATENTRY) : State :=
  let sel := (e.address >>> 20) &&& 0xf
  let mask := if sel = 0x0 then 0x7fffe else if sel = 0x2 then 0x3fffe else 0xfffe
  let store := fun (m : Nat → Byte) =>
    if e.data &&& 0xFF00 ≠ 0 then write16 s.lsb_first m (e.address &&& mask) e.data
    else write8 m (e.address &&& (mask ||| 1)) e.data
  if sel = 0x0 then { s with prg_ram := store s.prg_ram }
  else if sel = 0x2 then { s with word_ram_2M := store s.word_ram_2M }
  else { s with work_ram := store s.work_ram }

/-- A 16-bit console whose table holds two enabled byte patches of the same
work-RAM address, registered in this order: data 0x11, then data 0x22. -/
def ramTable : State :=
  withTable mdConsole [entry true 0xFF0010 0x11 0, entry true 0xFF0010 0x22 0]

/-- A 16-bit console whose table holds a disabled entry and one enabled ROM
patch of the word at `0x100`. -/
def flatTable : State :=
  withTable mdConsole [entry false 0x100 0x9999 0, entry true 0x101 0x1234 0]

/-- A 16-bit console whose table holds one enabled work-RAM byte patch
(data `0x00FF`) and one enabled ROM patch. -/
def ramByteTable : State :=
  withTable mdConsole [entry true 0x100 0x1234 0, entry true 0xFF0011 0x00FF 0]

/-- A 16-bit console whose table holds one enabled work-RAM word patch. -/
def ramWordTable : State :=
  withTable mdConsole [entry true 0xFF0011 0x1234 0]

/-- The test under which `apply_cheats` puts an entry in the ROM list: the
entry is enabled, its address is below 0xFF0000, no disc game is running, the
address is below the cartridge size and the console is of the 8-bit family. -/
def isROMpatch (s : State) (e : CHEATENTRY) : Bool :=
  e.enable && !decide (0xFF0000 ≤ e.address) && !s.isCD && decide (e.address < s.romsize)
    && !s.isMD

/-- The table indices that the first `n` iterations of the loop of
`apply_cheats` put in the ROM list (`cheatIndexes[MAX_CHEATS - maxROMcheats] = i`),
in the order of the iterations. -/
def apply_cheats_registered (s : State) : Nat → List Nat
  | 0 => []
  | n + 1 =>
    if isROMpatch (apply_cheats_loop s n) ((apply_cheats_loop s n).cheatlist n) then
      apply_cheats_registered s n ++ [n]
    else apply_cheats_registered s n

/-- The values of `index` (`index = cheatIndexes[MAX_CHEATS - cnt]`) in the
iterations of the loop of `ROMCheatUpdate`, in the order of the iterations,
from counter value `cnt` down to 1. -/
def ROMCheatUpdate_order : Nat → State → List Nat
  | 0, _ => []
  | cnt + 1, s =>
    s.cheatIndexes (MAX_CHEATS - (cnt + 1))
      :: ROMCheatUpdate_order cnt (ROMCheatUpdate_body s (cnt + 1))

/-- A console with the add-on running a disc, whose table holds enabled
entries in PRG-RAM, between the RAM windows, in Word-RAM and in work RAM, and
a disabled work-RAM entry. -/
def cdRamTable : State :=
  withTable (console 0x84 0x400000 0x55)
    [entry true 0x100 0x12 0, entry true 0x100000 0x34 0, entry true 0x210000 0x56 0,
     entry false 0xFF0000 0x78 0, entry true 0xFF0002 0x9A 0]

/-- A 16-bit console with a 4 MB cartridge whose table holds one enabled entry
with an address past the end of the cartridge and below work RAM. -/
def skipTable : State :=
  withTable mdConsole [entry true 0x500000 0x1234 0]

/-- The states reached from `s` by calls of `apply_cheats`, `ROMCheatUpdate`
and `clear_cheats`, the emulation core being free to remap the windows
between the calls. The mapping `m` is the one that was in place at the last
call of `apply_cheats` or `ROMCheatUpdate` (at the start, that of `s`). -/
inductive Patching (s : State) : (Nat → Nat) → State → Prop
  | start : Patching s s.z80_readmap s
  | apply (m : Nat → Nat) (t : State) (h : Patching s m t) :
      Patching s t.z80_readmap (apply_cheats t)
  | update (m : Nat → Nat) (t : State) (h : Patching s m t) :
      Patching s t.z80_readmap (ROMCheatUpdate t)
  | clear (m : Nat → Nat) (t : State) (h : Patching s m t) : Patching s m (clear_cheats t)
  | remap (m : Nat → Nat) (t : State) (m2 : Nat → Nat) (h : Patching s m t) :
      Patching s m (remap t m2)

/-- The pair `(address, data)` that the Game Genie loop `for (i = 0; i < 8; i++)`
builds from the symbol indices `n 0 .. n 7` found by `strchr`: the cases 0 to
7 of its `switch`, applied in the order of the iterations to `(0, 0)`. -/
def gg_pair (n : Nat → Nat) : Nat × Nat :=
  gg_switch 7 (n 7) (gg_switch 6 (n 6) (gg_switch 5 (n 5) (gg_switch 4 (n 4)
    (gg_switch 3 (n 3) (gg_switch 2 (n 2) (gg_switch 1 (n 1) (gg_switch 0 (n 0) (0, 0))))))))

/-- A 16-bit console with a 16 MB cartridge, so that the work-RAM addresses
from `0xFF0000` on are below the cartridge size, with one enabled work-RAM
patch. -/
def bigRomTable : State :=
  withTable (console 0x80 0x1000000 0x55) [entry true 0xFF0010 0x00FF 0]

/-- Entry `i` of the table is at rest for `ROMCheatUpdate`: either it is
patched, its live location being the byte its address resolves to and that
byte holding its data, or it is not patched and its reference is non-zero and
differs from the byte its address resolves to. -/
def Settled (u : State) (i : Nat) : Prop :=
  ((u.cheatlist i).prev = some (bankedPtr u (u.cheatlist i).address)
      ∧ u.rom (bankedPtr u (u.cheatlist i).address) = toByte (u.cheatlist i).data)
    ∨ ((u.cheatlist i).prev = none ∧ (u.cheatlist i).old ≠ 0
      ∧ (u.cheatlist i).old % 256 ≠ (u.rom (bankedPtr u (u.cheatlist i).address)).val)

/-! ## The bounds of the table -/

/-- The indices at which one pass of the loop body of `retro_cheat_set`
stores into `cheatlist`: for a valid code, the index `maxcheats` it hands to
`decode_cheat`, which stores address, data and reference there, and the index
`i` of the statement `cheatlist[i].enable = enabled`; none for a rejected code.
The search loop in between reads `cheatlist[maxcheats]` and slots below
`maxcheats`. -/
def retro_cheat_set_piece_stores (s : State) (buff : List Char) : List Nat :=
  let r := decode_cheat s buff s.maxcheats
  if r.1 ≠ 0 then [s.maxcheats, find_cheat r.2 r.2.maxcheats 0] else []

/-- The stores into `cheatlist` of the `while (buff != NULL)` loop of
`retro_cheat_set`, pass after pass. -/
def retro_cheat_set_loop_stores (enabled : Bool) : State → List (List Char) → List Nat
  | _, [] => []
  | s, buff :: rest =>
    retro_cheat_set_piece_stores s buff
      ++ retro_cheat_set_loop_stores enabled (retro_cheat_set_piece enabled s buff) rest

/-- The indices at which a call of `retro_cheat_set` stores into `cheatlist`
between its calls of `clear_cheats` and `apply_cheats`. -/
def retro_cheat_set_stores (s : State) (enabled : Bool) (code : Option (List Char)) :
    List Nat :=
  match code with
  | none => []
  | some c =>
    retro_cheat_set_loop_stores enabled (clear_cheats s) (strtok_views false (codeCopy c))

/-- The call of `retro_cheat_set` keeps its stores within the array, declared
as `CHEATENTRY cheatlist[MAX_CHEATS]`: every index is below `MAX_CHEATS`. A
call for which this fails stores past the end of the array, and from that
store on the C program has no defined behaviour. -/
def retro_cheat_set_in_bounds (s : State) (enabled : Bool) (code : Option (List Char)) :
    Bool :=
  (retro_cheat_set_stores s enabled code).all (fun i => decide (i < MAX_CHEATS))

/-- Every call of the sequence keeps its stores within the array. -/
def run_in_bounds : State → List (Bool × Option (List Char)) → Bool
  | _, [] => true
  | s, c :: rest =>
    retro_cheat_set_in_bounds s c.1 c.2 && run_in_bounds (retro_cheat_set s c.1 c.2) rest

/-- The states reached from a state with an empty table by calls of
`retro_cheat_set` that keep their stores within the array and by calls of
`retro_cheat_reset`. -/
inductive ReachableInBounds : State → Prop
  | empty (s : State) (h : s.maxcheats = 0) : ReachableInBounds s
  | set (s : State) (enabled : Bool) (code : Option (List Char)) (h : ReachableInBounds s)
      (hb : retro_cheat_set_in_bounds s enabled code = true) :
      ReachableInBounds (retro_cheat_set s enabled code)
  | reset (s : State) (h : ReachableInBounds s) : ReachableInBounds (retro_cheat_reset s)

/-- The hexadecimal code `0000XY:0001` of the 16-bit family, where `XY` are the
two hexadecimal digits of `k`: address `k`, data 1. -/
def sampleCode (k : Nat) : List Char :=
  ['0', '0', '0', '0', arvalidchars.getD (k / 16) '0', arvalidchars.getD (k % 16) '0', ':',
    '0', '0', '0', '1']

/-- The calls that set the codes `sampleCode 0`, ..., `sampleCode (n - 1)`
enabled, one call per code. -/
def sampleCalls (n : Nat) : List (Bool × Option (List Char)) :=
  (List.range n).map (fun k => (true, some (sampleCode k)))

/-- Body of the `while` loop of `ROMCheatUpdate` as a function of the index it
fetches from `cheatIndexes`. -/
def ROMCheatUpdate_at (s : State) (index : Nat) : State :=
  let s1 : State :=
    match (s.cheatlist index).prev with
    | some p =>
      { s with rom := write8 s.rom p (s.cheatlist index).old,
               cheatlist := upd s.cheatlist index { s.cheatlist index with prev := none } }
    | none => s
  let e := s1.cheatlist index
  let ptr := bankedPtr s1 e.address
  if e.old = 0 ∨ e.old % 256 = (s1.rom ptr).val then
    { s1 with rom := write8 s1.rom ptr e.data,
              cheatlist := upd s1.cheatlist index { e with prev := some ptr } }
  else s1

/-- The iterations of `ROMCheatUpdate` for the table indices below `n` that
pass the test `p`, from the highest index down. -/
def ROMCheatUpdate_below (p : Nat → Bool) : Nat → State → State
  | 0, s => s
  | n + 1, s =>
    if p n then ROMCheatUpdate_below p n (ROMCheatUpdate_at s n) else ROMCheatUpdate_below p n s

/-- Two enabled banked patches with reference `0x55` at different addresses
of the same window, `0x1123` and `0x1200`; bank A holds `0x55`, bank B holds
`0x66`. -/
def twoPatchTable : State :=
  withTable (banks 0x55 0x66) [entry true 0x1123 0xAA 0x55, entry true 0x1200 0xBB 0x55]

/-- Mapping of the samples in which both 16 KB slots show the second bank. -/
def bankMirror : Nat → Nat := fun k => 0x4000 + (k % 16) * 0x400

/-- Mapping of the samples in which the two 16 KB slots show the two banks in
exchanged order. -/
def bankSwap : Nat → Nat := fun k => if k < 16 then 0x4000 + k * 0x400 else (k - 16) * 0x400

/-- An enabled banked patch at `0x1123` with reference `0x55` and one at
`0x5123` with reference `0x66`; bank A holds `0x55`, bank B holds `0x66`. Under
`bankMirror` both addresses show the same byte. -/
def mirrorTable : State :=
  withTable (banks 0x55 0x66) [entry true 0x1123 0xAA 0x55, entry true 0x5123 0xBB 0x66]

/-- An enabled banked patch at `0x5123` and one at `0x1123`, both with
reference `0x55`; bank A holds `0x55`, bank B holds `0x66`. Under `bankSwap`
the first address shows the byte the second one shows under mapping A. -/
def swapTable : State :=
  withTable (banks 0x55 0x66) [entry true 0x5123 0xBB 0x55, entry true 0x1123 0xAA 0x55]

end Cheat

namespace Cheat

/-! ## Facts about the two alphabets -/

theorem index_lt_of_getElem? {l : List Char} {n : Nat} {c : Char} (h : l[n]? = some c) :
    n < l.length := by
  rcases Nat.lt_or_ge n l.length with hlt | hge
  · exact hlt
  · rw [List.getElem?_eq_none hge] at h
    exact absurd h (by simp)

/-- A symbol of the Game Genie alphabet is found by `strchr` at its index; it
is neither the terminator nor a separator. -/
theorem strchr_gg {n : Nat} {c : Char} (h : ggvalidchars[n]? = some c) :
    strchr ggvalidchars c = some n ∧ c ≠ NUL ∧ c ≠ '-' ∧ n < 32 := by
  have hn : n < 32 := index_lt_of_getElem? h
  interval_cases n <;> simp [ggvalidchars] at h <;> subst h <;> decide

/-- A hexadecimal digit is found by `strchr` at its value; it is neither the
terminator nor a separator. -/
theorem strchr_ar {n : Nat} {c : Char} (h : arvalidchars[n]? = some c) :
    strchr arvalidchars c = some n ∧ c ≠ NUL ∧ c ≠ '-' ∧ c ≠ ':' ∧ n < 16 := by
  have hn : n < 16 := index_lt_of_getElem? h
  interval_cases n <;> simp [arvalidchars] at h <;> subst h <;> decide

end Cheat

namespace Cheat

/-! ## The decoder -/

/-- C8: under the 16-bit family, a string of at least 9 characters with `-` at
index 4 whose characters at indices 0-3 and 5-8 are the symbols of index
`n0 .. n7` of the Game Genie alphabet makes `decode_cheat` return 9 and store
data `(n0<<3) | (n1>>2) | ((n4&1)<<12) | ((n5&1)<<15) | ((n5>>1)<<8) | ((n6>>3)<<13)`,
address `((n1&3)<<14) | (n2<<9) | ((n3&15)<<20) | ((n3>>4)<<8) | ((n4>>1)<<16) | ((n6&7)<<5) | n7`
and reference 0 in the slot `index`. -/
theorem decode_cheat_game_genie_md (s : State) (string : List Char) (index : Nat)
    (n0 n1 n2 n3 n4 n5 n6 n7 : Nat)
    (hmd : s.isMD = true) (_hlen : 9 ≤ string.length) (hsep : charAt string 4 = '-')
    (h0 : ggvalidchars[n0]? = some (charAt string 0))
    (h1 : ggvalidchars[n1]? = some (charAt string 1))
    (h2 : ggvalidchars[n2]? = some (charAt string 2))
    (h3 : ggvalidchars[n3]? = some (charAt string 3))
    (h4 : ggvalidchars[n4]? = some (charAt string 5))
    (h5 : ggvalidchars[n5]? = some (charAt string 6))
    (h6 : ggvalidchars[n6]? = some (charAt string 7))
    (h7 : ggvalidchars[n7]? = some (charAt string 8)) :
    (decode_cheat s string index).1 = 9
    ∧ ((decode_cheat s string index).2.cheatlist index).data
        = (n0 <<< 3) ||| (n1 >>> 2) ||| ((n4 &&& 1) <<< 12) ||| ((n5 &&& 1) <<< 15)
            ||| ((n5 >>> 1) <<< 8) ||| ((n6 >>> 3) <<< 13)
    ∧ ((decode_cheat s string index).2.cheatlist index).address
        = ((n1 &&& 3) <<< 14) ||| (n2 <<< 9) ||| ((n3 &&& 15) <<< 20) ||| ((n3 >>> 4) <<< 8)
            ||| ((n4 >>> 1) <<< 16) ||| ((n6 &&& 7) <<< 5) ||| n7
    ∧ ((decode_cheat s string index).2.cheatlist index).old = 0 := by
  obtain ⟨c0, z0, -, -⟩ := strchr_gg h0
  obtain ⟨c1, z1, -, -⟩ := strchr_gg h1
  obtain ⟨c2, z2, -, -⟩ := strchr_gg h2
  obtain ⟨c3, z3, -, -⟩ := strchr_gg h3
  obtain ⟨c4, z4, -, -⟩ := strchr_gg h4
  obtain ⟨c5, z5, -, -⟩ := strchr_gg h5
  obtain ⟨c6, z6, -, -⟩ := strchr_gg h6
  obtain ⟨c7, z7, -, -⟩ := strchr_gg h7
  have z : charAt string 4 ≠ NUL := by rw [hsep]; decide
  have hs : strlen_ge string 9 = true := by
    simp only [strlen_ge, List.all_eq_true, List.mem_range, bne_iff_ne, ne_eq]
    intro i hi
    interval_cases i <;> assumption
  simp [decode_cheat, storeCheat, decode, hmd, decode_md, hs, hsep, gg_loop, gg_switch, c0, c1,
    c2, c3, c4, c5, c6, c7, upd, Nat.lor_assoc]

/-- Witness for C8: the code `ATBT-AA32` decodes to address `0x000338` and
data `0x6004`. -/
theorem decode_cheat_game_genie_md_witness :
    (decode_cheat mdConsole "ATBT-AA32".toList 0).1 = 9
    ∧ ((decode_cheat mdConsole "ATBT-AA32".toList 0).2.cheatlist 0).data = 0x6004
    ∧ ((decode_cheat mdConsole "ATBT-AA32".toList 0).2.cheatlist 0).address = 0x000338
    ∧ ((decode_cheat mdConsole "ATBT-AA32".toList 0).2.cheatlist 0).old = 0 :=
  decode_cheat_game_genie_md mdConsole "ATBT-AA32".toList 0 0 16 1 16 0 0 25 24 (by decide)
    (by decide) (by decide) (by decide) (by decide) (by decide) (by decide) (by decide)
    (by decide) (by decide) (by decide)

theorem shl_or (a b k : Nat) (hb : b < 2 ^ k) : (a <<< k) ||| b = a * 2 ^ k + b := by
  rw [Nat.shiftLeft_eq, Nat.mul_comm, ← Nat.mul_add_lt_is_or hb]

theorem and_15 {a : Nat} (h : a < 16) : a &&& 15 = a := by
  have := Nat.and_pow_two_sub_one_eq_mod a 4
  simp at this
  omega

/-- C9: under the 16-bit family, an 11-character string with `:` at index 6
whose other ten characters are the hexadecimal digits of value `a0 .. a5` and
`d0 .. d3` makes `decode_cheat` return 11 and store the 24-bit value of
`a0 .. a5` as address and the 16-bit value of `d0 .. d3` as data. -/
theorem decode_cheat_hex_md (s : State) (string : List Char) (index : Nat)
    (a0 a1 a2 a3 a4 a5 d0 d1 d2 d3 : Nat)
    (hmd : s.isMD = true) (_hlen : string.length = 11) (hsep : charAt string 6 = ':')
    (h0 : arvalidchars[a0]? = some (charAt string 0))
    (h1 : arvalidchars[a1]? = some (charAt string 1))
    (h2 : arvalidchars[a2]? = some (charAt string 2))
    (h3 : arvalidchars[a3]? = some (charAt string 3))
    (h4 : arvalidchars[a4]? = some (charAt string 4))
    (h5 : arvalidchars[a5]? = some (charAt string 5))
    (h7 : arvalidchars[d0]? = some (charAt string 7))
    (h8 : arvalidchars[d1]? = some (charAt string 8))
    (h9 : arvalidchars[d2]? = some (charAt string 9))
    (h10 : arvalidchars[d3]? = some (charAt string 10)) :
    (decode_cheat s string index).1 = 11
    ∧ ((decode_cheat s string index).2.cheatlist index).address
        = a0 * 0x100000 + a1 * 0x10000 + a2 * 0x1000 + a3 * 0x100 + a4 * 0x10 + a5
    ∧ ((decode_cheat s string index).2.cheatlist index).data
        = d0 * 0x1000 + d1 * 0x100 + d2 * 0x10 + d3 := by
  obtain ⟨c0, z0, -, -, b0⟩ := strchr_ar h0
  obtain ⟨c1, z1, -, -, b1⟩ := strchr_ar h1
  obtain ⟨c2, z2, -, -, b2⟩ := strchr_ar h2
  obtain ⟨c3, z3, -, -, b3⟩ := strchr_ar h3
  obtain ⟨c4, z4, m4, -, b4⟩ := strchr_ar h4
  obtain ⟨c5, z5, -, -, b5⟩ := strchr_ar h5
  obtain ⟨c7, z7, -, -, b7⟩ := strchr_ar h7
  obtain ⟨c8, z8, -, -, b8⟩ := strchr_ar h8
  obtain ⟨c9, z9, -, -, b9⟩ := strchr_ar h9
  obtain ⟨c10, z10, -, -, b10⟩ := strchr_ar h10
  have z : charAt string 6 ≠ NUL := by rw [hsep]; decide
  have hs : strlen_ge string 9 = true := by
    simp only [strlen_ge, List.all_eq_true, List.mem_range, bne_iff_ne, ne_eq]
    intro i hi
    interval_cases i <;> assumption
  simp [decode_cheat, storeCheat, decode, hmd, decode_md, hs, hsep, m4, hex_loop, hex_loop_break,
    c0, c1, c2, c3, c4, c5, c7, c8, c9, c10, upd, Nat.lor_assoc, and_15, b0, b1, b2, b3, b4, b5,
    b7, b8, b9, b10]
  constructor
  · rw [shl_or a4 a5 4 (by omega), shl_or a3 _ 8 (by omega), shl_or a2 _ 12 (by omega),
      shl_or a1 _ 16 (by omega), shl_or a0 _ 20 (by omega)]
    omega
  · rw [shl_or d2 d3 4 (by omega), shl_or d1 _ 8 (by omega), shl_or d0 _ 12 (by omega)]
    omega

/-- Witness for C9: the code `FF0001:1234`. -/
theorem decode_cheat_hex_md_witness :
    (decode_cheat mdConsole "FF0001:1234".toList 0).1 = 11
    ∧ ((decode_cheat mdConsole "FF0001:1234".toList 0).2.cheatlist 0).address = 0xFF0001
    ∧ ((decode_cheat mdConsole "FF0001:1234".toList 0).2.cheatlist 0).data = 0x1234 :=
  decode_cheat_hex_md mdConsole "FF0001:1234".toList 0 15 15 0 0 0 1 1 2 3 4 (by decide)
    (by decide) (by decide) (by decide) (by decide) (by decide) (by decide) (by decide)
    (by decide) (by decide) (by decide) (by decide) (by decide)

theorem and_1FFF (a : Nat) : a &&& 0x1FFF = a % 0x2000 := by
  have := Nat.and_pow_two_sub_one_eq_mod a 13
  simpa using this

theorem work_ram_or (x : Nat) (hx : x < 0x2000) : 0xFF0000 ||| x = 0xFF0000 + x := by
  have := shl_or 0xFF x 16 (by omega)
  simpa using this

/-- C10: when a string is accepted under the 8-bit family and the address
decoded from its digits is at least `0xC000`, the address stored in the table
is `0xFF0000 | (raw & 0x1FFF)`: it lies in `[0xFF0000, 0xFF1FFF]` and has the
low 13 bits of the raw address. -/
theorem decode_cheat_work_ram_mirror (s : State) (string : List Char) (index : Nat) (d : Decoded)
    (hfam : s.isMD = false) (hraw : decode_sms_raw string = some d) (hacc : d.len ≠ 0)
    (hhigh : 0xC000 ≤ d.address) :
    (decode_cheat s string index).1 = d.len
    ∧ ((decode_cheat s string index).2.cheatlist index).address
        = 0xFF0000 ||| (d.address &&& 0x1FFF)
    ∧ 0xFF0000 ≤ ((decode_cheat s string index).2.cheatlist index).address
    ∧ ((decode_cheat s string index).2.cheatlist index).address ≤ 0xFF1FFF
    ∧ ((decode_cheat s string index).2.cheatlist index).address &&& 0x1FFF
        = d.address &&& 0x1FFF := by
  have hx : d.address &&& 0x1FFF < 0x2000 := by rw [and_1FFF]; omega
  have hor := work_ram_or _ hx
  have hst : ((decode_cheat s string index).2.cheatlist index).address
      = 0xFF0000 ||| (d.address &&& 0x1FFF) := by
    simp [decode_cheat, storeCheat, decode, hfam, decode_sms, hraw, hacc, to_work_ram, hhigh, upd]
  refine ⟨?_, hst, ?_, ?_, ?_⟩
  · simp [decode_cheat, decode, hfam, decode_sms, hraw, hacc]
  · rw [hst, hor]; omega
  · rw [hst, hor]; omega
  · rw [hst, hor, and_1FFF (0xFF0000 + _), and_1FFF] ; omega

/-- Witness for C10: the code `C123:45`, whose raw address is `0xC123`, is
stored at `0xFF0123`. -/
theorem decode_cheat_work_ram_mirror_witness :
    (decode_cheat smsConsole "C123:45".toList 0).1 = 7
    ∧ ((decode_cheat smsConsole "C123:45".toList 0).2.cheatlist 0).address
        = 0xFF0000 ||| (0xC123 &&& 0x1FFF)
    ∧ 0xFF0000 ≤ ((decode_cheat smsConsole "C123:45".toList 0).2.cheatlist 0).address
    ∧ ((decode_cheat smsConsole "C123:45".toList 0).2.cheatlist 0).address ≤ 0xFF1FFF
    ∧ ((decode_cheat smsConsole "C123:45".toList 0).2.cheatlist 0).address &&& 0x1FFF
        = 0xC123 &&& 0x1FFF :=
  decode_cheat_work_ram_mirror smsConsole "C123:45".toList 0
    { len := 7, address := 0xC123, data := 0x45, ref := 0 } (by decide) (by decide) (by decide)
    (by decide)

/-! ## Memory accesses -/

@[simp] theorem upd_same {α : Type} (f : Nat → α) (i : Nat) (v : α) : upd f i v i = v := by
  simp [upd]

theorem upd_other {α : Type} (f : Nat → α) {i j : Nat} (v : α) (h : j ≠ i) :
    upd f i v j = f j := by
  simp [upd, h]

@[simp] theorem toByte_val (b : Byte) : toByte b.val = b := by
  apply Fin.ext
  simp [toByte, Nat.mod_eq_of_lt b.isLt]

theorem write8_other (m : Nat → Byte) {p q : Nat} (v : Nat) (h : q ≠ p) :
    write8 m p v q = m q := by
  simp [write8, upd, h]

@[simp] theorem write8_same (m : Nat → Byte) (p v : Nat) : write8 m p v p = toByte v := by
  simp [write8]

theorem write16_other (lsb : Bool) (m : Nat → Byte) {o q : Nat} (v : Nat)
    (h0 : q ≠ o) (h1 : q ≠ o + 1) : write16 lsb m o v q = m q := by
  cases lsb <;> simp [write16, write8, upd, h0, h1]

theorem toByte_lo (a b : Byte) : toByte (a.val + 256 * b.val) = a := by
  apply Fin.ext
  have := a.isLt
  simp only [toByte]
  omega

theorem toByte_hi (a b : Byte) : toByte ((a.val + 256 * b.val) / 256) = b := by
  apply Fin.ext
  have := a.isLt
  have := b.isLt
  simp only [toByte]
  omega

/-- Storing back the word that was loaded before a store restores the bytes. -/
theorem write16_restore (lsb : Bool) (m : Nat → Byte) (o v : Nat) (q : Nat) :
    write16 lsb (write16 lsb m o v) o (read16 lsb m o) q = m q := by
  cases lsb
  · simp only [write16, read16, write8, upd, Bool.false_eq_true, if_false]
    by_cases h1 : q = o + 1
    · subst h1
      simp only [if_true]
      rw [Nat.add_comm (256 * _), toByte_lo]
    · by_cases h0 : q = o
      · subst h0
        simp only [h1, if_false, if_true]
        rw [Nat.add_comm (256 * _), toByte_hi]
      · simp [h0, h1]
  · simp only [write16, read16, write8, upd, if_true]
    by_cases h1 : q = o + 1
    · subst h1
      simp only [if_true]
      rw [toByte_hi]
    · by_cases h0 : q = o
      · subst h0
        simp only [h1, if_false, if_true]
        rw [toByte_lo]
      · simp [h0, h1]

/-! ## What the loops leave alone -/

theorem sameConsole_refl (s : State) : SameConsole s s := by
  simp [SameConsole]

theorem SameConsole.console_trans {s t u : State} (h1 : SameConsole s t) (h2 : SameConsole t u) :
    SameConsole s u := by
  unfold SameConsole at h1 h2 ⊢
  refine ⟨?_, ?_, ?_, ?_, ?_, ?_, ?_⟩
  · rw [h2.1, h1.1]
  · rw [h2.2.1, h1.2.1]
  · rw [h2.2.2.1, h1.2.2.1]
  · rw [h2.2.2.2.1, h1.2.2.2.1]
  · rw [h2.2.2.2.2.1, h1.2.2.2.2.1]
  · rw [h2.2.2.2.2.2.1, h1.2.2.2.2.2.1]
  · rw [h2.2.2.2.2.2.2, h1.2.2.2.2.2.2]

theorem SameConsole.console_isMD {s t : State} (h : SameConsole s t) : t.isMD = s.isMD := by
  obtain ⟨a1, a2, -, -, -, -, -⟩ := h
  simp [State.isMD, a1, a2]

theorem SameConsole.console_isCD {s t : State} (h : SameConsole s t) : t.isCD = s.isCD := by
  obtain ⟨a1, a2, a3, -, -, -, -⟩ := h
  simp [State.isCD, a1, a2, a3]

theorem sameCode_refl (e : CHEATENTRY) : SameCode e e := by
  simp [SameCode]

theorem SameCode.code_trans {e f g : CHEATENTRY} (h1 : SameCode e f) (h2 : SameCode f g) :
    SameCode e g := by
  unfold SameCode at h1 h2 ⊢
  refine ⟨?_, ?_, ?_⟩
  · rw [h2.1, h1.1]
  · rw [h2.2.1, h1.2.1]
  · rw [h2.2.2, h1.2.2]

theorem apply_body_console (s : State) (i : Nat) : SameConsole s (apply_cheats_body s i) := by
  unfold apply_cheats_body
  simp only []
  split_ifs <;> simp [SameConsole, addRAMpatch]

theorem apply_body_entry_other (s : State) {i k : Nat} (h : k ≠ i) :
    (apply_cheats_body s i).cheatlist k = s.cheatlist k := by
  unfold apply_cheats_body
  simp only []
  split_ifs <;> simp [addRAMpatch, upd_other, h]

theorem apply_body_code (s : State) (i k : Nat) :
    SameCode (s.cheatlist k) ((apply_cheats_body s i).cheatlist k) := by
  by_cases h : k = i
  · subst h
    unfold apply_cheats_body
    simp only []
    split_ifs <;> simp [SameCode, addRAMpatch]
  · rw [apply_body_entry_other s h]
    exact sameCode_refl _

theorem apply_loop_console (s : State) (n : Nat) : SameConsole s (apply_cheats_loop s n) := by
  induction n with
  | zero => exact sameConsole_refl s
  | succ n ih => exact ih.console_trans (apply_body_console _ n)

theorem apply_loop_entry_ge (s : State) (n : Nat) {k : Nat} (h : n ≤ k) :
    (apply_cheats_loop s n).cheatlist k = s.cheatlist k := by
  induction n with
  | zero => rfl
  | succ n ih =>
    simp only [apply_cheats_loop]
    rw [apply_body_entry_other _ (by omega), ih (by omega)]

theorem apply_loop_code (s : State) (n k : Nat) :
    SameCode (s.cheatlist k) ((apply_cheats_loop s n).cheatlist k) := by
  induction n with
  | zero => exact sameCode_refl _
  | succ n ih => exact ih.code_trans (apply_body_code _ n k)

theorem clear_body_console (s : State) (j : Nat) : SameConsole s (clear_cheats_body s j) := by
  unfold clear_cheats_body
  simp only []
  split_ifs
  · simp [SameConsole]
  · split <;> simp [SameConsole]
  · simp [SameConsole]
  · simp [SameConsole]

theorem clear_body_entry_other (s : State) {j k : Nat} (h : k ≠ j) :
    (clear_cheats_body s j).cheatlist k = s.cheatlist k := by
  unfold clear_cheats_body
  simp only []
  split_ifs
  · rfl
  · split <;> simp [upd_other, h]
  · rfl
  · rfl

theorem clear_body_code (s : State) (j k : Nat) :
    SameCode (s.cheatlist k) ((clear_cheats_body s j).cheatlist k) := by
  by_cases h : k = j
  · subst h
    unfold clear_cheats_body
    simp only []
    split_ifs
    · simp [SameCode]
    · split <;> simp [SameCode]
    · simp [SameCode]
    · simp [SameCode]
  · rw [clear_body_entry_other s h]
    exact sameCode_refl _

theorem clear_loop_console (n : Nat) : ∀ s : State, SameConsole s (clear_cheats_loop n s) := by
  induction n with
  | zero => intro s; exact sameConsole_refl s
  | succ n ih => intro s; exact (clear_body_console s n).console_trans (ih _)

theorem clear_loop_entry_ge (n : Nat) {k : Nat} (h : n ≤ k) :
    ∀ s : State, (clear_cheats_loop n s).cheatlist k = s.cheatlist k := by
  induction n with
  | zero => intro s; rfl
  | succ n ih =>
    intro s
    simp only [clear_cheats_loop]
    rw [ih (by omega), clear_body_entry_other _ (by omega)]

theorem clear_loop_code (n k : Nat) :
    ∀ s : State, SameCode (s.cheatlist k) ((clear_cheats_loop n s).cheatlist k) := by
  induction n with
  | zero => intro s; exact sameCode_refl _
  | succ n ih => intro s; exact (clear_body_code s n k).code_trans (ih _)

/-! ## Apply followed by Clear -/

theorem write8_congr {m m' : Nat → Byte} (o v : Nat) {p : Nat} (h : m' p = m p) :
    write8 m' o v p = write8 m o v p := by
  simp [write8, upd, h]

theorem write16_congr (lsb : Bool) {m m' : Nat → Byte} (o v : Nat) {p : Nat} (h : m' p = m p) :
    write16 lsb m' o v p = write16 lsb m o v p := by
  cases lsb <;> simp [write16, write8, upd, h]

theorem clear_body_rom_congr (p j : Nat) (s t : State) (hmd : t.isMD = s.isMD)
    (hrs : t.romsize = s.romsize) (hl : t.lsb_first = s.lsb_first)
    (he : t.cheatlist j = s.cheatlist j) (hp : t.rom p = s.rom p) :
    (clear_cheats_body t j).rom p = (clear_cheats_body s j).rom p := by
  unfold clear_cheats_body
  simp only [he, hrs, hmd, hl]
  split_ifs
  · exact write16_congr _ _ _ hp
  · split
    · exact write8_congr _ _ hp
    · exact hp
  · exact hp
  · exact hp

/-- The bytes `clear_cheats` leaves at offset `p` depend only on the byte at
`p` and on the entries the loop visits. -/
theorem clear_loop_rom_congr (p n : Nat) : ∀ s t : State,
    t.isMD = s.isMD → t.romsize = s.romsize → t.lsb_first = s.lsb_first →
    (∀ j, j < n → t.cheatlist j = s.cheatlist j) → t.rom p = s.rom p →
    (clear_cheats_loop n t).rom p = (clear_cheats_loop n s).rom p := by
  induction n with
  | zero => intro s t _ _ _ _ hp; exact hp
  | succ n ih =>
    intro s t hmd hrs hl he hp
    simp only [clear_cheats_loop]
    have cs := clear_body_console s n
    have ct := clear_body_console t n
    apply ih
    · rw [ct.console_isMD, cs.console_isMD, hmd]
    · rw [ct.2.2.2.1, cs.2.2.2.1, hrs]
    · rw [ct.2.2.2.2.1, cs.2.2.2.2.1, hl]
    · intro j hj
      rw [clear_body_entry_other t (by omega), clear_body_entry_other s (by omega)]
      exact he j (by omega)
    · exact clear_body_rom_congr p n s t hmd hrs hl (he n (by omega)) hp

/-- One iteration of Apply followed by the matching iteration of Clear leaves
the byte at `p` as it was, provided that an entry which Apply treats as a RAM
patch but Clear visits neither covers `p` (16-bit family) nor holds a live
location (8-bit family). -/
theorem clear_apply_body_rom (A : State) (n p : Nat) (hcd : A.isCD = false)
    (hsafe : (A.cheatlist n).enable = true → 0xFF0000 ≤ (A.cheatlist n).address →
      (A.cheatlist n).address < A.romsize →
      (A.isMD = true → p ≠ ((A.cheatlist n).address &&& 0xFFFFFE)
          ∧ p ≠ ((A.cheatlist n).address &&& 0xFFFFFE) + 1)
        ∧ (A.isMD = false → (A.cheatlist n).prev = none)) :
    (clear_cheats_body (apply_cheats_body A n) n).rom p = A.rom p := by
  by_cases hen : (A.cheatlist n).enable = true
  · by_cases hram : 0xFF0000 ≤ (A.cheatlist n).address
    · by_cases hrs : (A.cheatlist n).address < A.romsize
      · obtain ⟨h16, h8⟩ := hsafe hen hram hrs
        have hB : apply_cheats_body A n = addRAMpatch A n := by
          simp [apply_cheats_body, hen, hram]
        rw [hB]
        cases hmd : A.isMD
        · have hmdB : (addRAMpatch A n).isMD = false := hmd
          unfold clear_cheats_body
          simp only [hmdB]
          simp only [addRAMpatch, hen, hrs, if_true, Bool.false_eq_true, if_false, h8 hmd]
        · obtain ⟨q0, q1⟩ := h16 hmd
          have hmdB : (addRAMpatch A n).isMD = true := hmd
          unfold clear_cheats_body
          simp only [hmdB]
          simp only [addRAMpatch, hen, hrs, if_true]
          exact write16_other _ _ _ q0 q1
      · simp [apply_cheats_body, clear_cheats_body, hen, hram, addRAMpatch, hrs]
    · by_cases hrs : (A.cheatlist n).address < A.romsize
      · cases hmd : A.isMD
        · have hmdB : (apply_cheats_body A n).isMD = false := by
            rw [(apply_body_console A n).console_isMD, hmd]
          have hrsB : (apply_cheats_body A n).romsize = A.romsize := (apply_body_console A n).2.2.2.1
          by_cases hm : (A.cheatlist n).old % 256 = (A.rom (bankedPtr A (A.cheatlist n).address)).val
          · have hB : apply_cheats_body A n =
                { A with maxROMcheats := A.maxROMcheats + 1,
                         cheatIndexes := upd A.cheatIndexes (MAX_CHEATS - (A.maxROMcheats + 1)) (n % 256),
                         rom := write8 A.rom (bankedPtr A (A.cheatlist n).address) (A.cheatlist n).data,
                         cheatlist := upd A.cheatlist n
                           { A.cheatlist n with prev := some (bankedPtr A (A.cheatlist n).address) } } := by
              simp [apply_cheats_body, hen, hram, hcd, hrs, hmd, hm]
            unfold clear_cheats_body
            simp only [hmdB, hrsB]
            rw [hB]
            simp only [upd_same, hen, hrs, if_true, Bool.false_eq_true, if_false]
            simp only [write8, upd]
            by_cases hp : p = bankedPtr A (A.cheatlist n).address
            · subst hp
              simp only [if_true]
              apply Fin.ext
              simp [toByte, hm]
            · simp [hp]
          · have hB : apply_cheats_body A n =
                { A with maxROMcheats := A.maxROMcheats + 1,
                         cheatIndexes := upd A.cheatIndexes (MAX_CHEATS - (A.maxROMcheats + 1)) (n % 256),
                         cheatlist := upd A.cheatlist n { A.cheatlist n with prev := none } } := by
              simp [apply_cheats_body, hen, hram, hcd, hrs, hmd, hm]
            unfold clear_cheats_body
            simp only [hmdB, hrsB]
            rw [hB]
            simp only [upd_same, hen, hrs, if_true, Bool.false_eq_true, if_false]
        · have hmdB : (apply_cheats_body A n).isMD = true := by
            rw [(apply_body_console A n).console_isMD, hmd]
          have hrsB : (apply_cheats_body A n).romsize = A.romsize := (apply_body_console A n).2.2.2.1
          have hB : apply_cheats_body A n =
              { A with cheatlist := upd A.cheatlist n
                         { A.cheatlist n with
                           old := read16 A.lsb_first A.rom ((A.cheatlist n).address &&& 0xFFFFFE) },
                       rom := write16 A.lsb_first A.rom ((A.cheatlist n).address &&& 0xFFFFFE)
                         (A.cheatlist n).data } := by
            simp [apply_cheats_body, hen, hram, hcd, hrs, hmd]
          unfold clear_cheats_body
          simp only [hmdB, hrsB]
          rw [hB]
          simp only [upd_same, hen, hrs, if_true]
          exact write16_restore _ _ _ _ _
      · simp [apply_cheats_body, clear_cheats_body, hen, hram, hcd, hrs]
  · simp [apply_cheats_body, clear_cheats_body, hen]

theorem and_shl1 (a m : Nat) : a &&& (m <<< 1) = ((a >>> 1) &&& m) <<< 1 := by
  apply Nat.eq_of_testBit_eq
  intro i
  cases i with
  | zero => simp [Nat.testBit_shiftLeft]
  | succ i => simp [Nat.testBit_shiftLeft, Nat.testBit_shiftRight, Nat.add_comm]

/-- The mask `0xFFFFFE` keeps bits 1 to 23. -/
theorem and_FFFFFE (a : Nat) : a &&& 0xFFFFFE = 2 * ((a / 2) % 0x800000) := by
  have h := and_shl1 a 0x7FFFFF
  have h2 := Nat.and_pow_two_sub_one_eq_mod (a >>> 1) 23
  have e : (0x7FFFFF : Nat) <<< 1 = 0xFFFFFE := by decide
  have e2 : (2 : Nat) ^ 23 - 1 = 0x7FFFFF := by norm_num
  rw [e] at h
  rw [e2] at h2
  rw [h, h2, Nat.shiftLeft_eq, Nat.shiftRight_eq_div_pow]
  omega

/-- The loops of Apply and Clear over the first `n` entries, one after the
other, leave the byte at `p` as it was. -/
theorem roundtrip_loop (p n : Nat) (s : State) (hcd : s.isCD = false)
    (hsafe : ∀ j, j < n → (s.cheatlist j).enable = true → 0xFF0000 ≤ (s.cheatlist j).address →
      (s.cheatlist j).address < s.romsize →
      (s.isMD = true → p ≠ ((s.cheatlist j).address &&& 0xFFFFFE)
          ∧ p ≠ ((s.cheatlist j).address &&& 0xFFFFFE) + 1)
        ∧ (s.isMD = false → (s.cheatlist j).prev = none)) :
    (clear_cheats_loop n (apply_cheats_loop s n)).rom p = s.rom p := by
  induction n with
  | zero => rfl
  | succ n ih =>
    simp only [apply_cheats_loop, clear_cheats_loop]
    have cA := apply_loop_console s n
    have cB := apply_body_console (apply_cheats_loop s n) n
    have cC := clear_body_console (apply_cheats_body (apply_cheats_loop s n) n) n
    have cAC := cB.console_trans cC
    have hen : (apply_cheats_loop s n).cheatlist n = s.cheatlist n :=
      apply_loop_entry_ge s n (Nat.le_refl n)
    rw [clear_loop_rom_congr p n (apply_cheats_loop s n) _ cAC.console_isMD cAC.2.2.2.1 cAC.2.2.2.2.1]
    · exact ih (fun j hj => hsafe j (by omega))
    · intro j hj
      rw [clear_body_entry_other _ (by omega), apply_body_entry_other _ (by omega)]
    · apply clear_apply_body_rom
      · rw [cA.console_isCD, hcd]
      · rw [hen, cA.console_isMD, cA.2.2.2.1]
        exact hsafe n (by omega)

theorem apply_body_rom_isCD (s : State) (i : Nat) (hcd : s.isCD = true) :
    (apply_cheats_body s i).rom = s.rom := by
  unfold apply_cheats_body
  simp only [hcd, if_true]
  split_ifs <;> simp [addRAMpatch]

theorem apply_loop_rom_isCD (s : State) (n : Nat) (hcd : s.isCD = true) :
    (apply_cheats_loop s n).rom = s.rom := by
  induction n with
  | zero => rfl
  | succ n ih =>
    simp only [apply_cheats_loop]
    rw [apply_body_rom_isCD _ n (by rw [(apply_loop_console s n).console_isCD, hcd]), ih]

theorem apply_cheats_console (s : State) : SameConsole s (apply_cheats s) := by
  have h := apply_loop_console { s with maxROMcheats := 0, maxRAMcheats := 0 } s.maxcheats
  exact h

theorem apply_cheats_code (s : State) (k : Nat) :
    SameCode (s.cheatlist k) ((apply_cheats s).cheatlist k) :=
  apply_loop_code { s with maxROMcheats := 0, maxRAMcheats := 0 } s.maxcheats k

theorem clear_cheats_console (s : State) : SameConsole s (clear_cheats s) := by
  unfold clear_cheats
  split_ifs
  · exact sameConsole_refl s
  · exact clear_loop_console _ s

theorem clear_cheats_code (s : State) (k : Nat) :
    SameCode (s.cheatlist k) ((clear_cheats s).cheatlist k) := by
  unfold clear_cheats
  split_ifs
  · exact sameCode_refl _
  · exact clear_loop_code _ k s

/-- The function `apply_cheats` followed by `clear_cheats` leaves the byte at
`p` as it was, under the proviso of `roundtrip_loop`, in every mode. -/
theorem apply_clear_rom (s : State) (p : Nat)
    (hsafe : ∀ j, j < s.maxcheats → (s.cheatlist j).enable = true →
      0xFF0000 ≤ (s.cheatlist j).address → (s.cheatlist j).address < s.romsize →
      (s.isMD = true → p ≠ ((s.cheatlist j).address &&& 0xFFFFFE)
          ∧ p ≠ ((s.cheatlist j).address &&& 0xFFFFFE) + 1)
        ∧ (s.isMD = false → (s.cheatlist j).prev = none)) :
    (clear_cheats (apply_cheats s)).rom p = s.rom p := by
  have cA := apply_cheats_console s
  unfold clear_cheats
  rw [cA.console_isCD, cA.2.2.2.2.2.2]
  cases hcd : s.isCD
  · simp only [Bool.false_eq_true, if_false]
    exact roundtrip_loop p s.maxcheats { s with maxROMcheats := 0, maxRAMcheats := 0 } hcd hsafe
  · simp only [if_true]
    unfold apply_cheats
    rw [apply_loop_rom_isCD { s with maxROMcheats := 0, maxRAMcheats := 0 } _ hcd]

theorem apply_body_rom_other (s : State) (i p : Nat) (hmd : s.isMD = true)
    (h : ¬ ((s.cheatlist i).enable = true ∧ (s.cheatlist i).address < 0xFF0000 ∧ s.isCD = false
        ∧ (s.cheatlist i).address < s.romsize
        ∧ (p = ((s.cheatlist i).address &&& 0xFFFFFE)
            ∨ p = ((s.cheatlist i).address &&& 0xFFFFFE) + 1))) :
    (apply_cheats_body s i).rom p = s.rom p := by
  unfold apply_cheats_body
  simp only [hmd, if_true]
  split_ifs with h1 h2 h3 h4 h5 h6
  all_goals first
    | rfl
    | (simp only []
       apply write16_other
       · intro hp
         exact h ⟨h1, by omega, by simpa using h3, h6, Or.inl hp⟩
       · intro hp
         exact h ⟨h1, by omega, by simpa using h3, h6, Or.inr hp⟩)

theorem apply_loop_rom_other (s : State) (n p : Nat) (hmd : s.isMD = true)
    (h : ∀ i, i < n → ¬ ((s.cheatlist i).enable = true ∧ (s.cheatlist i).address < 0xFF0000
        ∧ s.isCD = false ∧ (s.cheatlist i).address < s.romsize
        ∧ (p = ((s.cheatlist i).address &&& 0xFFFFFE)
            ∨ p = ((s.cheatlist i).address &&& 0xFFFFFE) + 1))) :
    (apply_cheats_loop s n).rom p = s.rom p := by
  induction n with
  | zero => rfl
  | succ n ih =>
    simp only [apply_cheats_loop]
    have cA := apply_loop_console s n
    rw [apply_body_rom_other _ n p (by rw [cA.console_isMD, hmd])]
    · exact ih (fun i hi => h i (by omega))
    · rw [apply_loop_entry_ge s n (Nat.le_refl n), cA.console_isCD, cA.2.2.2.1]
      exact h n (by omega)

/-- C1: in the 16-bit family, for every table, every ROM content and every
mode (add-on absent, booted from cartridge or not), `apply_cheats` followed by
`clear_cheats` leaves every byte of the cartridge ROM that `apply_cheats`
stored to equal to its value before `apply_cheats`, also when several enabled
entries target the same word; and `apply_cheats` stores to no other byte of
the cartridge ROM. Addresses are 24-bit quantities: either the cartridge is no
larger than the 24-bit address space or every address of the table is below
`0x1000000`, as every decoded address is. -/
theorem apply_clear_roundtrip_md (s : State) (hmd : s.isMD = true)
    (h24 : s.romsize ≤ 0x1000000
      ∨ ∀ i, i < s.maxcheats → (s.cheatlist i).address < 0x1000000) :
    (∀ p, applyWritesFlat s p → (clear_cheats (apply_cheats s)).rom p = s.rom p)
    ∧ (∀ p, ¬ applyWritesFlat s p → (apply_cheats s).rom p = s.rom p) := by
  constructor
  · intro p hp
    obtain ⟨i, _, _, hlow, _, _, _, hpi⟩ := hp
    apply apply_clear_rom
    intro j hj _ hram hsize
    refine ⟨fun _ => ?_, fun h => by rw [hmd] at h; exact absurd h (by simp)⟩
    have hj24 : (s.cheatlist j).address < 0x1000000 := by
      rcases h24 with h | h
      · omega
      · exact h j hj
    rw [and_FFFFFE] at hpi ⊢
    omega
  · intro p hp
    unfold apply_cheats
    apply apply_loop_rom_other { s with maxROMcheats := 0, maxRAMcheats := 0 } _ _ hmd
    intro i hi hw
    obtain ⟨h1, h2, h3, h4, h5⟩ := hw
    exact hp ⟨i, hi, h1, h2, h3, h4, hmd, h5⟩

/-- Witness for C1: two enabled entries in the same word of the cartridge. -/
theorem apply_clear_roundtrip_md_witness :
    applyWritesFlat mdTable 0x101
    ∧ (clear_cheats (apply_cheats mdTable)).rom 0x101 = mdTable.rom 0x101 :=
  have hw : applyWritesFlat mdTable 0x101 :=
    ⟨1, by decide, by decide, by decide, by decide, by decide, by decide, by decide⟩
  ⟨hw, (apply_clear_roundtrip_md mdTable (by decide)
    (Or.inr (fun i hi => by
      have h3 : i < 3 := hi
      interval_cases i <;> decide))).1 0x101 hw⟩

/-- C2: in the 8-bit family, for every table in which no entry that Apply
treats as a RAM patch holds a live location, and for every bank mapping,
`apply_cheats` followed by `clear_cheats` with the mapping unchanged leaves
every byte, hence every byte visible through `z80_readmap`, equal to its value
before `apply_cheats`, also when several enabled entries resolve to the same
byte. -/
theorem apply_clear_roundtrip_sms (s : State) (hfam : s.isMD = false)
    (hprev : ∀ j, j < s.maxcheats → (s.cheatlist j).enable = true →
      0xFF0000 ≤ (s.cheatlist j).address → (s.cheatlist j).address < s.romsize →
      (s.cheatlist j).prev = none) :
    (∀ p, (clear_cheats (apply_cheats s)).rom p = s.rom p)
    ∧ (∀ a, (clear_cheats (apply_cheats s)).rom (bankedPtr (clear_cheats (apply_cheats s)) a)
        = s.rom (bankedPtr s a)) := by
  have hall : ∀ p, (clear_cheats (apply_cheats s)).rom p = s.rom p := by
    intro p
    apply apply_clear_rom
    intro j hj hen hram hrs
    exact ⟨fun h => by rw [hfam] at h; exact absurd h (by simp), fun _ => hprev j hj hen hram hrs⟩
  refine ⟨hall, fun a => ?_⟩
  have c := (apply_cheats_console s).console_trans (clear_cheats_console (apply_cheats s))
  rw [hall]
  simp only [bankedPtr, c.2.2.2.2.2.1]

/-- Witness for C2: two enabled entries that resolve to the same byte. -/
theorem apply_clear_roundtrip_sms_witness :
    (apply_cheats smsTable).rom 0x1123 = toByte 0xBB
    ∧ (clear_cheats (apply_cheats smsTable)).rom 0x1123 = smsTable.rom 0x1123 :=
  ⟨by decide, (apply_clear_roundtrip_sms smsTable (by decide)
    (fun j hj => by
      have h3 : j < 3 := hj
      interval_cases j <;> decide)).1 0x1123⟩

/-! ## Clear twice -/

/-- A `uint16_t` store either covers `p`, and then the byte it leaves at `p`
does not depend on the memory, or leaves `p` alone. -/
theorem write16_cases (lsb : Bool) (o v p : Nat) :
    (∀ m m' : Nat → Byte, write16 lsb m o v p = write16 lsb m' o v p)
    ∨ (∀ m : Nat → Byte, write16 lsb m o v p = m p) := by
  by_cases h0 : p = o
  · left
    intro m m'
    subst h0
    cases lsb <;> simp [write16, write8, upd]
  · by_cases h1 : p = o + 1
    · left
      intro m m'
      subst h1
      cases lsb <;> simp [write16, write8, upd]
    · right
      intro m
      exact write16_other lsb m v h0 h1

theorem clear_body_md_rom (s : State) (j : Nat) (hmd : s.isMD = true) :
    (clear_cheats_body s j).rom =
      if (s.cheatlist j).enable = true ∧ (s.cheatlist j).address < s.romsize then
        write16 s.lsb_first s.rom ((s.cheatlist j).address &&& 0xFFFFFE) (s.cheatlist j).old
      else s.rom := by
  unfold clear_cheats_body
  simp only [hmd, if_true]
  by_cases h1 : (s.cheatlist j).enable = true
  · by_cases h2 : (s.cheatlist j).address < s.romsize
    · simp [h1, h2]
    · simp [h1, h2]
  · simp [h1]

theorem clear_body_md_cheatlist (s : State) (j : Nat) (hmd : s.isMD = true) :
    (clear_cheats_body s j).cheatlist = s.cheatlist := by
  unfold clear_cheats_body
  simp only [hmd, if_true]
  split_ifs <;> rfl

theorem clear_loop_md_cheatlist (n : Nat) :
    ∀ s : State, s.isMD = true → (clear_cheats_loop n s).cheatlist = s.cheatlist := by
  induction n with
  | zero => intro s _; rfl
  | succ n ih =>
    intro s hmd
    simp only [clear_cheats_loop]
    rw [ih _ (by rw [(clear_body_console s n).console_isMD, hmd]), clear_body_md_cheatlist s n hmd]

/-- In the 16-bit family the loop of Clear, run on two states with the same
table, either leaves the same byte at `p` in both or leaves `p` alone in
both. -/
theorem clear_loop_md_pair (p n : Nat) : ∀ s t : State, s.isMD = true →
    t.isMD = s.isMD → t.romsize = s.romsize → t.lsb_first = s.lsb_first →
    (∀ j, j < n → t.cheatlist j = s.cheatlist j) →
    (clear_cheats_loop n t).rom p = (clear_cheats_loop n s).rom p
    ∨ ((clear_cheats_loop n t).rom p = t.rom p ∧ (clear_cheats_loop n s).rom p = s.rom p) := by
  induction n with
  | zero => intro s t _ _ _ _ _; exact Or.inr ⟨rfl, rfl⟩
  | succ n ih =>
    intro s t hs hmd hrs hl he
    simp only [clear_cheats_loop]
    have cs := clear_body_console s n
    have ct := clear_body_console t n
    have ht : t.isMD = true := by rw [hmd, hs]
    have hrec := ih (clear_cheats_body s n) (clear_cheats_body t n) (by rw [cs.console_isMD, hs])
      (by rw [ct.console_isMD, cs.console_isMD, hmd]) (by rw [ct.2.2.2.1, cs.2.2.2.1, hrs])
      (by rw [ct.2.2.2.2.1, cs.2.2.2.2.1, hl])
      (by
        intro j hj
        rw [clear_body_entry_other t (by omega), clear_body_entry_other s (by omega)]
        exact he j (by omega))
    rcases hrec with h | ⟨h1, h2⟩
    · exact Or.inl h
    · rw [h1, h2, clear_body_md_rom s n hs, clear_body_md_rom t n ht, he n (by omega), hrs, hl]
      split_ifs
      · rcases write16_cases s.lsb_first ((s.cheatlist n).address &&& 0xFFFFFE)
          (s.cheatlist n).old p with h | h
        · exact Or.inl (h _ _)
        · exact Or.inr ⟨h _, h _⟩
      · exact Or.inr ⟨rfl, rfl⟩

/-- In the 8-bit family the loop of Clear leaves no live location on the
enabled entries below the cartridge size that it visited. -/
theorem clear_loop_sms_prev (n : Nat) : ∀ s : State, s.isMD = false →
    ∀ j, j < n → ((clear_cheats_loop n s).cheatlist j).enable = true →
      ((clear_cheats_loop n s).cheatlist j).address < s.romsize →
      ((clear_cheats_loop n s).cheatlist j).prev = none := by
  induction n with
  | zero => intro s _ j hj; omega
  | succ n ih =>
    intro s hmd j hj hen hrs
    simp only [clear_cheats_loop] at hen hrs ⊢
    have cs := clear_body_console s n
    by_cases hjn : j = n
    · subst hjn
      rw [clear_loop_entry_ge j (Nat.le_refl j)] at hen hrs ⊢
      have hc := clear_body_code s j j
      rw [hc.1] at hen
      rw [hc.2.1] at hrs
      unfold clear_cheats_body
      simp only [hen, hrs, hmd, if_true, Bool.false_eq_true, if_false]
      split
      · simp
      · assumption
    · exact ih _ (by rw [cs.console_isMD, hmd]) j (by omega) hen (by rw [cs.2.2.2.1]; exact hrs)

/-- In the 8-bit family the loop of Clear changes nothing when no visited
enabled entry below the cartridge size holds a live location. -/
theorem clear_loop_sms_noop (n : Nat) : ∀ s : State, s.isMD = false →
    (∀ j, j < n → (s.cheatlist j).enable = true → (s.cheatlist j).address < s.romsize →
      (s.cheatlist j).prev = none) →
    clear_cheats_loop n s = s := by
  induction n with
  | zero => intro s _ _; rfl
  | succ n ih =>
    intro s hmd h
    simp only [clear_cheats_loop]
    have hb : clear_cheats_body s n = s := by
      unfold clear_cheats_body
      simp only [hmd, Bool.false_eq_true, if_false]
      split_ifs with h1 h2
      · rw [h n (by omega) h1 h2]
      · rfl
      · rfl
    rw [hb]
    exact ih s hmd (fun j hj => h j (by omega))

/-- The function `clear_cheats` run twice leaves the same ROM bytes as run
once, from every state. -/
theorem clear_cheats_twice_rom (s : State) (p : Nat) :
    (clear_cheats (clear_cheats s)).rom p = (clear_cheats s).rom p := by
  have c := clear_cheats_console s
  cases hcd : s.isCD
  · have e1 : clear_cheats s = clear_cheats_loop s.maxcheats s := by
      simp [clear_cheats, hcd]
    have e2 : clear_cheats (clear_cheats s)
        = clear_cheats_loop s.maxcheats (clear_cheats s) := by
      have h1 : (clear_cheats s).isCD = false := by rw [c.console_isCD, hcd]
      have h2 : (clear_cheats s).maxcheats = s.maxcheats := c.2.2.2.2.2.2
      generalize clear_cheats s = t at h1 h2
      simp [clear_cheats, h1, h2]
    cases hmd : s.isMD
    · rw [e2, clear_loop_sms_noop _ _ (by rw [c.console_isMD, hmd])]
      intro j hj hen hrs
      rw [e1] at hen hrs ⊢
      rw [(clear_loop_console s.maxcheats s).2.2.2.1] at hrs
      exact clear_loop_sms_prev s.maxcheats s hmd j hj hen hrs
    · rw [e2]
      have hpair := clear_loop_md_pair p s.maxcheats s (clear_cheats s) hmd c.console_isMD c.2.2.2.1
        c.2.2.2.2.1 (by
          intro j _
          rw [e1, clear_loop_md_cheatlist _ s hmd])
      rcases hpair with h | ⟨h1, _⟩
      · rw [h, e1]
      · exact h1
  · have e1 : clear_cheats s = s := by simp [clear_cheats, hcd]
    rw [e1, e1]

theorem apply_body_md_prev (s : State) (i k : Nat) (hmd : s.isMD = true) :
    ((apply_cheats_body s i).cheatlist k).prev = (s.cheatlist k).prev := by
  by_cases h : k = i
  · subst h
    unfold apply_cheats_body
    simp only [hmd, if_true]
    split_ifs <;> simp [addRAMpatch]
  · rw [apply_body_entry_other s h]

theorem apply_loop_md_prev (s : State) (n k : Nat) (hmd : s.isMD = true) :
    ((apply_cheats_loop s n).cheatlist k).prev = (s.cheatlist k).prev := by
  induction n with
  | zero => rfl
  | succ n ih =>
    simp only [apply_cheats_loop]
    rw [apply_body_md_prev _ n k (by rw [(apply_loop_console s n).console_isMD, hmd]), ih]

theorem clear_cheats_md_cheatlist (s : State) (hmd : s.isMD = true) :
    (clear_cheats s).cheatlist = s.cheatlist := by
  unfold clear_cheats
  split_ifs
  · rfl
  · exact clear_loop_md_cheatlist _ s hmd

/-- C5: after one `apply_cheats`, a second `clear_cheats` in a row changes no
ROM byte; after the first `clear_cheats` no enabled banked ROM-patch entry
(8-bit family) holds a live location; and in the 16-bit family, where ROM
patches are not tracked by live locations, `apply_cheats` and `clear_cheats`
leave the field `prev` of every entry as it was. -/
theorem clear_cheats_idempotent (s : State) :
    (∀ p, (clear_cheats (clear_cheats (apply_cheats s))).rom p
        = (clear_cheats (apply_cheats s)).rom p)
    ∧ (∀ i, i < s.maxcheats → s.isMD = false → s.isCD = false →
        (s.cheatlist i).enable = true → (s.cheatlist i).address < s.romsize →
        ((clear_cheats (apply_cheats s)).cheatlist i).prev = none)
    ∧ (s.isMD = true →
        ∀ i, ((clear_cheats (apply_cheats s)).cheatlist i).prev = (s.cheatlist i).prev) := by
  refine ⟨fun p => clear_cheats_twice_rom _ p, ?_, ?_⟩
  · intro i hi hmd hcd hen hrs
    have cA := apply_cheats_console s
    have hA := apply_cheats_code s i
    have e1 : clear_cheats (apply_cheats s) = clear_cheats_loop s.maxcheats (apply_cheats s) := by
      have h1 : (apply_cheats s).isCD = false := by rw [cA.console_isCD, hcd]
      have h2 : (apply_cheats s).maxcheats = s.maxcheats := cA.2.2.2.2.2.2
      generalize apply_cheats s = t at h1 h2
      simp [clear_cheats, h1, h2]
    rw [e1]
    have hC := clear_loop_code s.maxcheats i (apply_cheats s)
    apply clear_loop_sms_prev s.maxcheats (apply_cheats s) (by rw [cA.console_isMD, hmd]) i hi
    · rw [hC.1, hA.1, hen]
    · rw [hC.2.1, hA.2.1, cA.2.2.2.1]
      exact hrs
  · intro hmd i
    have cA := apply_cheats_console s
    rw [clear_cheats_md_cheatlist _ (by rw [cA.console_isMD, hmd])]
    exact apply_loop_md_prev { s with maxROMcheats := 0, maxRAMcheats := 0 } s.maxcheats i hmd

/-- Witness for C5: the second of two aliasing banked patches. -/
theorem clear_cheats_idempotent_witness :
    ((apply_cheats smsTable).cheatlist 1).prev = some 0x1123
    ∧ ((clear_cheats (apply_cheats smsTable)).cheatlist 1).prev = none
    ∧ (clear_cheats (clear_cheats (apply_cheats smsTable))).rom 0x1123
        = (clear_cheats (apply_cheats smsTable)).rom 0x1123 :=
  ⟨by decide,
   (clear_cheats_idempotent smsTable).2.1 1 (by decide) (by decide) (by decide) (by decide)
     (by decide),
   (clear_cheats_idempotent smsTable).1 0x1123⟩

/-! ## Bank switches -/

/-- C3, failing input: on an 8-bit console whose cartridge holds `0x55`
everywhere, the code `FF1-23E` (address `0x1123`, data `0xFF`, no reference)
is set, the core switches to mapping B and calls `ROMCheatUpdate`, and the
table is reset. The hook patches the byte now visible (offset `0x5123`)
because the entry has no reference, and Clear then stores the reference 0
there: the byte ends as `0x00`, not as `0x55`. -/
theorem restore_without_reference_not_exact :
    smsConsole.rom 0x5123 = toByte 0x55
    ∧ ((retro_cheat_set smsConsole true (some "FF1-23E".toList)).cheatlist 0).address = 0x1123
    ∧ ((retro_cheat_set smsConsole true (some "FF1-23E".toList)).cheatlist 0).old = 0
    ∧ (retro_cheat_set smsConsole true (some "FF1-23E".toList)).rom 0x5123 = toByte 0x55
    ∧ (ROMCheatUpdate (remap (retro_cheat_set smsConsole true (some "FF1-23E".toList))
          bankB)).rom 0x5123 = toByte 0xFF
    ∧ (retro_cheat_reset (ROMCheatUpdate (remap
          (retro_cheat_set smsConsole true (some "FF1-23E".toList)) bankB))).rom 0x5123
        = toByte 0x00 := by
  decide

/-- C4, counterexample. First table: an enabled banked patch with reference
`r = 0` whose byte is `r` under mapping A and `0x66` under mapping B; after
`apply_cheats` under A and `ROMCheatUpdate` under B, the byte of bank B is
patched (`0xFF`) instead of unchanged. Second table: an enabled banked patch
with reference `0x55`, matched under A and not under B, shares its address
with a second patch; after `apply_cheats` under A the byte visible at the
address is the data of the second patch (`0xBB`), not its own (`0xAA`). Third
table: the patch at `0x1123` with reference `0x55`, matched under A and not
under B, beside a patch at `0x5123` that resolves to another byte under A and
to the same byte under B; after `apply_cheats` under A and `ROMCheatUpdate`
under B, the byte of bank B holds the data of the other patch (`0xBB`) instead
of being unchanged. Fourth table: the patch at `0x1123` beside a patch at
`0x5123` that under B resolves to the byte which `0x1123` shows under A;
after `apply_cheats` under A and `ROMCheatUpdate` under B, the byte of bank A
holds the data of the other patch (`0xBB`), not the reference. -/
theorem bank_switch_counterexample :
    ((zeroRefTable.cheatlist 0).enable = true ∧ (zeroRefTable.cheatlist 0).old = 0
      ∧ zeroRefTable.rom (bankedPtr zeroRefTable 0x1123) = toByte 0
      ∧ zeroRefTable.rom (bankedPtr (remap zeroRefTable bankB) 0x1123) ≠ toByte 0
      ∧ (apply_cheats zeroRefTable).rom (bankedPtr zeroRefTable 0x1123) = toByte 0xFF
      ∧ (ROMCheatUpdate (remap (apply_cheats zeroRefTable) bankB)).rom
            (bankedPtr (remap zeroRefTable bankB) 0x1123)
          ≠ zeroRefTable.rom (bankedPtr (remap zeroRefTable bankB) 0x1123))
    ∧ ((aliasTable.cheatlist 0).enable = true ∧ (aliasTable.cheatlist 0).old = 0x55
      ∧ (aliasTable.cheatlist 0).data = 0xAA
      ∧ aliasTable.rom (bankedPtr aliasTable 0x1123) = toByte 0x55
      ∧ aliasTable.rom (bankedPtr (remap aliasTable bankB) 0x1123) ≠ toByte 0x55
      ∧ (apply_cheats aliasTable).rom (bankedPtr aliasTable 0x1123) ≠ toByte 0xAA)
    ∧ ((mirrorTable.cheatlist 0).enable = true ∧ (mirrorTable.cheatlist 0).old = 0x55
      ∧ mirrorTable.rom (bankedPtr mirrorTable 0x1123) = toByte 0x55
      ∧ mirrorTable.rom (bankedPtr (remap mirrorTable bankMirror) 0x1123) = toByte 0x66
      ∧ bankedPtr mirrorTable 0x5123 ≠ bankedPtr mirrorTable 0x1123
      ∧ bankedPtr (remap mirrorTable bankMirror) 0x5123
          = bankedPtr (remap mirrorTable bankMirror) 0x1123
      ∧ (ROMCheatUpdate (remap (apply_cheats mirrorTable) bankMirror)).rom
            (bankedPtr (remap mirrorTable bankMirror) 0x1123) = toByte 0xBB)
    ∧ ((swapTable.cheatlist 1).enable = true ∧ (swapTable.cheatlist 1).old = 0x55
      ∧ swapTable.rom (bankedPtr swapTable 0x1123) = toByte 0x55
      ∧ swapTable.rom (bankedPtr (remap swapTable bankSwap) 0x1123) = toByte 0x66
      ∧ bankedPtr swapTable 0x5123 ≠ bankedPtr swapTable 0x1123
      ∧ bankedPtr (remap swapTable bankSwap) 0x5123 = bankedPtr swapTable 0x1123
      ∧ (ROMCheatUpdate (remap (apply_cheats swapTable) bankSwap)).rom
            (bankedPtr swapTable 0x1123) = toByte 0xBB) := by
  decide

/-- An enabled entry that is not a ROM patch is either skipped by the loop of
Apply or added to the RAM list. -/
theorem apply_body_nonrom (t : State) (j : Nat) (hcd : t.isCD = false)
    (h : ¬ ((t.cheatlist j).enable = true ∧ (t.cheatlist j).address < 0xFF0000
      ∧ (t.cheatlist j).address < t.romsize)) :
    apply_cheats_body t j = t ∨ apply_cheats_body t j = addRAMpatch t j := by
  by_cases h1 : (t.cheatlist j).enable = true
  · by_cases h2 : 0xFF0000 ≤ (t.cheatlist j).address
    · right
      simp [apply_cheats_body, h1, h2]
    · have h3 : ¬ (t.cheatlist j).address < t.romsize := fun h3 => h ⟨h1, by omega, h3⟩
      left
      simp [apply_cheats_body, h1, h2, hcd, h3]
  · left
    simp [apply_cheats_body, h1]

/-- The loop of Apply on a table whose only banked ROM patch is entry `i`,
with a reference that matches the visible byte: state after `n` iterations. -/
theorem apply_loop_single (s : State) (i : Nat) (hfam : s.isMD = false) (hcd : s.isCD = false)
    (hmax : s.maxcheats ≤ MAX_CHEATS) (hrom0 : s.maxROMcheats = 0) (hram0 : s.maxRAMcheats = 0)
    (hen : (s.cheatlist i).enable = true) (hlow : (s.cheatlist i).address < 0xFF0000)
    (hrs : (s.cheatlist i).address < s.romsize)
    (hA : (s.cheatlist i).old % 256 = (s.rom (bankedPtr s (s.cheatlist i).address)).val)
    (hothers : ∀ j, j < s.maxcheats → j ≠ i →
      ¬ ((s.cheatlist j).enable = true ∧ (s.cheatlist j).address < 0xFF0000
        ∧ (s.cheatlist j).address < s.romsize))
    (n : Nat) (hn : n ≤ s.maxcheats) :
    (n ≤ i → (apply_cheats_loop s n).rom = s.rom ∧ (apply_cheats_loop s n).maxROMcheats = 0
      ∧ (apply_cheats_loop s n).maxRAMcheats ≤ n)
    ∧ (i < n →
        (apply_cheats_loop s n).rom
          = write8 s.rom (bankedPtr s (s.cheatlist i).address) (s.cheatlist i).data
        ∧ (apply_cheats_loop s n).maxROMcheats = 1
        ∧ (apply_cheats_loop s n).maxRAMcheats + 1 ≤ n
        ∧ (apply_cheats_loop s n).cheatIndexes (MAX_CHEATS - 1) = i
        ∧ (apply_cheats_loop s n).cheatlist i
            = { s.cheatlist i with prev := some (bankedPtr s (s.cheatlist i).address) }) := by
  induction n with
  | zero =>
    refine ⟨fun _ => ⟨rfl, hrom0, ?_⟩, fun h => by omega⟩
    simp [apply_cheats_loop, hram0]
  | succ n ih =>
    obtain ⟨ih1, ih2⟩ := ih (by omega)
    have cA := apply_loop_console s n
    have hent : (apply_cheats_loop s n).cheatlist n = s.cheatlist n :=
      apply_loop_entry_ge s n (Nat.le_refl n)
    have hcdA : (apply_cheats_loop s n).isCD = false := by rw [cA.console_isCD, hcd]
    simp only [apply_cheats_loop]
    rcases Nat.lt_trichotomy n i with hlt | heq | hgt
    · -- before the patch
      obtain ⟨r1, r2, r3⟩ := ih1 (by omega)
      refine ⟨fun _ => ?_, fun h => by omega⟩
      have hno := hothers n (by omega) (by omega)
      rw [← hent, ← cA.2.2.2.1] at hno
      rcases apply_body_nonrom _ n hcdA hno with e | e
      · rw [e]; exact ⟨r1, r2, by omega⟩
      · rw [e]; simp only [addRAMpatch]; exact ⟨r1, r2, by omega⟩
    · -- the patch itself
      subst heq
      obtain ⟨r1, r2, r3⟩ := ih1 (Nat.le_refl n)
      refine ⟨fun h => by omega, fun _ => ?_⟩
      have hmdA : (apply_cheats_loop s n).isMD = false := by rw [cA.console_isMD, hfam]
      have hptr : bankedPtr (apply_cheats_loop s n) (s.cheatlist n).address
          = bankedPtr s (s.cheatlist n).address := by
        simp only [bankedPtr, cA.2.2.2.2.2.1]
      have hn150 : n % 256 = n := by
        apply Nat.mod_eq_of_lt
        simp only [MAX_CHEATS] at hmax
        omega
      have hnot : ¬ 0xFF0000 ≤ (s.cheatlist n).address := by omega
      unfold apply_cheats_body
      simp only [hent, hen, hnot, hcdA, cA.2.2.2.1, hrs, hmdA, hptr, r1, hA, r2, if_true,
        Bool.false_eq_true, if_false, upd_same, hn150]
      exact ⟨trivial, trivial, by omega, trivial, trivial⟩
    · -- after the patch
      obtain ⟨r1, r2, r3, r4, r5⟩ := ih2 (by omega)
      refine ⟨fun h => by omega, fun _ => ?_⟩
      have hno := hothers n (by omega) (by omega)
      rw [← hent, ← cA.2.2.2.1] at hno
      rcases apply_body_nonrom _ n hcdA hno with e | e
      · rw [e]; exact ⟨r1, r2, by omega, r4, r5⟩
      · rw [e]
        simp only [addRAMpatch]
        refine ⟨r1, r2, by omega, ?_, r5⟩
        rw [upd_other _ _ (by simp only [MAX_CHEATS] at hmax ⊢; omega)]
        exact r4

theorem remap_cheatlist (s : State) (m : Nat → Nat) : (remap s m).cheatlist = s.cheatlist := rfl

theorem remap_rom (s : State) (m : Nat → Nat) : (remap s m).rom = s.rom := rfl

theorem bankedPtr_remap (s : State) (m : Nat → Nat) (a : Nat) :
    bankedPtr (remap s m) a = m (a >>> 10) + (a &&& 0x03FF) := rfl

theorem ROMCheatUpdate_one (u : State) (h : u.maxROMcheats = 1) :
    ROMCheatUpdate u = ROMCheatUpdate_body u 1 := by
  unfold ROMCheatUpdate
  rw [h]
  rfl

/-- One iteration of the hook on an entry with a live location, a reference,
and no match under the new mapping: the old location is restored and the
entry stays unpatched. -/
theorem ROMCheatUpdate_body_absent (u : State) (cnt i q : Nat)
    (hidx : u.cheatIndexes (MAX_CHEATS - cnt) = i) (hprev : (u.cheatlist i).prev = some q)
    (hr : (u.cheatlist i).old ≠ 0)
    (hno : (u.cheatlist i).old % 256
      ≠ (write8 u.rom q (u.cheatlist i).old (bankedPtr u (u.cheatlist i).address)).val) :
    ROMCheatUpdate_body u cnt =
      { u with rom := write8 u.rom q (u.cheatlist i).old,
               cheatlist := upd u.cheatlist i { u.cheatlist i with prev := none } } := by
  unfold ROMCheatUpdate_body
  simp only [hidx, hprev, upd_same, bankedPtr] at hno ⊢
  simp [hr, hno]

/-- One iteration of the hook on an entry without live location whose
reference matches the byte now visible: the byte is patched and becomes the
live location. -/
theorem ROMCheatUpdate_body_present (u : State) (cnt i : Nat)
    (hidx : u.cheatIndexes (MAX_CHEATS - cnt) = i) (hprev : (u.cheatlist i).prev = none)
    (hyes : (u.cheatlist i).old % 256 = (u.rom (bankedPtr u (u.cheatlist i).address)).val) :
    ROMCheatUpdate_body u cnt =
      { u with rom := write8 u.rom (bankedPtr u (u.cheatlist i).address) (u.cheatlist i).data,
               cheatlist := upd u.cheatlist i
                 { u.cheatlist i with prev := some (bankedPtr u (u.cheatlist i).address) } } := by
  unfold ROMCheatUpdate_body
  simp only [hidx, hprev, bankedPtr] at hyes ⊢
  simp [hyes]

/-! ## The public interface -/

theorem sameCartridge_refl (s : State) : SameCartridge s s := by
  simp [SameCartridge]

theorem SameCartridge.cart_trans {s t u : State} (h1 : SameCartridge s t) (h2 : SameCartridge t u) :
    SameCartridge s u := by
  unfold SameCartridge at h1 h2 ⊢
  refine ⟨?_, ?_, ?_, ?_, ?_, ?_⟩
  · rw [h2.1, h1.1]
  · rw [h2.2.1, h1.2.1]
  · rw [h2.2.2.1, h1.2.2.1]
  · rw [h2.2.2.2.1, h1.2.2.2.1]
  · rw [h2.2.2.2.2.1, h1.2.2.2.2.1]
  · rw [h2.2.2.2.2.2, h1.2.2.2.2.2]

theorem SameConsole.cartridge {s t : State} (h : SameConsole s t) : SameCartridge s t := by
  obtain ⟨a1, a2, a3, a4, a5, a6, -⟩ := h
  exact ⟨a1, a2, a3, a4, a5, a6⟩

theorem SameCartridge.cart_isMD {s t : State} (h : SameCartridge s t) : t.isMD = s.isMD := by
  obtain ⟨a1, a2, -, -, -, -⟩ := h
  simp [State.isMD, a1, a2]

theorem SameCartridge.cart_isCD {s t : State} (h : SameCartridge s t) : t.isCD = s.isCD := by
  obtain ⟨a1, a2, a3, -, -, -⟩ := h
  simp [State.isCD, a1, a2, a3]

theorem decode_cheat_cartridge (s : State) (string : List Char) (index : Nat) :
    SameCartridge s (decode_cheat s string index).2
    ∧ (decode_cheat s string index).2.rom = s.rom
    ∧ (decode_cheat s string index).2.maxcheats = s.maxcheats := by
  unfold decode_cheat
  split
  · exact ⟨sameCartridge_refl s, rfl, rfl⟩
  · split_ifs
    · exact ⟨sameCartridge_refl s, rfl, rfl⟩
    · exact ⟨sameCartridge_refl s, rfl, rfl⟩

theorem piece_cartridge (enabled : Bool) (s : State) (buff : List Char) :
    SameCartridge s (retro_cheat_set_piece enabled s buff)
    ∧ (retro_cheat_set_piece enabled s buff).rom = s.rom := by
  obtain ⟨h1, h2, -⟩ := decode_cheat_cartridge s buff s.maxcheats
  unfold retro_cheat_set_piece
  simp only []
  split_ifs
  · exact ⟨h1, h2⟩
  · exact ⟨h1, h2⟩
  · exact ⟨sameCartridge_refl s, rfl⟩

theorem pieces_cartridge (enabled : Bool) (l : List (List Char)) : ∀ s : State,
    SameCartridge s (l.foldl (retro_cheat_set_piece enabled) s)
    ∧ (l.foldl (retro_cheat_set_piece enabled) s).rom = s.rom := by
  induction l with
  | nil => intro s; exact ⟨sameCartridge_refl s, rfl⟩
  | cons b l ih =>
    intro s
    obtain ⟨h1, h2⟩ := piece_cartridge enabled s b
    obtain ⟨h3, h4⟩ := ih (retro_cheat_set_piece enabled s b)
    exact ⟨h1.cart_trans h3, by simp only [List.foldl_cons]; rw [h4, h2]⟩

/-- What a call of `retro_cheat_set` keeps when the cartridge has at most
`0xFF0000` bytes: the console, and the fact that `clear_cheats` would bring
back the ROM content `rom0`. -/
theorem retro_cheat_set_restorable (s : State) (enabled : Bool) (code : Option (List Char))
    (rom0 : Nat → Byte) (hrs : s.romsize ≤ 0xFF0000)
    (h : ∀ p, (clear_cheats s).rom p = rom0 p) :
    SameCartridge s (retro_cheat_set s enabled code)
    ∧ ∀ p, (clear_cheats (retro_cheat_set s enabled code)).rom p = rom0 p := by
  cases code with
  | none => exact ⟨sameCartridge_refl s, h⟩
  | some c =>
    simp only [retro_cheat_set]
    have c1 := (clear_cheats_console s).cartridge
    obtain ⟨c2, r2⟩ := pieces_cartridge enabled (strtok_views false (codeCopy c)) (clear_cheats s)
    have c3 := (apply_cheats_console
      ((strtok_views false (codeCopy c)).foldl (retro_cheat_set_piece enabled)
        (clear_cheats s))).cartridge
    have c12 := c1.cart_trans c2
    refine ⟨c12.cart_trans c3, fun p => ?_⟩
    rw [apply_clear_rom, r2]
    · exact h p
    · intro j _ _ hram hlt
      rw [c12.2.2.2.1] at hlt
      omega

/-! ## A code string without joiner -/

theorem strlen_ge_congr {a b : List Char} (n : Nat) (h : ∀ i, i < n → charAt a i = charAt b i) :
    strlen_ge a n = strlen_ge b n := by
  rw [Bool.eq_iff_iff]
  simp only [strlen_ge, List.all_eq_true, List.mem_range]
  constructor
  · intro H i hi
    rw [← h i hi]
    exact H i hi
  · intro H i hi
    rw [h i hi]
    exact H i hi

theorem hex_loop_congr {a b : List Char} (ps : List Nat)
    (h : ∀ p, p ∈ ps → charAt a p = charAt b p) :
    ∀ nib acc, hex_loop a ps nib acc = hex_loop b ps nib acc := by
  induction ps with
  | nil => intro nib acc; rfl
  | cons p ps ih =>
    intro nib acc
    simp only [hex_loop]
    rw [h p (List.mem_cons_self p ps)]
    split
    · rfl
    · exact ih (fun q hq => h q (List.mem_cons_of_mem p hq)) _ _

theorem hex_loop_break_congr {a b : List Char} (ps : List Nat)
    (h : ∀ p, p ∈ ps → charAt a p = charAt b p) :
    ∀ nib acc, hex_loop_break a ps nib acc = hex_loop_break b ps nib acc := by
  induction ps with
  | nil => intro nib acc; rfl
  | cons p ps ih =>
    intro nib acc
    simp only [hex_loop_break]
    rw [h p (List.mem_cons_self p ps)]
    split
    · rfl
    · exact ih (fun q hq => h q (List.mem_cons_of_mem p hq)) _ _

theorem gg_loop_congr {a b : List Char} (h : ∀ i, i < 11 → charAt a i = charAt b i) :
    ∀ fuel i pos ad, pos + fuel + (if i ≤ 4 then 1 else 0) ≤ 9 →
      gg_loop a fuel i pos ad = gg_loop b fuel i pos ad := by
  intro fuel
  induction fuel with
  | zero => intro i pos ad _; rfl
  | succ fuel ih =>
    intro i pos ad hb
    simp only [gg_loop]
    have hpos : (if i = 4 then pos + 1 else pos) < 11 := by
      split_ifs <;> split_ifs at hb <;> omega
    rw [h _ hpos]
    split
    · rfl
    · apply ih
      split_ifs <;> split_ifs at hb <;> omega

/-- The decoder reads at most the first eleven characters. -/
theorem decode_congr (md : Bool) {a b : List Char} (h : ∀ i, i < 11 → charAt a i = charAt b i) :
    decode md a = decode md b := by
  have hm : ∀ ps : List Nat, (∀ p, p ∈ ps → p < 11) → ∀ p, p ∈ ps → charAt a p = charAt b p :=
    fun ps hps p hp => h p (hps p hp)
  have s7 := strlen_ge_congr 7 (fun i hi => h i (by omega))
  have s9 := strlen_ge_congr 9 (fun i hi => h i (by omega))
  cases md
  · simp only [decode, decode_sms, decode_sms_raw, Bool.false_eq_true, if_false, s7, s9,
      h 3 (by omega), h 4 (by omega), h 6 (by omega), h 7 (by omega),
      hex_loop_congr [0, 1] (hm _ (by decide)), hex_loop_congr [2, 4, 5] (hm _ (by decide)),
      hex_loop_congr [8, 10] (hm _ (by decide)), hex_loop_congr [2, 3, 5, 6] (hm _ (by decide)),
      hex_loop_congr [7, 8] (hm _ (by decide)), hex_loop_congr [0, 1, 2, 3] (hm _ (by decide)),
      hex_loop_congr [5, 6] (hm _ (by decide)), hex_loop_congr [2, 3, 4, 5] (hm _ (by decide))]
  · simp only [decode, decode_md, if_true, s9, h 4 (by omega), h 6 (by omega),
      gg_loop_congr h 8 0 0 (0, 0) (by decide),
      hex_loop_congr [0, 1, 2, 3, 4, 5] (hm _ (by decide)),
      hex_loop_break_congr [7, 8, 9, 10] (hm _ (by decide))]

theorem cstring_eq_self {code : List Char} (hnul : NUL ∉ code) : cstring code = code := by
  unfold cstring
  rw [List.takeWhile_eq_self_iff]
  intro c hc
  simp only [bne_iff_ne, ne_eq]
  intro h
  exact hnul (h ▸ hc)

theorem codeCopy_eq {code : List Char} (hnul : NUL ∉ code) :
    codeCopy code
      = code.take 255 ++ NUL :: List.replicate (255 - (code.take 255).length) NUL := by
  unfold codeCopy
  rw [cstring_eq_self hnul]
  have hl : (code.take 255).length ≤ 255 := by
    rw [List.length_take]
    omega
  have : 256 - (code.take 255).length = (255 - (code.take 255).length) + 1 := by omega
  rw [this, List.replicate_succ]

theorem charAt_codeCopy {code : List Char} (hnul : NUL ∉ code) (i : Nat) (hi : i < 255) :
    charAt (codeCopy code) i = charAt code i := by
  rw [codeCopy_eq hnul]
  unfold charAt
  rw [List.getD_eq_getElem?_getD, List.getD_eq_getElem?_getD]
  by_cases h : i < code.length
  · have h2 : i < (code.take 255).length := by
      rw [List.length_take]
      omega
    rw [List.getElem?_append_left h2, List.getElem?_take_of_lt hi]
  · have h2 : (code.take 255).length ≤ i := by
      rw [List.length_take]
      omega
    rw [List.getElem?_append_right h2, List.getElem?_eq_none (by omega : code.length ≤ i)]
    cases hk : i - (code.take 255).length with
    | zero => simp
    | succ k =>
      simp only [List.getElem?_cons_succ, Option.getD_none]
      by_cases hk2 : k < 255 - (code.take 255).length
      · rw [List.getElem?_eq_getElem (by simpa using hk2)]
        simp
      · rw [List.getElem?_eq_none (by simpa using hk2)]
        simp

theorem terminateToken_append (pre rest : List Char)
    (h : ∀ c, c ∈ pre → c ≠ NUL ∧ c ≠ '+') :
    terminateToken (pre ++ NUL :: rest) = pre ++ NUL :: rest := by
  induction pre with
  | nil => simp [terminateToken]
  | cons c pre ih =>
    obtain ⟨h1, h2⟩ := h c (List.mem_cons_self c pre)
    simp only [List.cons_append, terminateToken, h1, h2, if_false, List.append_eq]
    rw [ih (fun d hd => h d (List.mem_cons_of_mem c hd))]

theorem strtok_views_in_token (pre rest : List Char)
    (h : ∀ c, c ∈ pre → c ≠ NUL ∧ c ≠ '+') :
    strtok_views true (pre ++ NUL :: rest) = [] := by
  induction pre with
  | nil => simp [strtok_views]
  | cons c pre ih =>
    obtain ⟨h1, h2⟩ := h c (List.mem_cons_self c pre)
    simp only [List.cons_append, strtok_views, h1, h2, if_false, if_true, List.append_eq]
    exact ih (fun d hd => h d (List.mem_cons_of_mem c hd))

/-- A code without joiner is handed to the decoder as one token: the copy of
the whole string. -/
theorem strtok_views_single {code : List Char} (hplus : '+' ∉ code) (hnul : NUL ∉ code)
    (hne : code ≠ []) : strtok_views false (codeCopy code) = [codeCopy code] := by
  rw [codeCopy_eq hnul]
  have hpre : ∀ c, c ∈ code.take 255 → c ≠ NUL ∧ c ≠ '+' := by
    intro c hc
    have hc2 := List.mem_of_mem_take hc
    exact ⟨fun h => hnul (h ▸ hc2), fun h => hplus (h ▸ hc2)⟩
  cases hcode : code.take 255 with
  | nil =>
    cases code with
    | nil => exact absurd rfl hne
    | cons c cs => simp at hcode
  | cons c pre =>
    rw [hcode] at hpre
    obtain ⟨h1, h2⟩ := hpre c (List.mem_cons_self c pre)
    have hrest : ∀ d, d ∈ pre → d ≠ NUL ∧ d ≠ '+' :=
      fun d hd => hpre d (List.mem_cons_of_mem c hd)
    simp only [List.cons_append, strtok_views, h1, h2, if_false, Bool.false_eq_true,
      List.append_eq]
    rw [strtok_views_in_token pre _ hrest]
    have := terminateToken_append (c :: pre) (List.replicate (255 - (c :: pre).length) NUL) hpre
    simp only [List.cons_append] at this
    rw [this]

/-- Setting one code without joiner: Clear, one pass of the loop body on the
copy of the string, Apply. -/
theorem retro_cheat_set_single (s : State) (enabled : Bool) {code : List Char}
    (hplus : '+' ∉ code) (hnul : NUL ∉ code) (hne : code ≠ []) :
    retro_cheat_set s enabled (some code)
      = apply_cheats (retro_cheat_set_piece enabled (clear_cheats s) (codeCopy code)) := by
  simp only [retro_cheat_set, strtok_views_single hplus hnul hne, List.foldl_cons, List.foldl_nil]

theorem decode_codeCopy (md : Bool) {code : List Char} (hnul : NUL ∉ code) :
    decode md (codeCopy code) = decode md code :=
  decode_congr md (fun i hi => charAt_codeCopy hnul i (by omega))

/-! ## Merging of duplicates -/

/-- The search loop of `retro_cheat_set` returns the first index from `i` on
whose address and data equal those of slot `maxcheats`, or `i + fuel`. -/
theorem find_cheat_spec (u : State) : ∀ fuel i,
    i ≤ find_cheat u fuel i ∧ find_cheat u fuel i ≤ i + fuel
    ∧ (∀ k, i ≤ k → k < find_cheat u fuel i →
        ¬ ((u.cheatlist k).address = (u.cheatlist u.maxcheats).address
          ∧ (u.cheatlist k).data = (u.cheatlist u.maxcheats).data))
    ∧ (find_cheat u fuel i < i + fuel →
        (u.cheatlist (find_cheat u fuel i)).address = (u.cheatlist u.maxcheats).address
          ∧ (u.cheatlist (find_cheat u fuel i)).data = (u.cheatlist u.maxcheats).data) := by
  intro fuel
  induction fuel with
  | zero =>
    intro i
    simp only [find_cheat]
    exact ⟨Nat.le_refl i, Nat.le_refl i, fun k h1 h2 => by omega, fun h => by omega⟩
  | succ fuel ih =>
    intro i
    simp only [find_cheat]
    split_ifs with hm
    · exact ⟨Nat.le_refl i, by omega, fun k h1 h2 => by omega, fun _ => hm⟩
    · obtain ⟨a1, a2, a3, a4⟩ := ih (i + 1)
      refine ⟨by omega, by omega, ?_, fun h => a4 (by omega)⟩
      intro k h1 h2
      by_cases hk : k = i
      · subst hk; exact hm
      · exact a3 k (by omega) h2

/-- One pass of the loop body of `retro_cheat_set` on a valid code that
decodes to `d`: with `r` the first entry below the count that holds the pair
`(d.address, d.data)`, or the count itself when there is none, entry `r` ends
up holding the pair with the requested flag, no other entry below the count
changes its address, data or flag, and the count grows by one exactly when `r`
is the count and the table has room. -/
theorem piece_valid (enabled : Bool) (t : State) (v : List Char) (d : Decoded)
    (hdec : decode t.isMD v = some d) (hacc : d.len ≠ 0) :
    ∃ r, r ≤ t.maxcheats
      ∧ (∀ k, k < r → ¬ ((t.cheatlist k).address = d.address ∧ (t.cheatlist k).data = d.data))
      ∧ ((retro_cheat_set_piece enabled t v).cheatlist r).address = d.address
      ∧ ((retro_cheat_set_piece enabled t v).cheatlist r).data = d.data
      ∧ ((retro_cheat_set_piece enabled t v).cheatlist r).enable = enabled
      ∧ (∀ k, k < t.maxcheats →
          ((retro_cheat_set_piece enabled t v).cheatlist k).address = (t.cheatlist k).address
          ∧ ((retro_cheat_set_piece enabled t v).cheatlist k).data = (t.cheatlist k).data
          ∧ (k ≠ r → ((retro_cheat_set_piece enabled t v).cheatlist k).enable
              = (t.cheatlist k).enable))
      ∧ (retro_cheat_set_piece enabled t v).maxcheats
          = (if r = t.maxcheats ∧ t.maxcheats < MAX_CHEATS then t.maxcheats + 1
             else t.maxcheats) := by
  have hd : decode_cheat t v t.maxcheats = (d.len, storeCheat t t.maxcheats d) := by
    simp [decode_cheat, hdec, hacc]
  have hun : (storeCheat t t.maxcheats d).maxcheats = t.maxcheats := rfl
  have hslot : (storeCheat t t.maxcheats d).cheatlist t.maxcheats
      = { t.cheatlist t.maxcheats with address := d.address, data := d.data, old := d.ref } := by
    simp [storeCheat]
  have hrest : ∀ k, k ≠ t.maxcheats → (storeCheat t t.maxcheats d).cheatlist k = t.cheatlist k := by
    intro k hk
    simp [storeCheat, upd_other _ _ hk]
  obtain ⟨-, a2, a3, a4⟩ := find_cheat_spec (storeCheat t t.maxcheats d) t.maxcheats 0
  rw [hun, hslot] at a3 a4
  simp only [Nat.zero_add] at a2 a3 a4
  generalize hr : find_cheat (storeCheat t t.maxcheats d) t.maxcheats 0 = r at a2 a3 a4
  have hpiece : retro_cheat_set_piece enabled t v
      = if r = t.maxcheats ∧ r < MAX_CHEATS then
          { storeCheat t t.maxcheats d with
              cheatlist := upd (storeCheat t t.maxcheats d).cheatlist r
                { (storeCheat t t.maxcheats d).cheatlist r with enable := enabled },
              maxcheats := t.maxcheats + 1 }
        else
          { storeCheat t t.maxcheats d with
              cheatlist := upd (storeCheat t t.maxcheats d).cheatlist r
                { (storeCheat t t.maxcheats d).cheatlist r with enable := enabled } } := by
    unfold retro_cheat_set_piece
    simp only [hd, hacc, ne_eq, not_false_eq_true, if_true, hun, hr]
  refine ⟨r, a2, ?_, ?_⟩
  · intro k hk
    have := a3 k (Nat.zero_le k) hk
    rwa [hrest k (by omega)] at this
  · have hentry : ∀ k, ((retro_cheat_set_piece enabled t v).cheatlist k)
        = if k = r then { (storeCheat t t.maxcheats d).cheatlist r with enable := enabled }
          else (storeCheat t t.maxcheats d).cheatlist k := by
      intro k
      rw [hpiece]
      split_ifs with h1 h2 h2
      · rw [h2]; simp
      · simp [upd_other _ _ h2]
      · rw [h2]; simp
      · simp [upd_other _ _ h2]
    have hpair : ((storeCheat t t.maxcheats d).cheatlist r).address = d.address
        ∧ ((storeCheat t t.maxcheats d).cheatlist r).data = d.data := by
      rcases Nat.lt_or_ge r t.maxcheats with hlt | hge
      · exact a4 hlt
      · have : r = t.maxcheats := by omega
        rw [this, hslot]
        exact ⟨rfl, rfl⟩
    refine ⟨?_, ?_, ?_, fun k hk => ?_, ?_⟩
    · rw [hentry r]; simp only [if_true]; exact hpair.1
    · rw [hentry r]; simp only [if_true]; exact hpair.2
    · rw [hentry r]
      simp
    · rw [hentry k]
      by_cases hkr : k = r
      · subst hkr
        simp only [if_true]
        rw [hrest k (by omega)]
        exact ⟨rfl, rfl, fun h => absurd rfl h⟩
      · simp only [hkr, if_false]
        rw [hrest k (by omega)]
        exact ⟨rfl, rfl, fun _ => rfl⟩
    · rw [hpiece]
      by_cases h1 : r = t.maxcheats ∧ r < MAX_CHEATS
      · have h2 : r = t.maxcheats ∧ t.maxcheats < MAX_CHEATS := ⟨h1.1, h1.1 ▸ h1.2⟩
        simp only [h1, h2, and_self, if_true]
      · have h2 : ¬ (r = t.maxcheats ∧ t.maxcheats < MAX_CHEATS) :=
          fun h => h1 ⟨h.1, h.1.symm ▸ h.2⟩
        simp only [h1, h2, if_false]
        rfl

theorem decode_nil (md : Bool) : decode md [] = some { len := 0, address := 0, data := 0, ref := 0 } := by
  cases md <;> decide

/-- A call of `retro_cheat_set` with one valid code without joiner, in terms
of the table before and after the call. -/
theorem set_valid (s : State) (enabled : Bool) (code : List Char) (d : Decoded)
    (hplus : '+' ∉ code) (hnul : NUL ∉ code)
    (hdec : decode s.isMD code = some d) (hacc : d.len ≠ 0) :
    ∃ r, r ≤ s.maxcheats
      ∧ (∀ k, k < r → ¬ ((s.cheatlist k).address = d.address ∧ (s.cheatlist k).data = d.data))
      ∧ ((retro_cheat_set s enabled (some code)).cheatlist r).address = d.address
      ∧ ((retro_cheat_set s enabled (some code)).cheatlist r).data = d.data
      ∧ ((retro_cheat_set s enabled (some code)).cheatlist r).enable = enabled
      ∧ (∀ k, k < s.maxcheats →
          ((retro_cheat_set s enabled (some code)).cheatlist k).address = (s.cheatlist k).address
          ∧ ((retro_cheat_set s enabled (some code)).cheatlist k).data = (s.cheatlist k).data
          ∧ (k ≠ r → ((retro_cheat_set s enabled (some code)).cheatlist k).enable
              = (s.cheatlist k).enable))
      ∧ (retro_cheat_set s enabled (some code)).maxcheats
          = (if r = s.maxcheats ∧ s.maxcheats < MAX_CHEATS then s.maxcheats + 1
             else s.maxcheats)
      ∧ (retro_cheat_set s enabled (some code)).isMD = s.isMD := by
  have hne : code ≠ [] := by
    intro h
    rw [h, decode_nil] at hdec
    injection hdec with h2
    rw [← h2] at hacc
    exact hacc rfl
  rw [retro_cheat_set_single s enabled hplus hnul hne]
  have cC := clear_cheats_console s
  have hdec2 : decode (clear_cheats s).isMD (codeCopy code) = some d := by
    rw [cC.console_isMD, decode_codeCopy _ hnul, hdec]
  obtain ⟨r, p1, p2, p3, p4, p5, p6, p7⟩ :=
    piece_valid enabled (clear_cheats s) (codeCopy code) d hdec2 hacc
  have cA := apply_cheats_console (retro_cheat_set_piece enabled (clear_cheats s) (codeCopy code))
  have hA := fun k => apply_cheats_code
    (retro_cheat_set_piece enabled (clear_cheats s) (codeCopy code)) k
  have hC := fun k => clear_cheats_code s k
  have hm : (clear_cheats s).maxcheats = s.maxcheats := cC.2.2.2.2.2.2
  rw [hm] at p1 p6 p7
  refine ⟨r, p1, ?_, ?_, ?_, ?_, ?_, ?_, ?_⟩
  · intro k hk
    have := p2 k hk
    rwa [(hC k).2.1, (hC k).2.2] at this
  · rw [(hA r).2.1]; exact p3
  · rw [(hA r).2.2]; exact p4
  · rw [(hA r).1]; exact p5
  · intro k hk
    obtain ⟨q1, q2, q3⟩ := p6 k hk
    rw [(hA k).2.1, (hA k).2.2, (hA k).1, q1, q2, (hC k).2.1, (hC k).2.2]
    exact ⟨rfl, rfl, fun h => by rw [q3 h, (hC k).1]⟩
  · rw [cA.2.2.2.2.2.2]; exact p7
  · rw [cA.console_isMD, (piece_cartridge enabled (clear_cheats s) (codeCopy code)).1.cart_isMD, cC.console_isMD]

/-! ## Rejected codes -/

/-- What `decode_cheat` returns depends on the state only through the family. -/
theorem decode_cheat_len_congr (s t : State) (string : List Char) (i j : Nat)
    (h : t.isMD = s.isMD) : (decode_cheat t string j).1 = (decode_cheat s string i).1 := by
  unfold decode_cheat
  rw [h]
  split
  · rfl
  · split_ifs <;> rfl

/-- A rejected code is not stored. -/
theorem decode_cheat_rejected (s : State) (string : List Char) (index : Nat)
    (h : (decode_cheat s string index).1 = 0) : (decode_cheat s string index).2 = s := by
  unfold decode_cheat at h ⊢
  cases hd : decode s.isMD string with
  | none => rfl
  | some d =>
    rw [hd] at h
    simp only [] at h ⊢
    by_cases hl : d.len ≠ 0
    · rw [if_pos hl] at h
      exact absurd h hl
    · rw [if_neg hl]

theorem piece_rejected (enabled : Bool) (s : State) (buff : List Char)
    (h : (decode_cheat s buff s.maxcheats).1 = 0) : retro_cheat_set_piece enabled s buff = s := by
  unfold retro_cheat_set_piece
  simp [h]

theorem pieces_rejected (enabled : Bool) (l : List (List Char)) (s : State)
    (h : ∀ v, v ∈ l → (decode_cheat s v s.maxcheats).1 = 0) :
    l.foldl (retro_cheat_set_piece enabled) s = s := by
  induction l with
  | nil => rfl
  | cons v l ih =>
    simp only [List.foldl_cons]
    rw [piece_rejected enabled s v (h v (List.mem_cons_self v l))]
    exact ih (fun w hw => h w (List.mem_cons_of_mem v hw))

/-- When every piece is rejected, `retro_cheat_set` is Clear followed by Apply. -/
theorem retro_cheat_set_rejected (s : State) (enabled : Bool) (code : List Char)
    (h : ∀ v, v ∈ strtok_views false (codeCopy code) → (decode_cheat s v s.maxcheats).1 = 0) :
    retro_cheat_set s enabled (some code) = apply_cheats (clear_cheats s) := by
  simp only [retro_cheat_set]
  rw [pieces_rejected]
  intro v hv
  rw [decode_cheat_len_congr s (clear_cheats s) v s.maxcheats _ (clear_cheats_console s).console_isMD]
  exact h v hv

/-- C14: a call of `decode_cheat` that returns 0 leaves the table (the whole
state) as it was; and when `decode_cheat` returns 0 on every piece that
`strtok` hands out for the code string, `retro_cheat_set` leaves the entry
count and the address, data and enable flag of every entry unchanged. -/
theorem rejected_codes_keep_table (s : State) (enabled : Bool) (code : List Char)
    (hrej : ∀ v, v ∈ strtok_views false (codeCopy code) →
      (decode_cheat s v s.maxcheats).1 = 0) :
    (∀ (t : State) (string : List Char) (index : Nat),
        (decode_cheat t string index).1 = 0 → (decode_cheat t string index).2 = t)
    ∧ (retro_cheat_set s enabled (some code)).maxcheats = s.maxcheats
    ∧ ∀ k, ((retro_cheat_set s enabled (some code)).cheatlist k).address
            = (s.cheatlist k).address
        ∧ ((retro_cheat_set s enabled (some code)).cheatlist k).data = (s.cheatlist k).data
        ∧ ((retro_cheat_set s enabled (some code)).cheatlist k).enable
            = (s.cheatlist k).enable := by
  refine ⟨fun t string index h => decode_cheat_rejected t string index h, ?_, fun k => ?_⟩
  · rw [retro_cheat_set_rejected s enabled code hrej]
    rw [(apply_cheats_console (clear_cheats s)).2.2.2.2.2.2, (clear_cheats_console s).2.2.2.2.2.2]
  · rw [retro_cheat_set_rejected s enabled code hrej]
    have h1 := clear_cheats_code s k
    have h2 := apply_cheats_code (clear_cheats s) k
    exact ⟨by rw [h2.2.1, h1.2.1], by rw [h2.2.2, h1.2.2], by rw [h2.1, h1.1]⟩

/-- Witness for C14: a compound code whose two pieces are both rejected, set
on a table of three entries. -/
theorem rejected_codes_keep_table_witness :
    (decode_cheat mdTable "OUIQ-OUIQ".toList 3).1 = 0
    ∧ (retro_cheat_set mdTable false (some "OUIQ-OUIQ+ATBT-AA3".toList)).maxcheats = 3
    ∧ ((retro_cheat_set mdTable false (some "OUIQ-OUIQ+ATBT-AA3".toList)).cheatlist 1).enable
        = true :=
  ⟨by decide,
   (rejected_codes_keep_table mdTable false "OUIQ-OUIQ+ATBT-AA3".toList (by decide)).2.1,
   ((rejected_codes_keep_table mdTable false "OUIQ-OUIQ+ATBT-AA3".toList (by decide)).2.2 1).2.2⟩

/-! ## Short strings -/

theorem strlen_ge_false_iff (l : List Char) (n : Nat) :
    strlen_ge l n = false ↔ ∃ j, j < n ∧ charAt l j = NUL := by
  rw [← Bool.not_eq_true]
  simp only [strlen_ge, List.all_eq_true, List.mem_range, bne_iff_ne, ne_eq, not_forall,
    Decidable.not_not, exists_prop]

theorem charAt_cons_zero (c : Char) (cs : List Char) : charAt (c :: cs) 0 = c := rfl

theorem charAt_cons_succ (c : Char) (cs : List Char) (j : Nat) :
    charAt (c :: cs) (j + 1) = charAt cs j := rfl

theorem charAt_nil (j : Nat) : charAt [] j = NUL := rfl

/-- The token handed out by `strtok` ends no later than the buffer's first
terminator. -/
theorem terminateToken_nul (l : List Char) : ∀ j, charAt l j = NUL →
    ∃ k, k ≤ j ∧ charAt (terminateToken l) k = NUL := by
  induction l with
  | nil => intro j _; exact ⟨j, Nat.le_refl j, rfl⟩
  | cons c cs ih =>
    intro j hj
    simp only [terminateToken]
    by_cases h0 : c = NUL
    · simp only [h0, if_true]
      exact ⟨0, Nat.zero_le j, rfl⟩
    · by_cases hp : c = '+'
      · simp only [h0, hp, if_false, if_true]
        exact ⟨0, Nat.zero_le j, rfl⟩
      · simp only [h0, hp, if_false]
        cases j with
        | zero => exact absurd hj h0
        | succ j =>
          obtain ⟨k, hk, hk2⟩ := ih j hj
          exact ⟨k + 1, by omega, hk2⟩

/-- Every token handed out by `strtok` is a tail of the buffer, cut at the
token's end. -/
theorem strtok_views_tail (l : List Char) : ∀ (b : Bool) (v : List Char),
    v ∈ strtok_views b l → ∃ i, v = terminateToken (l.drop i) := by
  induction l with
  | nil => intro b v hv; simp [strtok_views] at hv
  | cons c cs ih =>
    intro b v hv
    have hshift : (∃ i, v = terminateToken (cs.drop i)) →
        ∃ i, v = terminateToken ((c :: cs).drop i) := by
      rintro ⟨i, hi⟩
      exact ⟨i + 1, hi⟩
    simp only [strtok_views] at hv
    split_ifs at hv with h0 hp hb
    · simp at hv
    · exact hshift (ih false v hv)
    · exact hshift (ih true v hv)
    · rcases List.mem_cons.mp hv with h | h
      · exact ⟨0, h⟩
      · exact hshift (ih true v h)

theorem charAt_drop (l : List Char) (i j : Nat) : charAt (l.drop i) j = charAt l (i + j) := by
  unfold charAt
  rw [List.getD_eq_getElem?_getD, List.getD_eq_getElem?_getD, List.getElem?_drop]

theorem cstring_length_le (code : List Char) : (cstring code).length ≤ code.length := by
  unfold cstring
  exact (List.takeWhile_sublist _).length_le

/-- Past the copied characters the buffer `codeCopy` holds terminators only. -/
theorem charAt_codeCopy_nul (code : List Char) (m : Nat)
    (h : ((cstring code).take 255).length ≤ m) : charAt (codeCopy code) m = NUL := by
  unfold codeCopy charAt
  rw [List.getD_eq_getElem?_getD, List.getElem?_append_right h]
  by_cases hk : m - ((cstring code).take 255).length
      < 256 - ((cstring code).take 255).length
  · rw [List.getElem?_eq_getElem (by simpa using hk)]
    simp
  · rw [List.getElem?_eq_none (by simpa using hk)]
    simp

/-- A code string of fewer than `n` characters yields only tokens of fewer
than `n` characters. -/
theorem strtok_views_short (code : List Char) (n : Nat) (hlen : code.length < n)
    (v : List Char) (hv : v ∈ strtok_views false (codeCopy code)) : strlen_ge v n = false := by
  obtain ⟨i, hi⟩ := strtok_views_tail (codeCopy code) false v hv
  have hl : ((cstring code).take 255).length < n := by
    rw [List.length_take]
    have := cstring_length_le code
    omega
  rw [strlen_ge_false_iff, hi]
  by_cases h : ((cstring code).take 255).length ≤ i
  · obtain ⟨k, hk, hk2⟩ := terminateToken_nul ((codeCopy code).drop i) 0
      (by rw [charAt_drop]; exact charAt_codeCopy_nul code _ (by omega))
    exact ⟨k, by omega, hk2⟩
  · obtain ⟨k, hk, hk2⟩ := terminateToken_nul ((codeCopy code).drop i)
      (((cstring code).take 255).length - i)
      (by rw [charAt_drop]; exact charAt_codeCopy_nul code _ (by omega))
    exact ⟨k, by omega, hk2⟩

theorem strlen_ge_of_length_lt (string : List Char) (n : Nat) (h : string.length < n) :
    strlen_ge string n = false := by
  rw [strlen_ge_false_iff]
  refine ⟨string.length, h, ?_⟩
  unfold charAt
  rw [List.getD_eq_getElem?_getD, List.getElem?_eq_none (Nat.le_refl _)]
  rfl

/-- Under the 16-bit family a string whose terminator comes before index 9 is
rejected. -/
theorem decode_cheat_short_md (s : State) (string : List Char) (index : Nat)
    (hmd : s.isMD = true) (h : strlen_ge string 9 = false) :
    (decode_cheat s string index).1 = 0 := by
  simp [decode_cheat, decode, hmd, decode_md, h]

/-- C13: under the 16-bit family `decode_cheat` returns 0 on every string of
fewer than 9 characters and stores nothing, and `retro_cheat_set` called with
such a string leaves the entry count unchanged. -/
theorem short_strings_rejected (s : State) (string : List Char) (hmd : s.isMD = true)
    (hlen : string.length < 9) :
    (∀ index, (decode_cheat s string index).1 = 0 ∧ (decode_cheat s string index).2 = s)
    ∧ ∀ enabled, (retro_cheat_set s enabled (some string)).maxcheats = s.maxcheats := by
  constructor
  · intro index
    have h := decode_cheat_short_md s string index hmd (strlen_ge_of_length_lt string 9 hlen)
    exact ⟨h, decode_cheat_rejected s string index h⟩
  · intro enabled
    rw [retro_cheat_set_rejected s enabled string]
    · rw [(apply_cheats_console (clear_cheats s)).2.2.2.2.2.2,
        (clear_cheats_console s).2.2.2.2.2.2]
    · intro v hv
      exact decode_cheat_short_md s v _ hmd (strtok_views_short string 9 hlen v hv)

/-- Witness for C13: a 7-character string of Game Genie shape. -/
theorem short_strings_rejected_witness :
    (decode_cheat mdConsole "ATBT-AA".toList 0).1 = 0
    ∧ (retro_cheat_set mdConsole true (some "ATBT-AA".toList)).maxcheats = 0 :=
  ⟨((short_strings_rejected mdConsole "ATBT-AA".toList (by decide) (by decide)).1 0).1,
   (short_strings_rejected mdConsole "ATBT-AA".toList (by decide) (by decide)).2 true⟩

/-! ## Pieces of a compound code -/

/-- C16, failing input: on a 16-bit console the codes `FF0001:12` and
`ATBT-AA32` are set as one compound code and, from the same start, one after
the other. The entry count is 2 both times, but the first entry's data is
`0x120A` for the compound code and `0x1200` otherwise: decoding the first
piece reads the first character of the second one. -/
theorem compound_code_reads_next_piece :
    (retro_cheat_set mdConsole true (some "FF0001:12+ATBT-AA32".toList)).maxcheats = 2
    ∧ ((retro_cheat_set mdConsole true (some "FF0001:12+ATBT-AA32".toList)).cheatlist 0).address
        = 0xFF0001
    ∧ ((retro_cheat_set mdConsole true (some "FF0001:12+ATBT-AA32".toList)).cheatlist 0).data
        = 0x120A
    ∧ (retro_cheat_set (retro_cheat_set mdConsole true (some "FF0001:12".toList)) true
        (some "ATBT-AA32".toList)).maxcheats = 2
    ∧ ((retro_cheat_set (retro_cheat_set mdConsole true (some "FF0001:12".toList)) true
        (some "ATBT-AA32".toList)).cheatlist 0).address = 0xFF0001
    ∧ ((retro_cheat_set (retro_cheat_set mdConsole true (some "FF0001:12".toList)) true
        (some "ATBT-AA32".toList)).cheatlist 0).data = 0x1200 := by
  decide

/-- C17, failing input: `strtok` hands out the same string `FF0001:12` for the
code strings `FF0001:12+A` and `FF0001:12+B`, and under the 16-bit family
`decode_cheat` returns 11 on both with data `0x120A` for the first and
`0x120B` for the second: the result depends on the byte that follows the
string's terminator. -/
theorem decode_depends_on_bytes_after_terminator :
    cstring ((strtok_views false (codeCopy "FF0001:12+A".toList)).headD []) = "FF0001:12".toList
    ∧ cstring ((strtok_views false (codeCopy "FF0001:12+B".toList)).headD [])
        = "FF0001:12".toList
    ∧ (decode_cheat mdConsole
        ((strtok_views false (codeCopy "FF0001:12+A".toList)).headD []) 0).1 = 11
    ∧ (decode_cheat mdConsole
        ((strtok_views false (codeCopy "FF0001:12+B".toList)).headD []) 0).1 = 11
    ∧ ((decode_cheat mdConsole
        ((strtok_views false (codeCopy "FF0001:12+A".toList)).headD []) 0).2.cheatlist 0).data
        = 0x120A
    ∧ ((decode_cheat mdConsole
        ((strtok_views false (codeCopy "FF0001:12+B".toList)).headD []) 0).2.cheatlist 0).data
        = 0x120B := by
  decide

/-! ## Apply in the 8-bit family -/

/-- C18, failing input: on an 8-bit console whose cartridge holds `0x55`
everywhere, the code `FF1-23E` (address `0x1123`, data `0xFF`, no reference)
is set. The entry is enabled and lies below the cartridge size, its reference
is 0, yet `apply_cheats` leaves the byte at `0x55` and the live location
empty, because it only compares the reference with the byte. The hook
`ROMCheatUpdate`, which also tests for a missing reference, patches the same
byte under the same mapping. -/
theorem apply_skips_patch_without_reference :
    ((retro_cheat_set smsConsole true (some "FF1-23E".toList)).cheatlist 0).enable = true
    ∧ ((retro_cheat_set smsConsole true (some "FF1-23E".toList)).cheatlist 0).address = 0x1123
    ∧ ((retro_cheat_set smsConsole true (some "FF1-23E".toList)).cheatlist 0).data = 0xFF
    ∧ ((retro_cheat_set smsConsole true (some "FF1-23E".toList)).cheatlist 0).old = 0
    ∧ (retro_cheat_set smsConsole true (some "FF1-23E".toList)).rom 0x1123 = toByte 0x55
    ∧ ((retro_cheat_set smsConsole true (some "FF1-23E".toList)).cheatlist 0).prev = none
    ∧ (ROMCheatUpdate (retro_cheat_set smsConsole true (some "FF1-23E".toList))).rom 0x1123
        = toByte 0xFF := by
  decide

/-! ## Clear and the add-on -/

/-- C19, counterexample: with the add-on present and booted from cartridge,
`apply_cheats` patches the word at `0x100` and `clear_cheats` writes it back:
Clear modifies memory in cartridge-boot mode. -/
theorem clear_in_cartridge_boot_counterexample :
    cdBootTable.system_hw = cdBootTable.ids.SYSTEM_MCD ∧ cdBootTable.boot ≠ 0
    ∧ (apply_cheats cdBootTable).rom 0x100 = toByte 0x34
    ∧ (clear_cheats (apply_cheats cdBootTable)).rom 0x100 = toByte 0x55
    ∧ (clear_cheats (apply_cheats cdBootTable)).rom 0x100 ≠ (apply_cheats cdBootTable).rom 0x100 := by
  decide

/-- C19 (amended): when the add-on is present (`system_hw == SYSTEM_MCD`) and
the game was not booted from cartridge (`scd.cartridge.boot` clear),
`clear_cheats` changes nothing: no memory and no table field. -/
theorem clear_cheats_noop_with_disc (s : State)
    (hcd : s.system_hw = s.ids.SYSTEM_MCD) (hboot : s.boot = 0) : clear_cheats s = s := by
  have h : s.isCD = true := by simp [State.isCD, hcd, hboot]
  simp [clear_cheats, h]

/-- Witness for C19 (amended): an enabled entry with a live location is left
alone. -/
theorem clear_cheats_noop_with_disc_witness :
    (cdDiscTable.cheatlist 0).prev = some 0x200 ∧ clear_cheats cdDiscTable = cdDiscTable :=
  ⟨by decide, clear_cheats_noop_with_disc cdDiscTable (by decide) (by decide)⟩

/-! ## Characters outside the alphabet -/

theorem strchr_none_iff (valid : List Char) (c : Char) :
    strchr valid c = none ↔ c ≠ NUL ∧ c ∉ valid := by
  unfold strchr
  by_cases h0 : c = NUL
  · simp [h0]
  · simp only [h0, if_false, ne_eq, not_false_eq_true, true_and]
    by_cases hm : c ∈ valid
    · simp [List.indexOf_lt_length.mpr hm, hm]
    · have : ¬ List.indexOf c valid < valid.length := fun h => hm (List.indexOf_lt_length.mp h)
      simp [this, hm]

theorem strlen_ge_charAt {string : List Char} {n : Nat} (h : strlen_ge string n = true)
    {p : Nat} (hp : p < n) : charAt string p ≠ NUL := by
  simp only [strlen_ge, List.all_eq_true, List.mem_range, bne_iff_ne, ne_eq] at h
  exact h p hp

theorem strlen_ge_mono {string : List Char} {n m : Nat} (h : strlen_ge string n = true)
    (hm : m ≤ n) : strlen_ge string m = true := by
  simp only [strlen_ge, List.all_eq_true, List.mem_range, bne_iff_ne, ne_eq] at h ⊢
  exact fun i hi => h i (by omega)

/-- A loop that returns at the first character outside the alphabet returns
0 when one of its positions holds such a character. -/
theorem hex_loop_none (string : List Char) (ps : List Nat) :
    ∀ nib acc, (∃ p, p ∈ ps ∧ strchr arvalidchars (charAt string p) = none) →
      hex_loop string ps nib acc = none := by
  induction ps with
  | nil => intro nib acc h; obtain ⟨p, hp, _⟩ := h; simp at hp
  | cons q qs ih =>
    intro nib acc h
    obtain ⟨p, hp, hbad⟩ := h
    simp only [hex_loop]
    cases hq : strchr arvalidchars (charAt string q) with
    | none => rfl
    | some n =>
      simp only []
      apply ih
      rcases List.mem_cons.mp hp with h1 | h1
      · rw [h1, hq] at hbad
        exact absurd hbad (by simp)
      · exact ⟨p, h1, hbad⟩

/-- The Game Genie loop returns 0 when one of the symbols it still has to read
is outside the alphabet; iteration `j` reads index `j` for `j < 4` and index
`j + 1` after the separator. -/
theorem gg_loop_none (string : List Char) : ∀ fuel i pos ad,
    pos = (if i ≤ 4 then i else i + 1) →
    (∃ j, i ≤ j ∧ j < i + fuel
      ∧ strchr ggvalidchars (charAt string (if j < 4 then j else j + 1)) = none) →
    gg_loop string fuel i pos ad = none := by
  intro fuel
  induction fuel with
  | zero => intro i pos ad _ h; obtain ⟨j, h1, h2, _⟩ := h; omega
  | succ fuel ih =>
    intro i pos ad hpos h
    obtain ⟨j, h1, h2, hbad⟩ := h
    simp only [gg_loop]
    have hread : (if i = 4 then pos + 1 else pos) = (if i < 4 then i else i + 1) := by
      rw [hpos]
      split_ifs <;> omega
    rw [hread]
    cases hq : strchr ggvalidchars (charAt string (if i < 4 then i else i + 1)) with
    | none => rfl
    | some n =>
      simp only []
      apply ih
      · split_ifs <;> omega
      · by_cases hji : j = i
        · rw [hji, hq] at hbad
          exact absurd hbad (by simp)
        · exact ⟨j, by omega, by omega, hbad⟩

theorem hex_loop_some (string : List Char) (ps : List Nat) :
    ∀ nib acc, (∀ p, p ∈ ps → charAt string p ∈ arvalidchars) →
      ∃ a, hex_loop string ps nib acc = some a := by
  induction ps with
  | nil => intro nib acc _; exact ⟨acc, rfl⟩
  | cons q qs ih =>
    intro nib acc h
    simp only [hex_loop]
    cases hq : strchr arvalidchars (charAt string q) with
    | none =>
      have := (strchr_none_iff _ _).mp hq
      exact absurd (h q (List.mem_cons_self q qs)) this.2
    | some n => exact ih _ _ (fun p hp => h p (List.mem_cons_of_mem q hp))

theorem decode_cheat_of_none (s : State) (string : List Char) (index : Nat)
    (h : decode s.isMD string = none) : (decode_cheat s string index).1 = 0 := by
  simp [decode_cheat, h]

/-- C11, counterexample: the hex-shaped string `FF0001:12G4` has `G` at a data
position, and under the 16-bit family `decode_cheat` returns 11 and stores the
data `0x1200`. -/
theorem unknown_data_digit_counterexample :
    charAt "FF0001:12G4".toList 6 = ':' ∧ charAt "FF0001:12G4".toList 9 ∉ arvalidchars
    ∧ (decode_cheat mdConsole "FF0001:12G4".toList 0).1 = 11
    ∧ ((decode_cheat mdConsole "FF0001:12G4".toList 0).2.cheatlist 0).address = 0xFF0001
    ∧ ((decode_cheat mdConsole "FF0001:12G4".toList 0).2.cheatlist 0).data = 0x1200 := by
  decide

/-- C11 (amended): under the 16-bit family `decode_cheat` returns 0 when one
of the 8 symbol positions of a Game-Genie-shaped string (`-` at index 4) is
outside the Game Genie alphabet, and when one of the 6 address-digit positions
of a hex-shaped string (`:` at index 6) is not one of `0-9A-F`. A character
other than `0-9A-F` at one of the 4 data-digit positions of a hex-shaped
string with valid address digits ends the data field instead: `decode_cheat`
returns 11 and the data holds the digits `ds` read before it, in the top
nibbles. -/
theorem unknown_symbol_md (s : State) (string : List Char) (index : Nat)
    (hmd : s.isMD = true) :
    (charAt string 4 = '-' →
        (∃ p, p ∈ [0, 1, 2, 3, 5, 6, 7, 8] ∧ charAt string p ∉ ggvalidchars) →
        (decode_cheat s string index).1 = 0)
    ∧ (charAt string 6 = ':' →
        (∃ p, p ∈ [0, 1, 2, 3, 4, 5] ∧ charAt string p ∉ arvalidchars) →
        (decode_cheat s string index).1 = 0)
    ∧ (strlen_ge string 9 = true → charAt string 6 = ':' →
        (∀ p, p ∈ [0, 1, 2, 3, 4, 5] → charAt string p ∈ arvalidchars) →
        ∀ ds : List Nat, ds.length < 4 →
        (∀ j, j < ds.length → arvalidchars[ds.getD j 0]? = some (charAt string (7 + j))) →
        charAt string (7 + ds.length) ∉ arvalidchars → charAt string (7 + ds.length) ≠ NUL →
        (decode_cheat s string index).1 = 11
        ∧ ((decode_cheat s string index).2.cheatlist index).data
            = ds.getD 0 0 * 0x1000 + ds.getD 1 0 * 0x100 + ds.getD 2 0 * 0x10) := by
  refine ⟨?_, ?_, ?_⟩
  · intro hsep hbad
    cases hs : strlen_ge string 9 with
    | false => exact decode_cheat_short_md s string index hmd hs
    | true =>
      apply decode_cheat_of_none
      obtain ⟨p, hp, hout⟩ := hbad
      have hp9 : p < 9 := by
        simp only [List.mem_cons, List.mem_singleton, List.not_mem_nil, or_false] at hp
        omega
      have hnone : strchr ggvalidchars (charAt string p) = none :=
        (strchr_none_iff _ _).mpr ⟨strlen_ge_charAt hs hp9, hout⟩
      have hloop : gg_loop string 8 0 0 (0, 0) = none := by
        apply gg_loop_none string 8 0 0 (0, 0) rfl
        simp only [List.mem_cons, List.mem_singleton, List.not_mem_nil, or_false] at hp
        rcases hp with h | h | h | h | h | h | h | h
        · exact ⟨0, by omega, by omega, by rw [h] at hnone; simpa using hnone⟩
        · exact ⟨1, by omega, by omega, by rw [h] at hnone; simpa using hnone⟩
        · exact ⟨2, by omega, by omega, by rw [h] at hnone; simpa using hnone⟩
        · exact ⟨3, by omega, by omega, by rw [h] at hnone; simpa using hnone⟩
        · exact ⟨4, by omega, by omega, by rw [h] at hnone; simpa using hnone⟩
        · exact ⟨5, by omega, by omega, by rw [h] at hnone; simpa using hnone⟩
        · exact ⟨6, by omega, by omega, by rw [h] at hnone; simpa using hnone⟩
        · exact ⟨7, by omega, by omega, by rw [h] at hnone; simpa using hnone⟩
      simp only [decode, hmd, if_true, decode_md, hs, hsep, beq_self_eq_true, Bool.and_self,
        hloop]
  · intro hsep hbad
    cases hs : strlen_ge string 9 with
    | false => exact decode_cheat_short_md s string index hmd hs
    | true =>
      apply decode_cheat_of_none
      by_cases h4 : charAt string 4 = '-'
      · have hloop : gg_loop string 8 0 0 (0, 0) = none := by
          apply gg_loop_none string 8 0 0 (0, 0) rfl
          refine ⟨5, by omega, by omega, ?_⟩
          simp only [show ¬ (5 < 4) by omega, if_false, hsep]
          decide
        simp only [decode, hmd, if_true, decode_md, hs, h4, beq_self_eq_true, Bool.and_self,
          hloop]
      · obtain ⟨p, hp, hout⟩ := hbad
        have hp9 : p < 9 := by
          simp only [List.mem_cons, List.mem_singleton, List.not_mem_nil, or_false] at hp
          omega
        have hloop : hex_loop string [0, 1, 2, 3, 4, 5] 5 0 = none :=
          hex_loop_none string _ 5 0
            ⟨p, hp, (strchr_none_iff _ _).mpr ⟨strlen_ge_charAt hs hp9, hout⟩⟩
        simp [decode, hmd, decode_md, hs, h4, hsep, hloop]
  · intro hs hsep haddr ds hlen hds hout hnul
    have h4 : charAt string 4 ≠ '-' := by
      intro h
      have := haddr 4 (by simp)
      rw [h] at this
      exact absurd this (by decide)
    obtain ⟨a, ha⟩ := hex_loop_some string [0, 1, 2, 3, 4, 5] 5 0 haddr
    have hbad : strchr arvalidchars (charAt string (7 + ds.length)) = none :=
      (strchr_none_iff _ _).mpr ⟨hnul, hout⟩
    have hlenr : (decode_cheat s string index).1 = 11 := by
      simp [decode_cheat, decode, hmd, decode_md, hs, h4, hsep, ha]
    have hdata : ((decode_cheat s string index).2.cheatlist index).data
        = hex_loop_break string [7, 8, 9, 10] 3 0 := by
      simp [decode_cheat, storeCheat, decode, hmd, decode_md, hs, h4, hsep, ha]
    refine ⟨hlenr, ?_⟩
    rw [hdata]
    rcases ds with _ | ⟨d0, _ | ⟨d1, _ | ⟨d2, _ | ⟨d3, rest⟩⟩⟩⟩
    · simp only [List.length_nil, Nat.add_zero] at hbad
      simp [hex_loop_break, hbad]
    · simp only [List.length_singleton] at hbad
      obtain ⟨c0, -, -, -, b0⟩ := strchr_ar (hds 0 (by simp))
      simp only [List.getD_cons_zero, Nat.add_zero] at c0 b0
      simp [hex_loop_break, hbad, c0, and_15 b0, Nat.shiftLeft_eq]
    · simp only [List.length_cons, List.length_nil] at hbad
      obtain ⟨c0, -, -, -, b0⟩ := strchr_ar (hds 0 (by simp))
      obtain ⟨c1, -, -, -, b1⟩ := strchr_ar (hds 1 (by simp))
      simp only [List.getD_cons_zero, List.getD_cons_succ, Nat.add_zero] at c0 b0 c1 b1
      simp only [hex_loop_break, hbad, c0, c1, and_15 b0, and_15 b1, Nat.zero_or,
        List.getD_cons_zero, List.getD_cons_succ, List.getD_nil]
      have e : d1 <<< 8 = d1 * 2 ^ 8 := Nat.shiftLeft_eq _ _
      have := shl_or d0 (d1 <<< 8) 12 (by rw [e]; omega)
      norm_num at this ⊢
      rw [this, e]
      omega
    · simp only [List.length_cons, List.length_nil] at hbad
      obtain ⟨c0, -, -, -, b0⟩ := strchr_ar (hds 0 (by simp))
      obtain ⟨c1, -, -, -, b1⟩ := strchr_ar (hds 1 (by simp))
      obtain ⟨c2, -, -, -, b2⟩ := strchr_ar (hds 2 (by simp))
      simp only [List.getD_cons_zero, List.getD_cons_succ, Nat.add_zero] at c0 b0 c1 b1 c2 b2
      simp only [hex_loop_break, hbad, c0, c1, c2, and_15 b0, and_15 b1, and_15 b2, Nat.zero_or,
        List.getD_cons_zero, List.getD_cons_succ, List.getD_nil, Nat.lor_assoc]
      have e2 : d2 <<< 4 = d2 * 2 ^ 4 := Nat.shiftLeft_eq _ _
      have h1 := shl_or d1 (d2 <<< 4) 8 (by rw [e2]; omega)
      have h0 := shl_or d0 (d1 <<< 8 ||| d2 <<< 4) 12 (by rw [h1, e2]; omega)
      norm_num at h0 h1 ⊢
      rw [h0, h1, e2]
      omega
    · simp only [List.length_cons] at hlen
      omega

/-- Witness for C11 (amended): a symbol outside the Game Genie alphabet, an
address character outside `0-9A-F`, and a data character outside `0-9A-F`
after the two digits 1 and 2. -/
theorem unknown_symbol_md_witness :
    (decode_cheat mdConsole "OTBT-AA32".toList 0).1 = 0
    ∧ (decode_cheat mdConsole "FF0G01:1234".toList 0).1 = 0
    ∧ (decode_cheat mdConsole "FF0001:12G4".toList 0).1 = 11
    ∧ ((decode_cheat mdConsole "FF0001:12G4".toList 0).2.cheatlist 0).data = 0x1200 :=
  ⟨(unknown_symbol_md mdConsole "OTBT-AA32".toList 0 (by decide)).1 (by decide)
      ⟨0, by decide, by decide⟩,
   (unknown_symbol_md mdConsole "FF0G01:1234".toList 0 (by decide)).2.1 (by decide)
      ⟨3, by decide, by decide⟩,
   (unknown_symbol_md mdConsole "FF0001:12G4".toList 0 (by decide)).2.2 (by decide) (by decide)
      (by decide) [1, 2] (by decide) (by decide) (by decide) (by decide)⟩

theorem hex_loop_some_ok {string : List Char} {ps : List Nat} {nib acc a : Nat}
    (h : hex_loop string ps nib acc = some a) {p : Nat} (hp : p ∈ ps) :
    strchr arvalidchars (charAt string p) ≠ none := by
  intro hbad
  rw [hex_loop_none string ps nib acc ⟨p, hp, hbad⟩] at h
  exact absurd h (by simp)

/-- The Game Genie branch of the 8-bit family returns 0 when a character it
reads as a digit is outside the alphabet. -/
theorem sms_gg_none (string : List Char) (h7 : strlen_ge string 7 = true)
    (h3 : charAt string 3 = '-')
    (hbad : (∃ p, p ∈ [0, 1, 2, 4, 5, 6] ∧ strchr arvalidchars (charAt string p) = none)
      ∨ (charAt string 7 = '-'
          ∧ ∃ p, p ∈ [8, 10] ∧ strchr arvalidchars (charAt string p) = none)) :
    decode_sms_raw string = none := by
  unfold decode_sms_raw
  simp only [h7, h3, beq_self_eq_true, Bool.and_self, if_true]
  cases e1 : hex_loop string [0, 1] 1 0 with
  | none => rfl
  | some data =>
    simp only []
    cases e2 : hex_loop string [2, 4, 5] 2 0 with
    | none => rfl
    | some low =>
      simp only []
      cases e3 : strchr arvalidchars (charAt string 6) with
      | none => rfl
      | some n =>
        simp only []
        rcases hbad with ⟨p, hp, hb⟩ | ⟨hs, p, hp, hb⟩
        · simp only [List.mem_cons, List.mem_singleton, List.not_mem_nil, or_false] at hp
          rcases hp with h | h | h | h | h | h
          · exact absurd (h ▸ hb) (hex_loop_some_ok e1 (by simp))
          · exact absurd (h ▸ hb) (hex_loop_some_ok e1 (by simp))
          · exact absurd (h ▸ hb) (hex_loop_some_ok e2 (by simp))
          · exact absurd (h ▸ hb) (hex_loop_some_ok e2 (by simp))
          · exact absurd (h ▸ hb) (hex_loop_some_ok e2 (by simp))
          · rw [h, e3] at hb
            exact absurd hb (by simp)
        · simp only [hs, beq_self_eq_true, if_true]
          rw [hex_loop_none string [8, 10] 1 0 ⟨p, hp, hb⟩]

/-- The Action Replay branch returns 0 when one of the six characters it reads
as digits is outside the alphabet. -/
theorem sms_ar_none (string : List Char) (h3 : charAt string 3 ≠ '-')
    (h9 : strlen_ge string 9 = true) (h4 : charAt string 4 = '-')
    (hbad : ∃ p, p ∈ [2, 3, 5, 6, 7, 8] ∧ strchr arvalidchars (charAt string p) = none) :
    decode_sms_raw string = none := by
  have e3 : (charAt string 3 == '-') = false := by simpa using h3
  unfold decode_sms_raw
  simp only [e3, Bool.and_false, Bool.false_eq_true, if_false, h9, h4, beq_self_eq_true,
    Bool.and_self, if_true]
  cases e1 : hex_loop string [2, 3, 5, 6] 3 0 with
  | none => rfl
  | some address =>
    simp only []
    cases e2 : hex_loop string [7, 8] 1 0 with
    | none => rfl
    | some data =>
      obtain ⟨p, hp, hb⟩ := hbad
      simp only [List.mem_cons, List.mem_singleton, List.not_mem_nil, or_false] at hp
      rcases hp with h | h | h | h | h | h
      · exact absurd (h ▸ hb) (hex_loop_some_ok e1 (by simp))
      · exact absurd (h ▸ hb) (hex_loop_some_ok e1 (by simp))
      · exact absurd (h ▸ hb) (hex_loop_some_ok e1 (by simp))
      · exact absurd (h ▸ hb) (hex_loop_some_ok e1 (by simp))
      · exact absurd (h ▸ hb) (hex_loop_some_ok e2 (by simp))
      · exact absurd (h ▸ hb) (hex_loop_some_ok e2 (by simp))

/-- The Fusion RAM branch returns 0 when one of its six digits is outside the
alphabet. -/
theorem sms_fram_none (string : List Char) (h3 : charAt string 3 ≠ '-')
    (h7 : strlen_ge string 7 = true) (h4 : charAt string 4 = ':')
    (hbad : ∃ p, p ∈ [0, 1, 2, 3, 5, 6] ∧ strchr arvalidchars (charAt string p) = none) :
    decode_sms_raw string = none := by
  have e3 : (charAt string 3 == '-') = false := by simpa using h3
  have e4 : (':' == '-') = false := by decide
  unfold decode_sms_raw
  simp only [e3, h4, e4, Bool.and_false, Bool.false_eq_true, if_false, h7, beq_self_eq_true,
    Bool.and_self, if_true]
  cases e1 : hex_loop string [0, 1, 2, 3] 3 0 with
  | none => rfl
  | some address =>
    simp only []
    cases e2 : hex_loop string [5, 6] 1 0 with
    | none => rfl
    | some data =>
      obtain ⟨p, hp, hb⟩ := hbad
      simp only [List.mem_cons, List.mem_singleton, List.not_mem_nil, or_false] at hp
      rcases hp with h | h | h | h | h | h
      · exact absurd (h ▸ hb) (hex_loop_some_ok e1 (by simp))
      · exact absurd (h ▸ hb) (hex_loop_some_ok e1 (by simp))
      · exact absurd (h ▸ hb) (hex_loop_some_ok e1 (by simp))
      · exact absurd (h ▸ hb) (hex_loop_some_ok e1 (by simp))
      · exact absurd (h ▸ hb) (hex_loop_some_ok e2 (by simp))
      · exact absurd (h ▸ hb) (hex_loop_some_ok e2 (by simp))

/-- The Fusion ROM branch returns 0 when one of its eight digits is outside
the alphabet. -/
theorem sms_from_none (string : List Char) (h3 : charAt string 3 ≠ '-')
    (h4a : charAt string 4 ≠ '-') (h4b : charAt string 4 ≠ ':')
    (h9 : strlen_ge string 9 = true) (h6 : charAt string 6 = ':')
    (hbad : ∃ p, p ∈ [0, 1, 2, 3, 4, 5, 7, 8] ∧ strchr arvalidchars (charAt string p) = none) :
    decode_sms_raw string = none := by
  have e3 : (charAt string 3 == '-') = false := by simpa using h3
  have e4a : (charAt string 4 == '-') = false := by simpa using h4a
  have e4b : (charAt string 4 == ':') = false := by simpa using h4b
  unfold decode_sms_raw
  simp only [e3, e4a, e4b, Bool.and_false, Bool.false_eq_true, if_false, h9, h6,
    beq_self_eq_true, Bool.and_self, if_true]
  cases e1 : hex_loop string [0, 1] 1 0 with
  | none => rfl
  | some ref =>
    simp only []
    cases e2 : hex_loop string [2, 3, 4, 5] 3 0 with
    | none => rfl
    | some address =>
      simp only []
      cases e3 : hex_loop string [7, 8] 1 0 with
      | none => rfl
      | some data =>
        obtain ⟨p, hp, hb⟩ := hbad
        simp only [List.mem_cons, List.mem_singleton, List.not_mem_nil, or_false] at hp
        rcases hp with h | h | h | h | h | h | h | h
        · exact absurd (h ▸ hb) (hex_loop_some_ok e1 (by simp))
        · exact absurd (h ▸ hb) (hex_loop_some_ok e1 (by simp))
        · exact absurd (h ▸ hb) (hex_loop_some_ok e2 (by simp))
        · exact absurd (h ▸ hb) (hex_loop_some_ok e2 (by simp))
        · exact absurd (h ▸ hb) (hex_loop_some_ok e2 (by simp))
        · exact absurd (h ▸ hb) (hex_loop_some_ok e2 (by simp))
        · exact absurd (h ▸ hb) (hex_loop_some_ok e3 (by simp))
        · exact absurd (h ▸ hb) (hex_loop_some_ok e3 (by simp))

theorem decode_cheat_sms_none (s : State) (string : List Char) (index : Nat)
    (hfam : s.isMD = false) (h : decode_sms_raw string = none) :
    (decode_cheat s string index).1 = 0 := by
  apply decode_cheat_of_none
  simp [decode, hfam, decode_sms, h]

theorem outside_of_mem {string : List Char} {n : Nat} (hs : strlen_ge string n = true)
    {ps : List Nat} (hps : ∀ p, p ∈ ps → p < n)
    (h : ∃ p, p ∈ ps ∧ charAt string p ∉ arvalidchars) :
    ∃ p, p ∈ ps ∧ strchr arvalidchars (charAt string p) = none := by
  obtain ⟨p, hp, hout⟩ := h
  exact ⟨p, hp, (strchr_none_iff _ _).mpr ⟨strlen_ge_charAt hs (hps p hp), hout⟩⟩

/-- C12, counterexample: under the 8-bit family the Action Replay string
`OO12-3456`, whose first two characters are not hexadecimal digits, is
accepted with length 9, and the Game Genie string `001-234-5O6`, whose
character at index 9 is not a hexadecimal digit, is accepted with length 11. -/
theorem unchecked_positions_counterexample :
    charAt "OO12-3456".toList 0 ∉ arvalidchars ∧ charAt "OO12-3456".toList 0 ≠ '-'
    ∧ (decode_cheat smsConsole "OO12-3456".toList 0).1 = 9
    ∧ ((decode_cheat smsConsole "OO12-3456".toList 0).2.cheatlist 0).address = 0x1234
    ∧ ((decode_cheat smsConsole "OO12-3456".toList 0).2.cheatlist 0).data = 0x56
    ∧ charAt "001-234-5O6".toList 9 ∉ arvalidchars ∧ charAt "001-234-5O6".toList 9 ≠ '-'
    ∧ (decode_cheat smsConsole "001-234-5O6".toList 0).1 = 11 := by
  decide

/-- C12 (amended): under the 8-bit family `decode_cheat` returns 0 when a
character that a shape reads as a digit is a character other than `0-9A-F`:
indices 0, 1, 2, 4, 5, 6 of the Game Genie shape (`-` at index 3) and, with a
second `-` at index 7, a character other than the terminator at index 8 or
10; indices 2, 3, 5, 6, 7, 8 of the Action Replay shape (`-` at index 4);
indices 0 to 3, 5, 6 of the Fusion RAM shape (`:` at index 4); indices 0 to 5,
7, 8 of the Fusion ROM shape (`:` at index 6). Indices 0 and 1 of the Action
Replay shape and index 9 of the Game Genie shape are skipped, not read. -/
theorem unknown_symbol_sms (s : State) (string : List Char) (index : Nat)
    (hfam : s.isMD = false) :
    (strlen_ge string 7 = true → charAt string 3 = '-' →
        ((∃ p, p ∈ [0, 1, 2, 4, 5, 6] ∧ charAt string p ∉ arvalidchars)
          ∨ (charAt string 7 = '-'
              ∧ ∃ p, p ∈ [8, 10] ∧ charAt string p ∉ arvalidchars ∧ charAt string p ≠ NUL)) →
        (decode_cheat s string index).1 = 0)
    ∧ (strlen_ge string 9 = true → charAt string 4 = '-' →
        (∃ p, p ∈ [2, 3, 5, 6, 7, 8] ∧ charAt string p ∉ arvalidchars) →
        (decode_cheat s string index).1 = 0)
    ∧ (strlen_ge string 7 = true → charAt string 4 = ':' →
        (∃ p, p ∈ [0, 1, 2, 3, 5, 6] ∧ charAt string p ∉ arvalidchars) →
        (decode_cheat s string index).1 = 0)
    ∧ (strlen_ge string 9 = true → charAt string 6 = ':' →
        (∃ p, p ∈ [0, 1, 2, 3, 4, 5, 7, 8] ∧ charAt string p ∉ arvalidchars) →
        (decode_cheat s string index).1 = 0) := by
  have hminus : strchr arvalidchars '-' = none := by decide
  have hcolon : strchr arvalidchars ':' = none := by decide
  refine ⟨?_, ?_, ?_, ?_⟩
  · intro h7 h3 hbad
    apply decode_cheat_sms_none s string index hfam
    apply sms_gg_none string h7 h3
    rcases hbad with h | ⟨hs, p, hp, hout, hnul⟩
    · exact Or.inl (outside_of_mem h7 (by decide) h)
    · exact Or.inr ⟨hs, p, hp, (strchr_none_iff _ _).mpr ⟨hnul, hout⟩⟩
  · intro h9 h4 hbad
    apply decode_cheat_sms_none s string index hfam
    by_cases h3 : charAt string 3 = '-'
    · exact sms_gg_none string (strlen_ge_mono h9 (by omega)) h3
        (Or.inl ⟨4, by simp, by rw [h4]; exact hminus⟩)
    · exact sms_ar_none string h3 h9 h4 (outside_of_mem h9 (by decide) hbad)
  · intro h7 h4 hbad
    apply decode_cheat_sms_none s string index hfam
    by_cases h3 : charAt string 3 = '-'
    · exact sms_gg_none string h7 h3 (Or.inl ⟨4, by simp, by rw [h4]; exact hcolon⟩)
    · exact sms_fram_none string h3 h7 h4 (outside_of_mem h7 (by decide) hbad)
  · intro h9 h6 hbad
    apply decode_cheat_sms_none s string index hfam
    have h7 := strlen_ge_mono h9 (by omega : 7 ≤ 9)
    by_cases h3 : charAt string 3 = '-'
    · exact sms_gg_none string h7 h3 (Or.inl ⟨6, by simp, by rw [h6]; exact hcolon⟩)
    · by_cases h4a : charAt string 4 = '-'
      · exact sms_ar_none string h3 h9 h4a ⟨6, by simp, by rw [h6]; exact hcolon⟩
      · by_cases h4b : charAt string 4 = ':'
        · exact sms_fram_none string h3 h7 h4b ⟨6, by simp, by rw [h6]; exact hcolon⟩
        · exact sms_from_none string h3 h4a h4b h9 h6 (outside_of_mem h9 (by decide) hbad)

/-- Witness for C12 (amended): one string of each shape with a character
outside `0-9A-F` at a position that is read. -/
theorem unknown_symbol_sms_witness :
    (decode_cheat smsConsole "0G1-234".toList 0).1 = 0
    ∧ (decode_cheat smsConsole "001-234-5AG".toList 0).1 = 0
    ∧ (decode_cheat smsConsole "0012-34G6".toList 0).1 = 0
    ∧ (decode_cheat smsConsole "C1G3:45".toList 0).1 = 0
    ∧ (decode_cheat smsConsole "AAC123:G5".toList 0).1 = 0 :=
  ⟨(unknown_symbol_sms smsConsole "0G1-234".toList 0 (by decide)).1 (by decide) (by decide)
      (Or.inl ⟨1, by decide, by decide⟩),
   (unknown_symbol_sms smsConsole "001-234-5AG".toList 0 (by decide)).1 (by decide) (by decide)
      (Or.inr ⟨by decide, 10, by decide, by decide, by decide⟩),
   (unknown_symbol_sms smsConsole "0012-34G6".toList 0 (by decide)).2.1 (by decide) (by decide)
      ⟨7, by decide, by decide⟩,
   (unknown_symbol_sms smsConsole "C1G3:45".toList 0 (by decide)).2.2.1 (by decide) (by decide)
      ⟨2, by decide, by decide⟩,
   (unknown_symbol_sms smsConsole "AAC123:G5".toList 0 (by decide)).2.2.2 (by decide) (by decide)
      ⟨7, by decide, by decide⟩⟩

/-! ## Capacity -/

theorem piece_count_le (enabled : Bool) (s : State) (buff : List Char)
    (h : s.maxcheats ≤ MAX_CHEATS) :
    (retro_cheat_set_piece enabled s buff).maxcheats ≤ MAX_CHEATS := by
  have hm := (decode_cheat_cartridge s buff s.maxcheats).2.2
  unfold retro_cheat_set_piece
  simp only []
  split_ifs with h1 h2
  · simp only []
    rw [hm] at h2 ⊢
    omega
  · simp only []
    rw [hm]
    exact h
  · exact h

theorem pieces_count_le (enabled : Bool) (l : List (List Char)) : ∀ s : State,
    s.maxcheats ≤ MAX_CHEATS →
    (l.foldl (retro_cheat_set_piece enabled) s).maxcheats ≤ MAX_CHEATS := by
  induction l with
  | nil => intro s h; exact h
  | cons v l ih =>
    intro s h
    simp only [List.foldl_cons]
    exact ih _ (piece_count_le enabled s v h)

theorem retro_cheat_set_count_le (s : State) (enabled : Bool) (code : Option (List Char))
    (h : s.maxcheats ≤ MAX_CHEATS) : (retro_cheat_set s enabled code).maxcheats ≤ MAX_CHEATS := by
  cases code with
  | none => exact h
  | some c =>
    simp only [retro_cheat_set]
    rw [(apply_cheats_console _).2.2.2.2.2.2]
    apply pieces_count_le
    rw [(clear_cheats_console s).2.2.2.2.2.2]
    exact h

theorem reachable_count_le (s : State) (h : Reachable s) : s.maxcheats ≤ MAX_CHEATS := by
  induction h with
  | empty s h0 => rw [h0]; exact Nat.zero_le _
  | set s enabled code _ ih => exact retro_cheat_set_count_le s enabled code ih
  | reset s _ _ => exact Nat.zero_le _

theorem fullTable_count : fullTable.maxcheats = MAX_CHEATS := by
  simp [fullTable, withTable, MAX_CHEATS]

theorem fullTable_data (k : Nat) : (fullTable.cheatlist k).data ≤ 1 := by
  unfold fullTable withTable
  simp only [List.getD_eq_getElem?_getD, List.getElem?_map]
  rcases Nat.lt_or_ge k 150 with h | h
  · rw [List.getElem?_range h]
    simp [entry]
  · rw [List.getElem?_eq_none (by simpa using h)]
    simp [entry]

/-! ## The RAM list and the order of its patches -/

theorem RAMCheatUpdate_body_eq (s : State) (cnt : Nat) :
    RAMCheatUpdate_body s cnt = ramPatch s (s.cheatlist (s.cheatIndexes cnt)) := rfl

theorem ramPatch_frame (s : State) (e : CHEATENTRY) :
    (ramPatch s e).cheatlist = s.cheatlist ∧ (ramPatch s e).cheatIndexes = s.cheatIndexes
    ∧ (ramPatch s e).lsb_first = s.lsb_first ∧ (ramPatch s e).maxRAMcheats = s.maxRAMcheats
    ∧ (ramPatch s e).rom = s.rom := by
  unfold ramPatch
  simp only []
  split_ifs <;> simp

theorem ramPatch_congr (s : State) {e f : CHEATENTRY} (ha : f.address = e.address)
    (hd : f.data = e.data) : ramPatch s f = ramPatch s e := by
  unfold ramPatch
  simp only [ha, hd]

theorem apply_body_ram (t : State) (i : Nat) (h : isRAMpatch t (t.cheatlist i) = true) :
    apply_cheats_body t i = addRAMpatch t i := by
  unfold isRAMpatch at h
  simp only [Bool.and_eq_true, Bool.or_eq_true, decide_eq_true_eq] at h
  obtain ⟨he, h⟩ := h
  unfold apply_cheats_body
  simp only [he, if_true]
  by_cases h1 : 0xFF0000 ≤ (t.cheatlist i).address
  · rw [if_pos h1]
  · rw [if_neg h1]
    rcases h with h | ⟨hcd, h⟩
    · exact absurd h h1
    · rw [if_pos hcd]
      rcases h with h | h
      · rw [if_pos h]
      · by_cases h2 : (t.cheatlist i).address < 0x80000
        · rw [if_pos h2]
        · rw [if_neg h2, if_pos h]

theorem apply_body_not_ram (t : State) (i : Nat) (h : isRAMpatch t (t.cheatlist i) = false) :
    (apply_cheats_body t i).maxRAMcheats = t.maxRAMcheats
    ∧ (apply_cheats_body t i).maxROMcheats ≤ t.maxROMcheats + 1
    ∧ ∀ k, k ≠ MAX_CHEATS - (t.maxROMcheats + 1) →
        (apply_cheats_body t i).cheatIndexes k = t.cheatIndexes k := by
  unfold isRAMpatch at h
  unfold apply_cheats_body
  simp only []
  by_cases he : (t.cheatlist i).enable = true
  · simp only [he, Bool.true_and, Bool.or_eq_false_iff, Bool.and_eq_false_imp,
      decide_eq_false_iff_not, decide_eq_true_eq] at h
    obtain ⟨h1, h2⟩ := h
    rw [if_pos he, if_neg h1]
    by_cases hcd : t.isCD = true
    · obtain ⟨h3, h4⟩ := h2 hcd
      rw [if_pos hcd, if_neg h3, if_neg (fun hh => h4 hh.1 hh.2)]
      exact ⟨rfl, Nat.le_succ _, fun _ _ => rfl⟩
    · rw [if_neg hcd]
      split_ifs
      · exact ⟨rfl, Nat.le_succ _, fun _ _ => rfl⟩
      · exact ⟨rfl, Nat.le_refl _, fun k hk => upd_other _ _ hk⟩
      · exact ⟨rfl, Nat.le_refl _, fun k hk => upd_other _ _ hk⟩
      · exact ⟨rfl, Nat.le_succ _, fun _ _ => rfl⟩
  · rw [if_neg he]
    exact ⟨rfl, Nat.le_succ _, fun _ _ => rfl⟩

theorem isRAMpatch_console {s t : State} (h : SameConsole s t) (e : CHEATENTRY) :
    isRAMpatch t e = isRAMpatch s e := by
  unfold isRAMpatch
  rw [h.console_isCD]

theorem isRAMpatch_code (s : State) {e f : CHEATENTRY} (h : SameCode e f) :
    isRAMpatch s f = isRAMpatch s e := by
  unfold isRAMpatch
  rw [h.1, h.2.1]

/-- The RAM list after `n` iterations of the loop of `apply_cheats` started
with both lists empty: it and the ROM list hold at most `n` indices together,
its slots hold table indices below `n` of RAM patches in ascending order, and
every RAM patch below `n` is in a slot. -/
theorem apply_loop_ram_list (s : State) (h0 : s.maxRAMcheats = 0) (h1 : s.maxROMcheats = 0) :
    ∀ n : Nat, n ≤ MAX_CHEATS →
    (apply_cheats_loop s n).maxRAMcheats + (apply_cheats_loop s n).maxROMcheats ≤ n
    ∧ (∀ k, k < (apply_cheats_loop s n).maxRAMcheats →
        (apply_cheats_loop s n).cheatIndexes k < n
        ∧ isRAMpatch s (s.cheatlist ((apply_cheats_loop s n).cheatIndexes k)) = true)
    ∧ (∀ k1 k2, k1 < k2 → k2 < (apply_cheats_loop s n).maxRAMcheats →
        (apply_cheats_loop s n).cheatIndexes k1 < (apply_cheats_loop s n).cheatIndexes k2)
    ∧ (∀ i, i < n → isRAMpatch s (s.cheatlist i) = true →
        ∃ k, k < (apply_cheats_loop s n).maxRAMcheats
          ∧ (apply_cheats_loop s n).cheatIndexes k = i) := by
  intro n
  induction n with
  | zero =>
    intro _
    simp only [apply_cheats_loop, h0, h1]
    refine ⟨Nat.le_refl _, ?_, ?_, ?_⟩
    · intro k h2
      exact absurd h2 (Nat.not_lt_zero _)
    · intro k1 k2 _ h3
      exact absurd h3 (Nat.not_lt_zero _)
    · intro i hi
      exact absurd hi (Nat.not_lt_zero _)
  | succ n ih =>
    intro hn
    have hn150 : n < 150 := hn
    obtain ⟨ia, ic, id, ie⟩ := ih (by omega)
    have hent : (apply_cheats_loop s n).cheatlist n = s.cheatlist n :=
      apply_loop_entry_ge s n (Nat.le_refl n)
    have hram : isRAMpatch (apply_cheats_loop s n) ((apply_cheats_loop s n).cheatlist n)
        = isRAMpatch s (s.cheatlist n) := by
      rw [hent, isRAMpatch_console (apply_loop_console s n)]
    simp only [apply_cheats_loop]
    generalize apply_cheats_loop s n = t at ia ic id ie hent hram
    have hmod : n % 256 = n := Nat.mod_eq_of_lt (by omega)
    by_cases hr : isRAMpatch s (s.cheatlist n) = true
    · rw [apply_body_ram t n (hram.trans hr)]
      simp only [addRAMpatch, hmod]
      refine ⟨by omega, ?_, ?_, ?_⟩
      · intro k h2
        by_cases hk : k = t.maxRAMcheats
        · rw [hk, upd_same]
          exact ⟨Nat.lt_succ_self n, hr⟩
        · rw [upd_other _ _ hk]
          obtain ⟨c1, c2⟩ := ic k (by omega)
          exact ⟨by omega, c2⟩
      · intro k1 k2 h2 h3
        have hk1 : k1 ≠ t.maxRAMcheats := by omega
        rw [upd_other _ _ hk1]
        by_cases hk : k2 = t.maxRAMcheats
        · rw [hk, upd_same]
          exact (ic k1 (by omega)).1
        · rw [upd_other _ _ hk]
          exact id k1 k2 h2 (by omega)
      · intro i hi hri
        by_cases hin : i = n
        · exact ⟨t.maxRAMcheats, Nat.lt_succ_self _, by rw [upd_same, hin]⟩
        · obtain ⟨k, e2, e3⟩ := ie i (by omega) hri
          exact ⟨k, by omega, by rw [upd_other _ _ (by omega), e3]⟩
    · have hr2 : isRAMpatch s (s.cheatlist n) = false := by simpa using hr
      obtain ⟨b1, b2, b3⟩ := apply_body_not_ram t n (hram.trans hr2)
      have hkeep : ∀ k, k < t.maxRAMcheats →
          (apply_cheats_body t n).cheatIndexes k = t.cheatIndexes k := by
        intro k hk
        apply b3
        unfold MAX_CHEATS
        omega
      rw [b1]
      refine ⟨by omega, ?_, ?_, ?_⟩
      · intro k h2
        rw [hkeep k h2]
        obtain ⟨c1, c2⟩ := ic k h2
        exact ⟨by omega, c2⟩
      · intro k1 k2 h2 h3
        rw [hkeep k1 (by omega), hkeep k2 h3]
        exact id k1 k2 h2 h3
      · intro i hi hri
        have hin : i ≠ n := fun h => hr (h ▸ hri)
        obtain ⟨k, e2, e3⟩ := ie i (by omega) hri
        exact ⟨k, e2, by rw [hkeep k e2, e3]⟩

/-- A walk of `RAMCheatUpdate` over slots whose patches all leave the observed
byte alone leaves it alone. -/
theorem RAMCheatUpdate_loop_skip (A : State → Nat → Byte) (p : Nat) : ∀ (cnt : Nat) (t : State),
    (∀ k, k < cnt → ∀ u, A (ramPatch u (t.cheatlist (t.cheatIndexes k))) p = A u p) →
    A (RAMCheatUpdate_loop cnt t) p = A t p := by
  intro cnt
  induction cnt with
  | zero => intro t _; rfl
  | succ cnt ih =>
    intro t h
    simp only [RAMCheatUpdate_loop]
    rw [RAMCheatUpdate_body_eq]
    obtain ⟨f1, f2, -⟩ := ramPatch_frame t (t.cheatlist (t.cheatIndexes cnt))
    rw [ih]
    · exact h cnt (Nat.lt_succ_self _) t
    · intro k hk u
      rw [f1, f2]
      exact h k (by omega) u

/-- The patch in the lowest slot that stores to the observed byte decides its
value after the walk of `RAMCheatUpdate`. -/
theorem RAMCheatUpdate_loop_first (A : State → Nat → Byte) (p : Nat) (v : Byte) (lsb : Bool) :
    ∀ (cnt : Nat) (t : State), t.lsb_first = lsb → ∀ k, k < cnt →
    (∀ u, u.lsb_first = lsb → A (ramPatch u (t.cheatlist (t.cheatIndexes k))) p = v) →
    (∀ k1, k1 < k → ∀ u, A (ramPatch u (t.cheatlist (t.cheatIndexes k1))) p = A u p) →
    A (RAMCheatUpdate_loop cnt t) p = v := by
  intro cnt
  induction cnt with
  | zero => intro t _ k hk; exact absurd hk (Nat.not_lt_zero _)
  | succ cnt ih =>
    intro t hl k hk hv hlow
    simp only [RAMCheatUpdate_loop]
    rw [RAMCheatUpdate_body_eq]
    obtain ⟨f1, f2, f3, -⟩ := ramPatch_frame t (t.cheatlist (t.cheatIndexes cnt))
    by_cases hkc : k = cnt
    · rw [RAMCheatUpdate_loop_skip A p]
      · rw [← hkc]
        exact hv t hl
      · intro k1 hk1 u
        rw [f1, f2]
        exact hlow k1 (by omega) u
    · apply ih _ (f3.trans hl) k (by omega)
      · rw [f1, f2]
        exact hv
      · rw [f1, f2]
        exact hlow

/-- C20, counterexample: with two enabled byte patches of work-RAM address
0xFF0010, data 0x11 at table index 0 and data 0x22 at table index 1, the byte
holds 0x11 after `RAMCheatUpdate`, not the data of the entry with the higher
table index. -/
theorem later_ram_patch_loses :
    ramTable.maxcheats = 2
    ∧ isRAMpatch ramTable (ramTable.cheatlist 0) = true
    ∧ isRAMpatch ramTable (ramTable.cheatlist 1) = true
    ∧ (ramTable.cheatlist 0).address = (ramTable.cheatlist 1).address
    ∧ (ramTable.cheatlist 1).data = 0x22
    ∧ ((RAMCheatUpdate (apply_cheats ramTable)).work_ram 0x10).val = 0x11 := by
  decide

/-- C20, amended: the first registered RAM patch wins.  Let `A` be an array
of the state (`State.work_ram`, `State.prg_ram` or `State.word_ram_2M`) and let
entry `i` of the table be a RAM patch whose store sets byte `p` of `A` to `v`,
while no RAM patch with a table index below `i` changes that byte.  Then after
`apply_cheats` and `RAMCheatUpdate` byte `p` of `A` holds `v`, whatever the RAM
patches with a higher table index store there. -/
theorem first_ram_patch_wins (s : State) (A : State → Nat → Byte) (i p : Nat) (v : Byte)
    (hmax : s.maxcheats ≤ MAX_CHEATS) (hlt : i < s.maxcheats)
    (hi : isRAMpatch s (s.cheatlist i) = true)
    (hv : ∀ u, u.lsb_first = s.lsb_first → A (ramPatch u (s.cheatlist i)) p = v)
    (hfirst : ∀ i1, i1 < i → isRAMpatch s (s.cheatlist i1) = true →
      ∀ u, A (ramPatch u (s.cheatlist i1)) p = A u p) :
    A (RAMCheatUpdate (apply_cheats s)) p = v := by
  obtain ⟨-, lb, lc, ld⟩ :=
    apply_loop_ram_list { s with maxROMcheats := 0, maxRAMcheats := 0 } rfl rfl s.maxcheats hmax
  obtain ⟨k, hk, hki⟩ := ld i hlt hi
  have hcode : ∀ n, ∀ u, ramPatch u ((apply_cheats s).cheatlist n) = ramPatch u (s.cheatlist n) :=
    fun n u => ramPatch_congr u (apply_cheats_code s n).2.1 (apply_cheats_code s n).2.2
  have hlsb : (apply_cheats s).lsb_first = s.lsb_first := (apply_cheats_console s).2.2.2.2.1
  unfold RAMCheatUpdate
  apply RAMCheatUpdate_loop_first A p v s.lsb_first _ _ hlsb k hk
  · intro u hu
    rw [hcode]
    have e : (apply_cheats s).cheatIndexes k = i := hki
    rw [e]
    exact hv u hu
  · intro k1 hk1 u
    rw [hcode]
    have hlt := lc k1 k hk1 hk
    have e : (apply_cheats s).cheatIndexes k = i := hki
    obtain ⟨-, c2⟩ := lb k1 (Nat.lt_trans hk1 hk)
    exact hfirst _ (by rw [← e]; exact hlt) c2 u

/-- Witness for the amended C20: the table of two byte patches of work-RAM
address 0xFF0010, the first with data 0x11 and the second with data 0x22. -/
theorem first_ram_patch_wins_witness :
    (RAMCheatUpdate (apply_cheats ramTable)).work_ram 0x10 = toByte 0x11 :=
  first_ram_patch_wins ramTable State.work_ram 0 0x10 (toByte 0x11)
    (by decide) (by decide) (by decide)
    (fun _ _ => rfl) (fun i1 h => absurd h (Nat.not_lt_zero _))

/-! ## The shapes of the 8-bit family -/

theorem xor_15 {a : Nat} (h : a < 16) : a ^^^ 15 = 15 - a := by
  interval_cases a <;> rfl

theorem strlen_ge_of_charAt {string : List Char} {n : Nat}
    (h : ∀ i, i < n → charAt string i ≠ NUL) : strlen_ge string n = true := by
  simp only [strlen_ge, List.all_eq_true, List.mem_range, bne_iff_ne, ne_eq]
  exact h

/-- C28: under the 8-bit family, a string of at least 7 characters with `-`
at index 3 whose characters at indices 0, 1, 2, 4, 5, 6 are the hexadecimal
digits of value `d0, d1, a2, a4, a5, a6` and whose character at index 7 is not
`-` makes `decode_cheat` return 7 and store data `d0<<4 | d1`, reference 0, and
as address the work-RAM conversion of the raw address
`((a6 XOR 0xF) << 12) | (a2 << 8) | (a4 << 4) | a5`. -/
theorem decode_cheat_game_genie_sms (s : State) (string : List Char) (index : Nat)
    (d0 d1 a2 a4 a5 a6 : Nat)
    (hfam : s.isMD = false) (_hlen : 7 ≤ string.length) (hsep : charAt string 3 = '-')
    (h0 : arvalidchars[d0]? = some (charAt string 0))
    (h1 : arvalidchars[d1]? = some (charAt string 1))
    (h2 : arvalidchars[a2]? = some (charAt string 2))
    (h4 : arvalidchars[a4]? = some (charAt string 4))
    (h5 : arvalidchars[a5]? = some (charAt string 5))
    (h6 : arvalidchars[a6]? = some (charAt string 6))
    (h7 : charAt string 7 ≠ '-') :
    (decode_cheat s string index).1 = 7
    ∧ ((decode_cheat s string index).2.cheatlist index).data = (d0 <<< 4) ||| d1
    ∧ ((decode_cheat s string index).2.cheatlist index).old = 0
    ∧ ((decode_cheat s string index).2.cheatlist index).address
        = to_work_ram (((a6 ^^^ 0xF) <<< 12) ||| (a2 <<< 8) ||| (a4 <<< 4) ||| a5) := by
  obtain ⟨c0, z0, -, -, b0⟩ := strchr_ar h0
  obtain ⟨c1, z1, -, -, b1⟩ := strchr_ar h1
  obtain ⟨c2, z2, -, -, b2⟩ := strchr_ar h2
  obtain ⟨c4, z4, -, -, b4⟩ := strchr_ar h4
  obtain ⟨c5, z5, -, -, b5⟩ := strchr_ar h5
  obtain ⟨c6, z6, -, -, b6⟩ := strchr_ar h6
  have z3 : charAt string 3 ≠ NUL := by rw [hsep]; decide
  have hs : strlen_ge string 7 = true := by
    apply strlen_ge_of_charAt
    intro i hi
    interval_cases i <;> assumption
  have e7 : (charAt string 7 == '-') = false := by simpa using h7
  have hraw : decode_sms_raw string = some (Decoded.mk 7
      (((a6 ^^^ 0xF) <<< 12) ||| (a2 <<< 8) ||| (a4 <<< 4) ||| a5) ((d0 <<< 4) ||| d1) 0) := by
    simp only [decode_sms_raw, hs, hsep, beq_self_eq_true, Bool.and_self, if_true, hex_loop,
      c0, c1, c2, c4, c5, c6, e7, and_15 b0, and_15 b1, and_15 b2, and_15 b4, and_15 b5,
      and_15 b6]
    simp only [Nat.zero_or, Nat.sub_self, Nat.zero_mul, Nat.shiftLeft_zero, Nat.reduceSub,
      Nat.reduceMul, Bool.false_eq_true, if_false, Option.some.injEq, Decoded.mk.injEq,
      true_and, and_true]
    ac_rfl
  simp [decode_cheat, storeCheat, decode, hfam, decode_sms, hraw, upd]

/-- Witness for C28: the code `FF1-23E`, whose raw address is `0x1123`. -/
theorem decode_cheat_game_genie_sms_witness :
    (decode_cheat smsConsole "FF1-23E".toList 0).1 = 7
    ∧ ((decode_cheat smsConsole "FF1-23E".toList 0).2.cheatlist 0).data = 0xFF
    ∧ ((decode_cheat smsConsole "FF1-23E".toList 0).2.cheatlist 0).old = 0
    ∧ ((decode_cheat smsConsole "FF1-23E".toList 0).2.cheatlist 0).address = 0x1123 :=
  decode_cheat_game_genie_sms smsConsole "FF1-23E".toList 0 15 15 1 2 3 14 (by decide)
    (by decide) (by decide) (by decide) (by decide) (by decide) (by decide) (by decide)
    (by decide) (by decide)

theorem ror2_eq {a b : Nat} (ha : a < 16) (hb : b < 16) :
    ((((a <<< 4) ||| b) >>> 2) ||| ((((a <<< 4) ||| b) &&& 0x03) <<< 6)) % 256
      = ((((a <<< 4) ||| b) >>> 2) ||| (((a <<< 4) ||| b) <<< 6)) % 256 := by
  interval_cases a <;> interval_cases b <;> rfl

/-- C29: under the 8-bit family, an 11-character string with `-` at indices 3
and 7 whose characters at indices 0, 1, 2, 4, 5, 6, 8 and 10 are hexadecimal
digits (index 9 is not read) makes `decode_cheat` return 11, and the stored
reference is the byte `r = r8<<4 | r10` rotated right by 2 bits within 8 bits,
`((r >> 2) | (r << 6)) mod 256`, XORed with `0xBA`. -/
theorem decode_cheat_reference_sms (s : State) (string : List Char) (index : Nat)
    (d0 d1 a2 a4 a5 a6 r8 r10 : Nat)
    (hfam : s.isMD = false) (_hlen : string.length = 11)
    (hsep3 : charAt string 3 = '-') (hsep7 : charAt string 7 = '-')
    (h0 : arvalidchars[d0]? = some (charAt string 0))
    (h1 : arvalidchars[d1]? = some (charAt string 1))
    (h2 : arvalidchars[a2]? = some (charAt string 2))
    (h4 : arvalidchars[a4]? = some (charAt string 4))
    (h5 : arvalidchars[a5]? = some (charAt string 5))
    (h6 : arvalidchars[a6]? = some (charAt string 6))
    (h8 : arvalidchars[r8]? = some (charAt string 8))
    (h10 : arvalidchars[r10]? = some (charAt string 10)) :
    (decode_cheat s string index).1 = 11
    ∧ ((decode_cheat s string index).2.cheatlist index).old
        = (((((r8 <<< 4) ||| r10) >>> 2) ||| (((r8 <<< 4) ||| r10) <<< 6)) % 256) ^^^ 0xBA := by
  obtain ⟨c0, z0, -, -, b0⟩ := strchr_ar h0
  obtain ⟨c1, z1, -, -, b1⟩ := strchr_ar h1
  obtain ⟨c2, z2, -, -, b2⟩ := strchr_ar h2
  obtain ⟨c4, z4, -, -, b4⟩ := strchr_ar h4
  obtain ⟨c5, z5, -, -, b5⟩ := strchr_ar h5
  obtain ⟨c6, z6, -, -, b6⟩ := strchr_ar h6
  obtain ⟨c8, -, -, -, b8⟩ := strchr_ar h8
  obtain ⟨c10, -, -, -, b10⟩ := strchr_ar h10
  have z3 : charAt string 3 ≠ NUL := by rw [hsep3]; decide
  have hs : strlen_ge string 7 = true := by
    apply strlen_ge_of_charAt
    intro i hi
    interval_cases i <;> assumption
  have hraw : decode_sms_raw string = some (Decoded.mk 11
      (((a6 ^^^ 0xF) <<< 12) ||| (a2 <<< 8) ||| (a4 <<< 4) ||| a5) ((d0 <<< 4) ||| d1)
      ((((((r8 <<< 4) ||| r10) >>> 2) ||| (((r8 <<< 4) ||| r10) <<< 6)) % 256) ^^^ 0xBA)) := by
    simp only [decode_sms_raw, hs, hsep3, hsep7, beq_self_eq_true, Bool.and_self, if_true,
      hex_loop, c0, c1, c2, c4, c5, c6, c8, c10, and_15 b0, and_15 b1, and_15 b2, and_15 b4,
      and_15 b5, and_15 b6, and_15 b8, and_15 b10]
    simp only [Nat.zero_or, Nat.sub_self, Nat.zero_mul, Nat.shiftLeft_zero, Nat.reduceSub,
      Nat.reduceMul, Option.some.injEq, Decoded.mk.injEq, true_and, and_true]
    refine ⟨by ac_rfl, ?_⟩
    rw [ror2_eq b8 b10]
  simp [decode_cheat, storeCheat, decode, hfam, decode_sms, hraw, upd]

/-- Witness for C29: the code `001-234-5A6`, whose raw reference byte `0x56`
becomes `0x95 XOR 0xBA = 0x2F`. -/
theorem decode_cheat_reference_sms_witness :
    (decode_cheat smsConsole "001-234-5A6".toList 0).1 = 11
    ∧ ((decode_cheat smsConsole "001-234-5A6".toList 0).2.cheatlist 0).old = 0x2F :=
  decode_cheat_reference_sms smsConsole "001-234-5A6".toList 0 0 0 1 2 3 4 5 6 (by decide)
    (by decide) (by decide) (by decide) (by decide) (by decide) (by decide) (by decide)
    (by decide) (by decide) (by decide) (by decide)

theorem hex4 {a b c d : Nat} (hb : b < 16) (hc : c < 16) (hd : d < 16) :
    (a <<< 12) ||| (b <<< 8) ||| (c <<< 4) ||| d = a * 0x1000 + b * 0x100 + c * 0x10 + d := by
  rw [Nat.lor_assoc, Nat.lor_assoc, shl_or c d 4 (by omega), shl_or b _ 8 (by omega),
    shl_or a _ 12 (by omega)]
  omega

theorem hex2 {a b : Nat} (hb : b < 16) : (a <<< 4) ||| b = a * 0x10 + b := by
  rw [shl_or a b 4 (by omega)]
  omega

/-- C30: the remaining shapes of the 8-bit family, when index 3 is not `-`.
A string of at least 9 characters with `-` at index 4 and hexadecimal digits at
indices 2, 3, 5, 6, 7, 8 decodes to the raw address of digits 2, 3, 5, 6, the
data of digits 7, 8, reference 0 and length 9. A string with `:` at index 4 and
hexadecimal digits at indices 0 to 3, 5, 6 decodes to the raw address of digits
0 to 3, the data of digits 5, 6, reference 0 and length 7. A string with `:` at
index 6 and hexadecimal digits at indices 0 to 5, 7, 8 decodes to the reference
of digits 0, 1 (stored as it is), the raw address of digits 2 to 5, the data of
digits 7, 8 and length 9. The stored address is the work-RAM conversion of the
raw address. A string that passes none of the four shape tests makes
`decode_cheat` return 0. -/
theorem decode_cheat_other_shapes_sms (s : State) (string : List Char) (index : Nat)
    (hfam : s.isMD = false) :
    (∀ a2 a3 a5 a6 d7 d8 : Nat, charAt string 3 ≠ '-' → strlen_ge string 9 = true →
        charAt string 4 = '-' →
        arvalidchars[a2]? = some (charAt string 2) → arvalidchars[a3]? = some (charAt string 3) →
        arvalidchars[a5]? = some (charAt string 5) → arvalidchars[a6]? = some (charAt string 6) →
        arvalidchars[d7]? = some (charAt string 7) → arvalidchars[d8]? = some (charAt string 8) →
        (decode_cheat s string index).1 = 9
        ∧ ((decode_cheat s string index).2.cheatlist index).address
            = to_work_ram (a2 * 0x1000 + a3 * 0x100 + a5 * 0x10 + a6)
        ∧ ((decode_cheat s string index).2.cheatlist index).data = d7 * 0x10 + d8
        ∧ ((decode_cheat s string index).2.cheatlist index).old = 0)
    ∧ (∀ a0 a1 a2 a3 d5 d6 : Nat, charAt string 4 = ':' →
        arvalidchars[a0]? = some (charAt string 0) → arvalidchars[a1]? = some (charAt string 1) →
        arvalidchars[a2]? = some (charAt string 2) → arvalidchars[a3]? = some (charAt string 3) →
        arvalidchars[d5]? = some (charAt string 5) → arvalidchars[d6]? = some (charAt string 6) →
        (decode_cheat s string index).1 = 7
        ∧ ((decode_cheat s string index).2.cheatlist index).address
            = to_work_ram (a0 * 0x1000 + a1 * 0x100 + a2 * 0x10 + a3)
        ∧ ((decode_cheat s string index).2.cheatlist index).data = d5 * 0x10 + d6
        ∧ ((decode_cheat s string index).2.cheatlist index).old = 0)
    ∧ (∀ r0 r1 a2 a3 a4 a5 d7 d8 : Nat, charAt string 6 = ':' →
        arvalidchars[r0]? = some (charAt string 0) → arvalidchars[r1]? = some (charAt string 1) →
        arvalidchars[a2]? = some (charAt string 2) → arvalidchars[a3]? = some (charAt string 3) →
        arvalidchars[a4]? = some (charAt string 4) → arvalidchars[a5]? = some (charAt string 5) →
        arvalidchars[d7]? = some (charAt string 7) → arvalidchars[d8]? = some (charAt string 8) →
        (decode_cheat s string index).1 = 9
        ∧ ((decode_cheat s string index).2.cheatlist index).address
            = to_work_ram (a2 * 0x1000 + a3 * 0x100 + a4 * 0x10 + a5)
        ∧ ((decode_cheat s string index).2.cheatlist index).data = d7 * 0x10 + d8
        ∧ ((decode_cheat s string index).2.cheatlist index).old = r0 * 0x10 + r1)
    ∧ (¬ (strlen_ge string 7 = true ∧ charAt string 3 = '-') →
        ¬ (strlen_ge string 9 = true ∧ charAt string 4 = '-') →
        ¬ (strlen_ge string 7 = true ∧ charAt string 4 = ':') →
        ¬ (strlen_ge string 9 = true ∧ charAt string 6 = ':') →
        (decode_cheat s string index).1 = 0 ∧ (decode_cheat s string index).2 = s) := by
  refine ⟨?_, ?_, ?_, ?_⟩
  · intro a2 a3 a5 a6 d7 d8 h3 hs hsep h2 h3d h5 h6 h7 h8
    obtain ⟨c2, -, -, -, b2⟩ := strchr_ar h2
    obtain ⟨c3, -, -, -, b3⟩ := strchr_ar h3d
    obtain ⟨c5, -, -, -, b5⟩ := strchr_ar h5
    obtain ⟨c6, -, -, -, b6⟩ := strchr_ar h6
    obtain ⟨c7, -, -, -, b7⟩ := strchr_ar h7
    obtain ⟨c8, -, -, -, b8⟩ := strchr_ar h8
    have e3 : (charAt string 3 == '-') = false := by simpa using h3
    have hraw : decode_sms_raw string = some (Decoded.mk 9
        (a2 * 0x1000 + a3 * 0x100 + a5 * 0x10 + a6) (d7 * 0x10 + d8) 0) := by
      simp only [decode_sms_raw, e3, Bool.and_false, Bool.false_eq_true, if_false, hs, hsep,
        beq_self_eq_true, Bool.and_self, if_true, hex_loop, c2, c3, c5, c6, c7, c8, and_15 b2,
        and_15 b3, and_15 b5, and_15 b6, and_15 b7, and_15 b8]
      simp only [Nat.zero_or, Nat.sub_self, Nat.zero_mul, Nat.shiftLeft_zero, Nat.reduceSub,
        Nat.reduceMul, Option.some.injEq, Decoded.mk.injEq, true_and, and_true]
      exact ⟨hex4 b3 b5 b6, hex2 b8⟩
    simp [decode_cheat, storeCheat, decode, hfam, decode_sms, hraw, upd]
  · intro a0 a1 a2 a3 d5 d6 hsep h0 h1 h2 h3 h5 h6
    obtain ⟨c0, z0, -, -, b0⟩ := strchr_ar h0
    obtain ⟨c1, z1, -, -, b1⟩ := strchr_ar h1
    obtain ⟨c2, z2, -, -, b2⟩ := strchr_ar h2
    obtain ⟨c3, z3, m3, -, b3⟩ := strchr_ar h3
    obtain ⟨c5, z5, -, -, b5⟩ := strchr_ar h5
    obtain ⟨c6, z6, -, -, b6⟩ := strchr_ar h6
    have z4 : charAt string 4 ≠ NUL := by rw [hsep]; decide
    have hs : strlen_ge string 7 = true := by
      apply strlen_ge_of_charAt
      intro i hi
      interval_cases i <;> assumption
    have e3 : (charAt string 3 == '-') = false := by simpa using m3
    have e4 : (':' == '-') = false := by decide
    have hraw : decode_sms_raw string = some (Decoded.mk 7
        (a0 * 0x1000 + a1 * 0x100 + a2 * 0x10 + a3) (d5 * 0x10 + d6) 0) := by
      simp only [decode_sms_raw, e3, Bool.and_false, Bool.false_eq_true, if_false, hs, hsep, e4,
        beq_self_eq_true, Bool.and_self, if_true, hex_loop, c0, c1, c2, c3, c5, c6, and_15 b0,
        and_15 b1, and_15 b2, and_15 b3, and_15 b5, and_15 b6]
      simp only [Nat.zero_or, Nat.sub_self, Nat.zero_mul, Nat.shiftLeft_zero, Nat.reduceSub,
        Nat.reduceMul, Option.some.injEq, Decoded.mk.injEq, true_and, and_true]
      exact ⟨hex4 b1 b2 b3, hex2 b6⟩
    simp [decode_cheat, storeCheat, decode, hfam, decode_sms, hraw, upd]
  · intro r0 r1 a2 a3 a4 a5 d7 d8 hsep h0 h1 h2 h3 h4 h5 h7 h8
    obtain ⟨c0, z0, -, -, b0⟩ := strchr_ar h0
    obtain ⟨c1, z1, -, -, b1⟩ := strchr_ar h1
    obtain ⟨c2, z2, -, -, b2⟩ := strchr_ar h2
    obtain ⟨c3, z3, m3, -, b3⟩ := strchr_ar h3
    obtain ⟨c4, z4, m4, n4, b4⟩ := strchr_ar h4
    obtain ⟨c5, z5, -, -, b5⟩ := strchr_ar h5
    obtain ⟨c7, z7, -, -, b7⟩ := strchr_ar h7
    obtain ⟨c8, z8, -, -, b8⟩ := strchr_ar h8
    have z6 : charAt string 6 ≠ NUL := by rw [hsep]; decide
    have hs : strlen_ge string 9 = true := by
      apply strlen_ge_of_charAt
      intro i hi
      interval_cases i <;> assumption
    have e3 : (charAt string 3 == '-') = false := by simpa using m3
    have e4 : (charAt string 4 == '-') = false := by simpa using m4
    have e5 : (charAt string 4 == ':') = false := by simpa using n4
    have hraw : decode_sms_raw string = some (Decoded.mk 9
        (a2 * 0x1000 + a3 * 0x100 + a4 * 0x10 + a5) (d7 * 0x10 + d8) (r0 * 0x10 + r1)) := by
      simp only [decode_sms_raw, e3, e4, e5, Bool.and_false, Bool.false_eq_true, if_false, hs,
        hsep, beq_self_eq_true, Bool.and_self, if_true, hex_loop, c0, c1, c2, c3, c4, c5, c7, c8,
        and_15 b0, and_15 b1, and_15 b2, and_15 b3, and_15 b4, and_15 b5, and_15 b7, and_15 b8]
      simp only [Nat.zero_or, Nat.sub_self, Nat.zero_mul, Nat.shiftLeft_zero, Nat.reduceSub,
        Nat.reduceMul, Option.some.injEq, Decoded.mk.injEq, true_and, and_true]
      exact ⟨hex4 b3 b4 b5, hex2 b8, hex2 b1⟩
    simp [decode_cheat, storeCheat, decode, hfam, decode_sms, hraw, upd]
  · intro n1 n2 n3 n4
    have t1 : (strlen_ge string 7 && charAt string 3 == '-') = false := by
      simpa using n1
    have t2 : (strlen_ge string 9 && charAt string 4 == '-') = false := by
      simpa using n2
    have t3 : (strlen_ge string 7 && charAt string 4 == ':') = false := by
      simpa using n3
    have t4 : (strlen_ge string 9 && charAt string 6 == ':') = false := by
      simpa using n4
    have hraw : decode_sms_raw string = some (Decoded.mk 0 0 0 0) := by
      simp only [decode_sms_raw, t1, t2, t3, t4, Bool.false_eq_true, if_false]
    simp [decode_cheat, decode, hfam, decode_sms, hraw]

/-- Witness for C30: the codes `0012-3456`, `C123:45` and `AAC123:45`, and the
string `0123456`, which has none of the four shapes. -/
theorem decode_cheat_other_shapes_sms_witness :
    ((decode_cheat smsConsole "0012-3456".toList 0).1 = 9
      ∧ ((decode_cheat smsConsole "0012-3456".toList 0).2.cheatlist 0).address = 0x1234
      ∧ ((decode_cheat smsConsole "0012-3456".toList 0).2.cheatlist 0).data = 0x56
      ∧ ((decode_cheat smsConsole "0012-3456".toList 0).2.cheatlist 0).old = 0)
    ∧ ((decode_cheat smsConsole "C123:45".toList 0).1 = 7
      ∧ ((decode_cheat smsConsole "C123:45".toList 0).2.cheatlist 0).address = 0xFF0123
      ∧ ((decode_cheat smsConsole "C123:45".toList 0).2.cheatlist 0).data = 0x45
      ∧ ((decode_cheat smsConsole "C123:45".toList 0).2.cheatlist 0).old = 0)
    ∧ ((decode_cheat smsConsole "AA1123:45".toList 0).1 = 9
      ∧ ((decode_cheat smsConsole "AA1123:45".toList 0).2.cheatlist 0).address = 0x1123
      ∧ ((decode_cheat smsConsole "AA1123:45".toList 0).2.cheatlist 0).data = 0x45
      ∧ ((decode_cheat smsConsole "AA1123:45".toList 0).2.cheatlist 0).old = 0xAA)
    ∧ (decode_cheat smsConsole "0123456".toList 0).1 = 0
      ∧ (decode_cheat smsConsole "0123456".toList 0).2 = smsConsole :=
  ⟨(decode_cheat_other_shapes_sms smsConsole "0012-3456".toList 0 (by decide)).1
      1 2 3 4 5 6 (by decide) (by decide) (by decide) (by decide) (by decide) (by decide)
      (by decide) (by decide) (by decide),
   (decode_cheat_other_shapes_sms smsConsole "C123:45".toList 0 (by decide)).2.1
      12 1 2 3 4 5 (by decide) (by decide) (by decide) (by decide) (by decide) (by decide)
      (by decide),
   (decode_cheat_other_shapes_sms smsConsole "AA1123:45".toList 0 (by decide)).2.2.1
      10 10 1 1 2 3 4 5 (by decide) (by decide) (by decide) (by decide) (by decide) (by decide)
      (by decide) (by decide) (by decide),
   (decode_cheat_other_shapes_sms smsConsole "0123456".toList 0 (by decide)).2.2.2
      (by decide) (by decide) (by decide) (by decide)⟩

/-! ## Effect of one patch -/

theorem read16_write16 (lsb : Bool) (m : Nat → Byte) (o v : Nat) :
    read16 lsb (write16 lsb m o v) o = v % 0x10000 := by
  cases lsb
  · simp only [read16, write16, write8, upd, toByte, Bool.false_eq_true, if_false, if_true,
      Nat.succ_ne_self, Nat.add_one_ne_self]
    simp
    omega
  · simp only [read16, write16, write8, upd, toByte, if_true]
    simp
    omega

theorem apply_body_disabled (t : State) (j : Nat) (h : (t.cheatlist j).enable = false) :
    apply_cheats_body t j = t := by
  simp [apply_cheats_body, h]

/-- With a single enabled entry `i`, the loop of `apply_cheats` does nothing
before iteration `i` and nothing after it. -/
theorem apply_loop_only (s : State) (i : Nat) : ∀ n : Nat,
    (∀ j, j < n → j ≠ i → (s.cheatlist j).enable = false) →
    apply_cheats_loop s n = if i < n then apply_cheats_body s i else s := by
  intro n
  induction n with
  | zero => intro _; simp [apply_cheats_loop]
  | succ n ih =>
    intro hothers
    have ih2 := ih (fun j hj hji => hothers j (by omega) hji)
    simp only [apply_cheats_loop]
    by_cases hin : n = i
    · subst hin
      rw [ih2, if_neg (Nat.lt_irrefl _), if_pos (Nat.lt_succ_self _)]
    · have hd : ((apply_cheats_loop s n).cheatlist n).enable = false := by
        rw [apply_loop_entry_ge s n (Nat.le_refl n)]
        exact hothers n (Nat.lt_succ_self n) hin
      rw [apply_body_disabled _ n hd, ih2]
      by_cases hlt : i < n
      · rw [if_pos hlt, if_pos (by omega)]
      · rw [if_neg hlt, if_neg (by omega)]

/-- C24: 16-bit Apply. In the 16-bit family, with no disc game running, for a
table whose only enabled entry `i` has an address below the cartridge size and
below `0xFF0000`, after `apply_cheats` the 16-bit word of the cartridge at
offset `address & 0xFFFFFE` is the entry's data, the entry's reference is the
word that was there before, and every other byte of the cartridge is
unchanged. -/
theorem apply_cheats_flat_single (s : State) (i : Nat)
    (hmd : s.isMD = true) (hcd : s.isCD = false) (hi : i < s.maxcheats)
    (hen : (s.cheatlist i).enable = true)
    (hothers : ∀ j, j < s.maxcheats → j ≠ i → (s.cheatlist j).enable = false)
    (hrs : (s.cheatlist i).address < s.romsize) (hlow : (s.cheatlist i).address < 0xFF0000)
    (hdata : (s.cheatlist i).data < 0x10000) :
    read16 s.lsb_first (apply_cheats s).rom ((s.cheatlist i).address &&& 0xFFFFFE)
      = (s.cheatlist i).data
    ∧ ((apply_cheats s).cheatlist i).old
      = read16 s.lsb_first s.rom ((s.cheatlist i).address &&& 0xFFFFFE)
    ∧ ∀ p, p ≠ ((s.cheatlist i).address &&& 0xFFFFFE) →
        p ≠ ((s.cheatlist i).address &&& 0xFFFFFE) + 1 → (apply_cheats s).rom p = s.rom p := by
  have hloop : apply_cheats s
      = apply_cheats_body { s with maxROMcheats := 0, maxRAMcheats := 0 } i := by
    unfold apply_cheats
    rw [apply_loop_only { s with maxROMcheats := 0, maxRAMcheats := 0 } i s.maxcheats hothers,
      if_pos hi]
  have hnot : ¬ 0xFF0000 ≤ (s.cheatlist i).address := by omega
  have hmd2 : ({ s with maxROMcheats := 0, maxRAMcheats := 0 } : State).isMD = true := hmd
  have hcd2 : ({ s with maxROMcheats := 0, maxRAMcheats := 0 } : State).isCD = false := hcd
  have hbody : apply_cheats_body { s with maxROMcheats := 0, maxRAMcheats := 0 } i
      = { s with maxROMcheats := 0, maxRAMcheats := 0,
                 cheatlist := upd s.cheatlist i { s.cheatlist i with
                   old := read16 s.lsb_first s.rom ((s.cheatlist i).address &&& 0xFFFFFE) },
                 rom := write16 s.lsb_first s.rom ((s.cheatlist i).address &&& 0xFFFFFE)
                   (s.cheatlist i).data } := by
    unfold apply_cheats_body
    simp only [hmd2, hcd2]
    simp only [hen, hnot, hrs, if_true, if_false, Bool.false_eq_true]
  rw [hloop, hbody]
  refine ⟨?_, ?_, ?_⟩
  · simp only []
    rw [read16_write16, Nat.mod_eq_of_lt hdata]
  · simp only [upd_same]
  · intro p h0 h1
    simp only []
    exact write16_other _ _ _ h0 h1

/-- Witness for C24: the entry at `0x101` with data `0x1234` patches the word
at `0x100`. -/
theorem apply_cheats_flat_single_witness :
    read16 true (apply_cheats flatTable).rom 0x100 = 0x1234
    ∧ ((apply_cheats flatTable).cheatlist 1).old = 0x5555
    ∧ (apply_cheats flatTable).rom 0x102 = toByte 0x55 := by
  have h := apply_cheats_flat_single flatTable 1 (by decide) (by decide) (by decide) (by decide)
    (fun j _ hj => by
      rcases j with _ | _ | j
      · rfl
      · exact absurd rfl hj
      · rfl)
    (by decide) (by decide) (by decide)
  exact ⟨h.1, h.2.1, h.2.2 0x102 (by decide) (by decide)⟩

theorem and_FFFE (a : Nat) : a &&& 0xFFFE = 2 * ((a / 2) % 0x8000) := by
  have h := and_shl1 a 0x7FFF
  have h2 := Nat.and_pow_two_sub_one_eq_mod (a >>> 1) 15
  have e : (0x7FFF : Nat) <<< 1 = 0xFFFE := by decide
  have e2 : (2 : Nat) ^ 15 - 1 = 0x7FFF := by norm_num
  rw [e] at h
  rw [e2] at h2
  rw [h, h2, Nat.shiftLeft_eq, Nat.shiftRight_eq_div_pow]
  omega

/-- An address from `0xFF0000` to `0xFFFFFF` selects the `default` case of the
`switch` of `RAMCheatUpdate`. -/
theorem work_ram_selector {a : Nat} (hlo : 0xFF0000 ≤ a) (hhi : a < 0x1000000) :
    (a >>> 20) &&& 0xf = 0xf := by
  have h : a >>> 20 = 15 := by
    rw [Nat.shiftRight_eq_div_pow]
    omega
  rw [h]
  rfl

/-- C26: footprint of `RAMCheatUpdate` with a single entry in the RAM list
whose address is a work-RAM address (`0xFF0000` to `0xFFFFFF`). When the data
has no bit of `0xFF00` set, the byte of work RAM at offset `address & 0xFFFF`
becomes the low 8 bits of the data, whatever it held, and every other byte of
work RAM is unchanged. When the data has a bit of `0xFF00` set, the 16-bit
word at the even offset `address & 0xFFFE` becomes the data and every other
byte of work RAM is unchanged. In both cases PRG-RAM, Word-RAM and the
cartridge are unchanged. -/
theorem RAMCheatUpdate_single_work_ram (s : State) (i : Nat)
    (hone : s.maxRAMcheats = 1) (hidx : s.cheatIndexes 0 = i)
    (hlo : 0xFF0000 ≤ (s.cheatlist i).address) (hhi : (s.cheatlist i).address < 0x1000000)
    (hdata : (s.cheatlist i).data < 0x10000) :
    ((s.cheatlist i).data &&& 0xFF00 = 0 →
        ∀ p, (RAMCheatUpdate s).work_ram p
          = if p = (s.cheatlist i).address &&& 0xFFFF then toByte ((s.cheatlist i).data % 256)
            else s.work_ram p)
    ∧ ((s.cheatlist i).data &&& 0xFF00 ≠ 0 →
        read16 s.lsb_first (RAMCheatUpdate s).work_ram ((s.cheatlist i).address &&& 0xFFFE)
          = (s.cheatlist i).data
        ∧ ((s.cheatlist i).address &&& 0xFFFE) % 2 = 0
        ∧ ∀ p, p ≠ ((s.cheatlist i).address &&& 0xFFFE) →
            p ≠ ((s.cheatlist i).address &&& 0xFFFE) + 1 →
            (RAMCheatUpdate s).work_ram p = s.work_ram p)
    ∧ (RAMCheatUpdate s).prg_ram = s.prg_ram
    ∧ (RAMCheatUpdate s).word_ram_2M = s.word_ram_2M
    ∧ (RAMCheatUpdate s).rom = s.rom := by
  have hsel := work_ram_selector hlo hhi
  have hrun : RAMCheatUpdate s = RAMCheatUpdate_body s 0 := by
    unfold RAMCheatUpdate
    rw [hone]
    rfl
  by_cases hb : (s.cheatlist i).data &&& 0xFF00 = 0
  · have hst : RAMCheatUpdate s =
        { s with
          work_ram := write8 s.work_ram ((s.cheatlist i).address &&& 0xffff)
            (s.cheatlist i).data } := by
      rw [hrun]
      simp [RAMCheatUpdate_body, hidx, hsel, hb]
    rw [hst]
    refine ⟨?_, fun hw => absurd hb hw, rfl, rfl, rfl⟩
    intro _ p
    by_cases hp : p = (s.cheatlist i).address &&& 0xFFFF
    · rw [if_pos hp, hp]
      simp only [write8_same]
      apply Fin.ext
      simp [toByte]
    · rw [if_neg hp]
      exact write8_other _ _ hp
  · have hst : RAMCheatUpdate s =
        { s with
          work_ram := write16 s.lsb_first s.work_ram ((s.cheatlist i).address &&& 0xfffe)
            (s.cheatlist i).data } := by
      rw [hrun]
      simp [RAMCheatUpdate_body, hidx, hsel, hb]
    rw [hst]
    refine ⟨fun h0 => absurd h0 hb, fun _ => ⟨?_, ?_, ?_⟩, rfl, rfl, rfl⟩
    · simp only []
      rw [read16_write16, Nat.mod_eq_of_lt hdata]
    · rw [and_FFFE]
      omega
    · intro p h0 h1
      exact write16_other _ _ _ h0 h1

/-- Witness for C26: a byte patch with data `0x00FF` at `0xFF0011`, registered
by `apply_cheats`, and a word patch with data `0x1234` at the same address. -/
theorem RAMCheatUpdate_single_work_ram_witness :
    (apply_cheats ramByteTable).maxRAMcheats = 1
    ∧ (RAMCheatUpdate (apply_cheats ramByteTable)).work_ram 0x11 = toByte 0xFF
    ∧ (RAMCheatUpdate (apply_cheats ramByteTable)).work_ram 0x10 = toByte 0
    ∧ read16 true (RAMCheatUpdate (apply_cheats ramWordTable)).work_ram 0x10 = 0x1234
    ∧ (RAMCheatUpdate (apply_cheats ramByteTable)).rom = (apply_cheats ramByteTable).rom := by
  have hb := RAMCheatUpdate_single_work_ram (apply_cheats ramByteTable) 1 (by decide) (by decide)
    (by decide) (by decide) (by decide)
  have hw := RAMCheatUpdate_single_work_ram (apply_cheats ramWordTable) 0 (by decide) (by decide)
    (by decide) (by decide) (by decide)
  exact ⟨by decide, (hb.1 (by decide) 0x11).trans (by decide),
    (hb.1 (by decide) 0x10).trans (by decide), (hw.2.1 (by decide)).1, hb.2.2.2.2⟩

/-! ## The two index lists -/

theorem apply_body_rom (t : State) (i : Nat) (h : isROMpatch t (t.cheatlist i) = true) :
    (apply_cheats_body t i).maxRAMcheats = t.maxRAMcheats
    ∧ (apply_cheats_body t i).maxROMcheats = t.maxROMcheats + 1
    ∧ (apply_cheats_body t i).cheatIndexes
        = upd t.cheatIndexes (MAX_CHEATS - (t.maxROMcheats + 1)) (i % 256) := by
  unfold isROMpatch at h
  simp only [Bool.and_eq_true, Bool.not_eq_true', decide_eq_false_iff_not, decide_eq_true_eq]
    at h
  obtain ⟨⟨⟨⟨he, h1⟩, hcd⟩, hrs⟩, hmd⟩ := h
  unfold apply_cheats_body
  simp only [he, if_true, h1, if_false, hcd, Bool.false_eq_true, hrs, hmd]
  split_ifs <;> exact ⟨rfl, rfl, rfl⟩

theorem apply_body_neither (t : State) (i : Nat) (hr : isRAMpatch t (t.cheatlist i) = false)
    (ho : isROMpatch t (t.cheatlist i) = false) :
    (apply_cheats_body t i).maxRAMcheats = t.maxRAMcheats
    ∧ (apply_cheats_body t i).maxROMcheats = t.maxROMcheats
    ∧ (apply_cheats_body t i).cheatIndexes = t.cheatIndexes := by
  unfold isRAMpatch at hr
  unfold isROMpatch at ho
  unfold apply_cheats_body
  simp only []
  by_cases he : (t.cheatlist i).enable = true
  · simp only [he, Bool.true_and, Bool.or_eq_false_iff, Bool.and_eq_false_imp,
      decide_eq_false_iff_not, decide_eq_true_eq] at hr
    obtain ⟨h1, h2⟩ := hr
    rw [if_pos he, if_neg h1]
    by_cases hcd : t.isCD = true
    · obtain ⟨h3, h4⟩ := h2 hcd
      rw [if_pos hcd, if_neg h3, if_neg (fun hh => h4 hh.1 hh.2)]
      exact ⟨rfl, rfl, rfl⟩
    · rw [if_neg hcd]
      by_cases hrs : (t.cheatlist i).address < t.romsize
      · by_cases hmd : t.isMD = true
        · rw [if_pos hrs, if_pos hmd]
          exact ⟨rfl, rfl, rfl⟩
        · exfalso
          simp [he, h1, hcd, hrs, hmd] at ho
      · rw [if_neg hrs]
        exact ⟨rfl, rfl, rfl⟩
  · rw [if_neg he]
    exact ⟨rfl, rfl, rfl⟩

theorem ram_not_rom (t : State) (e : CHEATENTRY) (h : isRAMpatch t e = true) :
    isROMpatch t e = false := by
  unfold isRAMpatch at h
  unfold isROMpatch
  simp only [Bool.and_eq_true, Bool.or_eq_true, decide_eq_true_eq] at h
  obtain ⟨-, h⟩ := h
  rcases h with h | ⟨hcd, -⟩
  · simp [h]
  · simp [hcd]

theorem isROMpatch_console {s t : State} (h : SameConsole s t) (e : CHEATENTRY) :
    isROMpatch t e = isROMpatch s e := by
  unfold isROMpatch
  rw [h.console_isCD, h.console_isMD, h.2.2.2.1]

theorem isROMpatch_code (s : State) {e f : CHEATENTRY} (h : SameCode e f) :
    isROMpatch s f = isROMpatch s e := by
  unfold isROMpatch
  rw [h.1, h.2.1]

theorem filter_range_succ (p : Nat → Bool) (n : Nat) :
    (List.range (n + 1)).filter p
      = if p n = true then (List.range n).filter p ++ [n] else (List.range n).filter p := by
  rw [List.range_succ, List.filter_append]
  by_cases h : p n = true
  · simp [h]
  · simp [h]

theorem map_range_succ {α : Type} (f : Nat → α) (n : Nat) :
    (List.range (n + 1)).map f = (List.range n).map f ++ [f n] := by
  rw [List.range_succ, List.map_append]
  rfl

theorem map_range_congr {α : Type} {f g : Nat → α} {n : Nat} (h : ∀ k, k < n → f k = g k) :
    (List.range n).map f = (List.range n).map g :=
  List.map_congr_left (fun k hk => h k (List.mem_range.mp hk))

/-- The two index lists after `n` iterations of the loop of `apply_cheats`
started with both lists empty: together they hold at most `n` indices; the RAM
list, read from slot 0 upwards, and the ROM list, read from slot
`MAX_CHEATS - 1` downwards, are the ascending lists of the table indices below
`n` that pass the respective test. -/
theorem apply_loop_lists (s : State) (h0 : s.maxRAMcheats = 0) (h1 : s.maxROMcheats = 0) :
    ∀ n : Nat, n ≤ MAX_CHEATS →
    (apply_cheats_loop s n).maxRAMcheats + (apply_cheats_loop s n).maxROMcheats ≤ n
    ∧ (List.range (apply_cheats_loop s n).maxRAMcheats).map (apply_cheats_loop s n).cheatIndexes
        = (List.range n).filter (fun i => isRAMpatch s (s.cheatlist i))
    ∧ (List.range (apply_cheats_loop s n).maxROMcheats).map
          (fun r => (apply_cheats_loop s n).cheatIndexes (MAX_CHEATS - (r + 1)))
        = (List.range n).filter (fun i => isROMpatch s (s.cheatlist i)) := by
  intro n
  induction n with
  | zero =>
    intro _
    simp only [apply_cheats_loop, h0, h1]
    exact ⟨Nat.le_refl _, rfl, rfl⟩
  | succ n ih =>
    intro hn
    have hn150 : n < 150 := hn
    obtain ⟨ia, ib, ic⟩ := ih (by omega)
    have hent : (apply_cheats_loop s n).cheatlist n = s.cheatlist n :=
      apply_loop_entry_ge s n (Nat.le_refl n)
    have hram : isRAMpatch (apply_cheats_loop s n) ((apply_cheats_loop s n).cheatlist n)
        = isRAMpatch s (s.cheatlist n) := by
      rw [hent, isRAMpatch_console (apply_loop_console s n)]
    have hrom : isROMpatch (apply_cheats_loop s n) ((apply_cheats_loop s n).cheatlist n)
        = isROMpatch s (s.cheatlist n) := by
      rw [hent, isROMpatch_console (apply_loop_console s n)]
    simp only [apply_cheats_loop]
    generalize apply_cheats_loop s n = t at ia ib ic hent hram hrom
    have hmod : n % 256 = n := Nat.mod_eq_of_lt (by omega)
    rw [filter_range_succ, filter_range_succ]
    by_cases hr : isRAMpatch s (s.cheatlist n) = true
    · have ho : isROMpatch s (s.cheatlist n) = false := by
        rw [← hrom]
        exact ram_not_rom t _ (hram.trans hr)
      rw [apply_body_ram t n (hram.trans hr), if_pos hr, if_neg (by simp [ho])]
      simp only [addRAMpatch, hmod]
      refine ⟨by omega, ?_, ?_⟩
      · rw [map_range_succ, upd_same, ← ib]
        congr 1
        exact map_range_congr (fun k hk => upd_other _ _ (by omega))
      · rw [← ic]
        exact map_range_congr (fun k hk => upd_other _ _ (by unfold MAX_CHEATS; omega))
    · have hr2 : isRAMpatch s (s.cheatlist n) = false := by simpa using hr
      by_cases ho : isROMpatch s (s.cheatlist n) = true
      · obtain ⟨b1, b2, b3⟩ := apply_body_rom t n (hrom.trans ho)
        rw [b1, b2, b3, if_neg hr, if_pos ho, hmod]
        refine ⟨by omega, ?_, ?_⟩
        · rw [← ib]
          exact map_range_congr (fun k hk => upd_other _ _ (by unfold MAX_CHEATS; omega))
        · rw [map_range_succ, upd_same, ← ic]
          congr 1
          exact map_range_congr (fun k hk => upd_other _ _ (by unfold MAX_CHEATS; omega))
      · have ho2 : isROMpatch s (s.cheatlist n) = false := by simpa using ho
        obtain ⟨b1, b2, b3⟩ := apply_body_neither t n (hram.trans hr2) (hrom.trans ho2)
        rw [b1, b2, b3, if_neg hr, if_neg ho]
        exact ⟨by omega, ib, ic⟩

theorem apply_registered_eq (s : State) (n : Nat) :
    apply_cheats_registered s n = (List.range n).filter (fun i => isROMpatch s (s.cheatlist i)) := by
  induction n with
  | zero => rfl
  | succ n ih =>
    simp only [apply_cheats_registered]
    rw [filter_range_succ, apply_loop_entry_ge s n (Nat.le_refl n),
      isROMpatch_console (apply_loop_console s n), ih]

theorem ROMCheatUpdate_body_indexes (s : State) (cnt : Nat) :
    (ROMCheatUpdate_body s cnt).cheatIndexes = s.cheatIndexes := by
  unfold ROMCheatUpdate_body
  simp only []
  split_ifs <;> split <;> rfl

theorem ROMCheatUpdate_order_eq : ∀ (cnt : Nat) (s : State),
    ROMCheatUpdate_order cnt s
      = ((List.range cnt).map (fun r => s.cheatIndexes (MAX_CHEATS - (r + 1)))).reverse := by
  intro cnt
  induction cnt with
  | zero => intro s; rfl
  | succ cnt ih =>
    intro s
    simp only [ROMCheatUpdate_order]
    rw [ih, ROMCheatUpdate_body_indexes, map_range_succ, List.reverse_append]
    rfl

theorem mem_map_range {f : Nat → Nat} {m i : Nat} :
    i ∈ (List.range m).map f ↔ ∃ k, k < m ∧ f k = i := by
  simp only [List.mem_map, List.mem_range]

/-- Membership in the RAM list after `apply_cheats`. -/
theorem apply_cheats_ram_mem (s : State) (hmax : s.maxcheats ≤ MAX_CHEATS) (i : Nat) :
    (∃ k, k < (apply_cheats s).maxRAMcheats ∧ (apply_cheats s).cheatIndexes k = i)
      ↔ (i < s.maxcheats ∧ isRAMpatch s (s.cheatlist i) = true) := by
  obtain ⟨-, lb, -⟩ :=
    apply_loop_lists { s with maxROMcheats := 0, maxRAMcheats := 0 } rfl rfl s.maxcheats hmax
  rw [← mem_map_range]
  unfold apply_cheats
  rw [lb, List.mem_filter, List.mem_range]
  rfl

/-- Membership in the ROM list after `apply_cheats`. -/
theorem apply_cheats_rom_mem (s : State) (hmax : s.maxcheats ≤ MAX_CHEATS) (i : Nat) :
    (∃ k, MAX_CHEATS - (apply_cheats s).maxROMcheats ≤ k ∧ k < MAX_CHEATS
        ∧ (apply_cheats s).cheatIndexes k = i)
      ↔ (i < s.maxcheats ∧ isROMpatch s (s.cheatlist i) = true) := by
  obtain ⟨la, -, lc⟩ :=
    apply_loop_lists { s with maxROMcheats := 0, maxRAMcheats := 0 } rfl rfl s.maxcheats hmax
  have hm : i ∈ (List.range (apply_cheats s).maxROMcheats).map
        (fun r => (apply_cheats s).cheatIndexes (MAX_CHEATS - (r + 1)))
      ↔ (i < s.maxcheats ∧ isROMpatch s (s.cheatlist i) = true) := by
    unfold apply_cheats
    rw [lc, List.mem_filter, List.mem_range]
    rfl
  rw [← hm, mem_map_range]
  have hc : (apply_cheats s).maxROMcheats ≤ s.maxcheats := by
    unfold apply_cheats
    omega
  unfold MAX_CHEATS at hmax ⊢
  constructor
  · rintro ⟨k, h1, h2, h3⟩
    refine ⟨149 - k, by omega, ?_⟩
    have e : 150 - (149 - k + 1) = k := by omega
    rw [e]
    exact h3
  · rintro ⟨r, h1, h2⟩
    exact ⟨150 - (r + 1), by omega, by omega, h2⟩

theorem apply_cheats_count (s : State) (hmax : s.maxcheats ≤ MAX_CHEATS) :
    (apply_cheats s).maxRAMcheats + (apply_cheats s).maxROMcheats ≤ s.maxcheats :=
  (apply_loop_lists { s with maxROMcheats := 0, maxRAMcheats := 0 } rfl rfl s.maxcheats hmax).1

theorem isRAMpatch_eq (s : State) (e : CHEATENTRY) :
    isRAMpatch s e = decide (e.enable = true ∧ (0xFF0000 ≤ e.address
      ∨ (s.system_hw = s.ids.SYSTEM_MCD ∧ s.boot = 0
          ∧ (e.address < 0x80000 ∨ (0x200000 ≤ e.address ∧ e.address < 0x240000))))) := by
  rw [Bool.eq_iff_iff]
  simp only [isRAMpatch, State.isCD, Bool.and_eq_true, Bool.or_eq_true, decide_eq_true_eq,
    beq_iff_eq, and_assoc]

/-- C25: after `apply_cheats` on a table of at most 150 entries, the RAM index
list, read from slot 0 to slot `maxRAMcheats - 1`, is the ascending list of
the table indices of the enabled entries whose address is at least `0xFF0000`
or, when the add-on is present and not booted from cartridge, below `0x80000`
or in `[0x200000, 0x240000)`. -/
theorem ram_list_classification (s : State) (hmax : s.maxcheats ≤ MAX_CHEATS) :
    (List.range (apply_cheats s).maxRAMcheats).map (apply_cheats s).cheatIndexes
      = (List.range s.maxcheats).filter (fun i => decide ((s.cheatlist i).enable = true
          ∧ (0xFF0000 ≤ (s.cheatlist i).address
            ∨ (s.system_hw = s.ids.SYSTEM_MCD ∧ s.boot = 0
                ∧ ((s.cheatlist i).address < 0x80000
                  ∨ (0x200000 ≤ (s.cheatlist i).address
                      ∧ (s.cheatlist i).address < 0x240000)))))) := by
  obtain ⟨-, lb, -⟩ :=
    apply_loop_lists { s with maxROMcheats := 0, maxRAMcheats := 0 } rfl rfl s.maxcheats hmax
  unfold apply_cheats
  rw [lb]
  apply List.filter_congr
  intro i _
  exact isRAMpatch_eq s (s.cheatlist i)

/-- Witness for C25: with a disc game the entries 0 (PRG-RAM), 2 (Word-RAM)
and 4 (work RAM) are in the list; on a console without add-on only the
work-RAM entry 2 is. -/
theorem ram_list_classification_witness :
    (List.range (apply_cheats cdRamTable).maxRAMcheats).map (apply_cheats cdRamTable).cheatIndexes
      = [0, 2, 4]
    ∧ (List.range (apply_cheats mdTable).maxRAMcheats).map (apply_cheats mdTable).cheatIndexes
      = [2] :=
  ⟨(ram_list_classification cdRamTable (by decide)).trans (by decide),
   (ram_list_classification mdTable (by decide)).trans (by decide)⟩

/-- C27: after `apply_cheats` on a table of at most 150 entries, the RAM list
and the ROM list hold at most as many indices together as the table has
entries, hence at most 150; no slot below `maxRAMcheats` is one of the slots
from `150 - maxROMcheats` to 149; and every index stored in either list is
below the entry count. -/
theorem index_lists_disjoint (s : State) (hmax : s.maxcheats ≤ MAX_CHEATS) :
    (apply_cheats s).maxRAMcheats + (apply_cheats s).maxROMcheats ≤ s.maxcheats
    ∧ (apply_cheats s).maxRAMcheats + (apply_cheats s).maxROMcheats ≤ MAX_CHEATS
    ∧ (∀ k, k < (apply_cheats s).maxRAMcheats →
        ¬ (MAX_CHEATS - (apply_cheats s).maxROMcheats ≤ k ∧ k < MAX_CHEATS))
    ∧ (∀ k, k < (apply_cheats s).maxRAMcheats → (apply_cheats s).cheatIndexes k < s.maxcheats)
    ∧ (∀ k, MAX_CHEATS - (apply_cheats s).maxROMcheats ≤ k → k < MAX_CHEATS →
        (apply_cheats s).cheatIndexes k < s.maxcheats) := by
  have hc := apply_cheats_count s hmax
  refine ⟨hc, Nat.le_trans hc hmax, ?_, ?_, ?_⟩
  · intro k hk hcon
    unfold MAX_CHEATS at hmax hcon
    omega
  · intro k hk
    exact ((apply_cheats_ram_mem s hmax _).mp ⟨k, hk, rfl⟩).1
  · intro k h1 h2
    exact ((apply_cheats_rom_mem s hmax _).mp ⟨k, h1, h2, rfl⟩).1

/-- Witness for C27: a table with two banked ROM patches and one RAM patch:
the RAM list is slot 0, the ROM list is slots 148 and 149. -/
theorem index_lists_disjoint_witness :
    (apply_cheats smsTable).maxRAMcheats = 1 ∧ (apply_cheats smsTable).maxROMcheats = 2
    ∧ (apply_cheats smsTable).maxRAMcheats + (apply_cheats smsTable).maxROMcheats
        ≤ smsTable.maxcheats
    ∧ (apply_cheats smsTable).cheatIndexes 0 < smsTable.maxcheats
    ∧ (apply_cheats smsTable).cheatIndexes 148 < smsTable.maxcheats :=
  ⟨by decide, by decide, (index_lists_disjoint smsTable (by decide)).1,
   (index_lists_disjoint smsTable (by decide)).2.2.2.1 0 (by decide),
   (index_lists_disjoint smsTable (by decide)).2.2.2.2 148 (by decide) (by decide)⟩

/-- C21, counterexample: with two banked ROM patches, `apply_cheats` registers
entry 0 and then entry 1, and `ROMCheatUpdate` processes entry 1 first and
entry 0 last. -/
theorem ROMCheatUpdate_order_counterexample :
    apply_cheats_registered { aliasTable with maxROMcheats := 0, maxRAMcheats := 0 }
        aliasTable.maxcheats = [0, 1]
    ∧ ROMCheatUpdate_order (apply_cheats aliasTable).maxROMcheats (apply_cheats aliasTable)
        = [1, 0] := by
  decide

/-- C21, amended: `ROMCheatUpdate` processes the tracked ROM-patch entries in
reverse registration order. For a table of at most 150 entries, the list of
the entries it processes, in the order of its iterations, is the reverse of
the list of the entries `apply_cheats` registered, in the order it registered
them: the entry registered last is processed first and the entry registered
first is processed last. -/
theorem ROMCheatUpdate_reverse_order (s : State) (hmax : s.maxcheats ≤ MAX_CHEATS) :
    ROMCheatUpdate_order (apply_cheats s).maxROMcheats (apply_cheats s)
      = (apply_cheats_registered { s with maxROMcheats := 0, maxRAMcheats := 0 }
          s.maxcheats).reverse := by
  obtain ⟨-, -, lc⟩ :=
    apply_loop_lists { s with maxROMcheats := 0, maxRAMcheats := 0 } rfl rfl s.maxcheats hmax
  rw [ROMCheatUpdate_order_eq, apply_registered_eq]
  unfold apply_cheats
  rw [lc]

/-- Witness for the amended C21: the table with two banked ROM patches and one
RAM patch. -/
theorem ROMCheatUpdate_reverse_order_witness :
    ROMCheatUpdate_order (apply_cheats smsTable).maxROMcheats (apply_cheats smsTable) = [1, 0] :=
  (ROMCheatUpdate_reverse_order smsTable (by decide)).trans (by decide)

/-- C22, counterexample: an enabled entry whose address is past the end of
the cartridge and below work RAM is in neither index list after `apply_cheats`,
and the cartridge and the bytes at its address are as before. -/
theorem enabled_entry_skipped :
    skipTable.maxcheats = 1 ∧ (skipTable.cheatlist 0).enable = true
    ∧ (apply_cheats skipTable).maxRAMcheats = 0 ∧ (apply_cheats skipTable).maxROMcheats = 0
    ∧ (apply_cheats skipTable).rom = skipTable.rom
    ∧ (apply_cheats skipTable).rom 0x500000 = toByte 0x55
    ∧ (apply_cheats skipTable).rom 0x500001 = toByte 0x55 :=
  ⟨by decide, by decide, by decide, by decide, rfl, by decide, by decide⟩

/-- C22, amended: every enabled entry of a table of at most 150 entries is
resolved by `apply_cheats` to at most one of RAM patch, flat-ROM patch and
banked-ROM patch, following the tests of the loop body.
An address from `0xFF0000` on, or with a disc game an address below `0x80000`
or in `[0x200000, 0x240000)`: the entry is in the RAM list, not in the ROM
list, and its iteration leaves the cartridge alone.
Any other address with a disc game, and without disc game an address that is
not below the cartridge size: the entry is in neither list and its iteration
changes nothing.
Without disc game and below the cartridge size: in the 16-bit family the
entry is in neither list and its iteration stores its data in the cartridge;
in the 8-bit family it is in the ROM list and not in the RAM list. -/
theorem enabled_entry_classes (s : State) (i : Nat) (hmax : s.maxcheats ≤ MAX_CHEATS)
    (hi : i < s.maxcheats) (hen : (s.cheatlist i).enable = true) :
    ((0xFF0000 ≤ (s.cheatlist i).address
        ∨ (s.isCD = true ∧ ((s.cheatlist i).address < 0x80000
            ∨ (0x200000 ≤ (s.cheatlist i).address ∧ (s.cheatlist i).address < 0x240000)))) →
      (∃ k, k < (apply_cheats s).maxRAMcheats ∧ (apply_cheats s).cheatIndexes k = i)
      ∧ (¬ ∃ k, MAX_CHEATS - (apply_cheats s).maxROMcheats ≤ k ∧ k < MAX_CHEATS
          ∧ (apply_cheats s).cheatIndexes k = i)
      ∧ (apply_cheats_loop { s with maxROMcheats := 0, maxRAMcheats := 0 } (i + 1)).rom
          = (apply_cheats_loop { s with maxROMcheats := 0, maxRAMcheats := 0 } i).rom)
    ∧ ((s.cheatlist i).address < 0xFF0000 →
        ((s.isCD = true ∧ 0x80000 ≤ (s.cheatlist i).address
            ∧ ¬ (0x200000 ≤ (s.cheatlist i).address ∧ (s.cheatlist i).address < 0x240000))
          ∨ (s.isCD = false ∧ s.romsize ≤ (s.cheatlist i).address)) →
      (¬ ∃ k, k < (apply_cheats s).maxRAMcheats ∧ (apply_cheats s).cheatIndexes k = i)
      ∧ (¬ ∃ k, MAX_CHEATS - (apply_cheats s).maxROMcheats ≤ k ∧ k < MAX_CHEATS
          ∧ (apply_cheats s).cheatIndexes k = i)
      ∧ apply_cheats_loop { s with maxROMcheats := 0, maxRAMcheats := 0 } (i + 1)
          = apply_cheats_loop { s with maxROMcheats := 0, maxRAMcheats := 0 } i)
    ∧ ((s.cheatlist i).address < 0xFF0000 → s.isCD = false →
        (s.cheatlist i).address < s.romsize → s.isMD = true →
      (¬ ∃ k, k < (apply_cheats s).maxRAMcheats ∧ (apply_cheats s).cheatIndexes k = i)
      ∧ (¬ ∃ k, MAX_CHEATS - (apply_cheats s).maxROMcheats ≤ k ∧ k < MAX_CHEATS
          ∧ (apply_cheats s).cheatIndexes k = i)
      ∧ (apply_cheats_loop { s with maxROMcheats := 0, maxRAMcheats := 0 } (i + 1)).rom
          = write16 s.lsb_first
              (apply_cheats_loop { s with maxROMcheats := 0, maxRAMcheats := 0 } i).rom
              ((s.cheatlist i).address &&& 0xFFFFFE) (s.cheatlist i).data)
    ∧ ((s.cheatlist i).address < 0xFF0000 → s.isCD = false →
        (s.cheatlist i).address < s.romsize → s.isMD = false →
      (∃ k, MAX_CHEATS - (apply_cheats s).maxROMcheats ≤ k ∧ k < MAX_CHEATS
          ∧ (apply_cheats s).cheatIndexes k = i)
      ∧ ¬ ∃ k, k < (apply_cheats s).maxRAMcheats ∧ (apply_cheats s).cheatIndexes k = i) := by
  have hcon := apply_loop_console { s with maxROMcheats := 0, maxRAMcheats := 0 } i
  have hent : (apply_cheats_loop { s with maxROMcheats := 0, maxRAMcheats := 0 } i).cheatlist i
      = s.cheatlist i :=
    apply_loop_entry_ge { s with maxROMcheats := 0, maxRAMcheats := 0 } i (Nat.le_refl i)
  have hcd : (apply_cheats_loop { s with maxROMcheats := 0, maxRAMcheats := 0 } i).isCD
      = s.isCD := hcon.console_isCD
  have hmd : (apply_cheats_loop { s with maxROMcheats := 0, maxRAMcheats := 0 } i).isMD
      = s.isMD := hcon.console_isMD
  have hrs : (apply_cheats_loop { s with maxROMcheats := 0, maxRAMcheats := 0 } i).romsize
      = s.romsize := hcon.2.2.2.1
  have hlsb : (apply_cheats_loop { s with maxROMcheats := 0, maxRAMcheats := 0 } i).lsb_first
      = s.lsb_first := hcon.2.2.2.2.1
  simp only [apply_cheats_loop]
  generalize apply_cheats_loop { s with maxROMcheats := 0, maxRAMcheats := 0 } i = t
    at hent hcd hmd hrs hlsb
  rw [apply_cheats_ram_mem s hmax i, apply_cheats_rom_mem s hmax i]
  refine ⟨?_, ?_, ?_, ?_⟩
  · intro hram
    have hr : isRAMpatch s (s.cheatlist i) = true := by
      unfold isRAMpatch
      simp only [hen, Bool.true_and, Bool.or_eq_true, Bool.and_eq_true, decide_eq_true_eq]
      exact hram
    have hrt : isRAMpatch t (t.cheatlist i) = true := by
      rw [hent]
      unfold isRAMpatch at hr ⊢
      rw [hcd]
      exact hr
    refine ⟨⟨hi, hr⟩, ?_, ?_⟩
    · rintro ⟨-, ho⟩
      have := ram_not_rom s _ hr
      rw [this] at ho
      exact absurd ho (by simp)
    · rw [apply_body_ram t i hrt]
      rfl
  · intro hlow hnone
    have hr : isRAMpatch s (s.cheatlist i) = false := by
      unfold isRAMpatch
      simp only [hen, Bool.true_and, Bool.or_eq_false_iff, decide_eq_false_iff_not,
        Bool.and_eq_false_imp, decide_eq_true_eq]
      refine ⟨by omega, fun hc => ?_⟩
      rcases hnone with ⟨-, h1, h2⟩ | ⟨h1, -⟩
      · exact ⟨by omega, fun a b => h2 ⟨a, b⟩⟩
      · rw [h1] at hc
        exact absurd hc (by simp)
    have ho : isROMpatch s (s.cheatlist i) = false := by
      unfold isROMpatch
      rcases hnone with ⟨h1, -, -⟩ | ⟨-, h1⟩
      · simp [h1]
      · have : ¬ (s.cheatlist i).address < s.romsize := by omega
        simp [this]
    refine ⟨fun h => ?_, fun h => ?_, ?_⟩
    · rw [hr] at h
      exact absurd h.2 (by simp)
    · rw [ho] at h
      exact absurd h.2 (by simp)
    · unfold apply_cheats_body
      simp only [hent, hen, if_true, hcd, hrs]
      rw [if_neg (by omega)]
      rcases hnone with ⟨h1, h2, h3⟩ | ⟨h1, h2⟩
      · rw [if_pos h1, if_neg (by omega), if_neg h3]
      · rw [if_neg (by simp [h1]), if_neg (by omega)]
  · intro hlow hnocd hrom hfam
    have hr : isRAMpatch s (s.cheatlist i) = false := by
      unfold isRAMpatch
      simp only [hen, Bool.true_and, Bool.or_eq_false_iff, decide_eq_false_iff_not,
        Bool.and_eq_false_imp, decide_eq_true_eq]
      refine ⟨by omega, fun hc => ?_⟩
      rw [hnocd] at hc
      exact absurd hc (by simp)
    have ho : isROMpatch s (s.cheatlist i) = false := by
      unfold isROMpatch
      simp [hfam]
    refine ⟨fun h => ?_, fun h => ?_, ?_⟩
    · rw [hr] at h
      exact absurd h.2 (by simp)
    · rw [ho] at h
      exact absurd h.2 (by simp)
    · unfold apply_cheats_body
      simp only [hent, hen, if_true, hcd, hrs, hmd, hlsb]
      rw [if_neg (by omega), if_neg (by simp [hnocd]), if_pos hrom, if_pos hfam]
  · intro hlow hnocd hrom hfam
    have hr : isRAMpatch s (s.cheatlist i) = false := by
      unfold isRAMpatch
      simp only [hen, Bool.true_and, Bool.or_eq_false_iff, decide_eq_false_iff_not,
        Bool.and_eq_false_imp, decide_eq_true_eq]
      refine ⟨by omega, fun hc => ?_⟩
      rw [hnocd] at hc
      exact absurd hc (by simp)
    have ho : isROMpatch s (s.cheatlist i) = true := by
      unfold isROMpatch
      have : ¬ 0xFF0000 ≤ (s.cheatlist i).address := by omega
      simp [hen, this, hnocd, hrom, hfam]
    refine ⟨⟨hi, ho⟩, fun h => ?_⟩
    rw [hr] at h
    exact absurd h.2 (by simp)

/-- Witness for the amended C22: the three entries of the 8-bit sample table
(two banked ROM patches and a RAM patch) and the skipped entry. -/
theorem enabled_entry_classes_witness :
    (∃ k, k < (apply_cheats smsTable).maxRAMcheats ∧ (apply_cheats smsTable).cheatIndexes k = 2)
    ∧ (∃ k, MAX_CHEATS - (apply_cheats smsTable).maxROMcheats ≤ k ∧ k < MAX_CHEATS
        ∧ (apply_cheats smsTable).cheatIndexes k = 0)
    ∧ (¬ ∃ k, k < (apply_cheats skipTable).maxRAMcheats
        ∧ (apply_cheats skipTable).cheatIndexes k = 0) :=
  ⟨((enabled_entry_classes smsTable 2 (by decide) (by decide) (by decide)).1
      (Or.inl (by decide))).1,
   ((enabled_entry_classes smsTable 0 (by decide) (by decide) (by decide)).2.2.2
      (by decide) (by decide) (by decide) (by decide)).1,
   ((enabled_entry_classes skipTable 0 (by decide) (by decide) (by decide)).2.1
      (by decide) (Or.inr ⟨by decide, by decide⟩)).1⟩

/-! ## Live locations -/

theorem isROMpatch_congr {s t : State} (hmd : t.isMD = s.isMD) (hcd : t.isCD = s.isCD)
    (hrs : t.romsize = s.romsize) {e f : CHEATENTRY} (h : SameCode e f) :
    isROMpatch t f = isROMpatch s e := by
  unfold isROMpatch
  rw [hmd, hcd, hrs, h.1, h.2.1]

theorem apply_body_prev (t : State) (i : Nat) :
    (isROMpatch t (t.cheatlist i) = true →
      ((apply_cheats_body t i).cheatlist i).prev = none
      ∨ ((apply_cheats_body t i).cheatlist i).prev
          = some (bankedPtr t (t.cheatlist i).address))
    ∧ (isROMpatch t (t.cheatlist i) = false →
      ((apply_cheats_body t i).cheatlist i).prev = (t.cheatlist i).prev) := by
  constructor
  · intro h
    unfold isROMpatch at h
    simp only [Bool.and_eq_true, Bool.not_eq_true', decide_eq_false_iff_not, decide_eq_true_eq]
      at h
    obtain ⟨⟨⟨⟨he, h1⟩, hcd⟩, hrs⟩, hmd⟩ := h
    unfold apply_cheats_body
    simp only [he, if_true, h1, if_false, hcd, Bool.false_eq_true, hrs, hmd]
    split_ifs
    · right
      simp only [upd_same]
    · left
      simp only [upd_same]
  · intro h
    by_cases hr : isRAMpatch t (t.cheatlist i) = true
    · rw [apply_body_ram t i hr]
      rfl
    · have hr2 : isRAMpatch t (t.cheatlist i) = false := by simpa using hr
      unfold isRAMpatch at hr2
      unfold isROMpatch at h
      unfold apply_cheats_body
      simp only []
      by_cases he : (t.cheatlist i).enable = true
      · simp only [he, Bool.true_and, Bool.or_eq_false_iff, Bool.and_eq_false_imp,
          decide_eq_false_iff_not, decide_eq_true_eq] at hr2
        obtain ⟨h1, h2⟩ := hr2
        rw [if_pos he, if_neg h1]
        by_cases hcd : t.isCD = true
        · obtain ⟨h3, h4⟩ := h2 hcd
          rw [if_pos hcd, if_neg h3, if_neg (fun hh => h4 hh.1 hh.2)]
        · rw [if_neg hcd]
          by_cases hrs : (t.cheatlist i).address < t.romsize
          · by_cases hmd : t.isMD = true
            · rw [if_pos hrs, if_pos hmd]
              simp only [upd_same]
            · exfalso
              simp [he, h1, hcd, hrs, hmd] at h
          · rw [if_neg hrs]
      · rw [if_neg he]

theorem apply_loop_entry_lt (s : State) (i : Nat) : ∀ n, i < n →
    (apply_cheats_loop s n).cheatlist i = (apply_cheats_loop s (i + 1)).cheatlist i := by
  intro n
  induction n with
  | zero => intro h; exact absurd h (Nat.not_lt_zero _)
  | succ n ih =>
    intro h
    by_cases hin : i = n
    · rw [hin]
    · have e : apply_cheats_loop s (n + 1) = apply_cheats_body (apply_cheats_loop s n) n := rfl
      rw [e, apply_body_entry_other _ hin]
      exact ih (by omega)

/-- The live location of an entry below the entry count after `apply_cheats`:
empty or the byte its address resolves to when the entry is a banked ROM
patch, as before otherwise. -/
theorem apply_cheats_prev (t : State) (i : Nat) (hi : i < t.maxcheats) :
    (isROMpatch t (t.cheatlist i) = true →
      ((apply_cheats t).cheatlist i).prev = none
      ∨ ((apply_cheats t).cheatlist i).prev = some (bankedPtr t (t.cheatlist i).address))
    ∧ (isROMpatch t (t.cheatlist i) = false →
      ((apply_cheats t).cheatlist i).prev = (t.cheatlist i).prev) := by
  have hcon := apply_loop_console { t with maxROMcheats := 0, maxRAMcheats := 0 } i
  have hent : (apply_cheats_loop { t with maxROMcheats := 0, maxRAMcheats := 0 } i).cheatlist i
      = t.cheatlist i :=
    apply_loop_entry_ge { t with maxROMcheats := 0, maxRAMcheats := 0 } i (Nat.le_refl i)
  have hrom : isROMpatch (apply_cheats_loop { t with maxROMcheats := 0, maxRAMcheats := 0 } i)
      (t.cheatlist i) = isROMpatch t (t.cheatlist i) :=
    isROMpatch_console hcon _
  have hmap : (apply_cheats_loop { t with maxROMcheats := 0, maxRAMcheats := 0 } i).z80_readmap
      = t.z80_readmap := hcon.2.2.2.2.2.1
  have hb := apply_body_prev (apply_cheats_loop { t with maxROMcheats := 0, maxRAMcheats := 0 } i) i
  have e : (apply_cheats t).cheatlist i
      = (apply_cheats_body
          (apply_cheats_loop { t with maxROMcheats := 0, maxRAMcheats := 0 } i) i).cheatlist i :=
    apply_loop_entry_lt { t with maxROMcheats := 0, maxRAMcheats := 0 } i t.maxcheats hi
  rw [e]
  rw [hent, hrom] at hb
  unfold bankedPtr at hb ⊢
  rw [hmap] at hb
  exact hb

/-- One iteration of `ROMCheatUpdate`: only the live location of the fetched
entry changes in the table, and it becomes empty or the byte the entry's
address resolves to. -/
theorem ROMCheatUpdate_body_frame (u : State) (cnt : Nat) :
    SameConsole u (ROMCheatUpdate_body u cnt)
    ∧ (ROMCheatUpdate_body u cnt).maxROMcheats = u.maxROMcheats
    ∧ (∀ j, SameCode (u.cheatlist j) ((ROMCheatUpdate_body u cnt).cheatlist j))
    ∧ (∀ j, j ≠ u.cheatIndexes (MAX_CHEATS - cnt) →
        (ROMCheatUpdate_body u cnt).cheatlist j = u.cheatlist j)
    ∧ (((ROMCheatUpdate_body u cnt).cheatlist (u.cheatIndexes (MAX_CHEATS - cnt))).prev = none
      ∨ ((ROMCheatUpdate_body u cnt).cheatlist (u.cheatIndexes (MAX_CHEATS - cnt))).prev
          = some (bankedPtr u (u.cheatlist (u.cheatIndexes (MAX_CHEATS - cnt))).address)) := by
  unfold ROMCheatUpdate_body
  simp only []
  cases hp : (u.cheatlist (u.cheatIndexes (MAX_CHEATS - cnt))).prev with
  | none =>
    simp only []
    split_ifs
    · refine ⟨by simp [SameConsole], rfl, ?_, ?_, ?_⟩
      · intro j
        by_cases hj : j = u.cheatIndexes (MAX_CHEATS - cnt)
        · subst hj
          simp [SameCode]
        · simp only [upd_other _ _ hj]
          exact sameCode_refl _
      · intro j hj
        simp only [upd_other _ _ hj]
      · right
        simp [bankedPtr]
    · exact ⟨sameConsole_refl u, rfl, fun j => sameCode_refl _, fun _ _ => rfl, Or.inl hp⟩
  | some q =>
    simp only [upd_same]
    split_ifs
    · refine ⟨by simp [SameConsole], rfl, ?_, ?_, ?_⟩
      · intro j
        by_cases hj : j = u.cheatIndexes (MAX_CHEATS - cnt)
        · subst hj
          simp [SameCode]
        · simp only [upd_other _ _ hj]
          exact sameCode_refl _
      · intro j hj
        simp only [upd_other _ _ hj]
      · right
        simp [bankedPtr]
    · refine ⟨by simp [SameConsole], rfl, ?_, ?_, ?_⟩
      · intro j
        by_cases hj : j = u.cheatIndexes (MAX_CHEATS - cnt)
        · subst hj
          simp [SameCode]
        · simp only [upd_other _ _ hj]
          exact sameCode_refl _
      · intro j hj
        simp only [upd_other _ _ hj]
      · left
        simp

theorem bankedPtr_congr {s t : State} (h : t.z80_readmap = s.z80_readmap) (a : Nat) :
    bankedPtr t a = bankedPtr s a := by
  unfold bankedPtr
  rw [h]

/-- The walk of `ROMCheatUpdate` from counter value `cnt` down: the console,
the index array, the counter and the codes of the table stay; the live
location of an entry that is not fetched stays; the live location of an entry
that is fetched ends empty or as the byte its address resolves to. -/
theorem ROMCheatUpdate_loop_frame : ∀ (cnt : Nat) (u : State),
    SameConsole u (ROMCheatUpdate_loop cnt u)
    ∧ (ROMCheatUpdate_loop cnt u).cheatIndexes = u.cheatIndexes
    ∧ (ROMCheatUpdate_loop cnt u).maxROMcheats = u.maxROMcheats
    ∧ (∀ j, SameCode (u.cheatlist j) ((ROMCheatUpdate_loop cnt u).cheatlist j))
    ∧ (∀ j, (∀ c, 1 ≤ c → c ≤ cnt → u.cheatIndexes (MAX_CHEATS - c) ≠ j) →
        ((ROMCheatUpdate_loop cnt u).cheatlist j).prev = (u.cheatlist j).prev)
    ∧ (∀ c, 1 ≤ c → c ≤ cnt →
        ((ROMCheatUpdate_loop cnt u).cheatlist (u.cheatIndexes (MAX_CHEATS - c))).prev = none
        ∨ ((ROMCheatUpdate_loop cnt u).cheatlist (u.cheatIndexes (MAX_CHEATS - c))).prev
            = some (bankedPtr u (u.cheatlist (u.cheatIndexes (MAX_CHEATS - c))).address)) := by
  intro cnt
  induction cnt with
  | zero =>
    intro u
    refine ⟨sameConsole_refl u, rfl, rfl, fun j => sameCode_refl _, fun _ _ => rfl, ?_⟩
    intro c h1 h2
    omega
  | succ cnt ih =>
    intro u
    obtain ⟨b1, b2, b3, b4, b5⟩ := ROMCheatUpdate_body_frame u (cnt + 1)
    have bi := ROMCheatUpdate_body_indexes u (cnt + 1)
    obtain ⟨i1, i2, i3, i4, i5, i6⟩ := ih (ROMCheatUpdate_body u (cnt + 1))
    have hmap : (ROMCheatUpdate_body u (cnt + 1)).z80_readmap = u.z80_readmap := b1.2.2.2.2.2.1
    simp only [ROMCheatUpdate_loop]
    rw [bi] at i5 i6
    refine ⟨b1.console_trans i1, i2.trans bi, i3.trans b2, fun j => (b3 j).code_trans (i4 j),
      ?_, ?_⟩
    · intro j hj
      rw [i5 j (fun c h1 h2 => hj c h1 (by omega))]
      rw [b4 j (fun h => hj (cnt + 1) (by omega) (Nat.le_refl _) h.symm)]
    · intro c h1 h2
      have hfresh : ∀ j, (((ROMCheatUpdate_body u (cnt + 1)).cheatlist j).prev = none
          ∨ ((ROMCheatUpdate_body u (cnt + 1)).cheatlist j).prev
              = some (bankedPtr u (u.cheatlist j).address)) →
          (∀ c, 1 ≤ c → c ≤ cnt → u.cheatIndexes (MAX_CHEATS - c) ≠ j) →
          ((ROMCheatUpdate_loop cnt (ROMCheatUpdate_body u (cnt + 1))).cheatlist j).prev = none
          ∨ ((ROMCheatUpdate_loop cnt (ROMCheatUpdate_body u (cnt + 1))).cheatlist j).prev
              = some (bankedPtr u (u.cheatlist j).address) := by
        intro j hf hnv
        rw [i5 j hnv]
        exact hf
      have hvis : ∀ c, 1 ≤ c → c ≤ cnt →
          ((ROMCheatUpdate_loop cnt (ROMCheatUpdate_body u (cnt + 1))).cheatlist
              (u.cheatIndexes (MAX_CHEATS - c))).prev = none
          ∨ ((ROMCheatUpdate_loop cnt (ROMCheatUpdate_body u (cnt + 1))).cheatlist
              (u.cheatIndexes (MAX_CHEATS - c))).prev
              = some (bankedPtr u (u.cheatlist (u.cheatIndexes (MAX_CHEATS - c))).address) := by
        intro c h1 h2
        have h := i6 c h1 h2
        rw [bankedPtr_congr hmap, (b3 _).2.1] at h
        exact h
      by_cases hc : c ≤ cnt
      · exact hvis c h1 hc
      · have hce : c = cnt + 1 := by omega
        rw [hce]
        by_cases hv : ∃ c2, 1 ≤ c2 ∧ c2 ≤ cnt
            ∧ u.cheatIndexes (MAX_CHEATS - c2) = u.cheatIndexes (MAX_CHEATS - (cnt + 1))
        · obtain ⟨c2, v1, v2, v3⟩ := hv
          rw [← v3]
          exact hvis c2 v1 v2
        · exact hfresh _ b5 (fun c2 v1 v2 v3 => hv ⟨c2, v1, v2, v3⟩)

theorem clear_body_prev (s : State) (j k : Nat) :
    (((clear_cheats_body s j).cheatlist k).prev = (s.cheatlist k).prev
      ∨ ((clear_cheats_body s j).cheatlist k).prev = none)
    ∧ (clear_cheats_body s j).cheatIndexes = s.cheatIndexes
    ∧ (clear_cheats_body s j).maxROMcheats = s.maxROMcheats := by
  unfold clear_cheats_body
  simp only []
  split_ifs
  · exact ⟨Or.inl rfl, rfl, rfl⟩
  · split
    · refine ⟨?_, rfl, rfl⟩
      by_cases hk : k = j
      · right
        rw [hk]
        simp only [upd_same]
      · left
        simp only [upd_other _ _ hk]
    · exact ⟨Or.inl rfl, rfl, rfl⟩
  · exact ⟨Or.inl rfl, rfl, rfl⟩
  · exact ⟨Or.inl rfl, rfl, rfl⟩

theorem clear_loop_prev (k : Nat) : ∀ (n : Nat) (s : State),
    (((clear_cheats_loop n s).cheatlist k).prev = (s.cheatlist k).prev
      ∨ ((clear_cheats_loop n s).cheatlist k).prev = none)
    ∧ (clear_cheats_loop n s).cheatIndexes = s.cheatIndexes
    ∧ (clear_cheats_loop n s).maxROMcheats = s.maxROMcheats := by
  intro n
  induction n with
  | zero => intro s; exact ⟨Or.inl rfl, rfl, rfl⟩
  | succ n ih =>
    intro s
    simp only [clear_cheats_loop]
    obtain ⟨a1, a2, a3⟩ := ih (clear_cheats_body s n)
    obtain ⟨b1, b2, b3⟩ := clear_body_prev s n k
    refine ⟨?_, a2.trans b2, a3.trans b3⟩
    rcases a1 with a1 | a1
    · rw [a1]
      exact b1
    · exact Or.inr a1

theorem clear_cheats_prev (s : State) (k : Nat) :
    (((clear_cheats s).cheatlist k).prev = (s.cheatlist k).prev
      ∨ ((clear_cheats s).cheatlist k).prev = none)
    ∧ (clear_cheats s).cheatIndexes = s.cheatIndexes
    ∧ (clear_cheats s).maxROMcheats = s.maxROMcheats := by
  unfold clear_cheats
  split_ifs
  · exact ⟨Or.inl rfl, rfl, rfl⟩
  · exact clear_loop_prev k _ s

/-- What holds in every state of a run of the patching functions that starts
from a table of at most 150 entries without live locations and with an empty
ROM list: the table keeps its codes; the ROM list holds banked ROM patches;
a live location belongs to a banked ROM patch of the ROM list and is the byte
the address resolved to under `m`. -/
theorem patching_inv (s : State) (hmax : s.maxcheats ≤ MAX_CHEATS) (hrom0 : s.maxROMcheats = 0)
    (hnone : ∀ i, i < s.maxcheats → (s.cheatlist i).prev = none) :
    ∀ (m : Nat → Nat) (t : State), Patching s m t →
    (t.isMD = s.isMD ∧ t.isCD = s.isCD ∧ t.romsize = s.romsize ∧ t.maxcheats = s.maxcheats)
    ∧ (∀ i, SameCode (s.cheatlist i) (t.cheatlist i))
    ∧ (∀ k, MAX_CHEATS - t.maxROMcheats ≤ k → k < MAX_CHEATS →
        t.cheatIndexes k < s.maxcheats
        ∧ isROMpatch s (s.cheatlist (t.cheatIndexes k)) = true)
    ∧ (∀ i p, i < s.maxcheats → (t.cheatlist i).prev = some p →
        isROMpatch s (s.cheatlist i) = true
        ∧ p = m ((s.cheatlist i).address >>> 10) + ((s.cheatlist i).address &&& 0x03FF))
    ∧ (∀ i p, i < s.maxcheats → (t.cheatlist i).prev = some p →
        ∃ k, MAX_CHEATS - t.maxROMcheats ≤ k ∧ k < MAX_CHEATS ∧ t.cheatIndexes k = i) := by
  intro m t h
  induction h with
  | start =>
    refine ⟨⟨rfl, rfl, rfl, rfl⟩, fun i => sameCode_refl _, ?_, ?_, ?_⟩
    · intro k h1 h2
      rw [hrom0] at h1
      omega
    · intro i p hi hp
      rw [hnone i hi] at hp
      exact absurd hp (by simp)
    · intro i p hi hp
      rw [hnone i hi] at hp
      exact absurd hp (by simp)
  | apply m t _ ih =>
    obtain ⟨⟨a1, a2, a3, a4⟩, ib, ic, id, ie⟩ := ih
    have hcon := apply_cheats_console t
    have hmaxt : t.maxcheats ≤ MAX_CHEATS := by rw [a4]; exact hmax
    have hrt : ∀ i, isROMpatch t (t.cheatlist i) = isROMpatch s (s.cheatlist i) :=
      fun i => isROMpatch_congr a1 a2 a3 (ib i)
    have hd : ∀ i p, i < s.maxcheats → ((apply_cheats t).cheatlist i).prev = some p →
        isROMpatch s (s.cheatlist i) = true
        ∧ p = t.z80_readmap ((s.cheatlist i).address >>> 10)
            + ((s.cheatlist i).address &&& 0x03FF) := by
      intro i p hi hp
      obtain ⟨q1, q2⟩ := apply_cheats_prev t i (by rw [a4]; exact hi)
      by_cases hr : isROMpatch t (t.cheatlist i) = true
      · refine ⟨(hrt i) ▸ hr, ?_⟩
        rcases q1 hr with q | q
        · rw [q] at hp
          exact absurd hp (by simp)
        · rw [q] at hp
          have e := Option.some.inj hp
          rw [← e]
          unfold bankedPtr
          rw [(ib i).2.1]
      · have hr2 : isROMpatch t (t.cheatlist i) = false := by simpa using hr
        rw [q2 hr2] at hp
        have := (id i p hi hp).1
        rw [← hrt i, hr2] at this
        exact absurd this (by simp)
    refine ⟨⟨hcon.console_isMD.trans a1, hcon.console_isCD.trans a2, hcon.2.2.2.1.trans a3,
      hcon.2.2.2.2.2.2.trans a4⟩, fun i => (ib i).code_trans (apply_cheats_code t i), ?_, hd, ?_⟩
    · intro k h1 h2
      obtain ⟨r1, r2⟩ := (apply_cheats_rom_mem t hmaxt _).mp ⟨k, h1, h2, rfl⟩
      exact ⟨by rw [← a4]; exact r1, (hrt _) ▸ r2⟩
    · intro i p hi hp
      have hr := (hd i p hi hp).1
      exact (apply_cheats_rom_mem t hmaxt i).mpr ⟨by rw [a4]; exact hi, (hrt i).symm ▸ hr⟩
  | update m t _ ih =>
    obtain ⟨⟨a1, a2, a3, a4⟩, ib, ic, id, ie⟩ := ih
    obtain ⟨f1, f2, f3, f4, f5, f6⟩ := ROMCheatUpdate_loop_frame t.maxROMcheats t
    have hvis : ∀ i p, i < s.maxcheats → (t.cheatlist i).prev = some p →
        ∃ c, 1 ≤ c ∧ c ≤ t.maxROMcheats ∧ t.cheatIndexes (MAX_CHEATS - c) = i := by
      intro i p hi hp
      obtain ⟨k, k1, k2, k3⟩ := ie i p hi hp
      refine ⟨MAX_CHEATS - k, by omega, by omega, ?_⟩
      have e : MAX_CHEATS - (MAX_CHEATS - k) = k := by omega
      rw [e]
      exact k3
    have hslot : ∀ i, (∃ c, 1 ≤ c ∧ c ≤ t.maxROMcheats ∧ t.cheatIndexes (MAX_CHEATS - c) = i) →
        (i < s.maxcheats ∧ isROMpatch s (s.cheatlist i) = true)
        ∧ (∃ k, MAX_CHEATS - t.maxROMcheats ≤ k ∧ k < MAX_CHEATS ∧ t.cheatIndexes k = i)
        ∧ (((ROMCheatUpdate t).cheatlist i).prev = none
          ∨ ((ROMCheatUpdate t).cheatlist i).prev
              = some (bankedPtr t (t.cheatlist i).address)) := by
      rintro i ⟨c, c1, c2, c3⟩
      have hk1 : MAX_CHEATS - t.maxROMcheats ≤ MAX_CHEATS - c := by omega
      have hk2 : MAX_CHEATS - c < MAX_CHEATS := by unfold MAX_CHEATS; omega
      have h := ic _ hk1 hk2
      rw [c3] at h
      have h6 := f6 c c1 c2
      rw [c3] at h6
      exact ⟨h, ⟨MAX_CHEATS - c, hk1, hk2, c3⟩, h6⟩
    have hcase : ∀ i p, i < s.maxcheats → ((ROMCheatUpdate t).cheatlist i).prev = some p →
        ∃ c, 1 ≤ c ∧ c ≤ t.maxROMcheats ∧ t.cheatIndexes (MAX_CHEATS - c) = i := by
      intro i p hi hp
      by_cases hv : ∃ c, 1 ≤ c ∧ c ≤ t.maxROMcheats ∧ t.cheatIndexes (MAX_CHEATS - c) = i
      · exact hv
      · have hsame := f5 i (fun c c1 c2 c3 => hv ⟨c, c1, c2, c3⟩)
        have hsame2 : ((ROMCheatUpdate t).cheatlist i).prev = (t.cheatlist i).prev := hsame
        rw [hsame2] at hp
        exact hvis i p hi hp
    have e2 : (ROMCheatUpdate t).maxROMcheats = t.maxROMcheats := f3
    have e3 : (ROMCheatUpdate t).cheatIndexes = t.cheatIndexes := f2
    have hcon : SameConsole t (ROMCheatUpdate t) := f1
    refine ⟨⟨hcon.console_isMD.trans a1, hcon.console_isCD.trans a2, hcon.2.2.2.1.trans a3,
      hcon.2.2.2.2.2.2.trans a4⟩, fun i => (ib i).code_trans (f4 i), ?_, ?_, ?_⟩
    · intro k h1 h2
      rw [e2] at h1
      rw [e3]
      exact ic k h1 h2
    · intro i p hi hp
      obtain ⟨⟨-, s1⟩, -, s3⟩ := hslot i (hcase i p hi hp)
      refine ⟨s1, ?_⟩
      rcases s3 with q | q
      · rw [q] at hp
        exact absurd hp (by simp)
      · rw [q] at hp
        have e := Option.some.inj hp
        rw [← e]
        unfold bankedPtr
        rw [(ib i).2.1]
    · intro i p hi hp
      rw [e2, e3]
      exact (hslot i (hcase i p hi hp)).2.1
  | clear m t _ ih =>
    obtain ⟨⟨a1, a2, a3, a4⟩, ib, ic, id, ie⟩ := ih
    have hcon := clear_cheats_console t
    have hp2 : ∀ i p, ((clear_cheats t).cheatlist i).prev = some p →
        (t.cheatlist i).prev = some p := by
      intro i p hp
      rcases (clear_cheats_prev t i).1 with q | q
      · rw [q] at hp
        exact hp
      · rw [q] at hp
        exact absurd hp (by simp)
    have e2 := (clear_cheats_prev t 0).2.2
    have e3 := (clear_cheats_prev t 0).2.1
    refine ⟨⟨hcon.console_isMD.trans a1, hcon.console_isCD.trans a2, hcon.2.2.2.1.trans a3,
      hcon.2.2.2.2.2.2.trans a4⟩, fun i => (ib i).code_trans (clear_cheats_code t i), ?_, ?_, ?_⟩
    · intro k h1 h2
      rw [e2] at h1
      rw [e3]
      exact ic k h1 h2
    · intro i p hi hp
      exact id i p hi (hp2 i p hp)
    · intro i p hi hp
      rw [e2, e3]
      exact ie i p hi (hp2 i p hp)
  | remap m t m2 _ ih =>
    exact ih

/-- C23, counterexample: with two enabled banked ROM patches of the same
address, the second one expecting the byte the first one writes, both entries
hold the live location `0x1123` after `apply_cheats`. -/
theorem shared_live_location :
    (aliasTable.cheatlist 0).prev = none ∧ (aliasTable.cheatlist 1).prev = none
    ∧ ((apply_cheats aliasTable).cheatlist 0).prev = some 0x1123
    ∧ ((apply_cheats aliasTable).cheatlist 1).prev = some 0x1123 := by
  decide

/-- C23, amended: in every state reached from a table of at most 150 entries
without live locations and with an empty ROM list through `apply_cheats`,
`ROMCheatUpdate` and `clear_cheats`, with the windows remapped at will in
between, a non-empty live location of a table entry is the byte the entry's
address resolved to under the mapping `m` in place at the last `apply_cheats`
or `ROMCheatUpdate`; so two table entries hold the same non-empty live
location only if their addresses resolved to the same byte. -/
theorem live_locations_resolved (s : State) (m : Nat → Nat) (t : State)
    (hmax : s.maxcheats ≤ MAX_CHEATS) (hrom0 : s.maxROMcheats = 0)
    (hnone : ∀ i, i < s.maxcheats → (s.cheatlist i).prev = none) (hrun : Patching s m t) :
    (∀ i p, i < t.maxcheats → (t.cheatlist i).prev = some p →
        p = m ((t.cheatlist i).address >>> 10) + ((t.cheatlist i).address &&& 0x03FF))
    ∧ (∀ i j p, i < t.maxcheats → j < t.maxcheats →
        (t.cheatlist i).prev = some p → (t.cheatlist j).prev = some p →
        m ((t.cheatlist i).address >>> 10) + ((t.cheatlist i).address &&& 0x03FF)
          = m ((t.cheatlist j).address >>> 10) + ((t.cheatlist j).address &&& 0x03FF)) := by
  obtain ⟨⟨-, -, -, a4⟩, ib, -, id, -⟩ := patching_inv s hmax hrom0 hnone m t hrun
  have h1 : ∀ i p, i < t.maxcheats → (t.cheatlist i).prev = some p →
      p = m ((t.cheatlist i).address >>> 10) + ((t.cheatlist i).address &&& 0x03FF) := by
    intro i p hi hp
    rw [(ib i).2.1]
    exact (id i p (by rw [← a4]; exact hi) hp).2
  refine ⟨h1, ?_⟩
  intro i j p hi hj hpi hpj
  rw [← h1 i p hi hpi, ← h1 j p hj hpj]

/-- Witness for the amended C23: the two aliasing patches after `apply_cheats`
under mapping A, and a patch without reference after a remap to mapping B and
`ROMCheatUpdate`. -/
theorem live_locations_resolved_witness :
    (((apply_cheats aliasTable).cheatlist 0).prev = some 0x1123
      ∧ 0x1123 = bankA (((apply_cheats aliasTable).cheatlist 0).address >>> 10)
          + (((apply_cheats aliasTable).cheatlist 0).address &&& 0x03FF))
    ∧ (((ROMCheatUpdate (remap (apply_cheats zeroRefTable) bankB)).cheatlist 0).prev = some 0x5123
      ∧ 0x5123
        = bankB (((ROMCheatUpdate (remap (apply_cheats zeroRefTable) bankB)).cheatlist 0).address
            >>> 10)
          + (((ROMCheatUpdate (remap (apply_cheats zeroRefTable) bankB)).cheatlist 0).address
            &&& 0x03FF)) :=
  ⟨⟨by decide,
    (live_locations_resolved aliasTable bankA (apply_cheats aliasTable) (by decide) (by decide)
      (fun i hi => by
        have h2 : i < 2 := hi
        interval_cases i <;> rfl)
      (Patching.apply _ _ Patching.start)).1 0 0x1123 (by decide) (by decide)⟩,
   ⟨by decide,
    (live_locations_resolved zeroRefTable bankB
      (ROMCheatUpdate (remap (apply_cheats zeroRefTable) bankB)) (by decide) (by decide)
      (fun i hi => by
        have h2 : i < 1 := hi
        interval_cases i
        rfl)
      (Patching.update _ _ (Patching.remap _ _ bankB (Patching.apply _ _ Patching.start)))).1
      0 0x5123 (by decide) (by decide)⟩⟩

/-! ## Ranges of the decoded values -/

theorem nibble_shift_lt (n nib B : Nat) (h : nib < B) :
    (n &&& 0xF) <<< (nib * 4) < 2 ^ (4 * B) := by
  have h1 : n &&& 0xF < 2 ^ 4 := Nat.and_lt_two_pow n (by decide)
  rw [Nat.shiftLeft_eq]
  calc (n &&& 0xF) * 2 ^ (nib * 4) < 2 ^ 4 * 2 ^ (nib * 4) :=
        Nat.mul_lt_mul_of_pos_right h1 (Nat.two_pow_pos _)
    _ = 2 ^ (4 + nib * 4) := (Nat.pow_add 2 4 (nib * 4)).symm
    _ ≤ 2 ^ (4 * B) := Nat.pow_le_pow_right (by decide) (by omega)

/-- A digit loop that starts at nibble `nib` below `B` with an accumulator of
at most `B` nibbles yields a value of at most `B` nibbles. -/
theorem hex_loop_lt (string : List Char) (B : Nat) : ∀ (ps : List Nat) (nib acc a : Nat),
    nib < B → acc < 2 ^ (4 * B) → hex_loop string ps nib acc = some a → a < 2 ^ (4 * B) := by
  intro ps
  induction ps with
  | nil =>
    intro nib acc a _ hacc h
    simp only [hex_loop, Option.some.injEq] at h
    rw [← h]
    exact hacc
  | cons q qs ih =>
    intro nib acc a hn hacc h
    simp only [hex_loop] at h
    cases hq : strchr arvalidchars (charAt string q) with
    | none =>
      rw [hq] at h
      exact absurd h (by simp)
    | some n =>
      rw [hq] at h
      exact ih (nib - 1) _ a (by omega) (Nat.or_lt_two_pow hacc (nibble_shift_lt n nib B hn)) h

theorem hex_loop_lt2 {string : List Char} {ps : List Nat} {a : Nat}
    (h : hex_loop string ps 1 0 = some a) : a < 0x100 := by
  have := hex_loop_lt string 2 ps 1 0 a (by omega) (by decide) h
  simpa using this

theorem hex_loop_lt3 {string : List Char} {ps : List Nat} {a : Nat}
    (h : hex_loop string ps 2 0 = some a) : a < 0x1000 := by
  have := hex_loop_lt string 3 ps 2 0 a (by omega) (by decide) h
  simpa using this

theorem hex_loop_lt4 {string : List Char} {ps : List Nat} {a : Nat}
    (h : hex_loop string ps 3 0 = some a) : a < 0x10000 := by
  have := hex_loop_lt string 4 ps 3 0 a (by omega) (by decide) h
  simpa using this

theorem hex_loop_lt6 {string : List Char} {ps : List Nat} {a : Nat}
    (h : hex_loop string ps 5 0 = some a) : a < 0x1000000 := by
  have := hex_loop_lt string 6 ps 5 0 a (by omega) (by decide) h
  simpa using this

/-- The values the four shapes of the 8-bit family produce fit in 16 bits
(address) and 8 bits (data, reference). -/
theorem decode_sms_raw_lt (string : List Char) (d : Decoded)
    (h : decode_sms_raw string = some d) :
    d.address < 0x10000 ∧ d.data < 0x100 ∧ d.ref < 0x100 := by
  unfold decode_sms_raw at h
  by_cases t1 : (strlen_ge string 7 && charAt string 3 == '-') = true
  · rw [if_pos t1] at h
    cases e1 : hex_loop string [0, 1] 1 0 with
    | none => rw [e1] at h; exact absurd h (by simp)
    | some data =>
      rw [e1] at h
      simp only [] at h
      cases e2 : hex_loop string [2, 4, 5] 2 0 with
      | none => rw [e2] at h; exact absurd h (by simp)
      | some low =>
        rw [e2] at h
        simp only [] at h
        cases e3 : strchr arvalidchars (charAt string 6) with
        | none => rw [e3] at h; exact absurd h (by simp)
        | some n =>
          rw [e3] at h
          simp only [] at h
          have hd := hex_loop_lt2 e1
          have hl := hex_loop_lt3 e2
          have hx : (n &&& 0xF) ^^^ 0xF < 2 ^ 4 :=
            Nat.xor_lt_two_pow (Nat.and_lt_two_pow n (by decide)) (by decide)
          have ha : low ||| (((n &&& 0xF) ^^^ 0xF) <<< 12) < 2 ^ 16 := by
            apply Nat.or_lt_two_pow
            · omega
            · rw [Nat.shiftLeft_eq]
              omega
          by_cases t7 : (charAt string 7 == '-') = true
          · rw [if_pos t7] at h
            cases e4 : hex_loop string [8, 10] 1 0 with
            | none => rw [e4] at h; exact absurd h (by simp)
            | some ref =>
              rw [e4] at h
              simp only [Option.some.injEq] at h
              rw [← h]
              refine ⟨ha, hd, ?_⟩
              have : (((ref >>> 2) ||| ((ref &&& 0x03) <<< 6)) % 256) ^^^ 0xBA < 2 ^ 8 :=
                Nat.xor_lt_two_pow (Nat.mod_lt _ (by decide)) (by decide)
              exact this
          · rw [if_neg t7] at h
            simp only [Option.some.injEq] at h
            rw [← h]
            exact ⟨ha, hd, by simp⟩
  · rw [if_neg t1] at h
    by_cases t2 : (strlen_ge string 9 && charAt string 4 == '-') = true
    · rw [if_pos t2] at h
      cases e1 : hex_loop string [2, 3, 5, 6] 3 0 with
      | none => rw [e1] at h; exact absurd h (by simp)
      | some address =>
        rw [e1] at h
        simp only [] at h
        cases e2 : hex_loop string [7, 8] 1 0 with
        | none => rw [e2] at h; exact absurd h (by simp)
        | some data =>
          rw [e2] at h
          simp only [Option.some.injEq] at h
          rw [← h]
          exact ⟨hex_loop_lt4 e1, hex_loop_lt2 e2, by simp⟩
    · rw [if_neg t2] at h
      by_cases t3 : (strlen_ge string 7 && charAt string 4 == ':') = true
      · rw [if_pos t3] at h
        cases e1 : hex_loop string [0, 1, 2, 3] 3 0 with
        | none => rw [e1] at h; exact absurd h (by simp)
        | some address =>
          rw [e1] at h
          simp only [] at h
          cases e2 : hex_loop string [5, 6] 1 0 with
          | none => rw [e2] at h; exact absurd h (by simp)
          | some data =>
            rw [e2] at h
            simp only [Option.some.injEq] at h
            rw [← h]
            exact ⟨hex_loop_lt4 e1, hex_loop_lt2 e2, by simp⟩
      · rw [if_neg t3] at h
        by_cases t4 : (strlen_ge string 9 && charAt string 6 == ':') = true
        · rw [if_pos t4] at h
          cases e0 : hex_loop string [0, 1] 1 0 with
          | none => rw [e0] at h; exact absurd h (by simp)
          | some ref =>
            rw [e0] at h
            simp only [] at h
            cases e1 : hex_loop string [2, 3, 4, 5] 3 0 with
            | none => rw [e1] at h; exact absurd h (by simp)
            | some address =>
              rw [e1] at h
              simp only [] at h
              cases e2 : hex_loop string [7, 8] 1 0 with
              | none => rw [e2] at h; exact absurd h (by simp)
              | some data =>
                rw [e2] at h
                simp only [Option.some.injEq] at h
                rw [← h]
                exact ⟨hex_loop_lt4 e1, hex_loop_lt2 e2, hex_loop_lt2 e0⟩
        · rw [if_neg t4] at h
          simp only [Option.some.injEq] at h
          rw [← h]
          exact ⟨by decide, by decide, by decide⟩

theorem to_work_ram_range (a : Nat) :
    to_work_ram a < 0xC000 ∨ (0xFF0000 ≤ to_work_ram a ∧ to_work_ram a ≤ 0xFF1FFF) := by
  unfold to_work_ram
  by_cases h : 0xC000 ≤ a
  · right
    rw [if_pos h]
    have hx : a &&& 0x1FFF < 0x2000 := by rw [and_1FFF]; omega
    rw [work_ram_or _ hx]
    omega
  · left
    rw [if_neg h]
    omega

theorem isROMpatch_low {t : State} {e : CHEATENTRY} (h : isROMpatch t e = true) :
    e.address < 0xFF0000 := by
  unfold isROMpatch at h
  simp only [Bool.and_eq_true, Bool.not_eq_true', decide_eq_false_iff_not, decide_eq_true_eq]
    at h
  omega

/-- C31: for every string that `decode_cheat` accepts under the 8-bit family,
the stored data and reference are at most `0xFF` and the stored address is
below `0xC000` or in `[0xFF0000, 0xFF1FFF]`; hence an entry with this address
that passes the test of `apply_cheats` for a banked ROM patch has a window
index `address >> 10` below 48 and an offset `address & 0x3FF` below 1024. -/
theorem decode_ranges_sms (s : State) (string : List Char) (index : Nat)
    (hfam : s.isMD = false) (hacc : (decode_cheat s string index).1 ≠ 0) :
    ((decode_cheat s string index).2.cheatlist index).data ≤ 0xFF
    ∧ ((decode_cheat s string index).2.cheatlist index).old ≤ 0xFF
    ∧ (((decode_cheat s string index).2.cheatlist index).address < 0xC000
      ∨ (0xFF0000 ≤ ((decode_cheat s string index).2.cheatlist index).address
        ∧ ((decode_cheat s string index).2.cheatlist index).address ≤ 0xFF1FFF))
    ∧ ∀ (t : State) (e : CHEATENTRY),
        e.address = ((decode_cheat s string index).2.cheatlist index).address →
        isROMpatch t e = true → e.address >>> 10 < 48 ∧ e.address &&& 0x3FF < 1024 := by
  cases hraw : decode_sms_raw string with
  | none =>
    exfalso
    apply hacc
    simp [decode_cheat, decode, hfam, decode_sms, hraw]
  | some d =>
    obtain ⟨-, b2, b3⟩ := decode_sms_raw_lt string d hraw
    by_cases hl : d.len ≠ 0
    · have hr := to_work_ram_range d.address
      have hst : (decode_cheat s string index).2.cheatlist index
          = { s.cheatlist index with address := to_work_ram d.address, data := d.data,
                                     old := d.ref } := by
        simp [decode_cheat, storeCheat, decode, hfam, decode_sms, hraw, hl, upd]
      rw [hst]
      refine ⟨by simp only []; omega, by simp only []; omega, hr, ?_⟩
      intro t e he hrom
      have hlow := isROMpatch_low hrom
      simp only [] at he
      rw [he] at hlow ⊢
      have hc : to_work_ram d.address < 0xC000 := by omega
      constructor
      · rw [Nat.shiftRight_eq_div_pow]
        omega
      · exact Nat.and_lt_two_pow _ (by decide : 0x3FF < 2 ^ 10)
    · exfalso
      apply hacc
      have hl0 : d.len = 0 := by simpa using hl
      simp [decode_cheat, decode, hfam, decode_sms, hraw, hl0]

/-- Witness for C31: the banked code `FF1-23E` and the work-RAM code
`C123:45`. -/
theorem decode_ranges_sms_witness :
    (((decode_cheat smsConsole "FF1-23E".toList 0).2.cheatlist 0).data ≤ 0xFF
      ∧ ((decode_cheat smsConsole "FF1-23E".toList 0).2.cheatlist 0).address < 0xC000)
    ∧ 0xFF0000 ≤ ((decode_cheat smsConsole "C123:45".toList 0).2.cheatlist 0).address :=
  ⟨⟨(decode_ranges_sms smsConsole "FF1-23E".toList 0 (by decide) (by decide)).1, by decide⟩,
   ((decode_ranges_sms smsConsole "C123:45".toList 0 (by decide) (by decide)).2.2.1.resolve_left
      (by decide)).1⟩

/-- C36, failing input: under the 16-bit family the 9-character string
`FF0001:12` is accepted with length 11, the terminator at index 9 being read
as a digit; under the 8-bit family the 8-character string `001-234-` is
accepted with length 11. -/
theorem consumed_length_exceeds_input :
    "FF0001:12".toList.length = 9
    ∧ (decode_cheat mdConsole "FF0001:12".toList 0).1 = 11
    ∧ charAt "FF0001:12".toList 9 = NUL
    ∧ strchr arvalidchars (charAt "FF0001:12".toList 9) = some 16
    ∧ "001-234-".toList.length = 8
    ∧ (decode_cheat smsConsole "001-234-".toList 0).1 = 11 := by
  decide

/-! ## The Game Genie code of the 16-bit family -/

theorem or_reorder7 (a b c d e f g : Nat) :
    (((((a ||| b) ||| (c ||| d)) ||| e) ||| f) ||| g)
      = c ||| (e ||| (a ||| (b ||| (d ||| (f ||| g))))) := by
  ac_rfl

theorem or_reorder6 (p q r s t u : Nat) :
    ((((p ||| q) ||| r) ||| (s ||| t)) ||| u) = s ||| (u ||| (r ||| (t ||| (p ||| q)))) := by
  ac_rfl

/-- The Game Genie pair in arithmetic form: each bit field of a symbol index
lands in a field of its own of the address or of the data. -/
theorem gg_arith (n0 n1 n2 n3 n4 n5 n6 n7 : Nat) (b0 : n0 < 32) (b1 : n1 < 32) (b2 : n2 < 32)
    (b3 : n3 < 32) (b4 : n4 < 32) (b5 : n5 < 32) (b6 : n6 < 32) (b7 : n7 < 32) :
    gg_switch 7 n7 (gg_switch 6 n6 (gg_switch 5 n5 (gg_switch 4 n4
      (gg_switch 3 n3 (gg_switch 2 n2 (gg_switch 1 n1 (gg_switch 0 n0 (0, 0))))))))
    = (n7 + 32 * (n6 % 8) + 256 * (n3 / 16) + 512 * n2 + 16384 * (n1 % 4) + 65536 * (n4 / 2)
        + 1048576 * (n3 % 16),
       n1 / 4 + 8 * n0 + 256 * (n5 / 2) + 4096 * (n4 % 2) + 8192 * (n6 / 8)
        + 32768 * (n5 % 2)) := by
  have e1 : n1 &&& 3 = n1 % 4 := Nat.and_pow_two_sub_one_eq_mod n1 2
  have e3 : n3 &&& 0xF = n3 % 16 := Nat.and_pow_two_sub_one_eq_mod n3 4
  have e4 : n4 &&& 1 = n4 % 2 := Nat.and_pow_two_sub_one_eq_mod n4 1
  have e5 : n5 &&& 1 = n5 % 2 := Nat.and_pow_two_sub_one_eq_mod n5 1
  have e6 : n6 &&& 7 = n6 % 8 := by simpa using Nat.and_pow_two_sub_one_eq_mod n6 3
  have s1 : n1 >>> 2 = n1 / 4 := by rw [Nat.shiftRight_eq_div_pow]
  have s3 : n3 >>> 4 = n3 / 16 := by rw [Nat.shiftRight_eq_div_pow]
  have s4 : n4 >>> 1 = n4 / 2 := by rw [Nat.shiftRight_eq_div_pow]
  have s5 : n5 >>> 1 = n5 / 2 := by rw [Nat.shiftRight_eq_div_pow]
  have s6 : n6 >>> 3 = n6 / 8 := by rw [Nat.shiftRight_eq_div_pow]
  have q0 : gg_switch 0 n0 (0, 0) = (0, n0 <<< 3) := by
    simp only [gg_switch, Nat.zero_or]
  have q1 : ∀ a d, gg_switch 1 n1 (a, d) = (a ||| ((n1 % 4) <<< 14), d ||| (n1 / 4)) := by
    intro a d
    rw [← e1, ← s1]
    rfl
  have q2 : ∀ a d, gg_switch 2 n2 (a, d) = (a ||| (n2 <<< 9), d) := fun _ _ => rfl
  have q3 : ∀ a d, gg_switch 3 n3 (a, d)
      = (a ||| (((n3 % 16) <<< 20) ||| ((n3 / 16) <<< 8)), d) := by
    intro a d
    rw [← e3, ← s3]
    rfl
  have q4 : ∀ a d, gg_switch 4 n4 (a, d) = (a ||| ((n4 / 2) <<< 16), d ||| ((n4 % 2) <<< 12)) := by
    intro a d
    rw [← e4, ← s4]
    rfl
  have q5 : ∀ a d, gg_switch 5 n5 (a, d)
      = (a, d ||| (((n5 % 2) <<< 15) ||| ((n5 / 2) <<< 8))) := by
    intro a d
    rw [← e5, ← s5]
    rfl
  have q6 : ∀ a d, gg_switch 6 n6 (a, d) = (a ||| ((n6 % 8) <<< 5), d ||| ((n6 / 8) <<< 13)) := by
    intro a d
    rw [← e6, ← s6]
    rfl
  have q7 : ∀ a d, gg_switch 7 n7 (a, d) = (a ||| n7, d) := fun _ _ => rfl
  rw [q0, q1, q2, q3, q4, q5, q6, q7, Prod.mk.injEq, Nat.zero_or]
  constructor
  · rw [or_reorder7]
    rw [shl_or (n6 % 8) n7 5 (by omega), shl_or (n3 / 16) _ 8 (by omega),
      shl_or n2 _ 9 (by omega), shl_or (n1 % 4) _ 14 (by omega), shl_or (n4 / 2) _ 16 (by omega),
      shl_or (n3 % 16) _ 20 (by omega)]
    omega
  · rw [or_reorder6]
    rw [shl_or n0 (n1 / 4) 3 (by omega), shl_or (n5 / 2) _ 8 (by omega),
      shl_or (n4 % 2) _ 12 (by omega), shl_or (n6 / 8) _ 13 (by omega),
      shl_or (n5 % 2) _ 15 (by omega)]
    omega

theorem gg_pair_arith (n : Nat → Nat) (h : ∀ i, i < 8 → n i < 32) :
    gg_pair n
    = (n 7 + 32 * (n 6 % 8) + 256 * (n 3 / 16) + 512 * n 2 + 16384 * (n 1 % 4)
        + 65536 * (n 4 / 2) + 1048576 * (n 3 % 16),
       n 1 / 4 + 8 * n 0 + 256 * (n 5 / 2) + 4096 * (n 4 % 2) + 8192 * (n 6 / 8)
        + 32768 * (n 5 % 2)) :=
  gg_arith (n 0) (n 1) (n 2) (n 3) (n 4) (n 5) (n 6) (n 7) (h 0 (by omega)) (h 1 (by omega))
    (h 2 (by omega)) (h 3 (by omega)) (h 4 (by omega)) (h 5 (by omega)) (h 6 (by omega))
    (h 7 (by omega))

theorem gg_pair_range (n : Nat → Nat) (h : ∀ i, i < 8 → n i < 32) :
    (gg_pair n).1 < 2 ^ 24 ∧ (gg_pair n).2 < 2 ^ 16 := by
  rw [gg_pair_arith n h]
  have b0 := h 0 (by omega)
  have b1 := h 1 (by omega)
  have b2 := h 2 (by omega)
  have b3 := h 3 (by omega)
  have b4 := h 4 (by omega)
  have b5 := h 5 (by omega)
  have b6 := h 6 (by omega)
  have b7 := h 7 (by omega)
  constructor
  · simp only []
    omega
  · simp only []
    omega

theorem radix_addr (x0 x1 x2 x3 x4 x5 x6 y0 y1 y2 y3 y4 y5 y6 : Nat)
    (a0 : x0 < 32) (a1 : x1 < 8) (a2 : x2 < 2) (a3 : x3 < 32) (a4 : x4 < 4) (a5 : x5 < 16)
    (c0 : y0 < 32) (c1 : y1 < 8) (c2 : y2 < 2) (c3 : y3 < 32) (c4 : y4 < 4) (c5 : y5 < 16)
    (h : x0 + 32 * x1 + 256 * x2 + 512 * x3 + 16384 * x4 + 65536 * x5 + 1048576 * x6
      = y0 + 32 * y1 + 256 * y2 + 512 * y3 + 16384 * y4 + 65536 * y5 + 1048576 * y6) :
    x0 = y0 ∧ x1 = y1 ∧ x2 = y2 ∧ x3 = y3 ∧ x4 = y4 ∧ x5 = y5 ∧ x6 = y6 := by
  omega

theorem radix_data (x0 x1 x2 x3 x4 x5 y0 y1 y2 y3 y4 y5 : Nat)
    (a0 : x0 < 8) (a1 : x1 < 32) (a2 : x2 < 16) (a3 : x3 < 2) (a4 : x4 < 4)
    (c0 : y0 < 8) (c1 : y1 < 32) (c2 : y2 < 16) (c3 : y3 < 2) (c4 : y4 < 4)
    (h : x0 + 8 * x1 + 256 * x2 + 4096 * x3 + 8192 * x4 + 32768 * x5
      = y0 + 8 * y1 + 256 * y2 + 4096 * y3 + 8192 * y4 + 32768 * y5) :
    x0 = y0 ∧ x1 = y1 ∧ x2 = y2 ∧ x3 = y3 ∧ x4 = y4 ∧ x5 = y5 := by
  omega

theorem gg_pair_inj (n m : Nat → Nat) (hn : ∀ i, i < 8 → n i < 32) (hm : ∀ i, i < 8 → m i < 32)
    (h : gg_pair n = gg_pair m) : ∀ i, i < 8 → n i = m i := by
  have a0 := hn 0 (by omega)
  have a1 := hn 1 (by omega)
  have a2 := hn 2 (by omega)
  have a3 := hn 3 (by omega)
  have a4 := hn 4 (by omega)
  have a5 := hn 5 (by omega)
  have a6 := hn 6 (by omega)
  have a7 := hn 7 (by omega)
  have c0 := hm 0 (by omega)
  have c1 := hm 1 (by omega)
  have c2 := hm 2 (by omega)
  have c3 := hm 3 (by omega)
  have c4 := hm 4 (by omega)
  have c5 := hm 5 (by omega)
  have c6 := hm 6 (by omega)
  have c7 := hm 7 (by omega)
  have u1 : n 1 / 4 < 8 := by omega
  have u3 : n 3 / 16 < 2 := by omega
  have u4 : n 4 / 2 < 16 := by omega
  have u5 : n 5 / 2 < 16 := by omega
  have u6 : n 6 / 8 < 4 := by omega
  have v1 : m 1 / 4 < 8 := by omega
  have v3 : m 3 / 16 < 2 := by omega
  have v4 : m 4 / 2 < 16 := by omega
  have v5 : m 5 / 2 < 16 := by omega
  have v6 : m 6 / 8 < 4 := by omega
  have e := (gg_pair_arith n hn).symm.trans (h.trans (gg_pair_arith m hm))
  obtain ⟨ha, hd⟩ := Prod.mk.inj e
  obtain ⟨p0, p1, p2, p3, p4, p5, p6⟩ := radix_addr _ _ _ _ _ _ _ _ _ _ _ _ _ _ a7
    (Nat.mod_lt _ (by decide)) u3 a2 (Nat.mod_lt _ (by decide)) u4 c7
    (Nat.mod_lt _ (by decide)) v3 c2 (Nat.mod_lt _ (by decide)) v4 ha
  obtain ⟨d0, d1, d2, d3, d4, d5⟩ := radix_data _ _ _ _ _ _ _ _ _ _ _ _
    u1 a0 u5 (Nat.mod_lt _ (by decide)) u6 v1 c0 v5 (Nat.mod_lt _ (by decide)) v6 hd
  clear ha hd e h hn hm
  intro i hi
  interval_cases i
  · exact d1
  · omega
  · exact p3
  · omega
  · omega
  · omega
  · omega
  · exact p0

theorem gg_pair_surj (a d : Nat) (ha : a < 2 ^ 24) (hd : d < 2 ^ 16) :
    ∃ n : Nat → Nat, (∀ i, i < 8 → n i < 32) ∧ gg_pair n = (a, d) := by
  have hb : ∀ i, i < 8 →
      ([d / 8 % 32, d % 8 * 4 + a / 16384 % 4, a / 512 % 32, a / 256 % 2 * 16 + a / 1048576 % 16,
        a / 65536 % 16 * 2 + d / 4096 % 2, d / 256 % 16 * 2 + d / 32768 % 2,
        d / 8192 % 4 * 8 + a / 32 % 8, a % 32] : List Nat).getD i 0 < 32 := by
    intro i hi
    interval_cases i <;> simp only [List.getD_cons_zero, List.getD_cons_succ] <;> omega
  refine ⟨fun i => ([d / 8 % 32, d % 8 * 4 + a / 16384 % 4, a / 512 % 32,
      a / 256 % 2 * 16 + a / 1048576 % 16, a / 65536 % 16 * 2 + d / 4096 % 2,
      d / 256 % 16 * 2 + d / 32768 % 2, d / 8192 % 4 * 8 + a / 32 % 8, a % 32] : List Nat).getD i 0,
    hb, ?_⟩
  rw [gg_pair_arith _ hb, Prod.mk.injEq]
  simp only [List.getD_cons_zero, List.getD_cons_succ]
  have k1 : (d % 8 * 4 + a / 16384 % 4) % 4 = a / 16384 % 4 := by omega
  have k2 : (d % 8 * 4 + a / 16384 % 4) / 4 = d % 8 := by omega
  have k3 : (a / 256 % 2 * 16 + a / 1048576 % 16) / 16 = a / 256 % 2 := by omega
  have k4 : (a / 256 % 2 * 16 + a / 1048576 % 16) % 16 = a / 1048576 % 16 := by omega
  have k5 : (a / 65536 % 16 * 2 + d / 4096 % 2) / 2 = a / 65536 % 16 := by omega
  have k6 : (a / 65536 % 16 * 2 + d / 4096 % 2) % 2 = d / 4096 % 2 := by omega
  have k7 : (d / 256 % 16 * 2 + d / 32768 % 2) / 2 = d / 256 % 16 := by omega
  have k8 : (d / 256 % 16 * 2 + d / 32768 % 2) % 2 = d / 32768 % 2 := by omega
  have k9 : (d / 8192 % 4 * 8 + a / 32 % 8) % 8 = a / 32 % 8 := by omega
  have k10 : (d / 8192 % 4 * 8 + a / 32 % 8) / 8 = d / 8192 % 4 := by omega
  rw [k1, k2, k3, k4, k5, k6, k7, k8, k9, k10]
  constructor <;> omega

theorem strchr_some_getElem {valid : List Char} {c : Char} {n : Nat}
    (h : strchr valid c = some n) (h0 : c ≠ NUL) : valid[n]? = some c := by
  unfold strchr at h
  rw [if_neg h0] at h
  by_cases hlt : valid.indexOf c < valid.length
  · rw [if_pos hlt, Option.some.injEq] at h
    rw [← h]
    exact List.getElem?_indexOf (List.indexOf_lt_length.mp hlt)
  · rw [if_neg hlt] at h
    exact absurd h (by simp)

/-- The Game Genie loop, when `strchr` finds the symbol of iteration `i` at
index `n i`, yields the pair built from these indices. -/
theorem gg_loop_run (string : List Char) (n : Nat → Nat)
    (h : ∀ i, i < 8 →
      strchr ggvalidchars (charAt string (if i < 4 then i else i + 1)) = some (n i)) :
    gg_loop string 8 0 0 (0, 0) = some (gg_pair n) := by
  have h0 : strchr ggvalidchars (charAt string 0) = some (n 0) := h 0 (by omega)
  have h1 : strchr ggvalidchars (charAt string 1) = some (n 1) := h 1 (by omega)
  have h2 : strchr ggvalidchars (charAt string 2) = some (n 2) := h 2 (by omega)
  have h3 : strchr ggvalidchars (charAt string 3) = some (n 3) := h 3 (by omega)
  have h4 : strchr ggvalidchars (charAt string 5) = some (n 4) := h 4 (by omega)
  have h5 : strchr ggvalidchars (charAt string 6) = some (n 5) := h 5 (by omega)
  have h6 : strchr ggvalidchars (charAt string 7) = some (n 6) := h 6 (by omega)
  have h7 : strchr ggvalidchars (charAt string 8) = some (n 7) := h 7 (by omega)
  simp [gg_loop, h0, h1, h2, h3, h4, h5, h6, h7, gg_pair]

theorem gg_loop_inv (string : List Char) (ad : Nat × Nat)
    (h : gg_loop string 8 0 0 (0, 0) = some ad) (i : Nat) (hi : i < 8) :
    strchr ggvalidchars (charAt string (if i < 4 then i else i + 1)) ≠ none := by
  intro hbad
  rw [gg_loop_none string 8 0 0 (0, 0) rfl ⟨i, Nat.zero_le _, by omega, hbad⟩] at h
  exact absurd h (by simp)

/-- A string of Game Genie shape that `decode_cheat` accepts under the 16-bit
family has at least 9 characters, its symbols are in the alphabet, and the
stored address and data are the pair built from their indices. -/
theorem md_gg_accepted (s : State) (string : List Char) (index : Nat) (hmd : s.isMD = true)
    (hsep : charAt string 4 = '-') (hacc : (decode_cheat s string index).1 ≠ 0) :
    strlen_ge string 9 = true
    ∧ ∃ n : Nat → Nat,
        (∀ i, i < 8 → n i < 32
          ∧ ggvalidchars[n i]? = some (charAt string (if i < 4 then i else i + 1)))
        ∧ ((decode_cheat s string index).2.cheatlist index).address = (gg_pair n).1
        ∧ ((decode_cheat s string index).2.cheatlist index).data = (gg_pair n).2 := by
  cases hs : strlen_ge string 9 with
  | false => exact absurd (decode_cheat_short_md s string index hmd hs) hacc
  | true =>
    refine ⟨rfl, ?_⟩
    cases hg : gg_loop string 8 0 0 (0, 0) with
    | none =>
      exfalso
      apply hacc
      apply decode_cheat_of_none
      simp only [decode, hmd, if_true, decode_md, hs, hsep, beq_self_eq_true, Bool.and_self, hg]
    | some ad =>
      have hfound : ∀ i, i < 8 →
          strchr ggvalidchars (charAt string (if i < 4 then i else i + 1))
            = some ((strchr ggvalidchars
                (charAt string (if i < 4 then i else i + 1))).getD 0) := by
        intro i hi
        cases hq : strchr ggvalidchars (charAt string (if i < 4 then i else i + 1)) with
        | none => exact absurd hq (gg_loop_inv string ad hg i hi)
        | some k => rfl
      have hrun := gg_loop_run string _ hfound
      rw [hg, Option.some.injEq] at hrun
      have hd : decode s.isMD string = some (Decoded.mk 9 ad.1 ad.2 0) := by
        simp only [decode, hmd, if_true, decode_md, hs, hsep, beq_self_eq_true, Bool.and_self,
          hg]
      refine ⟨fun i => (strchr ggvalidchars
        (charAt string (if i < 4 then i else i + 1))).getD 0, ?_, ?_, ?_⟩
      · intro i hi
        have hnz : charAt string (if i < 4 then i else i + 1) ≠ NUL :=
          strlen_ge_charAt hs (by split_ifs <;> omega)
        have hget := strchr_some_getElem (hfound i hi) hnz
        exact ⟨index_lt_of_getElem? hget, hget⟩
      · rw [← hrun]
        simp [decode_cheat, storeCheat, hd, upd]
      · rw [← hrun]
        simp [decode_cheat, storeCheat, hd, upd]

/-- A string of at least 9 characters with `-` at index 4 whose symbols are in
the Game Genie alphabet is accepted under the 16-bit family. -/
theorem md_gg_accept (s : State) (string : List Char) (index : Nat) (hmd : s.isMD = true)
    (hs : strlen_ge string 9 = true) (hsep : charAt string 4 = '-')
    (hall : ∀ i, i < 8 → charAt string (if i < 4 then i else i + 1) ∈ ggvalidchars) :
    (decode_cheat s string index).1 = 9 := by
  have hfound : ∀ i, i < 8 →
      strchr ggvalidchars (charAt string (if i < 4 then i else i + 1))
        = some ((strchr ggvalidchars (charAt string (if i < 4 then i else i + 1))).getD 0) := by
    intro i hi
    cases hq : strchr ggvalidchars (charAt string (if i < 4 then i else i + 1)) with
    | none => exact absurd (hall i hi) ((strchr_none_iff _ _).mp hq).2
    | some k => rfl
  have hrun := gg_loop_run string _ hfound
  have hd : decode s.isMD string = some (Decoded.mk 9
      (gg_pair (fun i => (strchr ggvalidchars
        (charAt string (if i < 4 then i else i + 1))).getD 0)).1
      (gg_pair (fun i => (strchr ggvalidchars
        (charAt string (if i < 4 then i else i + 1))).getD 0)).2 0) := by
    simp only [decode, hmd, if_true, decode_md, hs, hsep, beq_self_eq_true, Bool.and_self, hrun]
  simp [decode_cheat, hd]

theorem gg_ne_nul {c : Char} (h : c ∈ ggvalidchars) : c ≠ NUL := by
  intro h0
  rw [h0] at h
  exact absurd h (by decide)

theorem md_gg_accept9 (s : State) (index : Nat) (hmd : s.isMD = true)
    (c0 c1 c2 c3 c5 c6 c7 c8 : Char)
    (m0 : c0 ∈ ggvalidchars) (m1 : c1 ∈ ggvalidchars) (m2 : c2 ∈ ggvalidchars)
    (m3 : c3 ∈ ggvalidchars) (m5 : c5 ∈ ggvalidchars) (m6 : c6 ∈ ggvalidchars)
    (m7 : c7 ∈ ggvalidchars) (m8 : c8 ∈ ggvalidchars) :
    (decode_cheat s [c0, c1, c2, c3, '-', c5, c6, c7, c8] index).1 = 9 := by
  have z4 : ('-' : Char) ≠ NUL := by decide
  apply md_gg_accept s _ index hmd
  · apply strlen_ge_of_charAt
    intro i hi
    interval_cases i
    · exact gg_ne_nul m0
    · exact gg_ne_nul m1
    · exact gg_ne_nul m2
    · exact gg_ne_nul m3
    · exact z4
    · exact gg_ne_nul m5
    · exact gg_ne_nul m6
    · exact gg_ne_nul m7
    · exact gg_ne_nul m8
  · rfl
  · intro i hi
    interval_cases i
    · exact m0
    · exact m1
    · exact m2
    · exact m3
    · exact m5
    · exact m6
    · exact m7
    · exact m8

/-- C33, counterexample: the array `ggvalidchars` holds 32 distinct symbols,
not 33; its terminator, which `strchr` would find at index 32, is not
accepted at a symbol position, since it ends the string before index 9. -/
theorem gg_alphabet_not_33 :
    ggvalidchars.length = 32 ∧ ggvalidchars.Nodup
    ∧ ggvalidchars.toFinset.card = 32 ∧ ggvalidchars.toFinset.card ≠ 33
    ∧ strchr ggvalidchars NUL = some 32
    ∧ (decode_cheat mdConsole ['A', 'T', 'B', NUL, '-', 'A', 'A', '3', '2'] 0).1 = 0 := by
  decide

/-- C33, amended: the 16-bit Game Genie alphabet has exactly 32 symbols. At
each of the 8 symbol positions of the two-group code, the characters that occur
there in a string of Game Genie shape accepted by `decode_cheat` under the
16-bit family are the characters of `ggvalidchars`, and there are 32 of
them. -/
theorem gg_alphabet_32 (s : State) (p : Nat) (hmd : s.isMD = true)
    (hp : p ∈ [0, 1, 2, 3, 5, 6, 7, 8]) :
    (∀ c : Char,
      (∃ (string : List Char) (index : Nat), charAt string 4 = '-' ∧ charAt string p = c
        ∧ (decode_cheat s string index).1 ≠ 0) ↔ c ∈ ggvalidchars.toFinset)
    ∧ ggvalidchars.toFinset.card = 32 := by
  refine ⟨fun c => ?_, by decide⟩
  rw [List.mem_toFinset]
  have hA : 'A' ∈ ggvalidchars := by decide
  constructor
  · rintro ⟨string, index, hsep, hc, hacc⟩
    obtain ⟨-, n, hn, -, -⟩ := md_gg_accepted s string index hmd hsep hacc
    have hpos : ∃ i, i < 8 ∧ p = (if i < 4 then i else i + 1) := by
      simp only [List.mem_cons, List.mem_singleton, List.not_mem_nil, or_false] at hp
      rcases hp with h | h | h | h | h | h | h | h
      · exact ⟨0, by omega, by rw [h]; rfl⟩
      · exact ⟨1, by omega, by rw [h]; rfl⟩
      · exact ⟨2, by omega, by rw [h]; rfl⟩
      · exact ⟨3, by omega, by rw [h]; rfl⟩
      · exact ⟨4, by omega, by rw [h]; rfl⟩
      · exact ⟨5, by omega, by rw [h]; rfl⟩
      · exact ⟨6, by omega, by rw [h]; rfl⟩
      · exact ⟨7, by omega, by rw [h]; rfl⟩
    obtain ⟨i, hi, hpi⟩ := hpos
    have hg := (hn i hi).2
    rw [← hpi, hc] at hg
    exact List.getElem?_mem hg
  · intro hc
    have h9 : ∀ x : List Char, (decode_cheat s x 0).1 = 9 → (decode_cheat s x 0).1 ≠ 0 := by
      intro x hx
      rw [hx]
      decide
    simp only [List.mem_cons, List.mem_singleton, List.not_mem_nil, or_false] at hp
    rcases hp with h | h | h | h | h | h | h | h
    · exact ⟨[c, 'A', 'A', 'A', '-', 'A', 'A', 'A', 'A'], 0, rfl, by rw [h]; rfl,
        h9 _ (md_gg_accept9 s 0 hmd _ _ _ _ _ _ _ _ hc hA hA hA hA hA hA hA)⟩
    · exact ⟨['A', c, 'A', 'A', '-', 'A', 'A', 'A', 'A'], 0, rfl, by rw [h]; rfl,
        h9 _ (md_gg_accept9 s 0 hmd _ _ _ _ _ _ _ _ hA hc hA hA hA hA hA hA)⟩
    · exact ⟨['A', 'A', c, 'A', '-', 'A', 'A', 'A', 'A'], 0, rfl, by rw [h]; rfl,
        h9 _ (md_gg_accept9 s 0 hmd _ _ _ _ _ _ _ _ hA hA hc hA hA hA hA hA)⟩
    · exact ⟨['A', 'A', 'A', c, '-', 'A', 'A', 'A', 'A'], 0, rfl, by rw [h]; rfl,
        h9 _ (md_gg_accept9 s 0 hmd _ _ _ _ _ _ _ _ hA hA hA hc hA hA hA hA)⟩
    · exact ⟨['A', 'A', 'A', 'A', '-', c, 'A', 'A', 'A'], 0, rfl, by rw [h]; rfl,
        h9 _ (md_gg_accept9 s 0 hmd _ _ _ _ _ _ _ _ hA hA hA hA hc hA hA hA)⟩
    · exact ⟨['A', 'A', 'A', 'A', '-', 'A', c, 'A', 'A'], 0, rfl, by rw [h]; rfl,
        h9 _ (md_gg_accept9 s 0 hmd _ _ _ _ _ _ _ _ hA hA hA hA hA hc hA hA)⟩
    · exact ⟨['A', 'A', 'A', 'A', '-', 'A', 'A', c, 'A'], 0, rfl, by rw [h]; rfl,
        h9 _ (md_gg_accept9 s 0 hmd _ _ _ _ _ _ _ _ hA hA hA hA hA hA hc hA)⟩
    · exact ⟨['A', 'A', 'A', 'A', '-', 'A', 'A', 'A', c], 0, rfl, by rw [h]; rfl,
        h9 _ (md_gg_accept9 s 0 hmd _ _ _ _ _ _ _ _ hA hA hA hA hA hA hA hc)⟩

/-- Witness for the amended C33: `Z` is accepted at position 0 (in `ZTBT-AA32`)
and is a symbol of the alphabet. -/
theorem gg_alphabet_32_witness :
    'Z' ∈ ggvalidchars.toFinset ∧ ggvalidchars.toFinset.card = 32 :=
  ⟨((gg_alphabet_32 mdConsole 0 (by decide) (by decide)).1 'Z').mp
      ⟨"ZTBT-AA32".toList, 0, by decide, by decide, by decide⟩,
   (gg_alphabet_32 mdConsole 0 (by decide) (by decide)).2⟩

/-- C34: 16-bit Game Genie decoding is a bijection. The pair built from 8
symbol indices below 32 has an address below `2^24` and data below `2^16`;
the map is injective on such indices and reaches every such pair; an accepted
string of Game Genie shape stores the pair of the indices of its symbols; so
two accepted strings of Game Genie shape that store the same address and data
have the same 8 symbols. -/
theorem gg_bijection :
    (∀ n : Nat → Nat, (∀ i, i < 8 → n i < 32) →
        (gg_pair n).1 < 2 ^ 24 ∧ (gg_pair n).2 < 2 ^ 16)
    ∧ (∀ n m : Nat → Nat, (∀ i, i < 8 → n i < 32) → (∀ i, i < 8 → m i < 32) →
        gg_pair n = gg_pair m → ∀ i, i < 8 → n i = m i)
    ∧ (∀ a d : Nat, a < 2 ^ 24 → d < 2 ^ 16 →
        ∃ n : Nat → Nat, (∀ i, i < 8 → n i < 32) ∧ gg_pair n = (a, d))
    ∧ (∀ (s : State) (x : List Char) (ix : Nat), s.isMD = true → charAt x 4 = '-' →
        (decode_cheat s x ix).1 ≠ 0 →
        ∃ n : Nat → Nat,
          (∀ i, i < 8 → n i < 32
            ∧ ggvalidchars[n i]? = some (charAt x (if i < 4 then i else i + 1)))
          ∧ ((decode_cheat s x ix).2.cheatlist ix).address = (gg_pair n).1
          ∧ ((decode_cheat s x ix).2.cheatlist ix).data = (gg_pair n).2)
    ∧ (∀ (s : State) (x y : List Char) (ix iy : Nat), s.isMD = true →
        charAt x 4 = '-' → charAt y 4 = '-' →
        (decode_cheat s x ix).1 ≠ 0 → (decode_cheat s y iy).1 ≠ 0 →
        ((decode_cheat s x ix).2.cheatlist ix).address
          = ((decode_cheat s y iy).2.cheatlist iy).address →
        ((decode_cheat s x ix).2.cheatlist ix).data
          = ((decode_cheat s y iy).2.cheatlist iy).data →
        ∀ p, p ∈ [0, 1, 2, 3, 5, 6, 7, 8] → charAt x p = charAt y p) := by
  refine ⟨gg_pair_range, gg_pair_inj, gg_pair_surj, ?_, ?_⟩
  · intro s x ix hmd hsep hacc
    exact (md_gg_accepted s x ix hmd hsep hacc).2
  · intro s x y ix iy hmd hx hy ax ay hadr hdat p hp
    obtain ⟨-, n, hn, na, nd⟩ := md_gg_accepted s x ix hmd hx ax
    obtain ⟨-, m, hm, ma, md⟩ := md_gg_accepted s y iy hmd hy ay
    have hpair : gg_pair n = gg_pair m :=
      Prod.ext (na.symm.trans (hadr.trans ma)) (nd.symm.trans (hdat.trans md))
    have heq := gg_pair_inj n m (fun i hi => (hn i hi).1) (fun i hi => (hm i hi).1) hpair
    have hchar : ∀ i, i < 8 →
        charAt x (if i < 4 then i else i + 1) = charAt y (if i < 4 then i else i + 1) := by
      intro i hi
      have h1 := (hn i hi).2
      have h2 := (hm i hi).2
      rw [heq i hi, h2, Option.some.injEq] at h1
      exact h1.symm
    simp only [List.mem_cons, List.mem_singleton, List.not_mem_nil, or_false] at hp
    rcases hp with h | h | h | h | h | h | h | h
    · rw [h]; exact hchar 0 (by omega)
    · rw [h]; exact hchar 1 (by omega)
    · rw [h]; exact hchar 2 (by omega)
    · rw [h]; exact hchar 3 (by omega)
    · rw [h]; exact hchar 4 (by omega)
    · rw [h]; exact hchar 5 (by omega)
    · rw [h]; exact hchar 6 (by omega)
    · rw [h]; exact hchar 7 (by omega)

/-- Witness for C34: the code `ATBT-AA32` and the same code followed by two
more characters store the same pair and have the same symbols; the pair
`(0x338, 0x6004)` is reached. -/
theorem gg_bijection_witness :
    charAt "ATBT-AA32".toList 8 = charAt "ATBT-AA32ZZ".toList 8
    ∧ ∃ n : Nat → Nat, (∀ i, i < 8 → n i < 32) ∧ gg_pair n = (0x338, 0x6004) :=
  ⟨gg_bijection.2.2.2.2 mdConsole "ATBT-AA32".toList "ATBT-AA32ZZ".toList 0 0 (by decide)
      (by decide) (by decide) (by decide) (by decide) (by decide) (by decide) 8 (by decide),
   gg_bijection.2.2.1 0x338 0x6004 (by decide) (by decide)⟩

/-! ## What holds of every reachable table -/

theorem gg_loop_pair (string : List Char) (ad : Nat × Nat) (hs : strlen_ge string 9 = true)
    (hg : gg_loop string 8 0 0 (0, 0) = some ad) :
    ∃ n : Nat → Nat, (∀ i, i < 8 → n i < 32) ∧ ad = gg_pair n := by
  have hfound : ∀ i, i < 8 →
      strchr ggvalidchars (charAt string (if i < 4 then i else i + 1))
        = some ((strchr ggvalidchars (charAt string (if i < 4 then i else i + 1))).getD 0) := by
    intro i hi
    cases hq : strchr ggvalidchars (charAt string (if i < 4 then i else i + 1)) with
    | none => exact absurd hq (gg_loop_inv string ad hg i hi)
    | some k => rfl
  have hrun := gg_loop_run string _ hfound
  rw [hg, Option.some.injEq] at hrun
  refine ⟨fun i => (strchr ggvalidchars (charAt string (if i < 4 then i else i + 1))).getD 0,
    ?_, hrun⟩
  intro i hi
  have hnz : charAt string (if i < 4 then i else i + 1) ≠ NUL :=
    strlen_ge_charAt hs (by split_ifs <;> omega)
  exact index_lt_of_getElem? (strchr_some_getElem (hfound i hi) hnz)

/-- Every address the decoder produces fits in 24 bits. -/
theorem decode_address_lt (md : Bool) (string : List Char) (d : Decoded)
    (h : decode md string = some d) : d.address < 0x1000000 := by
  cases md with
  | true =>
    simp only [decode, if_true, decode_md] at h
    by_cases t1 : (strlen_ge string 9 && charAt string 4 == '-') = true
    · rw [if_pos t1] at h
      have hs : strlen_ge string 9 = true := by
        simp only [Bool.and_eq_true] at t1
        exact t1.1
      cases hg : gg_loop string 8 0 0 (0, 0) with
      | none => rw [hg] at h; exact absurd h (by simp)
      | some ad =>
        rw [hg] at h
        simp only [Option.some.injEq] at h
        rw [← h]
        obtain ⟨n, hn, had⟩ := gg_loop_pair string ad hs hg
        have := (gg_pair_range n hn).1
        rw [← had] at this
        simpa using this
    · rw [if_neg t1] at h
      by_cases t2 : (strlen_ge string 9 && charAt string 6 == ':') = true
      · rw [if_pos t2] at h
        cases hx : hex_loop string [0, 1, 2, 3, 4, 5] 5 0 with
        | none => rw [hx] at h; exact absurd h (by simp)
        | some a =>
          rw [hx] at h
          simp only [Option.some.injEq] at h
          rw [← h]
          exact hex_loop_lt6 hx
      · rw [if_neg t2] at h
        simp only [Option.some.injEq] at h
        rw [← h]
        simp
  | false =>
    simp only [decode, Bool.false_eq_true, if_false, decode_sms] at h
    cases hraw : decode_sms_raw string with
    | none => rw [hraw] at h; exact absurd h (by simp)
    | some raw =>
      rw [hraw] at h
      simp only [Option.some.injEq] at h
      rw [← h]
      have := to_work_ram_range raw.address
      simp only []
      omega

/-- One piece of a code keeps the table free of duplicates and its addresses
within 24 bits. -/
theorem piece_table (enabled : Bool) (t : State) (v : List Char)
    (h1 : ∀ i j, i < j → j < t.maxcheats →
      ¬ ((t.cheatlist i).address = (t.cheatlist j).address
        ∧ (t.cheatlist i).data = (t.cheatlist j).data))
    (h2 : ∀ k, k < t.maxcheats → (t.cheatlist k).address < 0x1000000) :
    (∀ i j, i < j → j < (retro_cheat_set_piece enabled t v).maxcheats →
      ¬ (((retro_cheat_set_piece enabled t v).cheatlist i).address
            = ((retro_cheat_set_piece enabled t v).cheatlist j).address
        ∧ ((retro_cheat_set_piece enabled t v).cheatlist i).data
            = ((retro_cheat_set_piece enabled t v).cheatlist j).data))
    ∧ (∀ k, k < (retro_cheat_set_piece enabled t v).maxcheats →
        ((retro_cheat_set_piece enabled t v).cheatlist k).address < 0x1000000) := by
  by_cases hrej : (decode_cheat t v t.maxcheats).1 = 0
  · rw [piece_rejected enabled t v hrej]
    exact ⟨h1, h2⟩
  · cases hdec : decode t.isMD v with
    | none => exact absurd (decode_cheat_of_none t v _ hdec) hrej
    | some d =>
      have hacc : d.len ≠ 0 := by
        intro h0
        apply hrej
        simp [decode_cheat, hdec, h0]
      have hlt := decode_address_lt _ _ _ hdec
      obtain ⟨r, r1, r2, r3, r4, -, r6, r7⟩ := piece_valid enabled t v d hdec hacc
      by_cases hinc : r = t.maxcheats ∧ t.maxcheats < MAX_CHEATS
      · rw [r7, if_pos hinc]
        constructor
        · intro i j hij hj
          by_cases hjn : j = t.maxcheats
          · rw [hjn, ← hinc.1, r3, r4, (r6 i (by omega)).1, (r6 i (by omega)).2.1]
            exact r2 i (by omega)
          · rw [(r6 i (by omega)).1, (r6 i (by omega)).2.1, (r6 j (by omega)).1,
              (r6 j (by omega)).2.1]
            exact h1 i j hij (by omega)
        · intro k hk
          by_cases hkn : k = t.maxcheats
          · rw [hkn, ← hinc.1, r3]
            exact hlt
          · rw [(r6 k (by omega)).1]
            exact h2 k (by omega)
      · rw [r7, if_neg hinc]
        constructor
        · intro i j hij hj
          rw [(r6 i (by omega)).1, (r6 i (by omega)).2.1, (r6 j hj).1, (r6 j hj).2.1]
          exact h1 i j hij hj
        · intro k hk
          rw [(r6 k hk).1]
          exact h2 k hk

theorem pieces_table (enabled : Bool) (l : List (List Char)) : ∀ t : State,
    (∀ i j, i < j → j < t.maxcheats →
      ¬ ((t.cheatlist i).address = (t.cheatlist j).address
        ∧ (t.cheatlist i).data = (t.cheatlist j).data)) →
    (∀ k, k < t.maxcheats → (t.cheatlist k).address < 0x1000000) →
    (∀ i j, i < j → j < (l.foldl (retro_cheat_set_piece enabled) t).maxcheats →
      ¬ (((l.foldl (retro_cheat_set_piece enabled) t).cheatlist i).address
            = ((l.foldl (retro_cheat_set_piece enabled) t).cheatlist j).address
        ∧ ((l.foldl (retro_cheat_set_piece enabled) t).cheatlist i).data
            = ((l.foldl (retro_cheat_set_piece enabled) t).cheatlist j).data))
    ∧ (∀ k, k < (l.foldl (retro_cheat_set_piece enabled) t).maxcheats →
        ((l.foldl (retro_cheat_set_piece enabled) t).cheatlist k).address < 0x1000000) := by
  induction l with
  | nil => intro t h1 h2; exact ⟨h1, h2⟩
  | cons v l ih =>
    intro t h1 h2
    simp only [List.foldl_cons]
    exact ih _ (piece_table enabled t v h1 h2).1 (piece_table enabled t v h1 h2).2

/-- A function that keeps the entry count and the address and data of every
entry keeps the table free of duplicates and its addresses within 24 bits. -/
theorem table_of_same_code (s t : State) (hc : t.maxcheats = s.maxcheats)
    (hcode : ∀ k, SameCode (s.cheatlist k) (t.cheatlist k))
    (h1 : ∀ i j, i < j → j < s.maxcheats →
      ¬ ((s.cheatlist i).address = (s.cheatlist j).address
        ∧ (s.cheatlist i).data = (s.cheatlist j).data))
    (h2 : ∀ k, k < s.maxcheats → (s.cheatlist k).address < 0x1000000) :
    (∀ i j, i < j → j < t.maxcheats →
      ¬ ((t.cheatlist i).address = (t.cheatlist j).address
        ∧ (t.cheatlist i).data = (t.cheatlist j).data))
    ∧ (∀ k, k < t.maxcheats → (t.cheatlist k).address < 0x1000000) := by
  rw [hc]
  constructor
  · intro i j hij hj
    rw [(hcode i).2.1, (hcode i).2.2, (hcode j).2.1, (hcode j).2.2]
    exact h1 i j hij hj
  · intro k hk
    rw [(hcode k).2.1]
    exact h2 k hk

/-- In every reachable state the entries below the entry count have pairwise
different (address, data) pairs and addresses of at most 24 bits. -/
theorem reachable_table (s : State) (h : Reachable s) :
    (∀ i j, i < j → j < s.maxcheats →
      ¬ ((s.cheatlist i).address = (s.cheatlist j).address
        ∧ (s.cheatlist i).data = (s.cheatlist j).data))
    ∧ (∀ k, k < s.maxcheats → (s.cheatlist k).address < 0x1000000) := by
  induction h with
  | empty s h0 =>
    rw [h0]
    exact ⟨fun i j _ hj => absurd hj (Nat.not_lt_zero _), fun k hk => absurd hk (Nat.not_lt_zero _)⟩
  | set s enabled code _ ih =>
    cases code with
    | none => exact ih
    | some c =>
      simp only [retro_cheat_set]
      have hA := table_of_same_code s (clear_cheats s) (clear_cheats_console s).2.2.2.2.2.2
        (clear_cheats_code s) ih.1 ih.2
      have hB := pieces_table enabled (strtok_views false (codeCopy c)) (clear_cheats s) hA.1 hA.2
      exact table_of_same_code _ _ (apply_cheats_console _).2.2.2.2.2.2 (apply_cheats_code _)
        hB.1 hB.2
  | reset s _ _ =>
    exact ⟨fun i j _ hj => absurd hj (Nat.not_lt_zero _), fun k hk => absurd hk (Nat.not_lt_zero _)⟩

/-! ## RAM patches and their regions -/

/-- A patch with a work-RAM address (`0xFF0000` to `0xFFFFFF`) is one store
into work RAM, at an offset that keeps it within the 64 KB. -/
theorem ramPatch_work (u : State) (e : CHEATENTRY) (hlo : 0xFF0000 ≤ e.address)
    (hhi : e.address < 0x1000000) :
    (ramPatch u e).prg_ram = u.prg_ram ∧ (ramPatch u e).word_ram_2M = u.word_ram_2M
    ∧ ∃ off, ((ramPatch u e).work_ram = write8 u.work_ram off e.data ∧ off < 0x10000)
      ∨ ((ramPatch u e).work_ram = write16 u.lsb_first u.work_ram off e.data
          ∧ off + 1 < 0x10000) := by
  have hsel := work_ram_selector hlo hhi
  by_cases hb : e.data &&& 0xFF00 = 0
  · have hst : ramPatch u e =
        { u with
          work_ram := write8 u.work_ram (e.address &&& 0xffff) e.data } := by
      simp [ramPatch, hsel, hb]
    rw [hst]
    refine ⟨rfl, rfl, e.address &&& 0xffff, Or.inl ⟨rfl, ?_⟩⟩
    exact Nat.and_lt_two_pow _ (by decide : 0xffff < 2 ^ 16)
  · have hst : ramPatch u e =
        { u with
          work_ram := write16 u.lsb_first u.work_ram (e.address &&& 0xfffe) e.data } := by
      simp [ramPatch, hsel, hb]
    rw [hst]
    refine ⟨rfl, rfl, e.address &&& 0xfffe, Or.inr ⟨rfl, ?_⟩⟩
    have := and_FFFE e.address
    omega

/-- A patch with a PRG-RAM address (below `0x80000`) is one store into
PRG-RAM, at an offset that keeps it within the 512 KB. -/
theorem ramPatch_prg (u : State) (e : CHEATENTRY) (hhi : e.address < 0x80000) :
    (ramPatch u e).work_ram = u.work_ram ∧ (ramPatch u e).word_ram_2M = u.word_ram_2M
    ∧ ∃ off, ((ramPatch u e).prg_ram = write8 u.prg_ram off e.data ∧ off < 0x80000)
      ∨ ((ramPatch u e).prg_ram = write16 u.lsb_first u.prg_ram off e.data
          ∧ off + 1 < 0x80000) := by
  have hsel : (e.address >>> 20) &&& 0xf = 0 := by
    have h : e.address >>> 20 = 0 := by
      rw [Nat.shiftRight_eq_div_pow]
      omega
    rw [h]
    rfl
  by_cases hb : e.data &&& 0xFF00 = 0
  · have hst : ramPatch u e =
        { u with
          prg_ram := write8 u.prg_ram (e.address &&& 0x7ffff) e.data } := by
      simp [ramPatch, hsel, hb]
    rw [hst]
    refine ⟨rfl, rfl, e.address &&& 0x7ffff, Or.inl ⟨rfl, ?_⟩⟩
    exact Nat.and_lt_two_pow _ (by decide : 0x7ffff < 2 ^ 19)
  · have hst : ramPatch u e =
        { u with
          prg_ram := write16 u.lsb_first u.prg_ram (e.address &&& 0x7fffe) e.data } := by
      simp [ramPatch, hsel, hb]
    rw [hst]
    refine ⟨rfl, rfl, e.address &&& 0x7fffe, Or.inr ⟨rfl, ?_⟩⟩
    have h := and_shl1 e.address 0x3FFFF
    have h2 := Nat.and_pow_two_sub_one_eq_mod (e.address >>> 1) 18
    have e1 : (0x3FFFF : Nat) <<< 1 = 0x7fffe := by decide
    have e2 : (2 : Nat) ^ 18 - 1 = 0x3FFFF := by norm_num
    rw [e1] at h
    rw [e2] at h2
    rw [h, h2, Nat.shiftLeft_eq]
    omega

/-- A patch with a Word-RAM address (`0x200000` to `0x23FFFF`) is one store
into Word-RAM, at an offset that keeps it within the 256 KB. -/
theorem ramPatch_word (u : State) (e : CHEATENTRY) (hlo : 0x200000 ≤ e.address)
    (hhi : e.address < 0x240000) :
    (ramPatch u e).work_ram = u.work_ram ∧ (ramPatch u e).prg_ram = u.prg_ram
    ∧ ∃ off, ((ramPatch u e).word_ram_2M = write8 u.word_ram_2M off e.data ∧ off < 0x40000)
      ∨ ((ramPatch u e).word_ram_2M = write16 u.lsb_first u.word_ram_2M off e.data
          ∧ off + 1 < 0x40000) := by
  have hsel : (e.address >>> 20) &&& 0xf = 2 := by
    have h : e.address >>> 20 = 2 := by
      rw [Nat.shiftRight_eq_div_pow]
      omega
    rw [h]
    rfl
  by_cases hb : e.data &&& 0xFF00 = 0
  · have hst : ramPatch u e =
        { u with
          word_ram_2M := write8 u.word_ram_2M (e.address &&& 0x3ffff) e.data } := by
      simp [ramPatch, hsel, hb]
    rw [hst]
    refine ⟨rfl, rfl, e.address &&& 0x3ffff, Or.inl ⟨rfl, ?_⟩⟩
    exact Nat.and_lt_two_pow _ (by decide : 0x3ffff < 2 ^ 18)
  · have hst : ramPatch u e =
        { u with
          word_ram_2M := write16 u.lsb_first u.word_ram_2M (e.address &&& 0x3fffe) e.data } := by
      simp [ramPatch, hsel, hb]
    rw [hst]
    refine ⟨rfl, rfl, e.address &&& 0x3fffe, Or.inr ⟨rfl, ?_⟩⟩
    have h := and_shl1 e.address 0x1FFFF
    have h2 := Nat.and_pow_two_sub_one_eq_mod (e.address >>> 1) 17
    have e1 : (0x1FFFF : Nat) <<< 1 = 0x3fffe := by decide
    have e2 : (2 : Nat) ^ 17 - 1 = 0x1FFFF := by norm_num
    rw [e1] at h
    rw [e2] at h2
    rw [h, h2, Nat.shiftLeft_eq]
    omega

/-- C38: for a reachable state and every slot `k` of the RAM list built by
`apply_cheats`, the patch `RAMCheatUpdate` makes for the entry in that slot is
one store (of a byte or of a 16-bit word) into the array of the region the
entry was classified under, at an offset within that array: work RAM (64 KB)
for an address from `0xFF0000` on, PRG-RAM (512 KB) for an address below
`0x80000` and Word-RAM (256 KB) for an address in `[0x200000, 0x240000)`, the
last two with a disc game; the other two arrays are left alone. -/
theorem ram_refresh_in_region (s : State) (k : Nat) (h : Reachable s)
    (hk : k < (apply_cheats s).maxRAMcheats) :
    (0xFF0000 ≤ ((apply_cheats s).cheatlist ((apply_cheats s).cheatIndexes k)).address
      ∧ ∀ u : State,
        (ramPatch u ((apply_cheats s).cheatlist ((apply_cheats s).cheatIndexes k))).prg_ram
          = u.prg_ram
        ∧ (ramPatch u ((apply_cheats s).cheatlist ((apply_cheats s).cheatIndexes k))).word_ram_2M
          = u.word_ram_2M
        ∧ ∃ off,
          ((ramPatch u ((apply_cheats s).cheatlist ((apply_cheats s).cheatIndexes k))).work_ram
              = write8 u.work_ram off
                  ((apply_cheats s).cheatlist ((apply_cheats s).cheatIndexes k)).data
            ∧ off < 0x10000)
          ∨ ((ramPatch u ((apply_cheats s).cheatlist ((apply_cheats s).cheatIndexes k))).work_ram
              = write16 u.lsb_first u.work_ram off
                  ((apply_cheats s).cheatlist ((apply_cheats s).cheatIndexes k)).data
            ∧ off + 1 < 0x10000))
    ∨ (s.isCD = true
      ∧ ((apply_cheats s).cheatlist ((apply_cheats s).cheatIndexes k)).address < 0x80000
      ∧ ∀ u : State,
        (ramPatch u ((apply_cheats s).cheatlist ((apply_cheats s).cheatIndexes k))).work_ram
          = u.work_ram
        ∧ (ramPatch u ((apply_cheats s).cheatlist ((apply_cheats s).cheatIndexes k))).word_ram_2M
          = u.word_ram_2M
        ∧ ∃ off,
          ((ramPatch u ((apply_cheats s).cheatlist ((apply_cheats s).cheatIndexes k))).prg_ram
              = write8 u.prg_ram off
                  ((apply_cheats s).cheatlist ((apply_cheats s).cheatIndexes k)).data
            ∧ off < 0x80000)
          ∨ ((ramPatch u ((apply_cheats s).cheatlist ((apply_cheats s).cheatIndexes k))).prg_ram
              = write16 u.lsb_first u.prg_ram off
                  ((apply_cheats s).cheatlist ((apply_cheats s).cheatIndexes k)).data
            ∧ off + 1 < 0x80000))
    ∨ (s.isCD = true
      ∧ 0x200000 ≤ ((apply_cheats s).cheatlist ((apply_cheats s).cheatIndexes k)).address
      ∧ ((apply_cheats s).cheatlist ((apply_cheats s).cheatIndexes k)).address < 0x240000
      ∧ ∀ u : State,
        (ramPatch u ((apply_cheats s).cheatlist ((apply_cheats s).cheatIndexes k))).work_ram
          = u.work_ram
        ∧ (ramPatch u ((apply_cheats s).cheatlist ((apply_cheats s).cheatIndexes k))).prg_ram
          = u.prg_ram
        ∧ ∃ off,
          ((ramPatch u ((apply_cheats s).cheatlist
                ((apply_cheats s).cheatIndexes k))).word_ram_2M
              = write8 u.word_ram_2M off
                  ((apply_cheats s).cheatlist ((apply_cheats s).cheatIndexes k)).data
            ∧ off < 0x40000)
          ∨ ((ramPatch u ((apply_cheats s).cheatlist
                ((apply_cheats s).cheatIndexes k))).word_ram_2M
              = write16 u.lsb_first u.word_ram_2M off
                  ((apply_cheats s).cheatlist ((apply_cheats s).cheatIndexes k)).data
            ∧ off + 1 < 0x40000)) := by
  have hmax := reachable_count_le s h
  obtain ⟨hi, hram⟩ := (apply_cheats_ram_mem s hmax _).mp ⟨k, hk, rfl⟩
  have hlt := (reachable_table s h).2 _ hi
  have hadr := (apply_cheats_code s ((apply_cheats s).cheatIndexes k)).2.1
  generalize (apply_cheats s).cheatlist ((apply_cheats s).cheatIndexes k) = e at hadr ⊢
  generalize (apply_cheats s).cheatIndexes k = i at hi hram hlt hadr
  rw [← hadr] at hlt
  unfold isRAMpatch at hram
  simp only [Bool.and_eq_true, Bool.or_eq_true, decide_eq_true_eq] at hram
  rw [← hadr] at hram
  obtain ⟨-, hcls⟩ := hram
  rcases hcls with hw | ⟨hcd, hp | ⟨hl, hu⟩⟩
  · exact Or.inl ⟨hw, fun u => ramPatch_work u e hw hlt⟩
  · exact Or.inr (Or.inl ⟨hcd, hp, fun u => ramPatch_prg u e hp⟩)
  · exact Or.inr (Or.inr ⟨hcd, hl, hu, fun u => ramPatch_word u e hl hu⟩)

/-- Witness for C38: the work-RAM patch of the 16-bit sample table, reached
by setting the code `FF0010:00FF`. -/
theorem ram_refresh_in_region_witness :
    (apply_cheats (retro_cheat_set mdConsole true (some "FF0010:00FF".toList))).maxRAMcheats = 1
    ∧ (0xFF0000 ≤ ((apply_cheats (retro_cheat_set mdConsole true
          (some "FF0010:00FF".toList))).cheatlist
        ((apply_cheats (retro_cheat_set mdConsole true
          (some "FF0010:00FF".toList))).cheatIndexes 0)).address) :=
  ⟨by decide,
   ((ram_refresh_in_region (retro_cheat_set mdConsole true (some "FF0010:00FF".toList)) 0
      (Reachable.set _ true _ (Reachable.empty mdConsole rfl)) (by decide)).resolve_right
      (by
        intro hc
        rcases hc with hc | hc
        · exact absurd hc.1 (by decide)
        · exact absurd hc.1 (by decide))).1⟩

/-! ## The slot past the table -/

theorem fullTable_past_end : fullTable.cheatlist MAX_CHEATS = entry false 0 0 0 := by
  unfold fullTable withTable MAX_CHEATS
  simp only [List.getD_eq_getElem?_getD, List.getElem?_map]
  rw [List.getElem?_eq_none (by simp)]
  rfl

/-- C32, failing input: the table holds 150 entries and the valid code
`ATBT-AA32`, which matches none of them, is set. Its address, data and enable
flag are stored in `cheatlist[150]`, one slot past the 150 slots of the
array; before the call that slot (in the model) held zeros. -/
theorem full_table_store_past_end :
    fullTable.maxcheats = MAX_CHEATS
    ∧ (fullTable.cheatlist MAX_CHEATS).address = 0
    ∧ (fullTable.cheatlist MAX_CHEATS).enable = false
    ∧ ((decode_cheat fullTable "ATBT-AA32".toList fullTable.maxcheats).2.cheatlist
        MAX_CHEATS).address = 0x338
    ∧ ((retro_cheat_set fullTable true (some "ATBT-AA32".toList)).cheatlist MAX_CHEATS).address
        = 0x338
    ∧ ((retro_cheat_set fullTable true (some "ATBT-AA32".toList)).cheatlist MAX_CHEATS).data
        = 0x6004
    ∧ ((retro_cheat_set fullTable true (some "ATBT-AA32".toList)).cheatlist MAX_CHEATS).enable
        = true := by
  obtain ⟨r, a1, -, a3, a4, a5, a6, -, -⟩ := set_valid fullTable true "ATBT-AA32".toList
    { len := 9, address := 0x338, data := 0x6004, ref := 0 } (by decide) (by decide)
    (by decide) (by decide)
  have hr : r = MAX_CHEATS := by
    rw [fullTable_count] at a1 a6
    rcases Nat.lt_or_ge r MAX_CHEATS with hlt | hge
    · have hd := (a6 r hlt).2.1
      rw [a4] at hd
      have := fullTable_data r
      rw [← hd] at this
      exact absurd this (by decide)
    · omega
  rw [hr] at a3 a4 a5
  have hdec : (decode_cheat fullTable "ATBT-AA32".toList fullTable.maxcheats).2
      = storeCheat fullTable fullTable.maxcheats
          { len := 9, address := 0x338, data := 0x6004, ref := 0 } := by
    have hd : decode fullTable.isMD "ATBT-AA32".toList
        = some { len := 9, address := 0x338, data := 0x6004, ref := 0 } := by decide
    unfold decode_cheat
    rw [hd]
    rfl
  refine ⟨fullTable_count, ?_, ?_, ?_, a3, a4, a5⟩
  · rw [fullTable_past_end]
    rfl
  · rw [fullTable_past_end]
    rfl
  · rw [hdec, fullTable_count]
    simp [storeCheat]

/-! ## Clear and the RAM patches -/

/-- C35, failing input: on a 16-bit console whose cartridge is 16 MB, the
enabled entry at `0xFF0010` is classified as a RAM patch by `apply_cheats`,
which leaves the cartridge alone; `clear_cheats` then stores the entry's
reference 0 over the two bytes at offset `0xFF0010` of the cartridge, which
held `0x55`. The same happens through `retro_cheat_set` and
`retro_cheat_reset`. -/
theorem clear_writes_ram_patch :
    bigRomTable.isMD = true ∧ (bigRomTable.cheatlist 0).enable = true
    ∧ 0xFF0000 ≤ (bigRomTable.cheatlist 0).address
    ∧ (apply_cheats bigRomTable).maxRAMcheats = 1
    ∧ (apply_cheats bigRomTable).cheatIndexes 0 = 0
    ∧ (apply_cheats bigRomTable).rom = bigRomTable.rom
    ∧ (apply_cheats bigRomTable).rom 0xFF0010 = toByte 0x55
    ∧ (clear_cheats (apply_cheats bigRomTable)).rom 0xFF0010 = toByte 0
    ∧ (clear_cheats (apply_cheats bigRomTable)).rom 0xFF0011 = toByte 0
    ∧ (retro_cheat_set (console 0x80 0x1000000 0x55) true (some "FF0010:00FF".toList)).rom
        0xFF0010 = toByte 0x55
    ∧ (retro_cheat_reset (retro_cheat_set (console 0x80 0x1000000 0x55) true
        (some "FF0010:00FF".toList))).rom 0xFF0010 = toByte 0 :=
  ⟨by decide, by decide, by decide, by decide, by decide, rfl, by decide, by decide, by decide,
    by decide, by decide⟩

/-! ## The hook without a remap -/

/-- C39, counterexample: on an 8-bit console, two enabled banked patches of
the same address, which resolves to ROM byte `0x1123`, with the non-zero
references `0x55` and `0xAA`. After `apply_cheats` the byte holds
`0xBB`, the data of the second one; `ROMCheatUpdate`, run under the same
mapping, leaves `0xAA` there. -/
theorem hook_not_neutral :
    aliasTable.isMD = false ∧ aliasTable.maxcheats = 2
    ∧ isROMpatch aliasTable (aliasTable.cheatlist 0) = true
    ∧ isROMpatch aliasTable (aliasTable.cheatlist 1) = true
    ∧ (aliasTable.cheatlist 0).old = 0x55 ∧ (aliasTable.cheatlist 1).old = 0xAA
    ∧ bankedPtr aliasTable (aliasTable.cheatlist 0).address = 0x1123
    ∧ bankedPtr aliasTable (aliasTable.cheatlist 1).address = 0x1123
    ∧ (apply_cheats aliasTable).rom 0x1123 = toByte 0xBB
    ∧ (apply_cheats aliasTable).z80_readmap = aliasTable.z80_readmap
    ∧ (ROMCheatUpdate (apply_cheats aliasTable)).rom 0x1123 = toByte 0xAA :=
  ⟨by decide, by decide, by decide, by decide, by decide, by decide, by decide, by decide,
    by decide, rfl, by decide⟩

theorem state_ext (a b : State) (h1 : a.ids = b.ids) (h2 : a.system_hw = b.system_hw)
    (h3 : a.boot = b.boot) (h4 : a.romsize = b.romsize) (h5 : a.lsb_first = b.lsb_first)
    (h6 : a.rom = b.rom) (h7 : a.z80_readmap = b.z80_readmap) (h8 : a.work_ram = b.work_ram)
    (h9 : a.prg_ram = b.prg_ram) (h10 : a.word_ram_2M = b.word_ram_2M)
    (h11 : a.maxcheats = b.maxcheats) (h12 : a.maxROMcheats = b.maxROMcheats)
    (h13 : a.maxRAMcheats = b.maxRAMcheats) (h14 : a.cheatlist = b.cheatlist)
    (h15 : a.cheatIndexes = b.cheatIndexes) : a = b := by
  cases a
  cases b
  simp only [State.mk.injEq]
  exact ⟨h1, h2, h3, h4, h5, h6, h7, h8, h9, h10, h11, h12, h13, h14, h15⟩

theorem entry_ext (a b : CHEATENTRY) (h1 : a.enable = b.enable) (h2 : a.data = b.data)
    (h3 : a.old = b.old) (h4 : a.address = b.address) (h5 : a.prev = b.prev) : a = b := by
  cases a
  cases b
  simp only [CHEATENTRY.mk.injEq]
  exact ⟨h1, h2, h3, h4, h5⟩

/-- One iteration of `ROMCheatUpdate` changes nothing when the fetched entry
is either patched at the byte its address resolves to, or unpatched with a
non-zero reference that differs from that byte. -/
theorem ROMCheatUpdate_body_id (u : State) (cnt : Nat)
    (h : Settled u (u.cheatIndexes (MAX_CHEATS - cnt))) :
    ROMCheatUpdate_body u cnt = u := by
  unfold Settled at h
  obtain ⟨j, hj⟩ : ∃ j, u.cheatIndexes (MAX_CHEATS - cnt) = j := ⟨_, rfl⟩
  rw [hj] at h
  unfold ROMCheatUpdate_body
  simp only [hj]
  rcases h with ⟨hp, hr⟩ | ⟨hp, h0, hne⟩
  · simp only [hp, upd_same, bankedPtr, write8_same] at hr ⊢
    have hc : (u.cheatlist j).old = 0
        ∨ (u.cheatlist j).old % 256 = (toByte (u.cheatlist j).old).val := Or.inr rfl
    rw [if_pos hc]
    apply state_ext <;> try rfl
    · funext q
      simp only [write8, upd]
      by_cases hq : q = u.z80_readmap ((u.cheatlist j).address >>> 10)
          + ((u.cheatlist j).address &&& 1023)
      · rw [if_pos hq, hq]
        exact hr.symm
      · rw [if_neg hq, if_neg hq]
    · funext k
      simp only [upd]
      by_cases hk : k = j
      · rw [if_pos hk, hk]
        apply entry_ext <;> try rfl
        rw [hp]
        rfl
      · rw [if_neg hk, if_neg hk]
  · simp only [hp, bankedPtr] at hne ⊢
    rw [if_neg (not_or.mpr ⟨h0, hne⟩)]

/-- The walk of `ROMCheatUpdate` changes nothing when each entry it fetches is
in one of the two situations of `ROMCheatUpdate_body_id`. -/
theorem ROMCheatUpdate_loop_id : ∀ (cnt : Nat) (u : State),
    (∀ c, 1 ≤ c → c ≤ cnt → Settled u (u.cheatIndexes (MAX_CHEATS - c))) →
    ROMCheatUpdate_loop cnt u = u := by
  intro cnt
  induction cnt with
  | zero => intro u _; rfl
  | succ cnt ih =>
    intro u h
    simp only [ROMCheatUpdate_loop]
    rw [ROMCheatUpdate_body_id u (cnt + 1) (h (cnt + 1) (by omega) (Nat.le_refl _))]
    exact ih u (fun c h1 h2 => h c h1 (by omega))

/-- In the 8-bit family an iteration of `apply_cheats` for an entry that is
not a banked ROM patch leaves the cartridge, the table and the mapping as
they are. -/
theorem apply_body_sms_other (t : State) (i : Nat) (hfam : t.isMD = false)
    (ho : isROMpatch t (t.cheatlist i) = false) :
    (apply_cheats_body t i).rom = t.rom ∧ (apply_cheats_body t i).cheatlist = t.cheatlist := by
  by_cases hr : isRAMpatch t (t.cheatlist i) = true
  · rw [apply_body_ram t i hr]
    exact ⟨rfl, rfl⟩
  · have hr2 : isRAMpatch t (t.cheatlist i) = false := by simpa using hr
    unfold isRAMpatch at hr2
    unfold isROMpatch at ho
    unfold apply_cheats_body
    simp only []
    by_cases he : (t.cheatlist i).enable = true
    · simp only [he, Bool.true_and, Bool.or_eq_false_iff, Bool.and_eq_false_imp,
        decide_eq_false_iff_not, decide_eq_true_eq] at hr2
      obtain ⟨h1, h2⟩ := hr2
      rw [if_pos he, if_neg h1]
      by_cases hcd : t.isCD = true
      · obtain ⟨h3, h4⟩ := h2 hcd
        rw [if_pos hcd, if_neg h3, if_neg (fun hh => h4 hh.1 hh.2)]
        exact ⟨rfl, rfl⟩
      · rw [if_neg hcd]
        by_cases hrs : (t.cheatlist i).address < t.romsize
        · exfalso
          simp [he, h1, hcd, hrs, hfam] at ho
        · rw [if_neg hrs]
          exact ⟨rfl, rfl⟩
    · rw [if_neg he]
      exact ⟨rfl, rfl⟩


/-- An iteration of `apply_cheats` for a banked ROM patch: the mapping stays,
the ROM changes at most at the byte the address resolves to, and the entry is
at rest afterwards when its reference is non-zero. -/
theorem apply_body_sms_rom (t : State) (i : Nat) (h : isROMpatch t (t.cheatlist i) = true) :
    (∀ p, p ≠ bankedPtr t (t.cheatlist i).address → (apply_cheats_body t i).rom p = t.rom p)
    ∧ ((t.cheatlist i).old ≠ 0 → Settled (apply_cheats_body t i) i) := by
  unfold isROMpatch at h
  simp only [Bool.and_eq_true, Bool.not_eq_true', decide_eq_false_iff_not, decide_eq_true_eq]
    at h
  obtain ⟨⟨⟨⟨he, h1⟩, hcd⟩, hrs⟩, hmd⟩ := h
  unfold Settled apply_cheats_body
  simp only [he, if_true, h1, if_false, hcd, Bool.false_eq_true, hrs, hmd]
  by_cases hc : (t.cheatlist i).old % 256 = (t.rom (bankedPtr t (t.cheatlist i).address)).val
  · rw [if_pos hc]
    refine ⟨fun p hp => write8_other _ _ hp, fun _ => Or.inl ?_⟩
    simp only [upd_same, bankedPtr, write8_same, and_self]
  · rw [if_neg hc]
    refine ⟨fun p _ => rfl, fun h0 => Or.inr ?_⟩
    simp only [upd_same, bankedPtr]
    exact ⟨trivial, h0, hc⟩

/-- Being at rest depends on the entry, the mapping and the byte the address
resolves to. -/
theorem settled_congr {u v : State} {i : Nat} (he : v.cheatlist i = u.cheatlist i)
    (hm : v.z80_readmap = u.z80_readmap)
    (hr : v.rom (bankedPtr u (u.cheatlist i).address)
      = u.rom (bankedPtr u (u.cheatlist i).address))
    (h : Settled u i) : Settled v i := by
  unfold Settled at h ⊢
  rw [he, bankedPtr_congr hm, hr]
  exact h

/-- After `n` iterations of the loop of `apply_cheats` in the 8-bit family,
every banked ROM patch below `n` is at rest, provided the banked ROM patches
have non-zero references and resolve to pairwise different bytes. -/
theorem apply_loop_settled (s : State) (hfam : s.isMD = false)
    (href : ∀ i, i < s.maxcheats → isROMpatch s (s.cheatlist i) = true →
      (s.cheatlist i).old ≠ 0)
    (hdist : ∀ i j, i < s.maxcheats → j < s.maxcheats → i ≠ j →
      isROMpatch s (s.cheatlist i) = true → isROMpatch s (s.cheatlist j) = true →
      bankedPtr s (s.cheatlist i).address ≠ bankedPtr s (s.cheatlist j).address) :
    ∀ n, n ≤ s.maxcheats → ∀ i, i < n → isROMpatch s (s.cheatlist i) = true →
      Settled (apply_cheats_loop { s with maxROMcheats := 0, maxRAMcheats := 0 } n) i := by
  intro n
  induction n with
  | zero => intro _ i hi; exact absurd hi (Nat.not_lt_zero _)
  | succ n ih =>
    intro hn i hi hrom
    have hcon := apply_loop_console { s with maxROMcheats := 0, maxRAMcheats := 0 } n
    have hent : (apply_cheats_loop { s with maxROMcheats := 0, maxRAMcheats := 0 } n).cheatlist n
        = s.cheatlist n :=
      apply_loop_entry_ge { s with maxROMcheats := 0, maxRAMcheats := 0 } n (Nat.le_refl n)
    have hmap : (apply_cheats_loop { s with maxROMcheats := 0, maxRAMcheats := 0 } n).z80_readmap
        = s.z80_readmap := hcon.2.2.2.2.2.1
    have hcls : isROMpatch (apply_cheats_loop { s with maxROMcheats := 0, maxRAMcheats := 0 } n)
        ((apply_cheats_loop { s with maxROMcheats := 0, maxRAMcheats := 0 } n).cheatlist n)
        = isROMpatch s (s.cheatlist n) := by
      rw [hent]
      exact isROMpatch_console hcon _
    have hbmap := (apply_body_console
      (apply_cheats_loop { s with maxROMcheats := 0, maxRAMcheats := 0 } n) n).2.2.2.2.2.1
    have e : apply_cheats_loop { s with maxROMcheats := 0, maxRAMcheats := 0 } (n + 1)
        = apply_cheats_body (apply_cheats_loop { s with maxROMcheats := 0, maxRAMcheats := 0 } n)
          n := rfl
    rw [e]
    by_cases hin : i = n
    · subst hin
      have hb := apply_body_sms_rom _ i (hcls.trans hrom)
      apply hb.2
      rw [hent]
      exact href i (by omega) hrom
    · have hprev := ih (by omega) i (by omega) hrom
      have hcode := apply_loop_code { s with maxROMcheats := 0, maxRAMcheats := 0 } n i
      have haddr : ((apply_cheats_loop { s with maxROMcheats := 0, maxRAMcheats := 0 } n).cheatlist
          i).address = (s.cheatlist i).address := hcode.2.1
      apply settled_congr (apply_body_entry_other _ hin) hbmap ?_ hprev
      by_cases hn2 : isROMpatch s (s.cheatlist n) = true
      · apply (apply_body_sms_rom _ n (hcls.trans hn2)).1
        rw [hent, haddr, bankedPtr_congr hmap, bankedPtr_congr hmap]
        exact hdist i n (by omega) (by omega) hin hrom hn2
      · have hn3 : isROMpatch s (s.cheatlist n) = false := by simpa using hn2
        have hf : (apply_cheats_loop { s with maxROMcheats := 0, maxRAMcheats := 0 } n).isMD
            = false := by
          rw [hcon.console_isMD]
          exact hfam
        rw [(apply_body_sms_other _ n hf (hcls.trans hn3)).1]

/-- C39, amended: in the 8-bit family, for a table of at most `MAX_CHEATS`
entries whose enabled banked ROM patches all have a non-zero reference and
resolve to pairwise different ROM bytes, `ROMCheatUpdate` run directly after
`apply_cheats`, under the same mapping, changes nothing: the state it returns
is the state it was given, so every ROM byte and every live location is as
`apply_cheats` left it. -/
theorem ROMCheatUpdate_neutral (s : State) (hfam : s.isMD = false)
    (hmax : s.maxcheats ≤ MAX_CHEATS)
    (href : ∀ i, i < s.maxcheats → isROMpatch s (s.cheatlist i) = true →
      (s.cheatlist i).old ≠ 0)
    (hdist : ∀ i j, i < s.maxcheats → j < s.maxcheats → i ≠ j →
      isROMpatch s (s.cheatlist i) = true → isROMpatch s (s.cheatlist j) = true →
      bankedPtr s (s.cheatlist i).address ≠ bankedPtr s (s.cheatlist j).address) :
    ROMCheatUpdate (apply_cheats s) = apply_cheats s := by
  unfold ROMCheatUpdate
  apply ROMCheatUpdate_loop_id
  intro c h1 h2
  have hm := (apply_cheats_rom_mem s hmax
    ((apply_cheats s).cheatIndexes (MAX_CHEATS - c))).mp
    ⟨MAX_CHEATS - c, by omega, by unfold MAX_CHEATS; omega, rfl⟩
  exact apply_loop_settled s hfam href hdist s.maxcheats (Nat.le_refl _) _ hm.1 hm.2

theorem ROMCheatUpdate_neutral_witness :
    refTable.isMD = false ∧ refTable.maxcheats = 2
    ∧ isROMpatch refTable (refTable.cheatlist 0) = false
    ∧ isROMpatch refTable (refTable.cheatlist 1) = true
    ∧ (refTable.cheatlist 1).old = 0x55
    ∧ (apply_cheats refTable).rom 0x1123 = toByte 0xAA
    ∧ ROMCheatUpdate (apply_cheats refTable) = apply_cheats refTable :=
  ⟨by decide, by decide, by decide, by decide, by decide, by decide,
    ROMCheatUpdate_neutral refTable (by decide) (by decide)
      (by
        intro i hi hr
        have h2 : i < 2 := hi
        interval_cases i
        · exact absurd hr (by decide)
        · decide)
      (by
        intro i j hi hj hne hri hrj
        have h2 : i < 2 := hi
        have h3 : j < 2 := hj
        interval_cases i <;> interval_cases j
        · exact absurd rfl hne
        · exact absurd hri (by decide)
        · exact absurd hrj (by decide)
        · exact absurd rfl hne)⟩

/-! ## The bounds of the table -/

set_option maxRecDepth 100000 in
theorem decode_sampleCode : ∀ k, k < 151 →
    decode true (sampleCode k) = some { len := 11, address := k, data := 1, ref := 0 } := by
  decide

set_option maxRecDepth 100000 in
theorem sampleCode_plain : ∀ k, k < 151 → '+' ∉ sampleCode k ∧ NUL ∉ sampleCode k := by
  decide

/-- One pass of the loop body on a valid code that decodes to `d` stores at
the entry count and at `r`, the first index below the entry count that holds
the pair `(d.address, d.data)`, or the entry count when there is none. -/
theorem piece_stores_valid (t : State) (v : List Char) (d : Decoded)
    (hdec : decode t.isMD v = some d) (hacc : d.len ≠ 0) :
    ∃ r, r ≤ t.maxcheats
      ∧ (∀ k, k < r → ¬ ((t.cheatlist k).address = d.address ∧ (t.cheatlist k).data = d.data))
      ∧ (r < t.maxcheats →
          (t.cheatlist r).address = d.address ∧ (t.cheatlist r).data = d.data)
      ∧ retro_cheat_set_piece_stores t v = [t.maxcheats, r] := by
  have hd : decode_cheat t v t.maxcheats = (d.len, storeCheat t t.maxcheats d) := by
    simp [decode_cheat, hdec, hacc]
  have hslot : (storeCheat t t.maxcheats d).cheatlist t.maxcheats
      = { t.cheatlist t.maxcheats with address := d.address, data := d.data, old := d.ref } := by
    simp [storeCheat]
  have hrest : ∀ k, k ≠ t.maxcheats → (storeCheat t t.maxcheats d).cheatlist k = t.cheatlist k := by
    intro k hk
    simp [storeCheat, upd_other _ _ hk]
  have hun : (storeCheat t t.maxcheats d).maxcheats = t.maxcheats := rfl
  obtain ⟨-, a2, a3, a4⟩ := find_cheat_spec (storeCheat t t.maxcheats d) t.maxcheats 0
  rw [hun, hslot] at a3 a4
  simp only [Nat.zero_add] at a2 a3 a4
  refine ⟨find_cheat (storeCheat t t.maxcheats d) t.maxcheats 0, a2, ?_, ?_, ?_⟩
  · intro k hk
    have := a3 k (Nat.zero_le k) hk
    rwa [hrest k (by omega)] at this
  · intro hlt
    have := a4 hlt
    rwa [hrest _ (by omega)] at this
  · unfold retro_cheat_set_piece_stores
    simp only [hd, hacc, ne_eq, not_false_eq_true, if_true]
    rfl

/-- After one pass of the loop body on a valid code, the slot at the former
entry count holds the address and data of the code. -/
theorem piece_slot_count (enabled : Bool) (t : State) (v : List Char) (d : Decoded)
    (hdec : decode t.isMD v = some d) (hacc : d.len ≠ 0) :
    ((retro_cheat_set_piece enabled t v).cheatlist t.maxcheats).address = d.address
    ∧ ((retro_cheat_set_piece enabled t v).cheatlist t.maxcheats).data = d.data := by
  have hd : decode_cheat t v t.maxcheats = (d.len, storeCheat t t.maxcheats d) := by
    simp [decode_cheat, hdec, hacc]
  have hslot : (storeCheat t t.maxcheats d).cheatlist t.maxcheats
      = { t.cheatlist t.maxcheats with address := d.address, data := d.data, old := d.ref } := by
    simp [storeCheat]
  unfold retro_cheat_set_piece
  simp only [hd, hacc, ne_eq, not_false_eq_true, if_true]
  generalize find_cheat (storeCheat t t.maxcheats d) (storeCheat t t.maxcheats d).maxcheats 0 = r
  by_cases hr : t.maxcheats = r
  · subst hr
    split_ifs <;> simp only [upd_same] <;> rw [hslot] <;> exact ⟨rfl, rfl⟩
  · split_ifs <;> simp only [upd_other _ _ hr] <;> rw [hslot] <;> exact ⟨rfl, rfl⟩

/-- One pass of the loop body on a rejected code stores nothing. -/
theorem piece_stores_rejected (t : State) (v : List Char)
    (h : (decode_cheat t v t.maxcheats).1 = 0) : retro_cheat_set_piece_stores t v = [] := by
  unfold retro_cheat_set_piece_stores
  simp only [h, ne_eq, not_true_eq_false, if_false]

/-- The stores of a call with one valid code without joiner: the entry count
and `r`, the first index below the entry count that holds the pair of the
code, or the entry count when there is none. After the call the slot at the
former entry count holds the address and data of the code. -/
theorem set_stores_valid (s : State) (enabled : Bool) (code : List Char) (d : Decoded)
    (hplus : '+' ∉ code) (hnul : NUL ∉ code)
    (hdec : decode s.isMD code = some d) (hacc : d.len ≠ 0) :
    (∃ r, r ≤ s.maxcheats
      ∧ (∀ k, k < r → ¬ ((s.cheatlist k).address = d.address ∧ (s.cheatlist k).data = d.data))
      ∧ (r < s.maxcheats →
          (s.cheatlist r).address = d.address ∧ (s.cheatlist r).data = d.data)
      ∧ retro_cheat_set_stores s enabled (some code) = [s.maxcheats, r])
    ∧ ((retro_cheat_set s enabled (some code)).cheatlist s.maxcheats).address = d.address
    ∧ ((retro_cheat_set s enabled (some code)).cheatlist s.maxcheats).data = d.data := by
  have hne : code ≠ [] := by
    intro h
    rw [h, decode_nil] at hdec
    injection hdec with h2
    rw [← h2] at hacc
    exact hacc rfl
  have cC := clear_cheats_console s
  have hC := fun k => clear_cheats_code s k
  have hdec2 : decode (clear_cheats s).isMD (codeCopy code) = some d := by
    rw [cC.console_isMD, decode_codeCopy _ hnul, hdec]
  obtain ⟨r, h1, h2, h3, h4⟩ := piece_stores_valid (clear_cheats s) (codeCopy code) d hdec2 hacc
  obtain ⟨h5, h6⟩ := piece_slot_count enabled (clear_cheats s) (codeCopy code) d hdec2 hacc
  have hm : (clear_cheats s).maxcheats = s.maxcheats := cC.2.2.2.2.2.2
  rw [hm] at h1 h3 h4 h5 h6
  refine ⟨⟨r, h1, ?_, ?_, ?_⟩, ?_, ?_⟩
  · intro k hk
    have := h2 k hk
    rwa [(hC k).2.1, (hC k).2.2] at this
  · intro hlt
    have := h3 hlt
    rwa [(hC r).2.1, (hC r).2.2] at this
  · simp only [retro_cheat_set_stores, strtok_views_single hplus hnul hne,
      retro_cheat_set_loop_stores, List.append_nil]
    exact h4
  · rw [retro_cheat_set_single s enabled hplus hnul hne, (apply_cheats_code _ _).2.1]
    exact h5
  · rw [retro_cheat_set_single s enabled hplus hnul hne, (apply_cheats_code _ _).2.2]
    exact h6

/-- A call with one valid code without joiner keeps its stores within the
array exactly when the table holds fewer than `MAX_CHEATS` entries. -/
theorem set_in_bounds_valid (s : State) (enabled : Bool) (code : List Char) (d : Decoded)
    (hplus : '+' ∉ code) (hnul : NUL ∉ code)
    (hdec : decode s.isMD code = some d) (hacc : d.len ≠ 0) :
    retro_cheat_set_in_bounds s enabled (some code) = decide (s.maxcheats < MAX_CHEATS) := by
  obtain ⟨⟨r, h1, -, -, h2⟩, -, -⟩ := set_stores_valid s enabled code d hplus hnul hdec hacc
  unfold retro_cheat_set_in_bounds
  rw [h2]
  simp only [List.all_cons, List.all_nil, Bool.and_true]
  by_cases h : s.maxcheats < MAX_CHEATS
  · have hr : r < MAX_CHEATS := by omega
    simp [h, hr]
  · simp [h]

theorem run_sets_snoc (s : State) (l : List (Bool × Option (List Char)))
    (c : Bool × Option (List Char)) :
    run_sets s (l ++ [c]) = retro_cheat_set (run_sets s l) c.1 c.2 := by
  simp only [run_sets, List.foldl_append, List.foldl_cons, List.foldl_nil]

theorem run_in_bounds_snoc : ∀ (l : List (Bool × Option (List Char))) (s : State)
    (c : Bool × Option (List Char)),
    run_in_bounds s (l ++ [c])
      = (run_in_bounds s l && retro_cheat_set_in_bounds (run_sets s l) c.1 c.2) := by
  intro l
  induction l with
  | nil =>
    intro s c
    simp [run_in_bounds, run_sets]
  | cons a l ih =>
    intro s c
    have e : (a :: l) ++ [c] = a :: (l ++ [c]) := rfl
    have e2 : run_sets s (a :: l) = run_sets (retro_cheat_set s a.1 a.2) l := rfl
    rw [e, e2]
    simp only [run_in_bounds]
    rw [ih, Bool.and_assoc]

theorem sampleCalls_succ (n : Nat) :
    sampleCalls (n + 1) = sampleCalls n ++ [(true, some (sampleCode n))] := by
  unfold sampleCalls
  rw [List.range_succ, List.map_append]
  rfl

/-- The table after the first `n` sample codes were set on the empty 16-bit
console, for `n` up to `MAX_CHEATS`: it holds `n` entries, entry `k` with
address `k` and data 1, and the calls kept their stores within the array. -/
theorem sample_run (n : Nat) (hn : n ≤ MAX_CHEATS) :
    (run_sets mdConsole (sampleCalls n)).maxcheats = n
    ∧ (run_sets mdConsole (sampleCalls n)).isMD = true
    ∧ (∀ k, k < n → ((run_sets mdConsole (sampleCalls n)).cheatlist k).address = k
        ∧ ((run_sets mdConsole (sampleCalls n)).cheatlist k).data = 1)
    ∧ run_in_bounds mdConsole (sampleCalls n) = true := by
  induction n with
  | zero => exact ⟨rfl, by decide, fun k hk => absurd hk (Nat.not_lt_zero _), rfl⟩
  | succ n ih =>
    have hn2 : n < MAX_CHEATS := by omega
    obtain ⟨i1, i2, i3, i4⟩ := ih (by omega)
    have hk151 : n < 151 := by
      unfold MAX_CHEATS at hn2
      omega
    have hdec : decode (run_sets mdConsole (sampleCalls n)).isMD (sampleCode n)
        = some { len := 11, address := n, data := 1, ref := 0 } := by
      rw [i2]
      exact decode_sampleCode n hk151
    obtain ⟨hplus, hnul⟩ := sampleCode_plain n hk151
    obtain ⟨r, a1, -, a3, a4, -, a6, a7, a8⟩ := set_valid (run_sets mdConsole (sampleCalls n))
      true (sampleCode n) _ hplus hnul hdec (by simp)
    have hb := set_in_bounds_valid (run_sets mdConsole (sampleCalls n)) true (sampleCode n) _
      hplus hnul hdec (by simp)
    rw [sampleCalls_succ, run_sets_snoc, run_in_bounds_snoc]
    simp only [] at a3 a4 a6 a7 a8 hb ⊢
    rw [i1] at a1 a6 a7 hb
    have hr : r = n := by
      rcases Nat.lt_or_ge r n with hlt | hge
      · have h := (a6 r hlt).1
        rw [a3, (i3 r hlt).1] at h
        omega
      · omega
    rw [hr] at a3 a4 a7
    refine ⟨?_, ?_, ?_, ?_⟩
    · rw [a7, if_pos ⟨rfl, hn2⟩]
    · rw [a8, i2]
    · intro k hk
      rcases Nat.lt_or_ge k n with hlt | hge
      · obtain ⟨q1, q2, -⟩ := a6 k hlt
        rw [q1, q2]
        exact i3 k hlt
      · have : k = n := by omega
        rw [this]
        exact ⟨a3, a4⟩
    · rw [i4, hb]
      simp [hn2]

theorem run_sets_reachable (s : State) (h0 : s.maxcheats = 0) :
    ∀ l : List (Bool × Option (List Char)), Reachable (run_sets s l) := by
  intro l
  induction l using List.reverseRecOn with
  | nil => exact Reachable.empty s h0
  | append_singleton l c ih =>
    rw [run_sets_snoc]
    exact Reachable.set _ c.1 c.2 ih

/-- C7, failing input: a table of 149 entries, reached from the empty 16-bit
console by 149 calls that keep within the array, and the valid code
`ATBT-AA32`, which is not in the table. The first call stores at index 149 and
makes the count 150. The second call with the same code hands `decode_cheat`
the index 150: address `0x338` and data `0x6004` are stored in
`cheatlist[150]`, one slot past the array, before the search finds the pair
at index 149. -/
theorem second_call_stores_past_end :
    (run_sets mdConsole (sampleCalls 149)).maxcheats = 149
    ∧ (run_sets mdConsole (sampleCalls 149)).maxcheats < MAX_CHEATS
    ∧ retro_cheat_set_in_bounds (run_sets mdConsole (sampleCalls 149)) false
        (some "ATBT-AA32".toList) = true
    ∧ (retro_cheat_set (run_sets mdConsole (sampleCalls 149)) false
        (some "ATBT-AA32".toList)).maxcheats = MAX_CHEATS
    ∧ retro_cheat_set_stores
        (retro_cheat_set (run_sets mdConsole (sampleCalls 149)) false (some "ATBT-AA32".toList))
        true (some "ATBT-AA32".toList) = [MAX_CHEATS, 149]
    ∧ retro_cheat_set_in_bounds
        (retro_cheat_set (run_sets mdConsole (sampleCalls 149)) false (some "ATBT-AA32".toList))
        true (some "ATBT-AA32".toList) = false
    ∧ ((retro_cheat_set (retro_cheat_set (run_sets mdConsole (sampleCalls 149)) false
          (some "ATBT-AA32".toList)) true (some "ATBT-AA32".toList)).cheatlist MAX_CHEATS).address
        = 0x338
    ∧ ((retro_cheat_set (retro_cheat_set (run_sets mdConsole (sampleCalls 149)) false
          (some "ATBT-AA32".toList)) true (some "ATBT-AA32".toList)).cheatlist MAX_CHEATS).data
        = 0x6004 := by
  obtain ⟨i1, i2, i3, -⟩ := sample_run 149 (by decide)
  have hd : decode true "ATBT-AA32".toList
      = some { len := 9, address := 0x338, data := 0x6004, ref := 0 } := by decide
  have hdec : decode (run_sets mdConsole (sampleCalls 149)).isMD "ATBT-AA32".toList
      = some { len := 9, address := 0x338, data := 0x6004, ref := 0 } := by
    rw [i2]
    exact hd
  obtain ⟨r, a1, -, a3, a4, -, a6, a7, a8⟩ := set_valid (run_sets mdConsole (sampleCalls 149))
    false "ATBT-AA32".toList _ (by decide) (by decide) hdec (by simp)
  have hb := set_in_bounds_valid (run_sets mdConsole (sampleCalls 149)) false
    "ATBT-AA32".toList _ (by decide) (by decide) hdec (by simp)
  rw [i1] at a1 a6 a7 hb
  simp only [] at a3 a4
  have hr : r = 149 := by
    rcases Nat.lt_or_ge r 149 with hlt | hge
    · have h := (a6 r hlt).1
      rw [a3, (i3 r hlt).1] at h
      omega
    · omega
  rw [hr] at a3 a4 a7
  have hcount : (retro_cheat_set (run_sets mdConsole (sampleCalls 149)) false
      (some "ATBT-AA32".toList)).maxcheats = MAX_CHEATS := by
    rw [a7, if_pos ⟨rfl, by decide⟩]
    rfl
  have hdec1 : decode (retro_cheat_set (run_sets mdConsole (sampleCalls 149)) false
      (some "ATBT-AA32".toList)).isMD "ATBT-AA32".toList
      = some { len := 9, address := 0x338, data := 0x6004, ref := 0 } := by
    rw [a8, i2]
    exact hd
  obtain ⟨⟨r2, b1, b2, b3, b4⟩, b5, b6⟩ := set_stores_valid
    (retro_cheat_set (run_sets mdConsole (sampleCalls 149)) false (some "ATBT-AA32".toList))
    true "ATBT-AA32".toList _ (by decide) (by decide) hdec1 (by simp)
  have hb1 := set_in_bounds_valid
    (retro_cheat_set (run_sets mdConsole (sampleCalls 149)) false (some "ATBT-AA32".toList))
    true "ATBT-AA32".toList _ (by decide) (by decide) hdec1 (by simp)
  rw [hcount] at b1 b3 b4 b5 b6 hb1
  simp only [] at b2 b3 b5 b6
  have hr2 : r2 = 149 := by
    rcases Nat.lt_trichotomy r2 149 with hlt | heq | hgt
    · have h := (b3 (by unfold MAX_CHEATS; omega)).1
      rw [(a6 r2 hlt).1, (i3 r2 hlt).1] at h
      omega
    · exact heq
    · exact absurd ⟨a3, a4⟩ (b2 149 hgt)
  rw [hr2] at b4
  refine ⟨i1, by rw [i1]; decide, ?_, hcount, b4, ?_, b5, b6⟩
  · rw [hb]
    decide
  · rw [hb1]
    decide

theorem decode_cheat_accept (s : State) (string : List Char) (index : Nat) (d : Decoded)
    (hdec : decode s.isMD string = some d) (hacc : d.len ≠ 0) :
    decode_cheat s string index = (d.len, storeCheat s index d) := by
  simp [decode_cheat, hdec, hacc]

/-- C15, failing input: the table reached from the empty 16-bit console by
150 calls holds `MAX_CHEATS` entries; the valid code `FF0001:1234` matches none
of them. A call of `retro_cheat_set` with it stores address and data, and then
the enable flag, at index `MAX_CHEATS`, one slot past the array. -/
theorem full_table_new_code_past_end :
    Reachable (run_sets mdConsole (sampleCalls 150))
    ∧ (run_sets mdConsole (sampleCalls 150)).maxcheats = MAX_CHEATS
    ∧ (decode_cheat (run_sets mdConsole (sampleCalls 150)) "FF0001:1234".toList
        (run_sets mdConsole (sampleCalls 150)).maxcheats).1 = 11
    ∧ (∀ k, k < MAX_CHEATS →
        ¬ (((run_sets mdConsole (sampleCalls 150)).cheatlist k).address = 0xFF0001
          ∧ ((run_sets mdConsole (sampleCalls 150)).cheatlist k).data = 0x1234))
    ∧ retro_cheat_set_stores (run_sets mdConsole (sampleCalls 150)) true
        (some "FF0001:1234".toList) = [MAX_CHEATS, MAX_CHEATS]
    ∧ retro_cheat_set_in_bounds (run_sets mdConsole (sampleCalls 150)) true
        (some "FF0001:1234".toList) = false
    ∧ ((retro_cheat_set (run_sets mdConsole (sampleCalls 150)) true
          (some "FF0001:1234".toList)).cheatlist MAX_CHEATS).address = 0xFF0001
    ∧ ((retro_cheat_set (run_sets mdConsole (sampleCalls 150)) true
          (some "FF0001:1234".toList)).cheatlist MAX_CHEATS).data = 0x1234 := by
  obtain ⟨i1, i2, i3, -⟩ := sample_run 150 (Nat.le_refl _)
  have hd : decode true "FF0001:1234".toList
      = some { len := 11, address := 0xFF0001, data := 0x1234, ref := 0 } := by decide
  have hdec : decode (run_sets mdConsole (sampleCalls 150)).isMD "FF0001:1234".toList
      = some { len := 11, address := 0xFF0001, data := 0x1234, ref := 0 } := by
    rw [i2]
    exact hd
  obtain ⟨⟨r, a1, -, a3, a4⟩, a5, a6⟩ := set_stores_valid (run_sets mdConsole (sampleCalls 150))
    true "FF0001:1234".toList _ (by decide) (by decide) hdec (by simp)
  have hb := set_in_bounds_valid (run_sets mdConsole (sampleCalls 150)) true
    "FF0001:1234".toList _ (by decide) (by decide) hdec (by simp)
  have i1m : (run_sets mdConsole (sampleCalls 150)).maxcheats = MAX_CHEATS := i1
  rw [i1m] at a5 a6
  rw [i1] at a1 a3 a4 hb
  simp only [] at a3 a5 a6
  have hnew : ∀ k, k < MAX_CHEATS →
      ¬ (((run_sets mdConsole (sampleCalls 150)).cheatlist k).address = 0xFF0001
        ∧ ((run_sets mdConsole (sampleCalls 150)).cheatlist k).data = 0x1234) := by
    intro k hk h
    rw [(i3 k hk).2] at h
    exact absurd h.2 (by decide)
  have hr : r = MAX_CHEATS := by
    rcases Nat.lt_or_ge r 150 with hlt | hge
    · exact absurd (a3 hlt) (hnew r hlt)
    · show r = 150
      omega
  rw [hr] at a4
  have hreach : Reachable (run_sets mdConsole (sampleCalls 150)) :=
    run_sets_reachable mdConsole rfl (sampleCalls 150)
  refine ⟨hreach, i1, ?_, hnew, a4, ?_, a5, a6⟩
  · rw [decode_cheat_accept _ _ _ _ hdec (by simp)]
  · rw [hb]
    decide

/-! ## What holds while the table is not overrun -/

theorem reachable_of_in_bounds (s : State) (h : ReachableInBounds s) : Reachable s := by
  induction h with
  | empty s h0 => exact Reachable.empty s h0
  | set s enabled code _ _ ih => exact Reachable.set s enabled code ih
  | reset s _ ih => exact Reachable.reset s ih

/-- With a cartridge of at most `0xFF0000` bytes, starting from an empty
table, a finite sequence of `retro_cheat_set` calls that keep their stores
within the array, followed by `retro_cheat_reset`, leaves every byte of the
cartridge ROM as it was before the first call, and the entry count is zero. -/
theorem set_then_reset_in_bounds (s : State) (calls : List (Bool × Option (List Char)))
    (hrs : s.romsize ≤ 0xFF0000) (h0 : s.maxcheats = 0)
    (_hb : run_in_bounds s calls = true) :
    (∀ p, (retro_cheat_reset (run_sets s calls)).rom p = s.rom p)
    ∧ (retro_cheat_reset (run_sets s calls)).maxcheats = 0 := by
  have hinit : ∀ p, (clear_cheats s).rom p = s.rom p := by
    intro p
    unfold clear_cheats
    rw [h0]
    split_ifs <;> rfl
  have key : ∀ (l : List (Bool × Option (List Char))) (t : State), SameCartridge s t →
      (∀ p, (clear_cheats t).rom p = s.rom p) →
      ∀ p, (clear_cheats (run_sets t l)).rom p = s.rom p := by
    intro l
    induction l with
    | nil => intro t _ h; exact h
    | cons c l ih =>
      intro t ct h
      obtain ⟨c1, h1⟩ := retro_cheat_set_restorable t c.1 c.2 s.rom
        (by rw [ct.2.2.2.1]; exact hrs) h
      exact ih (retro_cheat_set t c.1 c.2) (ct.cart_trans c1) h1
  exact ⟨fun p => key calls s (sameCartridge_refl s) hinit p, rfl⟩

/-- An instance of `set_then_reset_in_bounds`: two codes are set, one is
disabled again, a third call passes `NULL`, then the table is reset. -/
theorem set_then_reset_in_bounds_witness :
    (run_sets mdConsole [(true, some "ATBT-AA32".toList), (true, some "000339:BEEF".toList),
        (false, some "ATBT-AA32".toList), (true, none)]).rom 0x338 = toByte 0xEF
    ∧ mdConsole.isMD = true
    ∧ (∀ p, (retro_cheat_reset (run_sets mdConsole [(true, some "ATBT-AA32".toList),
        (true, some "000339:BEEF".toList), (false, some "ATBT-AA32".toList),
        (true, none)])).rom p = mdConsole.rom p)
    ∧ (retro_cheat_reset (run_sets mdConsole [(true, some "ATBT-AA32".toList),
        (true, some "000339:BEEF".toList), (false, some "ATBT-AA32".toList),
        (true, none)])).maxcheats = 0 :=
  ⟨by decide, by decide,
   set_then_reset_in_bounds mdConsole [(true, some "ATBT-AA32".toList),
     (true, some "000339:BEEF".toList), (false, some "ATBT-AA32".toList), (true, none)]
     (by decide) (by decide) (by decide)⟩

/-- Starting from a table that holds the pair (address, data) of a valid code
at most once, two calls of `retro_cheat_set` with that code (one piece, no
joiner) and flags `f1` and `f2`, both of which keep their stores within the
array, result in exactly one entry below the count with that pair; its enable
flag is `f2`; the second call does not change the entry count. -/
theorem duplicate_merge_in_bounds (s : State) (f1 f2 : Bool) (code : List Char) (d : Decoded)
    (hplus : '+' ∉ code) (hnul : NUL ∉ code)
    (hdec : decode s.isMD code = some d) (hacc : d.len ≠ 0)
    (hb1 : retro_cheat_set_in_bounds s f1 (some code) = true)
    (_hb2 : retro_cheat_set_in_bounds (retro_cheat_set s f1 (some code)) f2 (some code) = true)
    (hdup : ∀ j k, j < s.maxcheats → k < s.maxcheats →
      (s.cheatlist j).address = d.address → (s.cheatlist j).data = d.data →
      (s.cheatlist k).address = d.address → (s.cheatlist k).data = d.data → j = k) :
    (retro_cheat_set (retro_cheat_set s f1 (some code)) f2 (some code)).maxcheats
      = (retro_cheat_set s f1 (some code)).maxcheats
    ∧ ∃ j, j < (retro_cheat_set (retro_cheat_set s f1 (some code)) f2 (some code)).maxcheats
      ∧ ((retro_cheat_set (retro_cheat_set s f1 (some code)) f2 (some code)).cheatlist j).address
          = d.address
      ∧ ((retro_cheat_set (retro_cheat_set s f1 (some code)) f2 (some code)).cheatlist j).data
          = d.data
      ∧ ((retro_cheat_set (retro_cheat_set s f1 (some code)) f2 (some code)).cheatlist j).enable
          = f2
      ∧ ∀ k, k < (retro_cheat_set (retro_cheat_set s f1 (some code)) f2 (some code)).maxcheats →
          ((retro_cheat_set (retro_cheat_set s f1 (some code)) f2 (some code)).cheatlist k).address
            = d.address →
          ((retro_cheat_set (retro_cheat_set s f1 (some code)) f2 (some code)).cheatlist k).data
            = d.data → k = j := by
  have hroom : s.maxcheats < MAX_CHEATS := by
    rw [set_in_bounds_valid s f1 code d hplus hnul hdec hacc] at hb1
    exact of_decide_eq_true hb1
  obtain ⟨r1, a1, a2, a3, a4, -, a6, a7, a8⟩ := set_valid s f1 code d hplus hnul hdec hacc
  generalize retro_cheat_set s f1 (some code) = s1 at a3 a4 a6 a7 a8 ⊢
  -- after the first call the pair sits at `r1` and nowhere else
  have hr1 : r1 < s1.maxcheats := by
    rw [a7]
    split_ifs with h
    · omega
    · have : r1 ≠ s.maxcheats := fun e => h ⟨e, hroom⟩
      omega
  have hm1 : s1.maxcheats ≤ s.maxcheats + 1 := by
    rw [a7]
    split_ifs <;> omega
  have huniq : ∀ k, k < s1.maxcheats → (s1.cheatlist k).address = d.address →
      (s1.cheatlist k).data = d.data → k = r1 := by
    intro k hk h1 h2
    rcases Nat.lt_or_ge k s.maxcheats with hlt | hge
    · obtain ⟨q1, q2, -⟩ := a6 k hlt
      rw [q1] at h1
      rw [q2] at h2
      rcases Nat.lt_or_ge r1 s.maxcheats with hlt1 | hge1
      · obtain ⟨t1, t2, -⟩ := a6 r1 hlt1
        rw [t1] at a3
        rw [t2] at a4
        exact hdup k r1 hlt hlt1 h1 h2 a3 a4
      · have : k < r1 := by omega
        exact absurd ⟨h1, h2⟩ (a2 k this)
    · rcases Nat.lt_or_ge r1 s.maxcheats with hlt1 | hge1
      · have hne : ¬ (r1 = s.maxcheats ∧ s.maxcheats < MAX_CHEATS) := fun h => by omega
        rw [a7, if_neg hne] at hk
        omega
      · omega
  obtain ⟨r2, b1, b2, b3, b4, b5, b6, b7, -⟩ :=
    set_valid s1 f2 code d hplus hnul (by rw [a8]; exact hdec) hacc
  generalize retro_cheat_set s1 f2 (some code) = s2 at b3 b4 b5 b6 b7 ⊢
  -- the second call finds the pair at `r1`
  have hle : r2 ≤ r1 := by
    rcases Nat.lt_or_ge r1 r2 with h | h
    · exact absurd ⟨a3, a4⟩ (b2 r1 h)
    · exact h
  have hr2 : r2 = r1 := by
    have hlt : r2 < s1.maxcheats := by omega
    obtain ⟨q1, q2, -⟩ := b6 r2 hlt
    rw [q1] at b3
    rw [q2] at b4
    exact huniq r2 hlt b3 b4
  have hm2 : s2.maxcheats = s1.maxcheats := by
    rw [b7]
    have hne : ¬ (r2 = s1.maxcheats ∧ s1.maxcheats < MAX_CHEATS) := fun h => by omega
    rw [if_neg hne]
  refine ⟨hm2, r1, by omega, hr2 ▸ b3, hr2 ▸ b4, hr2 ▸ b5, ?_⟩
  intro k hk h1 h2
  rw [hm2] at hk
  obtain ⟨q1, q2, -⟩ := b6 k hk
  rw [q1] at h1
  rw [q2] at h2
  exact huniq k hk h1 h2

/-- An instance of `duplicate_merge_in_bounds`: the code `ATBT-AA32` is
disabled and then enabled on an empty table. -/
theorem duplicate_merge_in_bounds_witness :
    (retro_cheat_set mdConsole false (some "ATBT-AA32".toList)).maxcheats = 1
    ∧ ((retro_cheat_set mdConsole false (some "ATBT-AA32".toList)).cheatlist 0).enable = false
    ∧ (retro_cheat_set (retro_cheat_set mdConsole false (some "ATBT-AA32".toList)) true
          (some "ATBT-AA32".toList)).maxcheats
        = (retro_cheat_set mdConsole false (some "ATBT-AA32".toList)).maxcheats
    ∧ ((retro_cheat_set (retro_cheat_set mdConsole false (some "ATBT-AA32".toList)) true
          (some "ATBT-AA32".toList)).cheatlist 0).enable = true :=
  ⟨by decide, by decide,
   (duplicate_merge_in_bounds mdConsole false true "ATBT-AA32".toList
      { len := 9, address := 0x338, data := 0x6004, ref := 0 } (by decide) (by decide)
      (by decide) (by decide) (by decide) (by decide)
      (fun j k hj _ _ _ _ _ => absurd hj (Nat.not_lt_zero j))).1,
   by decide⟩

/-- In every state reached from the empty table by calls of `retro_cheat_set`
that keep their stores within the array and by calls of `retro_cheat_reset`,
the entry count is at most `MAX_CHEATS` and no two entries at indices below
the entry count have the same address and the same data. -/
theorem no_duplicate_entries_in_bounds (s : State) (i j : Nat) (h : ReachableInBounds s)
    (hij : i < j) (hj : j < s.maxcheats) :
    s.maxcheats ≤ MAX_CHEATS
    ∧ ¬ ((s.cheatlist i).address = (s.cheatlist j).address
      ∧ (s.cheatlist i).data = (s.cheatlist j).data) :=
  ⟨reachable_count_le s (reachable_of_in_bounds s h),
   (reachable_table s (reachable_of_in_bounds s h)).1 i j hij hj⟩

/-- An instance of `no_duplicate_entries_in_bounds`: the table after the code
`ATBT-AA32` was set twice and the code `FF0001:1234` once holds two entries,
and they differ. -/
theorem no_duplicate_entries_in_bounds_witness :
    (retro_cheat_set (retro_cheat_set (retro_cheat_set mdConsole true (some "ATBT-AA32".toList))
        false (some "ATBT-AA32".toList)) true (some "FF0001:1234".toList)).maxcheats = 2
    ∧ ¬ (((retro_cheat_set (retro_cheat_set (retro_cheat_set mdConsole true
              (some "ATBT-AA32".toList)) false (some "ATBT-AA32".toList)) true
              (some "FF0001:1234".toList)).cheatlist 0).address
          = ((retro_cheat_set (retro_cheat_set (retro_cheat_set mdConsole true
              (some "ATBT-AA32".toList)) false (some "ATBT-AA32".toList)) true
              (some "FF0001:1234".toList)).cheatlist 1).address
        ∧ ((retro_cheat_set (retro_cheat_set (retro_cheat_set mdConsole true
              (some "ATBT-AA32".toList)) false (some "ATBT-AA32".toList)) true
              (some "FF0001:1234".toList)).cheatlist 0).data
          = ((retro_cheat_set (retro_cheat_set (retro_cheat_set mdConsole true
              (some "ATBT-AA32".toList)) false (some "ATBT-AA32".toList)) true
              (some "FF0001:1234".toList)).cheatlist 1).data) :=
  ⟨by decide,
   (no_duplicate_entries_in_bounds _ 0 1
    (ReachableInBounds.set _ true _ (ReachableInBounds.set _ false _
      (ReachableInBounds.set _ true _ (ReachableInBounds.empty mdConsole rfl) (by decide))
      (by decide)) (by decide))
    (by decide) (by decide)).2⟩

/-! ## A banked patch among other banked patches -/

theorem ROMCheatUpdate_body_at (s : State) (cnt : Nat) :
    ROMCheatUpdate_body s cnt = ROMCheatUpdate_at s (s.cheatIndexes (MAX_CHEATS - cnt)) := rfl

/-- The walk of `ROMCheatUpdate` is the iteration for the listed indices, last
slot of the walk first. -/
theorem ROMCheatUpdate_loop_foldl : ∀ (cnt : Nat) (u : State),
    ROMCheatUpdate_loop cnt u
      = ((List.range cnt).map (fun r => u.cheatIndexes (MAX_CHEATS - (r + 1)))).reverse.foldl
          ROMCheatUpdate_at u := by
  intro cnt
  induction cnt with
  | zero => intro u; rfl
  | succ cnt ih =>
    intro u
    have hstep : ROMCheatUpdate_loop (cnt + 1) u
        = ROMCheatUpdate_loop cnt (ROMCheatUpdate_body u (cnt + 1)) := rfl
    rw [hstep, ih, ROMCheatUpdate_body_indexes, map_range_succ, List.reverse_append,
      List.reverse_singleton, List.singleton_append, List.foldl_cons, ROMCheatUpdate_body_at]

theorem foldl_filter_range (p : Nat → Bool) : ∀ (n : Nat) (u : State),
    ((List.range n).filter p).reverse.foldl ROMCheatUpdate_at u = ROMCheatUpdate_below p n u := by
  intro n
  induction n with
  | zero => intro u; rfl
  | succ n ih =>
    intro u
    rw [filter_range_succ]
    by_cases h : p n = true
    · rw [if_pos h, List.reverse_append, List.reverse_singleton, List.singleton_append,
        List.foldl_cons, ih]
      simp only [ROMCheatUpdate_below, h, if_true]
    · rw [if_neg h, ih]
      simp only [ROMCheatUpdate_below, h, Bool.false_eq_true, if_false]

/-- After `apply_cheats`, under any mapping, `ROMCheatUpdate` is the
iteration for the banked ROM patches of the table, highest index first. -/
theorem ROMCheatUpdate_after_apply (s : State) (hmax : s.maxcheats ≤ MAX_CHEATS)
    (u : State) (hidx : u.cheatIndexes = (apply_cheats s).cheatIndexes)
    (hcnt : u.maxROMcheats = (apply_cheats s).maxROMcheats) :
    ROMCheatUpdate u
      = ROMCheatUpdate_below (fun j => isROMpatch s (s.cheatlist j)) s.maxcheats u := by
  obtain ⟨-, -, lc⟩ :=
    apply_loop_lists { s with maxROMcheats := 0, maxRAMcheats := 0 } rfl rfl s.maxcheats hmax
  have e1 : apply_cheats_loop { s with maxROMcheats := 0, maxRAMcheats := 0 } s.maxcheats
      = apply_cheats s := rfl
  rw [e1] at lc
  unfold ROMCheatUpdate
  rw [ROMCheatUpdate_loop_foldl, hidx, hcnt, lc]
  exact foldl_filter_range _ _ _

theorem isROMpatch_iff (s : State) (e : CHEATENTRY) (hfam : s.isMD = false)
    (hcd : s.isCD = false) :
    isROMpatch s e = true
      ↔ (e.enable = true ∧ e.address < 0xFF0000 ∧ e.address < s.romsize) := by
  unfold isROMpatch
  simp only [hfam, hcd, Bool.not_false, Bool.and_true, Bool.and_eq_true, Bool.not_eq_true',
    decide_eq_false_iff_not, decide_eq_true_eq, Nat.not_le]
  constructor
  · rintro ⟨⟨h1, h2⟩, h3⟩
    exact ⟨h1, h2, h3⟩
  · rintro ⟨h1, h2, h3⟩
    exact ⟨⟨h1, h2⟩, h3⟩

/-- An iteration of `apply_cheats` for a banked ROM patch whose reference
matches the byte its address resolves to: the byte is patched and becomes the
live location. -/
theorem apply_body_sms_match (t : State) (i : Nat) (h : isROMpatch t (t.cheatlist i) = true)
    (hm : (t.cheatlist i).old % 256 = (t.rom (bankedPtr t (t.cheatlist i).address)).val) :
    (apply_cheats_body t i).rom
      = write8 t.rom (bankedPtr t (t.cheatlist i).address) (t.cheatlist i).data
    ∧ (apply_cheats_body t i).cheatlist i
      = { t.cheatlist i with prev := some (bankedPtr t (t.cheatlist i).address) } := by
  unfold isROMpatch at h
  simp only [Bool.and_eq_true, Bool.not_eq_true', decide_eq_false_iff_not, decide_eq_true_eq]
    at h
  obtain ⟨⟨⟨⟨he, h1⟩, hcd⟩, hrs⟩, hmd⟩ := h
  unfold apply_cheats_body
  simp only [he, if_true, h1, if_false, hcd, Bool.false_eq_true, hrs, hmd]
  rw [if_pos hm]
  simp only [upd_same, and_self]

/-- An iteration of `apply_cheats` for a banked ROM patch whose reference
does not match the byte its address resolves to: the ROM is left alone and
the live location is cleared. -/
theorem apply_body_sms_mismatch (t : State) (i : Nat)
    (h : isROMpatch t (t.cheatlist i) = true)
    (hm : (t.cheatlist i).old % 256 ≠ (t.rom (bankedPtr t (t.cheatlist i).address)).val) :
    (apply_cheats_body t i).rom = t.rom
    ∧ (apply_cheats_body t i).cheatlist i = { t.cheatlist i with prev := none } := by
  unfold isROMpatch at h
  simp only [Bool.and_eq_true, Bool.not_eq_true', decide_eq_false_iff_not, decide_eq_true_eq]
    at h
  obtain ⟨⟨⟨⟨he, h1⟩, hcd⟩, hrs⟩, hmd⟩ := h
  unfold apply_cheats_body
  simp only [he, if_true, h1, if_false, hcd, Bool.false_eq_true, hrs, hmd]
  rw [if_neg hm]
  simp only [upd_same, and_self]

/-- Iteration `n` of the loop of `apply_cheats` in the 8-bit family, in terms
of the table the loop started from. -/
theorem apply_step_rom (s : State) (hfam : s.isMD = false) (n : Nat) :
    (isROMpatch s (s.cheatlist n) = false →
      (apply_cheats_loop { s with maxROMcheats := 0, maxRAMcheats := 0 } (n + 1)).rom
        = (apply_cheats_loop { s with maxROMcheats := 0, maxRAMcheats := 0 } n).rom)
    ∧ (isROMpatch s (s.cheatlist n) = true →
      ((s.cheatlist n).old % 256
          = ((apply_cheats_loop { s with maxROMcheats := 0, maxRAMcheats := 0 } n).rom
              (bankedPtr s (s.cheatlist n).address)).val →
        (apply_cheats_loop { s with maxROMcheats := 0, maxRAMcheats := 0 } (n + 1)).rom
          = write8 (apply_cheats_loop { s with maxROMcheats := 0, maxRAMcheats := 0 } n).rom
              (bankedPtr s (s.cheatlist n).address) (s.cheatlist n).data
        ∧ (apply_cheats_loop { s with maxROMcheats := 0, maxRAMcheats := 0 } (n + 1)).cheatlist n
          = { s.cheatlist n with prev := some (bankedPtr s (s.cheatlist n).address) })
      ∧ ((s.cheatlist n).old % 256
          ≠ ((apply_cheats_loop { s with maxROMcheats := 0, maxRAMcheats := 0 } n).rom
              (bankedPtr s (s.cheatlist n).address)).val →
        (apply_cheats_loop { s with maxROMcheats := 0, maxRAMcheats := 0 } (n + 1)).rom
          = (apply_cheats_loop { s with maxROMcheats := 0, maxRAMcheats := 0 } n).rom
        ∧ (apply_cheats_loop { s with maxROMcheats := 0, maxRAMcheats := 0 } (n + 1)).cheatlist n
          = { s.cheatlist n with prev := none })) := by
  have hcon := apply_loop_console { s with maxROMcheats := 0, maxRAMcheats := 0 } n
  have hent : (apply_cheats_loop { s with maxROMcheats := 0, maxRAMcheats := 0 } n).cheatlist n
      = s.cheatlist n :=
    apply_loop_entry_ge { s with maxROMcheats := 0, maxRAMcheats := 0 } n (Nat.le_refl n)
  have hmap : (apply_cheats_loop { s with maxROMcheats := 0, maxRAMcheats := 0 } n).z80_readmap
      = s.z80_readmap := hcon.2.2.2.2.2.1
  have hcls : isROMpatch (apply_cheats_loop { s with maxROMcheats := 0, maxRAMcheats := 0 } n)
      ((apply_cheats_loop { s with maxROMcheats := 0, maxRAMcheats := 0 } n).cheatlist n)
      = isROMpatch s (s.cheatlist n) := by
    rw [hent]
    exact isROMpatch_console hcon _
  have hf : (apply_cheats_loop { s with maxROMcheats := 0, maxRAMcheats := 0 } n).isMD
      = false := by
    rw [hcon.console_isMD]
    exact hfam
  have e : apply_cheats_loop { s with maxROMcheats := 0, maxRAMcheats := 0 } (n + 1)
      = apply_cheats_body (apply_cheats_loop { s with maxROMcheats := 0, maxRAMcheats := 0 } n)
        n := rfl
  rw [e]
  refine ⟨fun h => (apply_body_sms_other _ n hf (hcls.trans h)).1, fun h => ⟨fun hm => ?_, fun hm => ?_⟩⟩
  · have h2 := apply_body_sms_match _ n (hcls.trans h) (by rw [hent, bankedPtr_congr hmap]; exact hm)
    rw [hent, bankedPtr_congr hmap] at h2
    exact h2
  · have h2 := apply_body_sms_mismatch _ n (hcls.trans h)
      (by rw [hent, bankedPtr_congr hmap]; exact hm)
    rw [hent] at h2
    exact h2

/-- The entry of index `n` after `apply_cheats` is the one iteration `n` left. -/
theorem apply_cheats_entry (s : State) (n : Nat) (hn : n < s.maxcheats) :
    (apply_cheats s).cheatlist n
      = (apply_cheats_loop { s with maxROMcheats := 0, maxRAMcheats := 0 } (n + 1)).cheatlist n :=
  apply_loop_entry_lt { s with maxROMcheats := 0, maxRAMcheats := 0 } n s.maxcheats hn

/-- The loop of `apply_cheats` seen from one banked ROM patch `i` whose
reference matches, the other banked ROM patches resolving to other bytes: the
byte of entry `i` is written by iteration `i` only. -/
theorem apply_loop_patch (s : State) (i : Nat)
    (hrom : isROMpatch s (s.cheatlist i) = true)
    (hA : (s.rom (bankedPtr s (s.cheatlist i).address)).val = (s.cheatlist i).old % 256)
    (hothers : ∀ j, j < s.maxcheats → j ≠ i → isROMpatch s (s.cheatlist j) = true →
      bankedPtr s (s.cheatlist j).address ≠ bankedPtr s (s.cheatlist i).address) :
    ∀ n, n ≤ s.maxcheats →
      (n ≤ i →
          (apply_cheats_loop { s with maxROMcheats := 0, maxRAMcheats := 0 } n).rom
              (bankedPtr s (s.cheatlist i).address)
            = s.rom (bankedPtr s (s.cheatlist i).address))
      ∧ (i < n →
          (apply_cheats_loop { s with maxROMcheats := 0, maxRAMcheats := 0 } n).rom
              (bankedPtr s (s.cheatlist i).address) = toByte (s.cheatlist i).data
          ∧ (apply_cheats_loop { s with maxROMcheats := 0, maxRAMcheats := 0 } n).cheatlist i
              = { s.cheatlist i with prev := some (bankedPtr s (s.cheatlist i).address) }) := by
  have hfam : s.isMD = false := by
    unfold isROMpatch at hrom
    simp only [Bool.and_eq_true, Bool.not_eq_true'] at hrom
    exact hrom.2
  intro n
  induction n with
  | zero =>
    intro _
    exact ⟨fun _ => rfl, fun h => absurd h (Nat.not_lt_zero _)⟩
  | succ n ih =>
    intro hn
    obtain ⟨ih2, ih3⟩ := ih (by omega)
    obtain ⟨s1, s2⟩ := apply_step_rom s hfam n
    by_cases hin : n = i
    · subst hin
      obtain ⟨m1, m2⟩ := (s2 hrom).1 (by rw [ih2 (Nat.le_refl n), hA])
      exact ⟨fun h => absurd h (by omega), fun _ => ⟨by rw [m1, write8_same], m2⟩⟩
    · have hsame : (apply_cheats_loop { s with maxROMcheats := 0, maxRAMcheats := 0 } (n + 1)).rom
            (bankedPtr s (s.cheatlist i).address)
          = (apply_cheats_loop { s with maxROMcheats := 0, maxRAMcheats := 0 } n).rom
            (bankedPtr s (s.cheatlist i).address) := by
        by_cases hn2 : isROMpatch s (s.cheatlist n) = true
        · have hp := hothers n (by omega) hin hn2
          by_cases hm : (s.cheatlist n).old % 256
              = ((apply_cheats_loop { s with maxROMcheats := 0, maxRAMcheats := 0 } n).rom
                  (bankedPtr s (s.cheatlist n).address)).val
          · rw [((s2 hn2).1 hm).1, write8_other _ _ hp.symm]
          · rw [((s2 hn2).2 hm).1]
        · rw [s1 (by simpa using hn2)]
      refine ⟨fun h => ?_, fun h => ?_⟩
      · rw [hsame, ih2 (by omega)]
      · obtain ⟨q1, q2⟩ := ih3 (by omega)
        have e : apply_cheats_loop { s with maxROMcheats := 0, maxRAMcheats := 0 } (n + 1)
            = apply_cheats_body
              (apply_cheats_loop { s with maxROMcheats := 0, maxRAMcheats := 0 } n) n := rfl
        refine ⟨by rw [hsame]; exact q1, ?_⟩
        rw [e, apply_body_entry_other _ (fun h => hin h.symm)]
        exact q2

/-- When the loop of `apply_cheats` has changed a ROM byte, a banked ROM
patch holds that byte as its live location. -/
theorem apply_loop_changed (s : State) (hfam : s.isMD = false) (c : Nat) :
    ∀ n, n ≤ s.maxcheats →
      (apply_cheats_loop { s with maxROMcheats := 0, maxRAMcheats := 0 } n).rom c = s.rom c
      ∨ ∃ j, j < n ∧ isROMpatch s (s.cheatlist j) = true
          ∧ ((apply_cheats s).cheatlist j).prev = some c := by
  intro n
  induction n with
  | zero => intro _; exact Or.inl rfl
  | succ n ih =>
    intro hn
    obtain ⟨s1, s2⟩ := apply_step_rom s hfam n
    have hcarry : (apply_cheats_loop { s with maxROMcheats := 0, maxRAMcheats := 0 } (n + 1)).rom c
          = (apply_cheats_loop { s with maxROMcheats := 0, maxRAMcheats := 0 } n).rom c →
        (apply_cheats_loop { s with maxROMcheats := 0, maxRAMcheats := 0 } (n + 1)).rom c = s.rom c
        ∨ ∃ j, j < n + 1 ∧ isROMpatch s (s.cheatlist j) = true
            ∧ ((apply_cheats s).cheatlist j).prev = some c := by
      intro h
      rcases ih (by omega) with h1 | ⟨j, j1, j2, j3⟩
      · exact Or.inl (h.trans h1)
      · exact Or.inr ⟨j, by omega, j2, j3⟩
    by_cases hn2 : isROMpatch s (s.cheatlist n) = true
    · by_cases hm : (s.cheatlist n).old % 256
          = ((apply_cheats_loop { s with maxROMcheats := 0, maxRAMcheats := 0 } n).rom
              (bankedPtr s (s.cheatlist n).address)).val
      · obtain ⟨m1, m2⟩ := (s2 hn2).1 hm
        by_cases hc : bankedPtr s (s.cheatlist n).address = c
        · right
          refine ⟨n, by omega, hn2, ?_⟩
          rw [apply_cheats_entry s n (by omega), m2, hc]
        · apply hcarry
          rw [m1, write8_other _ _ (fun h => hc h.symm)]
      · apply hcarry
        rw [((s2 hn2).2 hm).1]
    · apply hcarry
      rw [s1 (by simpa using hn2)]

/-- One iteration of `ROMCheatUpdate` keeps the mapping and every entry other
than the fetched one; the fetched entry keeps its code and reference, and its
live location ends empty or as the byte its address resolves to. -/
theorem ROMCheatUpdate_at_frame (u : State) (index : Nat) :
    (ROMCheatUpdate_at u index).z80_readmap = u.z80_readmap
    ∧ (∀ k, k ≠ index → (ROMCheatUpdate_at u index).cheatlist k = u.cheatlist k)
    ∧ ((ROMCheatUpdate_at u index).cheatlist index = { u.cheatlist index with prev := none }
      ∨ (ROMCheatUpdate_at u index).cheatlist index
          = { u.cheatlist index with
                prev := some (bankedPtr u (u.cheatlist index).address) }) := by
  unfold ROMCheatUpdate_at
  simp only []
  cases hp : (u.cheatlist index).prev with
  | none =>
    simp only []
    split_ifs
    · refine ⟨rfl, fun k hk => by simp only [upd_other _ _ hk], Or.inr ?_⟩
      simp only [upd_same, bankedPtr]
    · refine ⟨rfl, fun k _ => rfl, Or.inl ?_⟩
      apply entry_ext <;> first | rfl | exact hp
  | some q =>
    simp only [upd_same]
    split_ifs
    · refine ⟨rfl, fun k hk => by simp only [upd_other _ _ hk], Or.inr ?_⟩
      simp only [upd_same, bankedPtr]
    · refine ⟨rfl, fun k hk => by simp only [upd_other _ _ hk], Or.inl ?_⟩
      simp only [upd_same]

/-- One iteration of `ROMCheatUpdate` writes the ROM at most at the live
location of the fetched entry and at the byte its address resolves to. -/
theorem ROMCheatUpdate_at_rom (u : State) (index p : Nat)
    (h1 : ∀ q, (u.cheatlist index).prev = some q → p ≠ q)
    (h2 : p ≠ bankedPtr u (u.cheatlist index).address) :
    (ROMCheatUpdate_at u index).rom p = u.rom p := by
  unfold ROMCheatUpdate_at
  simp only []
  unfold bankedPtr at h2
  cases hp : (u.cheatlist index).prev with
  | none =>
    simp only []
    split_ifs
    · simp only [bankedPtr]
      rw [write8_other _ _ h2]
    · rfl
  | some q =>
    have hq := h1 q hp
    simp only [upd_same]
    split_ifs
    · simp only [bankedPtr]
      rw [write8_other _ _ h2, write8_other _ _ hq]
    · simp only []
      rw [write8_other _ _ hq]

/-- One iteration of `ROMCheatUpdate` leaves the reference of the fetched
entry in its former live location, when the entry does not resolve to that
byte now. -/
theorem ROMCheatUpdate_at_restore (u : State) (index p : Nat)
    (hp : (u.cheatlist index).prev = some p)
    (h2 : p ≠ bankedPtr u (u.cheatlist index).address) :
    (ROMCheatUpdate_at u index).rom p = toByte (u.cheatlist index).old := by
  unfold ROMCheatUpdate_at
  unfold bankedPtr at h2
  simp only [hp, upd_same]
  split_ifs
  · simp only [bankedPtr]
    rw [write8_other _ _ h2, write8_same]
  · simp only []
    rw [write8_same]

/-- One iteration of `ROMCheatUpdate` for an entry whose live location is
another byte than `c`, the byte it resolves to now: the byte `c` changes only
if the entry has no reference or its reference matches the byte. -/
theorem ROMCheatUpdate_at_test (u : State) (index c : Nat)
    (hp : ∀ q, (u.cheatlist index).prev = some q → c ≠ q)
    (hc : bankedPtr u (u.cheatlist index).address = c) :
    (ROMCheatUpdate_at u index).rom c = u.rom c
    ∨ (u.cheatlist index).old = 0
    ∨ (u.cheatlist index).old % 256 = (u.rom c).val := by
  unfold ROMCheatUpdate_at
  unfold bankedPtr at hc
  simp only []
  cases hq : (u.cheatlist index).prev with
  | none =>
    simp only [bankedPtr, hc]
    split_ifs with h
    · exact Or.inr h
    · exact Or.inl rfl
  | some q =>
    have hcq := hp q hq
    simp only [upd_same, bankedPtr, hc]
    rw [write8_other _ _ hcq]
    split_ifs with h
    · exact Or.inr h
    · left
      simp only []
      rw [write8_other _ _ hcq]

/-- One iteration of `ROMCheatUpdate` for an entry whose reference matches
the byte it resolves to now, its live location being another byte or empty:
the byte is patched and becomes the live location. -/
theorem ROMCheatUpdate_at_patch (u : State) (index : Nat)
    (hp : ∀ q, (u.cheatlist index).prev = some q →
      bankedPtr u (u.cheatlist index).address ≠ q)
    (hm : (u.cheatlist index).old % 256
      = (u.rom (bankedPtr u (u.cheatlist index).address)).val) :
    (ROMCheatUpdate_at u index).rom (bankedPtr u (u.cheatlist index).address)
      = toByte (u.cheatlist index).data
    ∧ (ROMCheatUpdate_at u index).cheatlist index
      = { u.cheatlist index with prev := some (bankedPtr u (u.cheatlist index).address) } := by
  unfold ROMCheatUpdate_at
  unfold bankedPtr at hp hm
  simp only []
  cases hq : (u.cheatlist index).prev with
  | none =>
    simp only [bankedPtr]
    rw [if_pos (Or.inr hm)]
    simp only [upd_same, write8_same, and_self]
  | some q =>
    have hcq := hp q hq
    simp only [upd_same, bankedPtr]
    rw [write8_other _ _ hcq, if_pos (Or.inr hm)]
    simp only [upd_same, write8_same, and_self]

/-- The iterations of `ROMCheatUpdate` under mapping B for the banked ROM
patches below `n`, run on a state that agrees with the result of
`apply_cheats` on the entries below `n`, bring the byte `c` that entry `i`
resolves to under B back to its content before `apply_cheats`: the patches
that `apply_cheats` stacked on that byte are taken off in reverse order, and a
patch that entry `i` puts there in between is overwritten by them. -/
theorem ROMCheatUpdate_below_restores (s : State) (i : Nat) (B : Nat → Nat)
    (hi : i < s.maxcheats) (hrom : isROMpatch s (s.cheatlist i) = true)
    (hr : (s.cheatlist i).old ≠ 0)
    (hA : (s.rom (bankedPtr s (s.cheatlist i).address)).val = (s.cheatlist i).old % 256)
    (hB : (s.rom (bankedPtr (remap s B) (s.cheatlist i).address)).val
      ≠ (s.cheatlist i).old % 256)
    (hothA : ∀ j, j < s.maxcheats → j ≠ i → isROMpatch s (s.cheatlist j) = true →
      bankedPtr s (s.cheatlist j).address ≠ bankedPtr s (s.cheatlist i).address)
    (hothB : ∀ j, j < s.maxcheats → j ≠ i → isROMpatch s (s.cheatlist j) = true →
      bankedPtr (remap s B) (s.cheatlist j).address
        ≠ bankedPtr (remap s B) (s.cheatlist i).address) :
    ∀ n, n ≤ s.maxcheats → ∀ u : State, u.z80_readmap = B →
      (∀ j, j < n → u.cheatlist j = (apply_cheats s).cheatlist j) →
      (u.rom (bankedPtr (remap s B) (s.cheatlist i).address)
          = (apply_cheats_loop { s with maxROMcheats := 0, maxRAMcheats := 0 } n).rom
              (bankedPtr (remap s B) (s.cheatlist i).address)
        ∨ ∃ j, j < n ∧ isROMpatch s (s.cheatlist j) = true
            ∧ ((apply_cheats s).cheatlist j).prev
                = some (bankedPtr (remap s B) (s.cheatlist i).address)) →
      (ROMCheatUpdate_below (fun j => isROMpatch s (s.cheatlist j)) n u).rom
          (bankedPtr (remap s B) (s.cheatlist i).address)
        = s.rom (bankedPtr (remap s B) (s.cheatlist i).address) := by
  have hfam : s.isMD = false := by
    unfold isROMpatch at hrom
    simp only [Bool.and_eq_true, Bool.not_eq_true'] at hrom
    exact hrom.2
  have hne : bankedPtr (remap s B) (s.cheatlist i).address
      ≠ bankedPtr s (s.cheatlist i).address := by
    intro h
    rw [h] at hB
    exact hB hA
  have hptr : ∀ (m : State) (a : Nat), m.z80_readmap = B →
      bankedPtr m a = bankedPtr (remap s B) a := by
    intro m a hm
    exact bankedPtr_congr (by rw [hm]; rfl) a
  generalize hc : bankedPtr (remap s B) (s.cheatlist i).address = c at *
  intro n
  induction n with
  | zero =>
    intro _ u _ _ h
    rcases h with h | ⟨j, j1, -, -⟩
    · exact h
    · omega
  | succ n ih =>
    intro hn u hz hent hcase
    obtain ⟨s1, s2⟩ := apply_step_rom s hfam n
    simp only [ROMCheatUpdate_below]
    by_cases hn2 : isROMpatch s (s.cheatlist n) = true
    · rw [if_pos hn2]
      obtain ⟨f1, f2, -⟩ := ROMCheatUpdate_at_frame u n
      have hE : u.cheatlist n
          = (apply_cheats_loop { s with maxROMcheats := 0, maxRAMcheats := 0 } (n + 1)).cheatlist
              n := by
        rw [hent n (by omega), apply_cheats_entry s n (by omega)]
      apply ih (by omega) (ROMCheatUpdate_at u n) (f1.trans hz)
        (fun j hj => by rw [f2 j (by omega)]; exact hent j (by omega))
      by_cases hin : n = i
      · -- the entry itself
        subst hin
        obtain ⟨p2, p3⟩ := apply_loop_patch s n hrom hA hothA (n + 1) (by omega)
        obtain ⟨-, p5⟩ := p3 (by omega)
        have hm := (s2 hrom).1 (by rw [(apply_loop_patch s n hrom hA hothA n (by omega)).1
          (Nat.le_refl n), hA])
        have hromc : (apply_cheats_loop { s with maxROMcheats := 0, maxRAMcheats := 0 }
            (n + 1)).rom c
            = (apply_cheats_loop { s with maxROMcheats := 0, maxRAMcheats := 0 } n).rom c := by
          rw [hm.1, write8_other _ _ hne]
        have hEn : u.cheatlist n
            = { s.cheatlist n with prev := some (bankedPtr s (s.cheatlist n).address) } :=
          hE.trans p5
        have htest := ROMCheatUpdate_at_test u n c
          (by
            intro q hq
            rw [hEn] at hq
            injection hq with hq2
            rw [← hq2]
            exact hne)
          (by rw [hptr u _ hz, hEn]; exact hc)
        rw [hEn] at htest
        simp only [] at htest
        rcases hcase with h | ⟨j, j1, j2, j3⟩
        · rcases htest with h2 | h2 | h2
          · left
            rw [h2, h, hromc]
          · exact absurd h2 hr
          · rw [h, hromc] at h2
            rcases apply_loop_changed s hfam c n (by omega) with h3 | h3
            · rw [h3] at h2
              exact absurd h2.symm hB
            · exact Or.inr h3
        · right
          refine ⟨j, ?_, j2, j3⟩
          rcases Nat.lt_or_ge j n with hlt | hge
          · exact hlt
          · have hjn : j = n := by omega
            rw [hjn, apply_cheats_entry s n (by omega), p5] at j3
            injection j3 with j4
            exact absurd j4.symm hne
      · -- another banked patch
        have hoB := hothB n (by omega) hin hn2
        by_cases hm : (s.cheatlist n).old % 256
            = ((apply_cheats_loop { s with maxROMcheats := 0, maxRAMcheats := 0 } n).rom
                (bankedPtr s (s.cheatlist n).address)).val
        · obtain ⟨m1, m2⟩ := (s2 hn2).1 hm
          have hEn := hE.trans m2
          by_cases hpc : bankedPtr s (s.cheatlist n).address = c
          · -- it is patched at `c`: its reference goes back there
            left
            rw [ROMCheatUpdate_at_restore u n c (by rw [hEn, hpc])
              (by rw [hptr u _ hz, hEn]; exact hoB.symm), hEn]
            simp only []
            apply Fin.ext
            rw [← hpc, ← hm]
            rfl
          · have hkeep : (ROMCheatUpdate_at u n).rom c = u.rom c :=
              ROMCheatUpdate_at_rom u n c
                (by
                  intro q hq
                  rw [hEn] at hq
                  injection hq with hq2
                  rw [← hq2]
                  exact fun h => hpc h.symm)
                (by rw [hptr u _ hz, hEn]; exact hoB.symm)
            rcases hcase with h | ⟨j, j1, j2, j3⟩
            · left
              rw [hkeep, h, m1, write8_other _ _ (fun h => hpc h.symm)]
            · right
              refine ⟨j, ?_, j2, j3⟩
              rcases Nat.lt_or_ge j n with hlt | hge
              · exact hlt
              · have hjn : j = n := by omega
                rw [hjn, apply_cheats_entry s n (by omega), m2] at j3
                injection j3 with j4
                exact absurd j4 hpc
        · obtain ⟨m1, m2⟩ := (s2 hn2).2 hm
          have hEn := hE.trans m2
          have hkeep : (ROMCheatUpdate_at u n).rom c = u.rom c :=
            ROMCheatUpdate_at_rom u n c
              (by
                intro q hq
                rw [hEn] at hq
                exact absurd hq (by simp))
              (by rw [hptr u _ hz, hEn]; exact hoB.symm)
          rcases hcase with h | ⟨j, j1, j2, j3⟩
          · left
            rw [hkeep, h, m1]
          · right
            refine ⟨j, ?_, j2, j3⟩
            rcases Nat.lt_or_ge j n with hlt | hge
            · exact hlt
            · have hjn : j = n := by omega
              rw [hjn, apply_cheats_entry s n (by omega), m2] at j3
              exact absurd j3 (by simp)
    · have hn3 : isROMpatch s (s.cheatlist n) = false := by simpa using hn2
      rw [if_neg hn2]
      apply ih (by omega) u hz (fun j hj => hent j (by omega))
      rcases hcase with h | ⟨j, j1, j2, j3⟩
      · left
        rw [h, s1 hn3]
      · right
        refine ⟨j, ?_, j2, j3⟩
        rcases Nat.lt_or_ge j n with hlt | hge
        · exact hlt
        · have hjn : j = n := by omega
          rw [hjn] at j2
          rw [j2] at hn3
          exact absurd hn3 (by decide)

/-- The walk of `ROMCheatUpdate` seen from one entry `i` and one ROM byte `p`,
when every other fetched entry keeps its live location and the byte its
address resolves to away from `p`: a property `Q` or `Post` of the byte, of
entry `i` and of the mapping, which the iteration for entry `i` turns into
`Post`, holds afterwards, and `Post` holds if the walk fetches entry `i`. -/
theorem ROMCheatUpdate_loop_at (i p : Nat) (Q Post : State → Prop)
    (hloc : ∀ u v : State, v.rom p = u.rom p → v.cheatlist i = u.cheatlist i →
      v.z80_readmap = u.z80_readmap → (Q u → Q v) ∧ (Post u → Post v))
    (hself : ∀ (u : State) (cnt : Nat), u.cheatIndexes (MAX_CHEATS - cnt) = i →
      (Q u ∨ Post u) → Post (ROMCheatUpdate_body u cnt)) :
    ∀ (cnt : Nat) (u : State),
      (∀ c, 1 ≤ c → c ≤ cnt → u.cheatIndexes (MAX_CHEATS - c) ≠ i →
        (∀ q, (u.cheatlist (u.cheatIndexes (MAX_CHEATS - c))).prev = some q → p ≠ q)
        ∧ p ≠ bankedPtr u (u.cheatlist (u.cheatIndexes (MAX_CHEATS - c))).address) →
      (Q u ∨ Post u) →
      (Q (ROMCheatUpdate_loop cnt u) ∨ Post (ROMCheatUpdate_loop cnt u))
      ∧ ((Post u ∨ ∃ c, 1 ≤ c ∧ c ≤ cnt ∧ u.cheatIndexes (MAX_CHEATS - c) = i) →
          Post (ROMCheatUpdate_loop cnt u)) := by
  intro cnt
  induction cnt with
  | zero =>
    intro u _ hq
    refine ⟨hq, fun h => ?_⟩
    rcases h with h | ⟨c, h1, h2, -⟩
    · exact h
    · omega
  | succ cnt ih =>
    intro u hoth hq
    obtain ⟨b1, -, b3, b4, b5⟩ := ROMCheatUpdate_body_frame u (cnt + 1)
    have bi := ROMCheatUpdate_body_indexes u (cnt + 1)
    have hmap : (ROMCheatUpdate_body u (cnt + 1)).z80_readmap = u.z80_readmap := b1.2.2.2.2.2.1
    have hstep : ROMCheatUpdate_loop (cnt + 1) u
        = ROMCheatUpdate_loop cnt (ROMCheatUpdate_body u (cnt + 1)) := rfl
    rw [hstep]
    -- the other entries stay away from the byte
    have hoth2 : ∀ c, 1 ≤ c → c ≤ cnt →
        (ROMCheatUpdate_body u (cnt + 1)).cheatIndexes (MAX_CHEATS - c) ≠ i →
        (∀ q, ((ROMCheatUpdate_body u (cnt + 1)).cheatlist
            ((ROMCheatUpdate_body u (cnt + 1)).cheatIndexes (MAX_CHEATS - c))).prev = some q →
          p ≠ q)
        ∧ p ≠ bankedPtr (ROMCheatUpdate_body u (cnt + 1))
            ((ROMCheatUpdate_body u (cnt + 1)).cheatlist
              ((ROMCheatUpdate_body u (cnt + 1)).cheatIndexes (MAX_CHEATS - c))).address := by
      intro c h1 h2
      rw [bi, bankedPtr_congr hmap, (b3 _).2.1]
      intro hci
      obtain ⟨hp, ha⟩ := hoth c h1 (by omega) hci
      refine ⟨?_, ha⟩
      by_cases hj : u.cheatIndexes (MAX_CHEATS - c) = u.cheatIndexes (MAX_CHEATS - (cnt + 1))
      · rw [hj]
        rw [hj] at hci
        obtain ⟨-, ha2⟩ := hoth (cnt + 1) (by omega) (Nat.le_refl _) hci
        intro q hq2
        rcases b5 with h | h
        · rw [h] at hq2
          exact absurd hq2 (by simp)
        · rw [h] at hq2
          injection hq2 with hq3
          rw [← hq3]
          exact ha2
      · rw [b4 _ hj]
        exact hp
    by_cases hji : u.cheatIndexes (MAX_CHEATS - (cnt + 1)) = i
    · have hpost := hself u (cnt + 1) hji hq
      obtain ⟨r1, r2⟩ := ih (ROMCheatUpdate_body u (cnt + 1)) hoth2 (Or.inr hpost)
      exact ⟨r1, fun _ => r2 (Or.inl hpost)⟩
    · obtain ⟨hp, ha⟩ := hoth (cnt + 1) (by omega) (Nat.le_refl _) hji
      have hrA : (ROMCheatUpdate_body u (cnt + 1)).rom p = u.rom p := by
        rw [ROMCheatUpdate_body_at]
        exact ROMCheatUpdate_at_rom u _ p hp ha
      have hei := b4 i (fun h => hji h.symm)
      obtain ⟨l1, l2⟩ := hloc u (ROMCheatUpdate_body u (cnt + 1)) hrA hei hmap
      have hq2 : Q (ROMCheatUpdate_body u (cnt + 1)) ∨ Post (ROMCheatUpdate_body u (cnt + 1)) :=
        hq.imp l1 l2
      obtain ⟨r1, r2⟩ := ih (ROMCheatUpdate_body u (cnt + 1)) hoth2 hq2
      refine ⟨r1, fun h => r2 ?_⟩
      rcases h with h | ⟨c, h1, h2, h3⟩
      · exact Or.inl (l2 h)
      · right
        have hc : c ≠ cnt + 1 := fun hc => hji (hc ▸ h3)
        exact ⟨c, h1, by omega, by rw [bi]; exact h3⟩

/-- C4, amended: in the 8-bit family, let entry `i` of a table of at most
`MAX_CHEATS` entries be an enabled banked ROM patch with a non-zero reference,
and let no other enabled banked ROM patch of the table resolve under mapping
A (the mapping in place) to the byte entry `i` resolves to under A, nor under
mapping B to the byte entry `i` resolves to under A or to the byte it
resolves to under B. If the byte visible at the address of entry `i` equals
the reference under A and differs from it under B, then after `apply_cheats`
the byte visible at the address is the entry's data; after a switch to B and
`ROMCheatUpdate`, the byte of bank A is the reference again and the byte of
bank B is unchanged; after a switch back to A and `ROMCheatUpdate`, the byte
visible at the address is the entry's data again. -/
theorem bank_switch_patch (s : State) (i : Nat) (B : Nat → Nat)
    (hfam : s.isMD = false) (hcd : s.isCD = false) (hmax : s.maxcheats ≤ MAX_CHEATS)
    (hi : i < s.maxcheats) (hen : (s.cheatlist i).enable = true)
    (hlow : (s.cheatlist i).address < 0xFF0000) (hrs : (s.cheatlist i).address < s.romsize)
    (hr : (s.cheatlist i).old ≠ 0)
    (hA : (s.rom (bankedPtr s (s.cheatlist i).address)).val = (s.cheatlist i).old % 256)
    (hB : (s.rom (bankedPtr (remap s B) (s.cheatlist i).address)).val
      ≠ (s.cheatlist i).old % 256)
    (hothers : ∀ j, j < s.maxcheats → j ≠ i → (s.cheatlist j).enable = true →
      (s.cheatlist j).address < 0xFF0000 → (s.cheatlist j).address < s.romsize →
      bankedPtr s (s.cheatlist j).address ≠ bankedPtr s (s.cheatlist i).address
      ∧ bankedPtr (remap s B) (s.cheatlist j).address ≠ bankedPtr s (s.cheatlist i).address
      ∧ bankedPtr (remap s B) (s.cheatlist j).address
          ≠ bankedPtr (remap s B) (s.cheatlist i).address) :
    (apply_cheats s).rom (bankedPtr s (s.cheatlist i).address) = toByte (s.cheatlist i).data
    ∧ (ROMCheatUpdate (remap (apply_cheats s) B)).rom (bankedPtr s (s.cheatlist i).address)
        = s.rom (bankedPtr s (s.cheatlist i).address)
    ∧ (ROMCheatUpdate (remap (apply_cheats s) B)).rom
          (bankedPtr (remap s B) (s.cheatlist i).address)
        = s.rom (bankedPtr (remap s B) (s.cheatlist i).address)
    ∧ (ROMCheatUpdate (remap (ROMCheatUpdate (remap (apply_cheats s) B)) s.z80_readmap)).rom
          (bankedPtr s (s.cheatlist i).address)
        = toByte (s.cheatlist i).data := by
  have hrom : isROMpatch s (s.cheatlist i) = true :=
    (isROMpatch_iff s _ hfam hcd).mpr ⟨hen, hlow, hrs⟩
  have hoth : ∀ j, j < s.maxcheats → j ≠ i → isROMpatch s (s.cheatlist j) = true →
      bankedPtr s (s.cheatlist j).address ≠ bankedPtr s (s.cheatlist i).address
      ∧ bankedPtr (remap s B) (s.cheatlist j).address ≠ bankedPtr s (s.cheatlist i).address
      ∧ bankedPtr (remap s B) (s.cheatlist j).address
          ≠ bankedPtr (remap s B) (s.cheatlist i).address := by
    intro j hj hne hrj
    obtain ⟨q1, q2, q3⟩ := (isROMpatch_iff s _ hfam hcd).mp hrj
    exact hothers j hj hne q1 q2 q3
  have hne : bankedPtr (remap s B) (s.cheatlist i).address
      ≠ bankedPtr s (s.cheatlist i).address := by
    intro h
    rw [h] at hB
    exact hB hA
  -- the byte of bank B, by the stack of the patches on it
  have h3 : (ROMCheatUpdate (remap (apply_cheats s) B)).rom
        (bankedPtr (remap s B) (s.cheatlist i).address)
      = s.rom (bankedPtr (remap s B) (s.cheatlist i).address) := by
    rw [ROMCheatUpdate_after_apply s hmax (remap (apply_cheats s) B) rfl rfl]
    exact ROMCheatUpdate_below_restores s i B hi hrom hr hA hB
      (fun j hj hji hrj => (hoth j hj hji hrj).1) (fun j hj hji hrj => (hoth j hj hji hrj).2.2)
      s.maxcheats (Nat.le_refl _) (remap (apply_cheats s) B) rfl (fun _ _ => rfl) (Or.inl rfl)
  generalize hpA : bankedPtr s (s.cheatlist i).address = pA at *
  generalize hpB : bankedPtr (remap s B) (s.cheatlist i).address = pB at *
  have hold : s.rom pA = toByte (s.cheatlist i).old := by
    apply Fin.ext
    rw [hA]
    rfl
  -- apply_cheats under mapping A
  obtain ⟨-, p3⟩ := apply_loop_patch s i hrom (by rw [hpA]; exact hA)
    (fun j hj hji hrj => by rw [hpA]; exact (hoth j hj hji hrj).1)
    s.maxcheats (Nat.le_refl _)
  obtain ⟨p4, p5⟩ := p3 hi
  rw [hpA] at p4 p5
  have e1 : apply_cheats_loop { s with maxROMcheats := 0, maxRAMcheats := 0 } s.maxcheats
      = apply_cheats s := rfl
  rw [e1] at p4 p5
  -- the slots of the ROM list
  have hslot : ∃ c, 1 ≤ c ∧ c ≤ (apply_cheats s).maxROMcheats
      ∧ (apply_cheats s).cheatIndexes (MAX_CHEATS - c) = i := by
    obtain ⟨k, k1, k2, k3⟩ := (apply_cheats_rom_mem s hmax i).mpr ⟨hi, hrom⟩
    refine ⟨MAX_CHEATS - k, by omega, by omega, ?_⟩
    have : MAX_CHEATS - (MAX_CHEATS - k) = k := by omega
    rw [this]
    exact k3
  have hlisted : ∀ c, 1 ≤ c → c ≤ (apply_cheats s).maxROMcheats →
      (apply_cheats s).cheatIndexes (MAX_CHEATS - c) < s.maxcheats
      ∧ isROMpatch s (s.cheatlist ((apply_cheats s).cheatIndexes (MAX_CHEATS - c))) = true := by
    intro c h1 h2
    exact (apply_cheats_rom_mem s hmax _).mp
      ⟨MAX_CHEATS - c, by omega, by unfold MAX_CHEATS; omega, rfl⟩
  have hptrB : ∀ m : State, m.z80_readmap = B →
      bankedPtr m (s.cheatlist i).address = pB := by
    intro m hm
    rw [← hpB]
    unfold bankedPtr remap
    rw [hm]
  have hptrA : ∀ m : State, m.z80_readmap = s.z80_readmap →
      bankedPtr m (s.cheatlist i).address = pA := by
    intro m hm
    rw [← hpA]
    exact bankedPtr_congr hm _
  -- the switch to mapping B
  have hB2 := ROMCheatUpdate_loop_at i pA
    (fun u => u.z80_readmap = B
      ∧ u.cheatlist i = { s.cheatlist i with prev := some pA })
    (fun u => u.z80_readmap = B ∧ u.rom pA = toByte (s.cheatlist i).old
      ∧ (u.cheatlist i = { s.cheatlist i with prev := none }
        ∨ u.cheatlist i = { s.cheatlist i with prev := some pB }))
    (by
      intro u v h1 h2 h4
      refine ⟨fun hq => ?_, fun hq => ?_⟩
      · obtain ⟨a, c⟩ := hq
        exact ⟨h4.trans a, h2.trans c⟩
      · obtain ⟨a, b, c⟩ := hq
        exact ⟨h4.trans a, h1.trans b, by rw [h2]; exact c⟩)
    (by
      intro u cnt hidx hq
      rw [ROMCheatUpdate_body_at, hidx]
      obtain ⟨f1, -, f3⟩ := ROMCheatUpdate_at_frame u i
      rcases hq with ⟨q1, q3⟩ | ⟨q1, q2, q3⟩
      · have hres := ROMCheatUpdate_at_restore u i pA (by rw [q3])
          (by rw [q3]; simp only []; rw [hptrB u q1]; exact fun h => hne h.symm)
        rw [q3] at hres f3
        simp only [] at hres f3
        rw [hptrB u q1] at f3
        exact ⟨f1.trans q1, hres, f3⟩
      · have hkeep := ROMCheatUpdate_at_rom u i pA
          (by
            intro q hq2
            rcases q3 with q3 | q3
            · rw [q3] at hq2
              exact absurd hq2 (by simp)
            · rw [q3] at hq2
              injection hq2 with hq3
              rw [← hq3]
              exact fun h => hne h.symm)
          (by
            have ha : (u.cheatlist i).address = (s.cheatlist i).address := by
              rcases q3 with q3 | q3 <;> rw [q3]
            rw [ha, hptrB u q1]
            exact fun h => hne h.symm)
        refine ⟨f1.trans q1, hkeep.trans q2, ?_⟩
        rcases q3 with q3 | q3
        · rw [q3] at f3
          simp only [] at f3
          rw [hptrB u q1] at f3
          exact f3
        · rw [q3] at f3
          simp only [] at f3
          rw [hptrB u q1] at f3
          exact f3)
    (remap (apply_cheats s) B).maxROMcheats (remap (apply_cheats s) B)
    (by
      intro c h1 h2 hci
      obtain ⟨l1, l2⟩ := hlisted c h1 h2
      have hji : (apply_cheats s).cheatIndexes (MAX_CHEATS - c) ≠ i := hci
      obtain ⟨o1, o3, -⟩ := hoth _ l1 hji l2
      have hadr := (apply_cheats_code s ((apply_cheats s).cheatIndexes (MAX_CHEATS - c))).2.1
      have hptr : bankedPtr (remap (apply_cheats s) B)
          ((remap (apply_cheats s) B).cheatlist
            ((remap (apply_cheats s) B).cheatIndexes (MAX_CHEATS - c))).address
          = bankedPtr (remap s B)
              (s.cheatlist ((apply_cheats s).cheatIndexes (MAX_CHEATS - c))).address := by
        simp only [remap, bankedPtr]
        rw [hadr]
      rw [hptr]
      refine ⟨?_, o3.symm⟩
      intro q hq
      have hq2 : ((apply_cheats s).cheatlist
          ((apply_cheats s).cheatIndexes (MAX_CHEATS - c))).prev = some q := hq
      rcases (apply_cheats_prev s _ l1).1 l2 with h | h
      · rw [h] at hq2
        exact absurd hq2 (by simp)
      · rw [h] at hq2
        injection hq2 with hq3
        rw [← hq3]
        exact o1.symm)
    (Or.inl ⟨rfl, p5⟩)
  have e2 : ROMCheatUpdate_loop (remap (apply_cheats s) B).maxROMcheats (remap (apply_cheats s) B)
      = ROMCheatUpdate (remap (apply_cheats s) B) := rfl
  rw [e2] at hB2
  obtain ⟨-, t2, t3⟩ := hB2.2 (Or.inr hslot)
  -- the switch back to mapping A
  obtain ⟨f1, f2, f3, f4, -, f6⟩ := ROMCheatUpdate_loop_frame
    (remap (apply_cheats s) B).maxROMcheats (remap (apply_cheats s) B)
  rw [e2] at f1 f2 f3 f4 f6
  have hA2 := ROMCheatUpdate_loop_at i pA
    (fun u => u.z80_readmap = s.z80_readmap ∧ u.rom pA = toByte (s.cheatlist i).old
      ∧ (u.cheatlist i = { s.cheatlist i with prev := none }
        ∨ u.cheatlist i = { s.cheatlist i with prev := some pB }))
    (fun u => u.z80_readmap = s.z80_readmap ∧ u.rom pA = toByte (s.cheatlist i).data
      ∧ u.cheatlist i = { s.cheatlist i with prev := some pA })
    (by
      intro u v h1 h2 h4
      refine ⟨fun hq => ?_, fun hq => ?_⟩
      · obtain ⟨a, b, c⟩ := hq
        exact ⟨h4.trans a, h1.trans b, by rw [h2]; exact c⟩
      · obtain ⟨a, b, c⟩ := hq
        exact ⟨h4.trans a, h1.trans b, h2.trans c⟩)
    (by
      intro u cnt hidx hq
      rcases hq with ⟨q1, q2, q3⟩ | ⟨q1, q2, q3⟩
      · rw [ROMCheatUpdate_body_at, hidx]
        obtain ⟨f1, -, -⟩ := ROMCheatUpdate_at_frame u i
        have ha : (u.cheatlist i).address = (s.cheatlist i).address := by
          rcases q3 with q3 | q3 <;> rw [q3]
        have ho : (u.cheatlist i).old = (s.cheatlist i).old := by
          rcases q3 with q3 | q3 <;> rw [q3]
        have hd : (u.cheatlist i).data = (s.cheatlist i).data := by
          rcases q3 with q3 | q3 <;> rw [q3]
        obtain ⟨w1, w2⟩ := ROMCheatUpdate_at_patch u i
          (by
            intro q hq2
            rw [ha, hptrA u q1]
            rcases q3 with q3 | q3
            · rw [q3] at hq2
              exact absurd hq2 (by simp)
            · rw [q3] at hq2
              injection hq2 with hq3
              rw [← hq3]
              exact fun h => hne h.symm)
          (by
            rw [ha, hptrA u q1, ho, q2]
            rfl)
        rw [ha, hptrA u q1] at w1 w2
        rw [hd] at w1
        refine ⟨f1.trans q1, w1, ?_⟩
        rw [w2]
        rcases q3 with q3 | q3 <;> rw [q3]
      · have hb := ROMCheatUpdate_body_id u cnt (by
          rw [hidx]
          left
          rw [q3]
          simp only []
          rw [hptrA u q1]
          exact ⟨rfl, q2⟩)
        rw [hb]
        exact ⟨q1, q2, q3⟩)
    (remap (ROMCheatUpdate (remap (apply_cheats s) B)) s.z80_readmap).maxROMcheats
    (remap (ROMCheatUpdate (remap (apply_cheats s) B)) s.z80_readmap)
    (by
      intro c h1 h2 hci
      have hidx : (remap (ROMCheatUpdate (remap (apply_cheats s) B)) s.z80_readmap).cheatIndexes
          = (apply_cheats s).cheatIndexes := f2
      have hcnt : (remap (ROMCheatUpdate (remap (apply_cheats s) B)) s.z80_readmap).maxROMcheats
          = (apply_cheats s).maxROMcheats := f3
      rw [hidx] at hci ⊢
      rw [hcnt] at h2
      obtain ⟨l1, l2⟩ := hlisted c h1 h2
      obtain ⟨o1, o3, -⟩ := hoth _ l1 hci l2
      have hadr := (apply_cheats_code s ((apply_cheats s).cheatIndexes (MAX_CHEATS - c))).2.1
      have hadr2 := (f4 ((apply_cheats s).cheatIndexes (MAX_CHEATS - c))).2.1
      have hadr3 : ((ROMCheatUpdate (remap (apply_cheats s) B)).cheatlist
          ((apply_cheats s).cheatIndexes (MAX_CHEATS - c))).address
          = (s.cheatlist ((apply_cheats s).cheatIndexes (MAX_CHEATS - c))).address :=
        hadr2.trans hadr
      have hptr : bankedPtr (remap (ROMCheatUpdate (remap (apply_cheats s) B)) s.z80_readmap)
          ((remap (ROMCheatUpdate (remap (apply_cheats s) B)) s.z80_readmap).cheatlist
            ((apply_cheats s).cheatIndexes (MAX_CHEATS - c))).address
          = bankedPtr s (s.cheatlist ((apply_cheats s).cheatIndexes (MAX_CHEATS - c))).address := by
        have h3 := hadr3
        simp only [remap, bankedPtr] at h3 ⊢
        rw [h3]
      rw [hptr]
      refine ⟨?_, o1.symm⟩
      intro q hq
      have hq2 : ((ROMCheatUpdate (remap (apply_cheats s) B)).cheatlist
          ((apply_cheats s).cheatIndexes (MAX_CHEATS - c))).prev = some q := hq
      have h6 := f6 c h1 h2
      have hadrB : bankedPtr (remap (apply_cheats s) B)
          ((remap (apply_cheats s) B).cheatlist
            ((remap (apply_cheats s) B).cheatIndexes (MAX_CHEATS - c))).address
          = bankedPtr (remap s B)
              (s.cheatlist ((apply_cheats s).cheatIndexes (MAX_CHEATS - c))).address := by
        simp only [remap, bankedPtr]
        rw [hadr]
      rw [hadrB] at h6
      rcases h6 with h | h
      · have h' : ((ROMCheatUpdate (remap (apply_cheats s) B)).cheatlist
            ((apply_cheats s).cheatIndexes (MAX_CHEATS - c))).prev = none := h
        rw [h'] at hq2
        exact absurd hq2 (by simp)
      · have h' : ((ROMCheatUpdate (remap (apply_cheats s) B)).cheatlist
            ((apply_cheats s).cheatIndexes (MAX_CHEATS - c))).prev
            = some (bankedPtr (remap s B)
                (s.cheatlist ((apply_cheats s).cheatIndexes (MAX_CHEATS - c))).address) := h
        rw [h'] at hq2
        injection hq2 with hq3
        rw [← hq3]
        exact o3.symm)
    (Or.inl ⟨rfl, t2, t3⟩)
  have hslot2 : ∃ c, 1 ≤ c
      ∧ c ≤ (remap (ROMCheatUpdate (remap (apply_cheats s) B)) s.z80_readmap).maxROMcheats
      ∧ (remap (ROMCheatUpdate (remap (apply_cheats s) B)) s.z80_readmap).cheatIndexes
          (MAX_CHEATS - c) = i := by
    obtain ⟨c, c1, c2, c3⟩ := hslot
    refine ⟨c, c1, ?_, ?_⟩
    · have hcnt : (remap (ROMCheatUpdate (remap (apply_cheats s) B)) s.z80_readmap).maxROMcheats
          = (apply_cheats s).maxROMcheats := f3
      rw [hcnt]
      exact c2
    · have hidx : (remap (ROMCheatUpdate (remap (apply_cheats s) B)) s.z80_readmap).cheatIndexes
          = (apply_cheats s).cheatIndexes := f2
      rw [hidx]
      exact c3
  obtain ⟨-, w4, -⟩ := hA2.2 (Or.inr hslot2)
  exact ⟨p4, by rw [t2, hold], h3, w4⟩

/-- Witness for the amended C4: the first banked patch of `twoPatchTable`,
beside a second banked patch at another address of the same window. -/
theorem bank_switch_patch_witness :
    isROMpatch twoPatchTable (twoPatchTable.cheatlist 1) = true
    ∧ (apply_cheats twoPatchTable).rom 0x1123 = toByte 0xAA
    ∧ (ROMCheatUpdate (remap (apply_cheats twoPatchTable) bankB)).rom 0x1123 = toByte 0x55
    ∧ (ROMCheatUpdate (remap (apply_cheats twoPatchTable) bankB)).rom 0x5123 = toByte 0x66
    ∧ (ROMCheatUpdate (remap (ROMCheatUpdate (remap (apply_cheats twoPatchTable) bankB))
          twoPatchTable.z80_readmap)).rom 0x1123 = toByte 0xAA :=
  ⟨by decide,
   bank_switch_patch twoPatchTable 0 bankB (by decide) (by decide) (by decide) (by decide)
    (by decide) (by decide) (by decide) (by decide) (by decide) (by decide)
    (fun j hj hne _ _ _ => by
      have h2 : j < 2 := hj
      interval_cases j
      · exact absurd rfl hne
      · decide)⟩

/-- C6, failing input: on the empty 16-bit console with a 4 MB cartridge, 150
calls of `retro_cheat_set` set 150 different codes and keep their stores
within the array; the table then holds `MAX_CHEATS` entries. The 151st call,
with the valid code `00ABCD:1234`, stores at index `MAX_CHEATS`, both in
`decode_cheat` and in `cheatlist[i].enable = enabled`: the sequence of 151
calls does not stay within `cheatlist[MAX_CHEATS]`. -/
theorem set_sequence_past_end :
    mdConsole.isMD = true ∧ mdConsole.romsize ≤ 0xFF0000 ∧ mdConsole.maxcheats = 0
    ∧ (sampleCalls 150 ++ [(true, some "00ABCD:1234".toList)]).length = 151
    ∧ run_in_bounds mdConsole (sampleCalls 150) = true
    ∧ (run_sets mdConsole (sampleCalls 150)).maxcheats = MAX_CHEATS
    ∧ retro_cheat_set_stores (run_sets mdConsole (sampleCalls 150)) true
        (some "00ABCD:1234".toList) = [MAX_CHEATS, MAX_CHEATS]
    ∧ ((run_sets mdConsole (sampleCalls 150 ++ [(true, some "00ABCD:1234".toList)])).cheatlist
        MAX_CHEATS).address = 0xABCD
    ∧ run_in_bounds mdConsole (sampleCalls 150 ++ [(true, some "00ABCD:1234".toList)])
        = false := by
  obtain ⟨i1, i2, i3, i4⟩ := sample_run 150 (Nat.le_refl _)
  have hd : decode true "00ABCD:1234".toList
      = some { len := 11, address := 0xABCD, data := 0x1234, ref := 0 } := by decide
  have hdec : decode (run_sets mdConsole (sampleCalls 150)).isMD "00ABCD:1234".toList
      = some { len := 11, address := 0xABCD, data := 0x1234, ref := 0 } := by
    rw [i2]
    exact hd
  obtain ⟨⟨r, a1, -, a3, a4⟩, a5, -⟩ := set_stores_valid (run_sets mdConsole (sampleCalls 150))
    true "00ABCD:1234".toList _ (by decide) (by decide) hdec (by simp)
  have hb := set_in_bounds_valid (run_sets mdConsole (sampleCalls 150)) true
    "00ABCD:1234".toList _ (by decide) (by decide) hdec (by simp)
  have i1m : (run_sets mdConsole (sampleCalls 150)).maxcheats = MAX_CHEATS := i1
  rw [i1m] at a5
  rw [i1] at a1 a3 a4 hb
  simp only [] at a3 a5
  have hr : r = MAX_CHEATS := by
    rcases Nat.lt_or_ge r 150 with hlt | hge
    · have h := (a3 hlt).1
      rw [(i3 r hlt).1] at h
      omega
    · show r = 150
      omega
  rw [hr] at a4
  refine ⟨by decide, by decide, rfl, by simp [sampleCalls], i4, i1, a4, ?_, ?_⟩
  · have e := run_sets_snoc mdConsole (sampleCalls 150) (true, some "00ABCD:1234".toList)
    simp only [] at e
    rw [e]
    exact a5
  · rw [run_in_bounds_snoc, i4, hb]
    decide

/-- C37, failing input: a table of 149 entries, reached from the empty 16-bit
console by 149 calls that keep within the array, and the valid code
`000339:BEEF`, which is not in the table. A first call stores it at index 149
and makes the count 150. A second call with the same code hands `decode_cheat`
the index 150: the pair of entry 149 is stored a second time, in
`cheatlist[150]`, one slot past the array, before the search finds it at
index 149. -/
theorem repeated_code_past_end :
    (run_sets mdConsole (sampleCalls 149)).maxcheats = 149
    ∧ retro_cheat_set_in_bounds (run_sets mdConsole (sampleCalls 149)) true
        (some "000339:BEEF".toList) = true
    ∧ (retro_cheat_set (run_sets mdConsole (sampleCalls 149)) true
        (some "000339:BEEF".toList)).maxcheats = MAX_CHEATS
    ∧ ((retro_cheat_set (run_sets mdConsole (sampleCalls 149)) true
        (some "000339:BEEF".toList)).cheatlist 149).address = 0x339
    ∧ ((retro_cheat_set (run_sets mdConsole (sampleCalls 149)) true
        (some "000339:BEEF".toList)).cheatlist 149).data = 0xBEEF
    ∧ retro_cheat_set_stores
        (retro_cheat_set (run_sets mdConsole (sampleCalls 149)) true
          (some "000339:BEEF".toList))
        false (some "000339:BEEF".toList) = [MAX_CHEATS, 149]
    ∧ retro_cheat_set_in_bounds
        (retro_cheat_set (run_sets mdConsole (sampleCalls 149)) true
          (some "000339:BEEF".toList))
        false (some "000339:BEEF".toList) = false
    ∧ ((retro_cheat_set (retro_cheat_set (run_sets mdConsole (sampleCalls 149)) true
          (some "000339:BEEF".toList)) false (some "000339:BEEF".toList)).cheatlist
        MAX_CHEATS).address = 0x339
    ∧ ((retro_cheat_set (retro_cheat_set (run_sets mdConsole (sampleCalls 149)) true
          (some "000339:BEEF".toList)) false (some "000339:BEEF".toList)).cheatlist
        MAX_CHEATS).data = 0xBEEF := by
  obtain ⟨i1, i2, i3, -⟩ := sample_run 149 (by decide)
  have hd : decode true "000339:BEEF".toList
      = some { len := 11, address := 0x339, data := 0xBEEF, ref := 0 } := by decide
  have hdec : decode (run_sets mdConsole (sampleCalls 149)).isMD "000339:BEEF".toList
      = some { len := 11, address := 0x339, data := 0xBEEF, ref := 0 } := by
    rw [i2]
    exact hd
  obtain ⟨r, a1, -, a3, a4, -, a6, a7, a8⟩ := set_valid (run_sets mdConsole (sampleCalls 149))
    true "000339:BEEF".toList _ (by decide) (by decide) hdec (by simp)
  have hb := set_in_bounds_valid (run_sets mdConsole (sampleCalls 149)) true
    "000339:BEEF".toList _ (by decide) (by decide) hdec (by simp)
  rw [i1] at a1 a6 a7 hb
  simp only [] at a3 a4
  have hr : r = 149 := by
    rcases Nat.lt_or_ge r 149 with hlt | hge
    · have h := (a6 r hlt).1
      rw [a3, (i3 r hlt).1] at h
      omega
    · omega
  rw [hr] at a3 a4 a7
  have hcount : (retro_cheat_set (run_sets mdConsole (sampleCalls 149)) true
      (some "000339:BEEF".toList)).maxcheats = MAX_CHEATS := by
    rw [a7, if_pos ⟨rfl, by decide⟩]
    rfl
  have hdec1 : decode (retro_cheat_set (run_sets mdConsole (sampleCalls 149)) true
      (some "000339:BEEF".toList)).isMD "000339:BEEF".toList
      = some { len := 11, address := 0x339, data := 0xBEEF, ref := 0 } := by
    rw [a8, i2]
    exact hd
  obtain ⟨⟨r2, b1, b2, b3, b4⟩, b5, b6⟩ := set_stores_valid
    (retro_cheat_set (run_sets mdConsole (sampleCalls 149)) true (some "000339:BEEF".toList))
    false "000339:BEEF".toList _ (by decide) (by decide) hdec1 (by simp)
  have hb1 := set_in_bounds_valid
    (retro_cheat_set (run_sets mdConsole (sampleCalls 149)) true (some "000339:BEEF".toList))
    false "000339:BEEF".toList _ (by decide) (by decide) hdec1 (by simp)
  rw [hcount] at b1 b3 b4 b5 b6 hb1
  simp only [] at b2 b3 b5 b6
  have hr2 : r2 = 149 := by
    rcases Nat.lt_trichotomy r2 149 with hlt | heq | hgt
    · have h := (b3 (by unfold MAX_CHEATS; omega)).1
      rw [(a6 r2 hlt).1, (i3 r2 hlt).1] at h
      omega
    · exact heq
    · exact absurd ⟨a3, a4⟩ (b2 149 hgt)
  rw [hr2] at b4
  refine ⟨i1, ?_, hcount, a3, a4, b4, ?_, b5, b6⟩
  · rw [hb]
    decide
  · rw [hb1]
    decide

end Cheat
